import Mathlib

/-!
# claudectx: snapshot save/restore engine

A shallow embedding of the Go packages `internal/context`, `internal/config` and
`internal/fileutil`, and proofs about it.

Conventions of the embedding.

* A Go `string` is a Lean `String`; text processing is done on its list of
  code points (`String.data`).  Strings that are not valid UTF-8 are outside the model.
* A cleaned absolute path is the list of its segments (`Path`).  `filepath.Join`
  of a directory and a clean relative path is list append, `filepath.Base` is the
  last segment, `filepath.Dir` drops the last segment.
* The file system is a finite map from paths to nodes, written as an association
  list.  Every operation takes the state and returns the new state next to its
  result, also when it fails: nothing in the engine rolls back.
* Library functions whose values are not computed here (SHA-256, the JSON text of a
  manifest, the extraction of a JSON field, the clock) are fields of `Env`; every
  theorem holds for all of them.
* Every file can be read and every directory written: permission errors, symbolic links
  and entries that cannot be read during a walk are outside the model.  The calls fail
  where the kinds of the nodes make them fail (a regular file where a directory is
  needed, a directory where a file is read or replaced, a directory that is not empty).
-/

namespace Claudectx

/-! ## Data model (`internal/context/context.go`, `internal/config`) -/

/-- A cleaned path, one element per segment. -/
abbrev Path := List String

/-- The slash-separated text of a relative path (`filepath.ToSlash`). -/
def relPathString (p : Path) : String :=
  ⟨List.intercalate ['/'] (p.map String.data)⟩

/-- FileEntry represents a single file within a context snapshot.  `RelPath` is kept
as the list of its `/`-separated segments; `relPathString` is the text stored. -/
structure FileEntry where
  RelPath : Path
  Size : Nat
  Mode : Nat
  Checksum : String
  Source : String
  deriving DecidableEq, Repr

/-- Manifest holds metadata for a saved context.  Times are clock readings. -/
structure Manifest where
  Name : String
  Description : String
  CreatedAt : Nat
  UpdatedAt : Nat
  Files : List FileEntry
  TotalSize : Nat
  Checksum : String
  OAuthEmail : String
  Scope : String
  deriving DecidableEq, Repr

/-- The library functions the engine calls and this development does not compute. -/
structure Env where
  /-- Lower-case hex SHA-256 of a text (`crypto/sha256` with `hex.EncodeToString`) -/
  sha256hex : String → String
  /-- JSON text of a manifest (`json.MarshalIndent` followed by a newline) -/
  marshal : Manifest → String
  /-- Value of the `oauthEmail` string field of a JSON text, empty when there is none -/
  oauthEmailOf : String → String
  /-- Reading of `time.Now()`, in seconds -/
  now : Nat

/-! ## Slugify (`context.go`) -/

/-- White space as `strings.TrimSpace` sees it (`unicode.IsSpace`). -/
def isSpace (c : Char) : Bool :=
  let n := c.toNat
  n = 0x20 || (0x09 ≤ n && n ≤ 0x0D) || n = 0x85 || n = 0xA0 || n = 0x1680 ||
  (0x2000 ≤ n && n ≤ 0x200A) || n = 0x2028 || n = 0x2029 || n = 0x202F ||
  n = 0x205F || n = 0x3000

/-- Lower-casing of one rune as far as `Slugify` can observe it: `unicode.ToLower`
sends `A`..`Z`, U+0130 and U+212A into `a`..`z`; every other rune goes to itself or
to another rune outside ASCII, which `slugRe` replaces all the same. -/
def toLowerRune (c : Char) : Char :=
  let n := c.toNat
  if 0x41 ≤ n ∧ n ≤ 0x5A then Char.ofNat (n + 32)
  else if n = 0x130 then 'i'
  else if n = 0x212A then 'k'
  else c

/-- The complement of the class of `slugRe`: the characters `[a-z0-9-]`. -/
def slugChar (c : Char) : Bool :=
  let n := c.toNat
  (0x61 ≤ n && n ≤ 0x7A) || (0x30 ≤ n && n ≤ 0x39) || n = 0x2D

/-- Drop the leading and the trailing elements that satisfy `p`
(`strings.TrimSpace`, `strings.Trim`). -/
def trimBoth (p : Char → Bool) (l : List Char) : List Char :=
  ((l.dropWhile p).reverse.dropWhile p).reverse

/-- The scanner behind `slugRe.ReplaceAllString(s, "-")` for `[^a-z0-9-]+`: the flag
tells whether the previous character already belongs to the run being replaced. -/
def replaceRunsAux : Bool → List Char → List Char
  | _, [] => []
  | inRun, c :: cs =>
    if slugChar c then c :: replaceRunsAux false cs
    else if inRun then replaceRunsAux true cs
    else '-' :: replaceRunsAux true cs

/-- Slugify normalizes a context name: lowercase, replace non-alphanumeric with hyphens. -/
def Slugify (name : String) : String :=
  let s := (trimBoth isSpace name.data).map toLowerRune
  let s := replaceRunsAux false s
  ⟨trimBoth (fun c => c == '-') s⟩

/-- The spec's wording of the run replacement: a character of `[a-z0-9-]` is kept,
and a character outside it is replaced by `-` together with the whole run it starts. -/
def collapseRuns : List Char → List Char
  | [] => []
  | c :: cs =>
    if slugChar c then c :: collapseRuns cs
    else '-' :: collapseRuns (cs.dropWhile (fun d => !slugChar d))
termination_by l => l.length
decreasing_by
  all_goals simp_wf
  · have := List.dropWhile_sublist (fun d => !slugChar d) (l := cs) |>.length_le
    omega

/-- The slug as the spec words it: lowercase, trim surrounding whitespace, collapse
every run of characters outside `[a-z0-9-]` to a single `-`, trim `-`. -/
def SlugifySpec (name : String) : String :=
  let s := name.data.map toLowerRune
  let s := trimBoth isSpace s
  let s := collapseRuns s
  ⟨trimBoth (fun c => c == '-') s⟩

/-! ## Checksums (`context.go`) -/

/-- One `fmt.Fprintf(h, "%s:%s\n", f.RelPath, f.Checksum)`. -/
def checksumLine (f : FileEntry) : List Char :=
  (relPathString f.RelPath).data ++ ':' :: (f.Checksum.data ++ ['\n'])

/-- Everything `ManifestChecksum` writes into the hash, in order. -/
def checksumInput : List FileEntry → List Char
  | [] => []
  | f :: fs => checksumLine f ++ checksumInput fs

/-- ManifestChecksum computes a combined checksum from all file entries. -/
def ManifestChecksum (env : Env) (files : List FileEntry) : String :=
  env.sha256hex ⟨checksumInput files⟩

/-- The `(relPath, checksum)` pair of an entry, as the two strings of the manifest. -/
def checksumKey (f : FileEntry) : String × String :=
  (relPathString f.RelPath, f.Checksum)

/-- An entry whose checksum text holds a line break and a colon. -/
def collisionOne : List FileEntry :=
  [{ RelPath := ["a"], Size := 0, Mode := 0, Checksum := "b\nc:d", Source := "dotclaude" }]

/-- Two entries that write the same bytes into the hash as `collisionOne`. -/
def collisionTwo : List FileEntry :=
  [{ RelPath := ["a"], Size := 0, Mode := 0, Checksum := "b", Source := "dotclaude" },
   { RelPath := ["c"], Size := 0, Mode := 0, Checksum := "d", Source := "dotclaude" }]

/-- The entries of `TestManifestChecksum`. -/
def testFilesOne : List FileEntry :=
  [{ RelPath := ["a.json"], Size := 0, Mode := 0, Checksum := "abc123", Source := "" },
   { RelPath := ["b.json"], Size := 0, Mode := 0, Checksum := "def456", Source := "" }]

/-- The second list of `TestManifestChecksum`. -/
def testFilesTwo : List FileEntry :=
  [{ RelPath := ["a.json"], Size := 0, Mode := 0, Checksum := "abc123", Source := "" },
   { RelPath := ["c.json"], Size := 0, Mode := 0, Checksum := "ghi789", Source := "" }]

/-- The texts for which the line format of `ManifestChecksum` can be read back: no
line break in the path, neither line break nor colon in the checksum. -/
def lineSafe (f : FileEntry) : Prop :=
  '\n' ∉ (relPathString f.RelPath).data ∧ '\n' ∉ f.Checksum.data ∧ ':' ∉ f.Checksum.data

instance (f : FileEntry) : Decidable (lineSafe f) := by
  unfold lineSafe; infer_instance

/-! ## Pattern matcher (`internal/fileutil/filter.go`, Go's `path/filepath.Match`)

Patterns and names are matched as lists of code points.  Go compares bytes and, under a
`*`, also tries the offsets inside a multi-byte rune; for names and patterns of
one-byte runes the two agree. -/

/-- The leading `*`s of a pattern: whether there is one, and what follows them
(first loop of `scanChunk`). -/
def scanStars : List Char → Bool × List Char
  | [] => (false, [])
  | c :: p => if c = '*' then (true, (scanStars p).2) else (false, c :: p)

/-- The chunk up to the next `*` outside brackets, and the rest of the pattern
(second loop of `scanChunk`); a backslash takes the next character with it. -/
def scanBody : Bool → List Char → List Char × List Char
  | _, [] => ([], [])
  | inrange, [c] =>
    if c = '*' ∧ inrange = false then ([], [c]) else ([c], [])
  | inrange, c :: d :: p =>
    if c = '\\' then
      let r := scanBody inrange p
      (c :: d :: r.1, r.2)
    else if c = '[' then
      let r := scanBody true (d :: p)
      (c :: r.1, r.2)
    else if c = ']' then
      let r := scanBody false (d :: p)
      (c :: r.1, r.2)
    else if c = '*' ∧ inrange = false then ([], c :: d :: p)
    else
      let r := scanBody inrange (d :: p)
      (c :: r.1, r.2)

/-- The function `getEsc`: a possibly escaped character of a class and the rest of
the chunk; `none` is `ErrBadPattern`. -/
def getEsc (chunk : List Char) : Option (Char × List Char) :=
  match chunk with
  | [] => none
  | c :: rest =>
    if c = '-' ∨ c = ']' then none
    else if c = '\\' then
      match rest with
      | [] => none
      | d :: rest2 => if rest2 = [] then none else some (d, rest2)
    else if rest = [] then none
    else some (c, rest)

/-- The range loop of a character class in `matchChunk`: `r` is the rune read from
the name, `started` tells whether a range has been parsed, `m` whether one contained
`r`.  Returns `m` and the chunk after the closing bracket; `none` is `ErrBadPattern`. -/
def classLoop : Nat → List Char → Char → Bool → Bool → Option (Bool × List Char)
  | 0, _, _, _, _ => none
  | fuel + 1, chunk, r, started, m =>
    if chunk.head? = some ']' ∧ started = true then some (m, chunk.tail)
    else
      match getEsc chunk with
      | none => none
      | some (lo, chunk1) =>
        if chunk1.head? = some '-' then
          match getEsc chunk1.tail with
          | none => none
          | some (hi, chunk2) =>
            classLoop fuel chunk2 r true (m || (decide (lo ≤ r) && decide (r ≤ hi)))
        else classLoop fuel chunk1 r true (m || (decide (lo ≤ r) && decide (r ≤ lo)))

/-- Result of `matchChunk`: a malformed chunk, no match, or the rest of the name. -/
inductive ChunkResult
  | bad
  | noMatch
  | rest (s : List Char)
  deriving DecidableEq, Repr

/-- The loop of `matchChunk`: does the chunk match the beginning of `s`?  After the
match has failed the chunk is still parsed to the end, to find a malformed pattern. -/
def matchChunkAux : Nat → List Char → List Char → Bool → ChunkResult
  | 0, _, _, _ => .bad
  | fuel + 1, chunk, s, failed0 =>
    match chunk with
    | [] => if failed0 then .noMatch else .rest s
    | c :: chunk1 =>
      let failed := failed0 || s.isEmpty
      if c = '[' then
        let r := if failed then (Char.ofNat 0) else s.headD (Char.ofNat 0)
        let s1 := if failed then s else s.tail
        let negated := decide (chunk1.head? = some '^')
        let chunk2 := if negated then chunk1.tail else chunk1
        match classLoop (chunk2.length + 1) chunk2 r false false with
        | none => .bad
        | some (m, chunk3) =>
          matchChunkAux fuel chunk3 s1 (failed || (m == negated))
      else if c = '?' then
        if failed then matchChunkAux fuel chunk1 s true
        else matchChunkAux fuel chunk1 s.tail (decide (s.head? = some '/'))
      else if c = '\\' then
        match chunk1 with
        | [] => .bad
        | d :: chunk2 =>
          if failed then matchChunkAux fuel chunk2 s true
          else matchChunkAux fuel chunk2 s.tail (decide (s.head? ≠ some d))
      else
        if failed then matchChunkAux fuel chunk1 s true
        else matchChunkAux fuel chunk1 s.tail (decide (s.head? ≠ some c))

/-- The function `matchChunk` of `path/filepath`. -/
def matchChunk (chunk s : List Char) : ChunkResult :=
  matchChunkAux (chunk.length + 1) chunk s false

/-- The inner loop of `Match` after a `*`: skip one more character of the name, never
a `/`, until the chunk matches; on the last chunk the match has to use up the name. -/
def starLoop (chunk : List Char) (lastChunk : Bool) : List Char → Option (List Char)
  | [] => none
  | c :: name1 =>
    if c = '/' then none
    else
      match matchChunk chunk name1 with
      | .rest t =>
        if lastChunk = true ∧ t ≠ [] then starLoop chunk lastChunk name1 else some t
      | .bad => none
      | .noMatch => starLoop chunk lastChunk name1

/-- The outer loop of `Match`, one chunk of the pattern per step. -/
def matchLoop : Nat → List Char → List Char → Bool
  | 0, _, _ => false
  | fuel + 1, pattern, name =>
    if pattern = [] then decide (name = [])
    else
      let sc := scanStars pattern
      let cb := scanBody false sc.2
      if sc.1 = true ∧ cb.1 = [] then !(name.contains '/')
      else
        match matchChunk cb.1 name with
        | .bad => false
        | .noMatch =>
          if sc.1 then
            match starLoop cb.1 (decide (cb.2 = [])) name with
            | none => false
            | some t => matchLoop fuel cb.2 t
          else false
        | .rest t =>
          if t = [] ∨ cb.2 ≠ [] then matchLoop fuel cb.2 t
          else if sc.1 then
            match starLoop cb.1 (decide (cb.2 = [])) name with
            | none => false
            | some t1 => matchLoop fuel cb.2 t1
          else false

/-- The boolean of `filepath.Match(pattern, name)`; it is false when the pattern is
malformed, and the callers drop the error. -/
def filepathMatch (pattern name : List Char) : Bool :=
  matchLoop (pattern.length + 1) pattern name

/-- The syntax check of `Match`: the chunks of the pattern in turn (`scanChunk`), each
handed to `matchChunk`; true when one of them is rejected with `ErrBadPattern`. -/
def badPatternLoop : Nat → List Char → Bool
  | 0, _ => false
  | fuel + 1, pattern =>
    if pattern = [] then false
    else
      let sc := scanStars pattern
      let cb := scanBody false sc.2
      decide (matchChunk cb.1 [] = .bad) || badPatternLoop fuel cb.2

/-- Is the pattern malformed: does `filepath.Match` report `ErrBadPattern` for it?  On
the empty name no chunk is matched, and `Match` checks every chunk of the pattern. -/
def badPattern (pattern : List Char) : Bool :=
  badPatternLoop (pattern.length + 1) pattern

/-- A pattern character that `filepath.Match` compares literally. -/
def literalChar (c : Char) : Prop := c ≠ '*' ∧ c ≠ '?' ∧ c ≠ '[' ∧ c ≠ '\\'

/-- The function `strings.Split(s, "/")`. -/
def splitSlash : List Char → List (List Char)
  | [] => [[]]
  | c :: cs =>
    if c = '/' then [] :: splitSlash cs
    else
      match splitSlash cs with
      | [] => [[c]]
      | h :: t => (c :: h) :: t

/-- The function `strings.Join(segs, "/")`. -/
def joinSlash (segs : List (List Char)) : List Char :=
  List.intercalate ['/'] segs

/-- The text before and after the first `**` (`strings.SplitN(pattern, "**", 2)`);
`none` when there is none. -/
def splitDoubleStar : List Char → Option (List Char × List Char)
  | [] => none
  | [_] => none
  | c :: d :: rest =>
    if c = '*' ∧ d = '*' then some ([], rest)
    else
      match splitDoubleStar (d :: rest) with
      | none => none
      | some (a, b) => some (c :: a, b)

/-- The function `strings.TrimSuffix(s, "/")`. -/
def trimSlashSuffix (s : List Char) : List Char :=
  if s.getLast? = some '/' then s.dropLast else s

/-- The function `strings.TrimPrefix(s, "/")`. -/
def trimSlashPrefix (s : List Char) : List Char :=
  if s.head? = some '/' then s.tail else s

/-- Does `suffix` match the join of some trailing run of the segments?  The loops
`for i := range parts` of `matchDoubleGlob`. -/
def matchAnyTail (suffix : List Char) : List (List Char) → Bool
  | [] => false
  | seg :: segs =>
    filepathMatch suffix (joinSlash (seg :: segs)) || matchAnyTail suffix segs

/-- matchSegments checks if path segments match pattern segments (supporting single * glob). -/
def matchSegments : List (List Char) → List (List Char) → Bool
  | [], [] => true
  | p :: ps, q :: qs => filepathMatch q p && matchSegments ps qs
  | _, _ => false

/-- matchDoubleGlob handles patterns with ** (match any number of directories). -/
def matchDoubleGlob (path pattern : List Char) : Bool :=
  match splitDoubleStar pattern with
  | none => filepathMatch pattern path
  | some (before, after) =>
    let pre := trimSlashSuffix before
    let suffix := trimSlashPrefix after
    let pathParts := splitSlash path
    if pre = [] then
      if suffix = [] then true else matchAnyTail suffix pathParts
    else
      let preParts := splitSlash pre
      if preParts.length > pathParts.length then false
      else if !(matchSegments (pathParts.take preParts.length) preParts) then false
      else
        let remaining := pathParts.drop preParts.length
        if suffix = [] then
          decide (remaining.length > 0 ∨ pathParts.length = preParts.length)
        else matchAnyTail suffix remaining

/-- matchGlob performs glob matching supporting ** for recursive directory matching. -/
def matchGlob (path pattern : List Char) : Bool :=
  if (splitDoubleStar pattern).isSome then matchDoubleGlob path pattern
  else filepathMatch pattern path

/-- MatchesAny checks if the given relative path matches any of the glob patterns. -/
def MatchesAny (relPath : String) (patterns : List String) : Bool :=
  patterns.any (fun pattern => matchGlob relPath.data pattern.data)

/-! ## File system -/

/-- What a regular file holds: uninterpreted text, or the JSON document of a manifest
(then `json.Unmarshal` gives the manifest back; text that is not such a document is `raw`). -/
inductive Content
  | raw (text : String)
  | manifest (m : Manifest)
  deriving DecidableEq, Repr

/-- A node of the file system: a regular file with its permission bits, or a directory. -/
inductive Node
  | file (content : Content) (mode : Nat)
  | dir
  deriving DecidableEq, Repr

/-- The file system: the nodes that exist, by path.  The first entry of a path counts. -/
abbrev FS := List (Path × Node)

/-- The bytes of a file as text. -/
def Content.text (env : Env) : Content → String
  | .raw t => t
  | .manifest m => env.marshal m

/-- The function `os.Stat`: the node at a path, `none` when the call fails. -/
def stat : FS → Path → Option Node
  | [], _ => none
  | (q, n) :: rest, p => if q = p then some n else stat rest p

/-- Content and mode of the regular file at a path. -/
def fileAt (fs : FS) (p : Path) : Option (Content × Nat) :=
  match stat fs p with
  | some (.file c m) => some (c, m)
  | _ => none

/-- The size `os.FileInfo.Size()` reports for a node (for a directory the value is
not used by the engine). -/
def Node.size (env : Env) : Node → Nat
  | .file c _ => (c.text env).utf8ByteSize
  | .dir => 0

/-- The permission bits `os.FileInfo.Mode()` reports for a node. -/
def Node.mode : Node → Nat
  | .file _ m => m
  | .dir => 0o755

/-- Remove the entry of one path. -/
def erase (fs : FS) (p : Path) : FS :=
  fs.filter (fun e => decide (e.1 ≠ p))

/-- Set the node of one path. -/
def put (fs : FS) (p : Path) (n : Node) : FS :=
  (p, n) :: erase fs p

/-- Is some proper ancestor of the path a regular file (the call fails with `ENOTDIR`)? -/
def underFile (fs : FS) : Path → Path → Bool
  | _, [] => false
  | _, [_] => false
  | pre, s :: t :: rest =>
    (match stat fs (pre ++ [s]) with
      | some (.file _ _) => true
      | _ => false) || underFile fs (pre ++ [s]) (t :: rest)

/-- The loop of `os.MkdirAll` from the outermost directory inwards; `none` when a
regular file is in the way. -/
def mkdirFrom (fs : FS) (pre : Path) : Path → Option FS
  | [] => some fs
  | s :: rest =>
    match stat fs (pre ++ [s]) with
    | some (.file _ _) => none
    | some .dir => mkdirFrom fs (pre ++ [s]) rest
    | none => mkdirFrom ((pre ++ [s], .dir) :: fs) (pre ++ [s]) rest

/-- The function `os.MkdirAll`; `none` is an error, and then nothing was created. -/
def mkdirAll (fs : FS) (p : Path) : Option FS :=
  mkdirFrom fs [] p

/-- Result of `os.Remove`. -/
inductive RemoveResult
  | ok
  | notExist
  | failed
  deriving DecidableEq, Repr

/-- The function `os.Remove`: removes a file or an empty directory. -/
def Remove (fs : FS) (p : Path) : FS × RemoveResult :=
  match stat fs p with
  | none => (fs, if underFile fs [] p then .failed else .notExist)
  | some (.file _ _) => (erase fs p, .ok)
  | some .dir =>
    if fs.any (fun e => p.isPrefixOf e.1 && decide (e.1 ≠ p)) then (fs, .failed)
    else (erase fs p, .ok)

/-- The function `os.RemoveAll`: removes the path and everything below it. -/
def RemoveAll (fs : FS) (p : Path) : FS :=
  fs.filter (fun e => !(p.isPrefixOf e.1))

/-- CopyFile copies a single file from src to dst atomically (write to temp + rename).
It preserves file permissions.  The temporary file is gone when the call returns; the
directories made for it stay. -/
def CopyFile (fs : FS) (src dst : Path) : FS × Bool :=
  match stat fs src with
  | none => (fs, false)
  | some .dir =>
    match mkdirAll fs dst.dropLast with
    | none => (fs, false)
    | some fs1 => (fs1, false)
  | some (.file c m) =>
    match mkdirAll fs dst.dropLast with
    | none => (fs, false)
    | some fs1 =>
      match stat fs1 dst with
      | some .dir => (fs1, false)
      | _ => (put fs1 dst (.file c m), true)

/-- FileChecksum computes the SHA-256 checksum of a file; the callers drop the error
and keep the empty string. -/
def FileChecksum (env : Env) (fs : FS) (p : Path) : String :=
  match stat fs p with
  | some (.file c _) => env.sha256hex (c.text env)
  | _ => ""

/-! ## Walking (`internal/fileutil/walk.go`) -/

/-- Order of two names in a directory listing: by bytes, as `filepath.Walk` sorts them. -/
def charsLe : List Char → List Char → Bool
  | [], _ => true
  | _ :: _, [] => false
  | a :: as, b :: bs =>
    if a.toNat < b.toNat then true
    else if b.toNat < a.toNat then false
    else charsLe as bs

/-- Order in which `filepath.Walk` reaches two paths: a directory before what it
holds, the entries of a directory by name. -/
def pathLe : Path → Path → Bool
  | [], _ => true
  | _ :: _, [] => false
  | a :: as, b :: bs => if a = b then pathLe as bs else charsLe a.data b.data

/-- Insert an entry into a list sorted by path. -/
def insertByPath (e : Path × Node) : List (Path × Node) → List (Path × Node)
  | [] => [e]
  | x :: xs => if pathLe e.1 x.1 then e :: x :: xs else x :: insertByPath e xs

/-- Sort entries in walk order. -/
def sortByPath : List (Path × Node) → List (Path × Node)
  | [] => []
  | e :: es => insertByPath e (sortByPath es)

/-- The nodes `filepath.Walk(root, fn)` hands to `fn` without an error, in order: the
root when it exists, and everything below it when it is a directory.  Only the entry
that `stat` finds for a path is a node of the file system. -/
def walk (fs : FS) (root : Path) : List (Path × Node) :=
  match stat fs root with
  | none => []
  | some (.file c m) => [(root, .file c m)]
  | some .dir =>
    (root, .dir) ::
      sortByPath (fs.filter (fun e =>
        root.isPrefixOf e.1 && decide (e.1 ≠ root) && decide (stat fs e.1 = some e.2)))

/-- The text of `filepath.Rel(root, path)` for a path at or below the root. -/
def relString (rel : Path) : String :=
  if rel = [] then "." else relPathString rel

/-- WalkResult holds information about a walked file.  `Rel` is `RelPath` by segments. -/
structure WalkResult where
  Rel : Path
  RelPath : String
  AbsPath : Path
  Info : Node
  deriving DecidableEq, Repr

/-- The selection rule of `WalkFiltered`: some include pattern matches and no exclude
pattern does. -/
def selected (includes excludes : List String) (relPath : String) : Bool :=
  MatchesAny relPath includes && !(MatchesAny relPath excludes)

/-- WalkFiltered walks a directory and returns files that match include patterns
but not exclude patterns.  The error it returns is always nil. -/
def WalkFiltered (fs : FS) (root : Path) (includes excludes : List String) :
    List WalkResult :=
  (walk fs root).filterMap (fun e =>
    match e.2 with
    | .dir => none
    | .file c m =>
      let rel := e.1.drop root.length
      if selected includes excludes (relString rel) then
        some { Rel := rel, RelPath := relString rel, AbsPath := e.1, Info := .file c m }
      else none)

/-! ## Configuration (`internal/config`) -/

/-- ExtraFile represents a standalone file outside .claude/ that is part of a scope. -/
structure ExtraFile where
  Path : List String
  Tag : String
  deriving DecidableEq, Repr

/-- Scope defines where Claude config files live and how they are stored
(`ScopeType` is the field `Type`). -/
structure Scope where
  ScopeType : String
  DotClaudeDir : Path
  ExtraFiles : List ExtraFile
  StorageDir : Path
  IncludePatterns : List String
  ExcludePatterns : List String
  deriving DecidableEq, Repr

/-- The constant `ScopeUser`. -/
def ScopeUser : String := "user"

/-- The constant `ScopeProject`. -/
def ScopeProject : String := "project"

/-- ExtraFileByTag returns the ExtraFile matching the given tag, or nil if not found. -/
def Scope.ExtraFileByTag (s : Scope) (tag : String) : Option ExtraFile :=
  s.ExtraFiles.find? (fun ef => ef.Tag == tag)

/-- Config holds user configuration for claudectx. -/
structure Config where
  StorageDir : Path
  IncludePatterns : List String
  ExcludePatterns : List String
  Scope : Scope
  deriving DecidableEq, Repr

/-- ContextsDir returns the path to the contexts directory. -/
def Config.ContextsDir (c : Config) : Path := c.StorageDir ++ ["contexts"]

/-- BackupsDir returns the path to the backups directory. -/
def Config.BackupsDir (c : Config) : Path := c.StorageDir ++ ["backups"]

/-- CurrentFile returns the path to the 'current' marker file. -/
def Config.CurrentFile (c : Config) : Path := c.StorageDir ++ ["current"]

/-- DefaultProjectIncludePatterns include all files for project-scope snapshots. -/
def DefaultProjectIncludePatterns : List String := ["**"]

/-- DefaultProjectExcludePatterns exclude OS junk from project-scope snapshots. -/
def DefaultProjectExcludePatterns : List String := ["**/.DS_Store"]

/-- ProjectScopeAt builds a project Scope rooted at the given directory (no detection). -/
def ProjectScopeAt (root : Path) : Scope :=
  { ScopeType := ScopeProject
    DotClaudeDir := root ++ [".claude"]
    ExtraFiles := [{ Path := root ++ ["CLAUDE.md"], Tag := "claudemd" },
                   { Path := root ++ [".mcp.json"], Tag := "mcpjson" }]
    StorageDir := root ++ [".claudectx"]
    IncludePatterns := DefaultProjectIncludePatterns
    ExcludePatterns := DefaultProjectExcludePatterns }

/-- The configuration `LoadWithScope` returns when there is no config file. -/
def configOf (scope : Scope) : Config :=
  { StorageDir := scope.StorageDir
    IncludePatterns := scope.IncludePatterns
    ExcludePatterns := scope.ExcludePatterns
    Scope := scope }

/-- The fields of a `config.json` that was read and parsed; an absent or empty field
is the empty list. -/
structure ConfigJSON where
  storageDir : Path
  includePatterns : List String
  excludePatterns : List String
  deriving DecidableEq, Repr

/-- LoadWithScope reads config from the given path and applies the provided scope;
`file` is the parsed config file, `none` when there is no such file. -/
def LoadWithScope (file : Option ConfigJSON) (scope : Scope) : Config :=
  match file with
  | none => configOf scope
  | some j =>
    { StorageDir := if j.storageDir = [] then scope.StorageDir else j.storageDir
      IncludePatterns :=
        if j.includePatterns = [] then scope.IncludePatterns else j.includePatterns
      ExcludePatterns :=
        if j.excludePatterns = [] then scope.ExcludePatterns else j.excludePatterns
      Scope := scope }

/-! ## Manifest store and current pointer (`manifest.go`, `snapshot.go`) -/

/-- The last segment of a path (`filepath.Base`). -/
def baseName (p : Path) : String := p.getLastD "/"

/-- The loop of `filepath.Clean` over the segments of a relative name joined to a
cleaned directory: an empty segment and `.` are dropped, `..` goes one level up. -/
def joinClean (dir : Path) : List (List Char) → Path
  | [] => dir
  | seg :: rest =>
    if seg = [] ∨ seg = ['.'] then joinClean dir rest
    else if seg = ['.', '.'] then joinClean dir.dropLast rest
    else joinClean (dir ++ [String.mk seg]) rest

/-- The function `filepath.Join(dir, name)` for a cleaned directory and a name in text
form. -/
def filepathJoin (dir : Path) (name : String) : Path :=
  joinClean dir (splitSlash name.data)

/-- The path of the manifest of a context directory. -/
def manifestPath (contextDir : Path) : Path := contextDir ++ ["manifest.json"]

/-- ReadManifest reads the manifest.json from a context directory; `none` is a read
or a parse error. -/
def ReadManifest (fs : FS) (contextDir : Path) : Option Manifest :=
  match stat fs (manifestPath contextDir) with
  | some (.file (.manifest m) _) => some m
  | _ => none

/-- WriteManifest writes the manifest.json to a context directory atomically. -/
def WriteManifest (fs : FS) (contextDir : Path) (m : Manifest) : FS × Bool :=
  match mkdirAll fs contextDir with
  | none => (fs, false)
  | some fs1 =>
    match stat fs1 (manifestPath contextDir) with
    | some .dir => (fs1, false)
    | _ => (put fs1 (manifestPath contextDir) (.file (.manifest m) 0o600), true)

/-- ContextExists checks if a named context exists. -/
def ContextExists (fs : FS) (contextsDir : Path) (name : String) : Bool :=
  (stat fs (manifestPath (contextsDir ++ [name]))).isSome

/-- The entries `os.ReadDir(dir)` returns for a directory: the nodes one level below
it, sorted by name. -/
def readDir (fs : FS) (dir : Path) : List (Path × Node) :=
  sortByPath (fs.filter (fun e =>
    dir.isPrefixOf e.1 && decide (e.1.length = dir.length + 1) &&
      decide (stat fs e.1 = some e.2)))

/-- ListContexts returns all context names in the storage directory: the
subdirectories in which `os.Stat` finds a `manifest.json`.  `none` is an error; a
missing directory gives the empty list. -/
def ListContexts (fs : FS) (contextsDir : Path) : Option (List String) :=
  match stat fs contextsDir with
  | none => if underFile fs [] contextsDir then none else some []
  | some (.file _ _) => none
  | some .dir =>
    some ((readDir fs contextsDir).filterMap (fun e =>
      match e.2 with
      | .dir =>
        if (stat fs (manifestPath (contextsDir ++ [baseName e.1]))).isSome then
          some (baseName e.1)
        else none
      | .file _ _ => none))

/-- Result of `DeleteContext`: nil, the not-found error, or an error of
`os.RemoveAll`. -/
inductive DeleteResult
  | ok
  | notFound
  | failed
  deriving DecidableEq, Repr

/-- DeleteContext removes a saved context directory.  The directory is
`filepath.Join(contextsDir, name)`: for the empty name it is `contextsDir` itself.
Below a regular file `os.Stat` fails with `ENOTDIR`, which is not a not-exist error,
and `os.RemoveAll` then fails the same way. -/
def DeleteContext (fs : FS) (contextsDir : Path) (name : String) : FS × DeleteResult :=
  let dir := filepathJoin contextsDir name
  match stat fs dir with
  | none => if underFile fs [] dir then (fs, .failed) else (fs, .notFound)
  | some _ => (RemoveAll fs dir, .ok)

/-- SetCurrent writes the active context name to the current marker file. -/
def SetCurrent (fs : FS) (cfg : Config) (name : String) : FS × Bool :=
  match mkdirAll fs cfg.StorageDir with
  | none => (fs, false)
  | some fs1 =>
    match stat fs1 cfg.CurrentFile with
    | some .dir => (fs1, false)
    | some (.file _ mode) => (put fs1 cfg.CurrentFile (.file (.raw (name ++ "\n")) mode), true)
    | none => (put fs1 cfg.CurrentFile (.file (.raw (name ++ "\n")) 0o644), true)

/-- Result of `GetCurrent`: a name with a nil error, an error, or a run-time panic. -/
inductive CurrentResult
  | name (s : String)
  | error
  | panic
  deriving DecidableEq, Repr

/-- GetCurrent reads the active context name: the file without its last character. -/
def GetCurrent (env : Env) (fs : FS) (cfg : Config) : CurrentResult :=
  match stat fs cfg.CurrentFile with
  | none => if underFile fs [] cfg.CurrentFile then .error else .name ""
  | some .dir => .error
  | some (.file c _) =>
    if (c.text env).data = [] then .panic
    else .name ⟨(c.text env).data.dropLast⟩

/-! ## Save (`snapshot.go`) -/

/-- The errors of `Save` and `Restore`, by kind; `panic` is a run-time panic. -/
inductive Err
  | invalidName
  | alreadyExists
  | notFound
  | scopeMismatch
  | createDir
  | copy (name : String)
  | writeManifest
  | setCurrent
  | backup
  | clear
  | restoreEntry (relPath : String)
  | panic
  deriving DecidableEq, Repr

/-- SaveOptions configures the save operation. -/
structure SaveOptions where
  Name : String
  Description : String
  Overwrite : Bool
  DryRun : Bool
  Config : Config
  deriving DecidableEq, Repr

/-- SaveResult holds the result of a save operation. -/
structure SaveResult where
  Name : String
  Dir : Path
  Files : Nat
  TotalSize : Nat
  deriving DecidableEq, Repr

/-- The first loop of `Save`: snapshot the extra files that exist.  Returns the
entries and the size so far, or the base name whose copy failed. -/
def saveExtraFiles (env : Env) (contextDir : Path) :
    List ExtraFile → FS → List FileEntry → Nat → FS × Except String (List FileEntry × Nat)
  | [], fs, files, total => (fs, .ok (files, total))
  | ef :: rest, fs, files, total =>
    match stat fs ef.Path with
    | none => saveExtraFiles env contextDir rest fs files total
    | some info =>
      let storedName := baseName ef.Path
      let r := CopyFile fs ef.Path (contextDir ++ [storedName])
      if r.2 = false then (r.1, .error storedName)
      else
        saveExtraFiles env contextDir rest r.1
          (files ++ [{ RelPath := [storedName], Size := info.size env, Mode := info.mode,
                       Checksum := FileChecksum env r.1 ef.Path, Source := ef.Tag }])
          (total + info.size env)

/-- The second loop of `Save`: snapshot the walked files below `dotclaude`. -/
def saveWalked (env : Env) (contextDir : Path) :
    List WalkResult → FS → List FileEntry → Nat → FS × Except String (List FileEntry × Nat)
  | [], fs, files, total => (fs, .ok (files, total))
  | w :: rest, fs, files, total =>
    let r := CopyFile fs w.AbsPath (contextDir ++ "dotclaude" :: w.Rel)
    if r.2 = false then (r.1, .error w.RelPath)
    else
      saveWalked env contextDir rest r.1
        (files ++ [{ RelPath := "dotclaude" :: w.Rel, Size := w.Info.size env,
                     Mode := w.Info.mode, Checksum := FileChecksum env r.1 w.AbsPath,
                     Source := "dotclaude" }])
        (total + w.Info.size env)

/-- The function `extractOAuthEmail`. -/
def extractOAuthEmail (env : Env) (fs : FS) (p : Path) : String :=
  match stat fs p with
  | some (.file c _) => env.oauthEmailOf (c.text env)
  | _ => ""

/-- Step 3 of `Save`: extract the OAuth email from claude.json (user scope only). -/
def saveOAuthEmail (env : Env) (fs : FS) (scope : Scope) : String :=
  if scope.ScopeType = ScopeUser then
    match scope.ExtraFileByTag "claudejson" with
    | some ef => extractOAuthEmail env fs ef.Path
    | none => ""
  else ""

/-- Step 4 of `Save`: the manifest written for the entries and the total size. -/
def saveManifest (env : Env) (opts : SaveOptions) (fs : FS) (files : List FileEntry)
    (totalSize : Nat) : Manifest :=
  { Name := Slugify opts.Name
    Description := opts.Description
    CreatedAt := env.now
    UpdatedAt := env.now
    Files := files
    TotalSize := totalSize
    Checksum := ManifestChecksum env files
    OAuthEmail := saveOAuthEmail env fs opts.Config.Scope
    Scope := opts.Config.Scope.ScopeType }

/-- The function `dryRunSave`: count what would be saved. -/
def dryRunSave (env : Env) (fs : FS) (slug : String) (cfg : Config) : SaveResult :=
  let extras := cfg.Scope.ExtraFiles.filterMap (fun ef => stat fs ef.Path)
  let walked :=
    if (stat fs cfg.Scope.DotClaudeDir).isSome then
      WalkFiltered fs cfg.Scope.DotClaudeDir cfg.IncludePatterns cfg.ExcludePatterns
    else []
  { Name := slug
    Dir := []
    Files := extras.length + walked.length
    TotalSize := (extras.map (Node.size env)).sum + (walked.map (fun w => w.Info.size env)).sum }

/-- Save creates a snapshot of the current Claude Code state. -/
def Save (env : Env) (opts : SaveOptions) (fs : FS) : FS × Except Err SaveResult :=
  let slug := Slugify opts.Name
  if slug = "" then (fs, .error .invalidName)
  else
    let cfg := opts.Config
    let scope := cfg.Scope
    let contextDir := cfg.ContextsDir ++ [slug]
    if ContextExists fs cfg.ContextsDir slug = true ∧ opts.Overwrite = false then
      (fs, .error .alreadyExists)
    else if opts.DryRun then (fs, .ok (dryRunSave env fs slug cfg))
    else
      let fs1 := if opts.Overwrite then RemoveAll fs contextDir else fs
      match mkdirAll fs1 contextDir with
      | none => (fs1, .error .createDir)
      | some fs2 =>
        match saveExtraFiles env contextDir scope.ExtraFiles fs2 [] 0 with
        | (fs3, .error name) => (fs3, .error (.copy name))
        | (fs3, .ok (files1, total1)) =>
          let walked :=
            if (stat fs3 scope.DotClaudeDir).isSome then
              WalkFiltered fs3 scope.DotClaudeDir cfg.IncludePatterns cfg.ExcludePatterns
            else []
          match saveWalked env contextDir walked fs3 files1 total1 with
          | (fs4, .error name) => (fs4, .error (.copy name))
          | (fs4, .ok (files, totalSize)) =>
            let manifest := saveManifest env opts fs4 files totalSize
            match WriteManifest fs4 contextDir manifest with
            | (fs5, false) => (fs5, .error .writeManifest)
            | (fs5, true) =>
              match SetCurrent fs5 cfg slug with
              | (fs6, false) => (fs6, .error .setCurrent)
              | (fs6, true) =>
                (fs6, .ok { Name := slug, Dir := contextDir, Files := files.length,
                            TotalSize := totalSize })

/-! ## Restore (`restore.go`) -/

/-- RestoreOptions configures the restore (switch) operation. -/
structure RestoreOptions where
  Name : String
  DryRun : Bool
  Force : Bool
  Config : Config
  deriving DecidableEq, Repr

/-- RestoreResult holds the result of a restore operation. -/
structure RestoreResult where
  Name : String
  FilesRestored : Nat
  BackupDir : Path
  deriving DecidableEq, Repr

/-- isExtraFileSource returns true if the source tag represents an extra file
(claude.json for user scope, CLAUDE.md/.mcp.json for project scope) rather
than a file from the .claude/ directory. -/
def isExtraFileSource (source : String) : Bool :=
  source = "claudejson" || source = "claudemd" || source = "mcpjson"

/-- AutoSaveCurrent saves the current live state back to the active context's
snapshot before switching away.  The result of the save is dropped; the boolean tells
whether `GetCurrent` panicked. -/
def AutoSaveCurrent (env : Env) (fs : FS) (cfg : Config) (targetSlug : String) : FS × Bool :=
  match GetCurrent env fs cfg with
  | .panic => (fs, true)
  | .error => (fs, false)
  | .name current =>
    if current = "" ∨ current = targetSlug then (fs, false)
    else if ContextExists fs cfg.ContextsDir current = false then (fs, false)
    else
      ((Save env { Name := current, Description := "", Overwrite := true, DryRun := false,
                   Config := cfg } fs).1, false)

/-- The name of the backup directory: `pre-switch-` and the time to the second. -/
def backupName (now : Nat) : String :=
  "pre-switch-" ++ String.mk (Nat.toDigits 10 now)

/-- The copy loop of `createBackup` over the extra files. -/
def backupExtraFiles (backupDir : Path) : List ExtraFile → FS → FS × Bool
  | [], fs => (fs, true)
  | ef :: rest, fs =>
    if (stat fs ef.Path).isSome then
      let r := CopyFile fs ef.Path (backupDir ++ [baseName ef.Path])
      if r.2 = false then (r.1, false) else backupExtraFiles backupDir rest r.1
    else backupExtraFiles backupDir rest fs

/-- The copy loop of `createBackup` over the walked files. -/
def backupWalked (backupDir : Path) : List WalkResult → FS → FS × Bool
  | [], fs => (fs, true)
  | w :: rest, fs =>
    let r := CopyFile fs w.AbsPath (backupDir ++ "dotclaude" :: w.Rel)
    if r.2 = false then (r.1, false) else backupWalked backupDir rest r.1

/-- The function `createBackup`: the new state, the backup directory and whether the
backup succeeded. -/
def createBackup (env : Env) (fs : FS) (cfg : Config) (scope : Scope) : FS × Path × Bool :=
  let backupDir := cfg.BackupsDir ++ [backupName env.now]
  match mkdirAll fs backupDir with
  | none => (fs, [], false)
  | some fs1 =>
    match backupExtraFiles backupDir scope.ExtraFiles fs1 with
    | (fs2, false) => (fs2, backupDir, false)
    | (fs2, true) =>
      if (stat fs2 scope.DotClaudeDir).isSome then
        let r := backupWalked backupDir
          (WalkFiltered fs2 scope.DotClaudeDir scope.IncludePatterns scope.ExcludePatterns) fs2
        (r.1, backupDir, r.2)
      else (fs2, backupDir, true)

/-- The first loop of `ClearManagedFiles`: remove the extra files; a missing file is
not an error. -/
def clearExtraFiles : List ExtraFile → FS → FS × Bool
  | [], fs => (fs, true)
  | ef :: rest, fs =>
    match Remove fs ef.Path with
    | (fs1, .failed) => (fs1, false)
    | (fs1, _) => clearExtraFiles rest fs1

/-- The second loop of `ClearManagedFiles`: remove the walked files. -/
def clearWalked : List WalkResult → FS → FS × Bool
  | [], fs => (fs, true)
  | w :: rest, fs =>
    match Remove fs w.AbsPath with
    | (fs1, .failed) => (fs1, false)
    | (fs1, _) => clearWalked rest fs1

/-- The removal loop of `removeEmptyDirs`; a failed removal is ignored. -/
def removeDirs : List Path → FS → FS
  | [], fs => fs
  | d :: rest, fs => removeDirs rest (Remove fs d).1

/-- removeEmptyDirs walks the directory bottom-up and removes empty subdirectories.
The root directory itself is preserved. -/
def removeEmptyDirs (fs : FS) (root : Path) : FS :=
  let dirs := (walk fs root).filterMap (fun e =>
    match e.2 with
    | .dir => if e.1 = root then none else some e.1
    | .file _ _ => none)
  removeDirs dirs.reverse fs

/-- The directories `removeEmptyDirs` collects: what the walk hands over that is a
directory, the root apart, in the order of the walk. -/
def walkDirs (fs : FS) (root : Path) : List Path :=
  (walk fs root).filterMap (fun e =>
    match e.2 with
    | .dir => if e.1 = root then none else some e.1
    | .file _ _ => none)

/-- ClearManagedFiles removes all managed files for the current scope. -/
def ClearManagedFiles (fs : FS) (cfg : Config) : FS × Bool :=
  let scope := cfg.Scope
  match clearExtraFiles scope.ExtraFiles fs with
  | (fs1, false) => (fs1, false)
  | (fs1, true) =>
    if (stat fs1 scope.DotClaudeDir).isSome then
      match clearWalked
          (WalkFiltered fs1 scope.DotClaudeDir scope.IncludePatterns scope.ExcludePatterns)
          fs1 with
      | (fs2, false) => (fs2, false)
      | (fs2, true) => (removeEmptyDirs fs2 scope.DotClaudeDir, true)
    else (fs1, true)

/-- The function `strings.TrimPrefix(entry.RelPath, "dotclaude/")` on the segments
of a clean relative path. -/
def trimDotclaude : Path → Path
  | [] => []
  | [s] => [s]
  | s :: t :: rest => if s = "dotclaude" then t :: rest else s :: t :: rest

/-- The function `strings.TrimPrefix`. -/
def trimPrefixChars (pre s : List Char) : List Char :=
  if pre.isPrefixOf s then s.drop pre.length else s

/-- The destination `restoreCopy` computes for an entry outside the extra files, from
the text of its relPath:
`filepath.Join(scope.DotClaudeDir, strings.TrimPrefix(entry.RelPath, "dotclaude/"))`. -/
def managedDest (dotClaudeDir : Path) (relPath : String) : Path :=
  filepathJoin dotClaudeDir ⟨trimPrefixChars "dotclaude/".data relPath.data⟩

/-- Where `restoreCopy` writes an entry: `none` when the entry is skipped.  The
segments of the relPath are appended as they are; for a clean relPath this is
`filepath.Join` on the text (`restoreTarget`), for a relPath with `.`, `..` or empty
segments it is not. -/
def restoreDest (scope : Scope) (entry : FileEntry) : Option Path :=
  if isExtraFileSource entry.Source then
    match scope.ExtraFileByTag entry.Source with
    | none => none
    | some ef => some ef.Path
  else some (scope.DotClaudeDir ++ trimDotclaude entry.RelPath)

/-- restoreCopy copies files from snapshot to live paths (additive overlay).  Returns
the number of files copied, or the relPath of the entry whose copy failed.  Source and
destination append the segments of the relPath; `restoreCopyJoin` joins the texts as
`filepath.Join` does, and the two agree on clean relPaths. -/
def restoreCopy (contextDir : Path) (scope : Scope) :
    List FileEntry → FS → Nat → FS × Except String Nat
  | [], fs, restored => (fs, .ok restored)
  | entry :: rest, fs, restored =>
    match restoreDest scope entry with
    | none => restoreCopy contextDir scope rest fs restored
    | some dstPath =>
      let r := CopyFile fs (contextDir ++ entry.RelPath) dstPath
      if r.2 = false then (r.1, .error (relPathString entry.RelPath))
      else restoreCopy contextDir scope rest r.1 (restored + 1)

/-- Restore applies a saved context to the current Claude Code state.
If another context is currently active, it auto-saves the live state
back to that context's snapshot before switching. -/
def Restore (env : Env) (opts : RestoreOptions) (fs : FS) : FS × Except Err RestoreResult :=
  let slug := Slugify opts.Name
  let cfg := opts.Config
  let scope := cfg.Scope
  let contextDir := cfg.ContextsDir ++ [slug]
  match ReadManifest fs contextDir with
  | none => (fs, .error .notFound)
  | some manifest =>
    if manifest.Scope ≠ "" ∧ manifest.Scope ≠ scope.ScopeType then
      (fs, .error .scopeMismatch)
    else if opts.DryRun then
      (fs, .ok { Name := slug, FilesRestored := manifest.Files.length, BackupDir := [] })
    else
      match AutoSaveCurrent env fs cfg slug with
      | (fs1, true) => (fs1, .error .panic)
      | (fs1, false) =>
        match createBackup env fs1 cfg scope with
        | (fs2, backupDir, backupOk) =>
          if backupOk = false ∧ opts.Force = false then (fs2, .error .backup)
          else
            match ClearManagedFiles fs2 cfg with
            | (fs3, false) => (fs3, .error .clear)
            | (fs3, true) =>
              match restoreCopy contextDir scope manifest.Files fs3 0 with
              | (fs4, .error relPath) => (fs4, .error (.restoreEntry relPath))
              | (fs4, .ok restored) =>
                match SetCurrent fs4 cfg slug with
                | (fs5, false) => (fs5, .error .setCurrent)
                | (fs5, true) =>
                  (fs5, .ok { Name := slug, FilesRestored := restored,
                              BackupDir := backupDir })

/-- A run of `Restore` calls one after the other, each with its own clock reading,
target and flags; the results are dropped. -/
def restoreAll : List (Env × RestoreOptions) → FS → FS
  | [], fs => fs
  | call :: rest, fs => restoreAll rest (Restore call.1 call.2 fs).1

/-! ## The command `create` (`cli/create.go`, `cli/helpers.go`, `claude/paths.go`) -/

/-- IsGitRepo returns true if the given directory contains a .git/ directory. -/
def IsGitRepo (fs : FS) (dir : Path) : Bool :=
  decide (stat fs (dir ++ [".git"]) = some .dir)

/-- The function `strings.Split(s, "\n")`. -/
def splitNewline : List Char → List (List Char)
  | [] => [[]]
  | c :: cs =>
    if c = '\n' then [] :: splitNewline cs
    else
      match splitNewline cs with
      | [] => [[c]]
      | h :: t => (c :: h) :: t

/-- The check of `ensureGitignore` for an entry that is already present: some line,
trimmed of white space, is `.claudectx`, `.claudectx/` or `.claudectx/**`. -/
def gitignoreHasEntry (data : String) : Bool :=
  (splitNewline data.data).any (fun line =>
    let l := trimBoth isSpace line
    decide (l = ".claudectx".data ∨ l = ".claudectx/".data ∨ l = ".claudectx/**".data))

/-- The bytes `ensureGitignore` writes: the old text, a newline if the text is not
empty and does not end in one, and the line `.claudectx/`. -/
def gitignoreContent (data : String) : String :=
  (if data.data = [] then ""
   else if data.data.getLast? = some '\n' then data
   else data ++ "\n") ++ ".claudectx/\n"

/-- The function `ensureGitignore`: add `.claudectx/` to the `.gitignore` of the project
root if the root is a git repository and the entry is missing.  Every failure is a
warning only. -/
def ensureGitignore (env : Env) (fs : FS) (scope : Scope) (isDryRun : Bool) : FS :=
  let projectRoot := scope.DotClaudeDir.dropLast
  if IsGitRepo fs projectRoot = false then fs
  else
    let gitignorePath := projectRoot ++ [".gitignore"]
    match stat fs gitignorePath with
    | some .dir => fs
    | some (.file c mode) =>
      if gitignoreHasEntry (c.text env) then fs
      else if isDryRun then fs
      else put fs gitignorePath (.file (.raw (gitignoreContent (c.text env))) mode)
    | none =>
      if underFile fs [] gitignorePath then fs
      else if isDryRun then fs
      else if stat fs projectRoot = some .dir then
        put fs gitignorePath (.file (.raw (gitignoreContent "")) 0o644)
      else fs

/-- The function `doCreateFromCurrent`: save the current live state as a new context,
after an auto-save of the previous current context. -/
def doCreateFromCurrent (env : Env) (cfg : Config) (name description : String)
    (dryRun : Bool) (fs : FS) : FS × Except Err Unit :=
  match AutoSaveCurrent env fs cfg (Slugify name) with
  | (fs1, true) => (fs1, .error .panic)
  | (fs1, false) =>
    match Save env { Name := name, Description := description, Overwrite := false,
                     DryRun := dryRun, Config := cfg } fs1 with
    | (fs2, .error e) => (fs2, .error e)
    | (fs2, .ok _) =>
      if cfg.Scope.ScopeType = ScopeProject then
        (ensureGitignore env fs2 cfg.Scope dryRun, .ok ())
      else (fs2, .ok ())

/-- The function `runCreate` for `create <name>` in its default mode, with neither
`--from-scratch` nor `--copy-from`: the slug must be valid and unused. -/
def runCreate (env : Env) (cfg : Config) (name description : String) (dryRun : Bool)
    (fs : FS) : FS × Except Err Unit :=
  let slug := Slugify name
  if slug = "" then (fs, .error .invalidName)
  else if ContextExists fs cfg.ContextsDir slug then (fs, .error .alreadyExists)
  else doCreateFromCurrent env cfg name description dryRun fs

/-! ## Concrete inputs -/

deriving instance DecidableEq for Except

/-- A stand-in for the library functions, for evaluating the engine on examples. -/
def demoEnv : Env :=
  { sha256hex := fun s => s
    marshal := fun _ => "manifest"
    oauthEmailOf := fun _ => ""
    now := 7 }

/-- The project configuration of the tests: root `p`, no config file. -/
def demoCfg : Config := LoadWithScope none (ProjectScopeAt ["p"])

/-- A user-type scope over the same root, as in `TestCrossScopeRestoreBlocked`. -/
def demoUserCfg : Config :=
  configOf { ScopeType := ScopeUser
             DotClaudeDir := ["p", ".claude"]
             ExtraFiles := [{ Path := ["p", ".claude.json"], Tag := "claudejson" }]
             StorageDir := ["p", ".claudectx"]
             IncludePatterns := ["settings.json"]
             ExcludePatterns := [] }

/-- A live project tree: `CLAUDE.md`, `.claude/CLAUDE.md` and `.claude/sub/x`. -/
def demoFS : FS :=
  [(["p"], .dir), (["p", ".claude"], .dir),
   (["p", "CLAUDE.md"], .file (.raw "# Root") 0o644),
   (["p", ".claude", "CLAUDE.md"], .file (.raw "# Dot A") 0o600),
   (["p", ".claude", "sub"], .dir),
   (["p", ".claude", "sub", "x"], .file (.raw "x") 0o644)]

/-- Options of a plain `Save` of `name` under `cfg`. -/
def saveOpts (cfg : Config) (name : String) (overwrite : Bool) : SaveOptions :=
  { Name := name, Description := "", Overwrite := overwrite, DryRun := false, Config := cfg }

/-- Options of a plain `Restore` of `name` under `cfg`. -/
def restoreOpts (cfg : Config) (name : String) : RestoreOptions :=
  { Name := name, DryRun := false, Force := false, Config := cfg }

/-- The state after `Save("ctx-a")` on `demoFS`. -/
def demoSavedFS : FS := (Save demoEnv (saveOpts demoCfg "ctx-a" false) demoFS).1

/-- A scope whose extra file carries a tag outside `isExtraFileSource`. -/
def notesScope : Scope :=
  { ScopeType := ScopeProject
    DotClaudeDir := ["p", ".claude"]
    ExtraFiles := [{ Path := ["p", "NOTES.md"], Tag := "notes" }]
    StorageDir := ["p", ".claudectx"]
    IncludePatterns := DefaultProjectIncludePatterns
    ExcludePatterns := DefaultProjectExcludePatterns }

/-- The entry `Save` records for the extra file of `notesScope`. -/
def notesEntry : FileEntry :=
  { RelPath := ["NOTES.md"], Size := 5, Mode := 0o644, Checksum := "", Source := "notes" }

/-- A snapshot directory holding the payload of `notesEntry`. -/
def notesFS : FS :=
  [(["p"], .dir), (["p", ".claude"], .dir), (["p", ".claudectx"], .dir),
   (["p", ".claudectx", "contexts"], .dir), (["p", ".claudectx", "contexts", "n"], .dir),
   (["p", ".claudectx", "contexts", "n", "NOTES.md"], .file (.raw "notes") 0o644)]

/-- Three entries for a replay under the project scope: an extra file the scope defines,
an extra-file tag it does not define, and a managed file. -/
def replayEntries : List FileEntry :=
  [{ RelPath := ["CLAUDE.md"], Size := 6, Mode := 420, Checksum := "# Root",
     Source := "claudemd" },
   { RelPath := ["claude.json"], Size := 0, Mode := 0, Checksum := "", Source := "claudejson" },
   { RelPath := ["dotclaude", "sub", "x"], Size := 1, Mode := 420, Checksum := "x",
     Source := "dotclaude" }]

/-- The directory tree of `TestWalkFiltered`, below the root `r`. -/
def walkTestFS : FS :=
  [(["r"], .dir),
   (["r", "settings.json"], .file (.raw "theme dark") 0o644),
   (["r", "settings.local.json"], .file (.raw "local true") 0o644),
   (["r", "debug"], .dir),
   (["r", "debug", "log.txt"], .file (.raw "debug data") 0o644),
   (["r", "plugins"], .dir),
   (["r", "plugins", "blocklist.json"], .file (.raw "[]") 0o644),
   (["r", "plugins", "cache"], .dir),
   (["r", "plugins", "cache", "big.json"], .file (.raw "cached") 0o644),
   (["r", "projects"], .dir),
   (["r", "projects", "myproj"], .dir),
   (["r", "projects", "myproj", "memory"], .dir),
   (["r", "projects", "myproj", "memory", "MEMORY.md"], .file (.raw "# Memory") 0o644),
   (["r", "projects", "myproj", "session.jsonl"], .file (.raw "session") 0o644),
   (["r", "projects", "myproj", "memory", "patterns.md"], .file (.raw "patterns") 0o644)]

/-- The include patterns of `TestWalkFiltered`. -/
def walkTestIncludes : List String :=
  ["settings.json", "settings.local.json", "plugins/blocklist.json", "projects/*/memory/**"]

/-- The exclude patterns of `TestWalkFiltered`. -/
def walkTestExcludes : List String :=
  ["debug/**", "plugins/cache/**", "projects/*/*.jsonl"]

/-- The state after `Save("dup")` on `demoFS`. -/
def dupSavedFS : FS := (Save demoEnv (saveOpts demoCfg "dup" false) demoFS).1

/-- The state `dupSavedFS` after the live file `.claude/sub/x` was deleted. -/
def dupEditedFS : FS := (Remove dupSavedFS ["p", ".claude", "sub", "x"]).1

/-- The state `dupSavedFS` with a directory in the place of the live `CLAUDE.md`. -/
def dupBlockedFS : FS := put dupSavedFS ["p", "CLAUDE.md"] .dir

/-- Options of `Save("dup")` with overwrite, as a dry run. -/
def dupDryRunOpts : SaveOptions :=
  { Name := "dup", Description := "", Overwrite := true, DryRun := true, Config := demoCfg }

/-- A snapshot collection with a snapshot `work`, a directory `orphan` without a
manifest (it holds a stray file) and a directory `broken` whose `manifest.json` is not
a JSON document. -/
def listFS : FS :=
  [(["s"], .dir), (["s", "contexts"], .dir),
   (["s", "contexts", "work"], .dir),
   (["s", "contexts", "work", "manifest.json"],
     .file (.manifest { Name := "work", Description := "", CreatedAt := 1, UpdatedAt := 1,
                        Files := [], TotalSize := 0, Checksum := "", OAuthEmail := "",
                        Scope := "" }) 0o600),
   (["s", "contexts", "orphan"], .dir),
   (["s", "contexts", "orphan", "CLAUDE.md"], .file (.raw "# stray") 0o644),
   (["s", "contexts", "broken"], .dir),
   (["s", "contexts", "broken", "manifest.json"], .file (.raw "not json") 0o600)]

/-- A live project tree with a file the default project patterns exclude
(`cache/.DS_Store`). -/
def clearFS : FS :=
  [(["p"], .dir), (["p", ".claude"], .dir),
   (["p", "CLAUDE.md"], .file (.raw "# Root") 0o644),
   (["p", ".claude", "settings.json"], .file (.raw "theme dark") 0o600),
   (["p", ".claude", "cache"], .dir),
   (["p", ".claude", "cache", ".DS_Store"], .file (.raw "junk") 0o644),
   (["p", ".claude", "sub"], .dir),
   (["p", ".claude", "sub", "x"], .file (.raw "x") 0o644)]

/-- A manifest without a scope (a legacy record) that lists `replayEntries`. -/
def legacyManifest : Manifest :=
  { Name := "legacy", Description := "", CreatedAt := 1, UpdatedAt := 1,
    Files := replayEntries, TotalSize := 7, Checksum := "", OAuthEmail := "", Scope := "" }

/-- A project tree with the snapshot `legacy`: the manifest `legacyManifest` and a
payload file for each of its entries. -/
def legacyFS : FS :=
  [(["p"], .dir), (["p", ".claude"], .dir), (["p", ".claudectx"], .dir),
   (["p", ".claudectx", "contexts"], .dir),
   (["p", ".claudectx", "contexts", "legacy"], .dir),
   (["p", ".claudectx", "contexts", "legacy", "manifest.json"],
     .file (.manifest legacyManifest) 0o600),
   (["p", ".claudectx", "contexts", "legacy", "CLAUDE.md"], .file (.raw "# Root") 0o644),
   (["p", ".claudectx", "contexts", "legacy", "claude.json"], .file (.raw "user") 0o600),
   (["p", ".claudectx", "contexts", "legacy", "dotclaude"], .dir),
   (["p", ".claudectx", "contexts", "legacy", "dotclaude", "sub"], .dir),
   (["p", ".claudectx", "contexts", "legacy", "dotclaude", "sub", "x"],
     .file (.raw "x") 0o644)]

/-- Options of a dry run of `Restore` of `name` under `cfg`. -/
def restoreDryOpts (cfg : Config) (name : String) : RestoreOptions :=
  { Name := name, DryRun := true, Force := false, Config := cfg }

/-- A project configuration whose storage root lies inside the managed directory
(`storageDir` set to `p/.claude/store`). -/
def nestedCfg : Config :=
  configOf { ScopeType := ScopeProject
             DotClaudeDir := ["p", ".claude"]
             ExtraFiles := [{ Path := ["p", "CLAUDE.md"], Tag := "claudemd" }]
             StorageDir := ["p", ".claude", "store"]
             IncludePatterns := DefaultProjectIncludePatterns
             ExcludePatterns := DefaultProjectExcludePatterns }

/-- Options of a dry run of `Save` of `name` under `cfg`. -/
def saveDryOpts (cfg : Config) (name : String) : SaveOptions :=
  { Name := name, Description := "", Overwrite := false, DryRun := true, Config := cfg }

/-- A git repository at `p` whose `.gitignore` lacks a final newline, as in
`TestEnsureGitignore_AppendsToExistingWithoutTrailingNewline`. -/
def gitFS : FS :=
  [(["p"], .dir), (["p", ".git"], .dir), (["p", ".claude"], .dir),
   (["p", ".gitignore"], .file (.raw "node_modules/\n.env") 0o600)]

/-- A clock reading earlier than the one of `demoEnv`. -/
def earlyEnv : Env := { demoEnv with now := 3 }

/-- The project tree after `Save("ctx-b")` and then, at the earlier time, a save of
`ctx-a` with a description: `ctx-a` is active and carries the description `work`. -/
def describedFS : FS :=
  (Save earlyEnv { Name := "ctx-a", Description := "work", Overwrite := false,
                   DryRun := false, Config := demoCfg }
    (Save demoEnv (saveOpts demoCfg "ctx-b" false) demoFS).1).1

/-! ## Assumptions on a configuration -/

/-- The storage root and the live locations lie apart: the managed directory and the
storage root do not contain one another, and no extra file lies below the storage root. -/
def Separated (cfg : Config) : Prop :=
  ¬ cfg.StorageDir <+: cfg.Scope.DotClaudeDir ∧ ¬ cfg.Scope.DotClaudeDir <+: cfg.StorageDir ∧
    ∀ ef ∈ cfg.Scope.ExtraFiles, ¬ cfg.StorageDir <+: ef.Path

instance (cfg : Config) : Decidable (Separated cfg) := by
  unfold Separated; infer_instance

/-- The extra files of the scope carry tags that `isExtraFileSource` knows, no tag
twice; extra files stored under the same base name are the same file, and none is
stored under the name of the manifest. -/
def ExtraFilesOK (scope : Scope) : Prop :=
  (∀ ef ∈ scope.ExtraFiles, isExtraFileSource ef.Tag = true) ∧
    (scope.ExtraFiles.map (fun ef => ef.Tag)).Nodup ∧
    (∀ ef ∈ scope.ExtraFiles, ∀ ef' ∈ scope.ExtraFiles,
      baseName ef.Path = baseName ef'.Path → ef.Path = ef'.Path) ∧
    ∀ ef ∈ scope.ExtraFiles, baseName ef.Path ≠ "manifest.json"

instance (scope : Scope) : Decidable (ExtraFilesOK scope) := by
  unfold ExtraFilesOK; infer_instance

/-- A name a directory entry can have: not empty, not `.` or `..`, without `/`. -/
def properName (s : String) : Prop :=
  s.data ≠ [] ∧ s.data ≠ ['.'] ∧ s.data ≠ ['.', '.'] ∧ '/' ∉ s.data

instance (s : String) : Decidable (properName s) := by
  unfold properName; infer_instance

/-- Every path of the file system is made of names directory entries can have. -/
def ProperNames (fs : FS) : Prop :=
  ∀ e ∈ fs, ∀ s ∈ e.1, properName s

instance (fs : FS) : Decidable (ProperNames fs) := by
  unfold ProperNames; infer_instance

/-- A clean relative path by segments: not empty, and every segment is a proper name;
its text has no `..` segment and does not begin with `/`. -/
def CleanRel (p : Path) : Prop :=
  p ≠ [] ∧ ∀ s ∈ p, properName s

instance (p : Path) : Decidable (CleanRel p) := by
  unfold CleanRel; infer_instance

/-- The live path `l` is what `Save` captures in state `fs`: the path of an extra file,
or a path below the managed directory that the walker selects. -/
def Captured (cfg : Config) (fs : FS) (l : Path) : Prop :=
  (∃ ef ∈ cfg.Scope.ExtraFiles, ef.Path = l) ∨
    (stat fs cfg.Scope.DotClaudeDir = some .dir ∧ cfg.Scope.DotClaudeDir <+: l ∧
      l ≠ cfg.Scope.DotClaudeDir ∧
      selected cfg.IncludePatterns cfg.ExcludePatterns
        (relString (l.drop cfg.Scope.DotClaudeDir.length)) = true)

instance (cfg : Config) (fs : FS) (l : Path) : Decidable (Captured cfg fs l) := by
  unfold Captured; infer_instance

/-- Where an entry of a manifest written by `Save` comes from: the extra file at `l`, or
the managed file at `l`. -/
def EntryOf (scope : Scope) (e : FileEntry) (l : Path) : Prop :=
  (∃ ef ∈ scope.ExtraFiles, ef.Path = l ∧ e.RelPath = [baseName l] ∧ e.Source = ef.Tag) ∨
    (scope.DotClaudeDir <+: l ∧ l ≠ scope.DotClaudeDir ∧
      e.RelPath = "dotclaude" :: l.drop scope.DotClaudeDir.length ∧ e.Source = "dotclaude")

/-- The configuration of `notesScope`, no config file. -/
def notesCfg : Config := LoadWithScope none notesScope

/-- A live tree for `notesScope`: the extra file `NOTES.md` and an empty `.claude`. -/
def notesLiveFS : FS :=
  [(["p"], .dir), (["p", ".claude"], .dir),
   (["p", "NOTES.md"], .file (.raw "notes") 0o644)]

/-- A scope with two extra files of the same base name in different directories. -/
def twinScope : Scope :=
  { ScopeType := ScopeProject
    DotClaudeDir := ["p", ".claude"]
    ExtraFiles := [{ Path := ["p", "a", "CLAUDE.md"], Tag := "claudemd" },
                   { Path := ["p", "b", "CLAUDE.md"], Tag := "mcpjson" }]
    StorageDir := ["p", ".claudectx"]
    IncludePatterns := DefaultProjectIncludePatterns
    ExcludePatterns := DefaultProjectExcludePatterns }

/-- The configuration of `twinScope`, no config file. -/
def twinCfg : Config := LoadWithScope none twinScope

/-- A live tree for `twinScope`. -/
def twinLiveFS : FS :=
  [(["p"], .dir), (["p", ".claude"], .dir), (["p", "a"], .dir), (["p", "b"], .dir),
   (["p", "a", "CLAUDE.md"], .file (.raw "A") 0o644),
   (["p", "b", "CLAUDE.md"], .file (.raw "B") 0o644)]

/-- The state after `Save(name)` and then `Restore(name)` under `cfg`, from `fs`. -/
def saveThenRestore (cfg : Config) (name : String) (fs : FS) : FS :=
  (Restore demoEnv (restoreOpts cfg name) (Save demoEnv (saveOpts cfg name false) fs).1).1

/-- The project tree after `Save("ctx-b")` and then `Save("ctx-a")`: both snapshots
exist and the current pointer names `ctx-a`. -/
def switchFS : FS :=
  (Save demoEnv (saveOpts demoCfg "ctx-a" false)
    (Save demoEnv (saveOpts demoCfg "ctx-b" false) demoFS).1).1

/-- The state `switchFS` after the live file `.claude/sub/x` was edited. -/
def switchEditedFS : FS := put switchFS ["p", ".claude", "sub", "x"] (.file (.raw "x2") 0o644)

/-- The state `switchEditedFS` with an empty directory in the place of the live `CLAUDE.md`. -/
def switchBlockedFS : FS := put switchEditedFS ["p", "CLAUDE.md"] .dir

/-- Options of `Restore(name)` under `cfg` with `--force`. -/
def restoreForceOpts (cfg : Config) (name : String) : RestoreOptions :=
  { Name := name, DryRun := false, Force := true, Config := cfg }

/-- The tree of `notesScope` after `Save("b")`, `Save("a")` and an edit of `NOTES.md`. -/
def notesEditedFS : FS :=
  put (Save demoEnv (saveOpts notesCfg "a" false)
    (Save demoEnv (saveOpts notesCfg "b" false) notesLiveFS).1).1
    ["p", "NOTES.md"] (.file (.raw "edited") 0o644)

/-- A user-type scope that manages `settings.json` only. -/
def settingsScope : Scope :=
  { ScopeType := ScopeUser
    DotClaudeDir := ["p", ".claude"]
    ExtraFiles := [{ Path := ["p", ".claude.json"], Tag := "claudejson" }]
    StorageDir := ["p", ".claudectx"]
    IncludePatterns := ["settings.json"]
    ExcludePatterns := [] }

/-- The configuration `LoadWithScope` builds for `settingsScope` from a `config.json`
that sets `includePatterns` to `settings.json` and `notes.md`. -/
def notesIncludedCfg : Config :=
  LoadWithScope (some { storageDir := [], includePatterns := ["settings.json", "notes.md"],
                        excludePatterns := [] }) settingsScope

/-- The same scope with `notes.md` among its own include patterns, and no config file. -/
def notesInScopeCfg : Config :=
  LoadWithScope none { settingsScope with IncludePatterns := ["settings.json", "notes.md"] }

/-- A live tree with `.claude/settings.json` and `.claude/notes.md`. -/
def staleLiveFS : FS :=
  [(["p"], .dir), (["p", ".claude"], .dir),
   (["p", ".claude", "settings.json"], .file (.raw "a") 0o644),
   (["p", ".claude", "notes.md"], .file (.raw "n") 0o644)]

/-- The scenario of `TestSwitchClearsStaleFiles` under `cfg`: save `ctx-a` with
`notes.md`, delete `notes.md` and edit `settings.json`, save `ctx-b`, then restore `ctx-a`
and restore `ctx-b`.  Returns the final state and the results of the two restores. -/
def staleScenario (cfg : Config) :
    FS × Except Err RestoreResult × Except Err RestoreResult :=
  let s1 := (Save demoEnv (saveOpts cfg "ctx-a" false) staleLiveFS).1
  let s2 := put (Remove s1 ["p", ".claude", "notes.md"]).1 ["p", ".claude", "settings.json"]
    (.file (.raw "b") 0o644)
  let s3 := (Save demoEnv (saveOpts cfg "ctx-b" false) s2).1
  let r1 := Restore demoEnv (restoreOpts cfg "ctx-a") s3
  let r2 := Restore demoEnv (restoreOpts cfg "ctx-b") r1.1
  (r2.1, r1.2, r2.2)

/-- The relPaths recorded in the manifest of a snapshot, `[]` when it cannot be read. -/
def recordedPaths (fs : FS) (cfg : Config) (slug : String) : List Path :=
  match ReadManifest fs (cfg.ContextsDir ++ [slug]) with
  | some m => m.Files.map (fun e => e.RelPath)
  | none => []

/-- The tree after `Save("ctx-b")` with a hand-made snapshot directory `My Ctx`, the
current pointer edited to name it, and a regular file in the place of `backups`. -/
def forgedFS : FS :=
  put (put (put (put (Save demoEnv (saveOpts demoCfg "ctx-b" false) demoFS).1
    ["p", ".claudectx", "contexts", "My Ctx"] .dir)
    ["p", ".claudectx", "contexts", "My Ctx", "manifest.json"]
      (.file (.manifest { Name := "My Ctx", Description := "", CreatedAt := 1, UpdatedAt := 1,
                          Files := [], TotalSize := 0, Checksum := "", OAuthEmail := "",
                          Scope := ScopeProject }) 0o600))
    ["p", ".claudectx", "current"] (.file (.raw "My Ctx\n") 0o644))
    ["p", ".claudectx", "backups"] (.file (.raw "") 0o644)

/-- The state `switchFS` with a regular file in the place of `backups`. -/
def noBackupFS : FS := put switchEditedFS ["p", ".claudectx", "backups"] (.file (.raw "") 0o644)

/-- A clock reading one second after the one of `demoEnv`. -/
def laterEnv : Env := { demoEnv with now := 8 }

/-- A managed directory with an empty directory, a directory nested in it, and a
directory that holds a file. -/
def pruneFS : FS :=
  [(["p"], .dir), (["p", ".claude"], .dir), (["p", ".claude", "empty"], .dir),
   (["p", ".claude", "empty", "deep"], .dir), (["p", ".claude", "keep"], .dir),
   (["p", ".claude", "keep", "f"], .file (.raw "f") 0o644)]

/-- A project whose storage root lies inside the managed directory (`nestedCfg`), with
the snapshots `a` (active, described as `work`, created at time 3) and `b`, both with
an empty file list. -/
def nestedFS : FS :=
  [(["p"], .dir), (["p", ".claude"], .dir),
   (["p", "CLAUDE.md"], .file (.raw "# Root") 0o644),
   (["p", ".claude", "store"], .dir),
   (["p", ".claude", "store", "current"], .file (.raw "a\n") 0o644),
   (["p", ".claude", "store", "contexts"], .dir),
   (["p", ".claude", "store", "contexts", "a"], .dir),
   (["p", ".claude", "store", "contexts", "a", "manifest.json"],
     .file (.manifest { Name := "a", Description := "work", CreatedAt := 3, UpdatedAt := 3,
                        Files := [], TotalSize := 0, Checksum := "", OAuthEmail := "",
                        Scope := "project" }) 0o600),
   (["p", ".claude", "store", "contexts", "b"], .dir),
   (["p", ".claude", "store", "contexts", "b", "manifest.json"],
     .file (.manifest { Name := "b", Description := "", CreatedAt := 1, UpdatedAt := 1,
                        Files := [], TotalSize := 0, Checksum := "", OAuthEmail := "",
                        Scope := "project" }) 0o600)]

/-- The destination `restoreCopy` computes for an entry, from the text of its relPath:
the path of the extra file with the entry's tag, or
`filepath.Join(scope.DotClaudeDir, strings.TrimPrefix(entry.RelPath, "dotclaude/"))`,
which `filepath.Join` cleans; `none` when the entry is skipped. -/
def restoreTarget (scope : Scope) (entry : FileEntry) : Option Path :=
  if isExtraFileSource entry.Source then
    match scope.ExtraFileByTag entry.Source with
    | none => none
    | some ef => some ef.Path
  else some (managedDest scope.DotClaudeDir (relPathString entry.RelPath))

/-- The loop of `restoreCopy` with both paths of an entry joined as `filepath.Join`
joins them, on the text of the relPath: the source is
`filepath.Join(contextDir, entry.RelPath)`, the destination `restoreTarget`. -/
def restoreCopyJoin (contextDir : Path) (scope : Scope) :
    List FileEntry → FS → Nat → FS × Except String Nat
  | [], fs, restored => (fs, .ok restored)
  | entry :: rest, fs, restored =>
    match restoreTarget scope entry with
    | none => restoreCopyJoin contextDir scope rest fs restored
    | some dstPath =>
      let r := CopyFile fs (filepathJoin contextDir (relPathString entry.RelPath)) dstPath
      if r.2 = false then (r.1, .error (relPathString entry.RelPath))
      else restoreCopyJoin contextDir scope rest r.1 (restored + 1)

/-- A manifest entry made by hand whose relPath climbs out of the managed directory. -/
def climbingEntry : FileEntry :=
  { RelPath := ["dotclaude", "..", "..", "x"], Size := 1, Mode := 0o644, Checksum := "",
    Source := "dotclaude" }

/-! ## Theorems -/

/-! ### Slugify -/

theorem toNat_ofNat_upper (n : Nat) (h1 : 0x41 ≤ n) (h2 : n ≤ 0x5A) :
    (Char.ofNat (n + 32)).toNat = n + 32 := by
  interval_cases n <;> rfl

theorem isSpace_toLowerRune (c : Char) : isSpace (toLowerRune c) = isSpace c := by
  unfold toLowerRune
  simp only
  split_ifs with h1 h2 h3
  · have e := toNat_ofNat_upper c.toNat h1.1 h1.2
    have : isSpace c = false := by
      unfold isSpace
      simp only [Bool.or_eq_false_iff, Bool.and_eq_false_iff, decide_eq_false_iff_not]
      omega
    rw [this]
    unfold isSpace
    simp only [e, Bool.or_eq_false_iff, Bool.and_eq_false_iff, decide_eq_false_iff_not]
    omega
  · have : isSpace c = false := by
      unfold isSpace
      simp only [Bool.or_eq_false_iff, Bool.and_eq_false_iff, decide_eq_false_iff_not]
      omega
    rw [this]; rfl
  · have : isSpace c = false := by
      unfold isSpace
      simp only [Bool.or_eq_false_iff, Bool.and_eq_false_iff, decide_eq_false_iff_not]
      omega
    rw [this]; rfl
  · rfl

theorem trimBoth_map (p : Char → Bool) (f : Char → Char) (l : List Char) :
    trimBoth p (l.map f) = (trimBoth (p ∘ f) l).map f := by
  simp [trimBoth, List.dropWhile_map, ← List.map_reverse]

theorem trimSpace_lower (l : List Char) :
    (trimBoth isSpace l).map toLowerRune = trimBoth isSpace (l.map toLowerRune) := by
  rw [trimBoth_map]
  have : (isSpace ∘ toLowerRune) = isSpace := funext isSpace_toLowerRune
  rw [this]

theorem replaceRunsAux_true (l : List Char) :
    replaceRunsAux true l = replaceRunsAux false (l.dropWhile (fun d => !slugChar d)) := by
  induction l with
  | nil => rfl
  | cons c cs ih =>
    by_cases h : slugChar c = true
    · simp [replaceRunsAux, List.dropWhile, h]
    · simp only [Bool.not_eq_true] at h
      simp [replaceRunsAux, List.dropWhile, h, ih]

theorem replaceRunsAux_eq_collapseRuns (n : Nat) :
    ∀ l : List Char, l.length ≤ n → replaceRunsAux false l = collapseRuns l := by
  induction n with
  | zero =>
    intro l hl
    have : l = [] := List.length_eq_zero.mp (Nat.le_zero.mp hl)
    subst this
    simp [replaceRunsAux, collapseRuns]
  | succ n ih =>
    intro l hl
    cases l with
    | nil => simp [replaceRunsAux, collapseRuns]
    | cons c cs =>
      have hcs : cs.length ≤ n := by simpa using hl
      rw [collapseRuns]
      by_cases h : slugChar c = true
      · simp [replaceRunsAux, h, ih cs hcs]
      · simp only [Bool.not_eq_true] at h
        have hd : (cs.dropWhile (fun d => !slugChar d)).length ≤ n :=
          le_trans (List.dropWhile_sublist _).length_le hcs
        simp [replaceRunsAux, h, replaceRunsAux_true, ih _ hd]

/-- C9. For every name, `Slugify` equals the reference normalisation of the spec
(lowercase, trim surrounding whitespace, collapse every run of characters outside
`[a-z0-9-]` to one `-`, trim leading and trailing `-`), and the four examples hold. -/
theorem Slugify_eq_spec :
    (∀ name : String, Slugify name = SlugifySpec name) ∧
      Slugify "My Work" = "my-work" ∧ Slugify "UPPER_CASE" = "upper-case" ∧
      Slugify "multiple---dashes" = "multiple---dashes" ∧ Slugify "   " = "" := by
  refine ⟨?_, by decide, by decide, by decide, by decide⟩
  intro name
  simp only [Slugify, SlugifySpec]
  rw [trimSpace_lower, replaceRunsAux_eq_collapseRuns _ _ le_rfl]

/-! ### ManifestChecksum -/

theorem split_at_first {a : Char} :
    ∀ {x₁ x₂ z₁ z₂ : List Char}, a ∉ x₁ → a ∉ x₂ → x₁ ++ a :: z₁ = x₂ ++ a :: z₂ →
      x₁ = x₂ ∧ z₁ = z₂ := by
  intro x₁
  induction x₁ with
  | nil =>
    intro x₂ z₁ z₂ _ h2 h
    cases x₂ with
    | nil => simpa using h
    | cons b bs =>
      simp only [List.nil_append, List.cons_append, List.cons.injEq] at h
      exact absurd (h.1 ▸ List.mem_cons_self _ _) h2
  | cons c cs ih =>
    intro x₂ z₁ z₂ h1 h2 h
    cases x₂ with
    | nil =>
      simp only [List.nil_append, List.cons_append, List.cons.injEq] at h
      exact absurd (h.1 ▸ List.mem_cons_self _ _) h1
    | cons b bs =>
      simp only [List.cons_append, List.cons.injEq] at h
      have := ih (fun hm => h1 (List.mem_cons_of_mem _ hm))
        (fun hm => h2 (List.mem_cons_of_mem _ hm)) h.2
      exact ⟨by rw [h.1, this.1], this.2⟩

theorem split_at_last {a : Char} {x₁ x₂ z₁ z₂ : List Char} (h1 : a ∉ z₁) (h2 : a ∉ z₂)
    (h : x₁ ++ a :: z₁ = x₂ ++ a :: z₂) : x₁ = x₂ ∧ z₁ = z₂ := by
  have hr := congrArg List.reverse h
  simp only [List.reverse_append, List.reverse_cons, List.append_assoc,
    List.singleton_append] at hr
  have := split_at_first (by simpa using h1) (by simpa using h2) hr
  exact ⟨List.reverse_injective this.2, List.reverse_injective this.1⟩

theorem checksumLine_inj {f g : FileEntry} {r₁ r₂ : List Char} (hf : lineSafe f)
    (hg : lineSafe g) (h : checksumLine f ++ r₁ = checksumLine g ++ r₂) :
    checksumKey f = checksumKey g ∧ r₁ = r₂ := by
  obtain ⟨hf1, hf2, hf3⟩ := hf
  obtain ⟨hg1, hg2, hg3⟩ := hg
  have h' : ((relPathString f.RelPath).data ++ ':' :: f.Checksum.data) ++ '\n' :: r₁ =
      ((relPathString g.RelPath).data ++ ':' :: g.Checksum.data) ++ '\n' :: r₂ := by
    simpa [checksumLine] using h
  have hnl : ∀ (p c : List Char), '\n' ∉ p → '\n' ∉ c → '\n' ∉ p ++ ':' :: c := by
    intro p c hp hc hm
    rcases List.mem_append.mp hm with hm | hm
    · exact hp hm
    · rcases List.mem_cons.mp hm with hm | hm
      · exact absurd hm (by decide)
      · exact hc hm
  obtain ⟨hl, hr⟩ := split_at_first (hnl _ _ hf1 hf2) (hnl _ _ hg1 hg2) h'
  obtain ⟨hp, hc⟩ := split_at_last hf3 hg3 hl
  refine ⟨?_, hr⟩
  simp only [checksumKey, Prod.mk.injEq]
  exact ⟨String.ext hp, String.ext hc⟩

theorem checksumLine_ne_nil (f : FileEntry) (r : List Char) : checksumLine f ++ r ≠ [] := by
  simp [checksumLine]

theorem checksumInput_keys :
    ∀ fs₁ fs₂ : List FileEntry, (∀ f ∈ fs₁, lineSafe f) → (∀ f ∈ fs₂, lineSafe f) →
      checksumInput fs₁ = checksumInput fs₂ → fs₁.map checksumKey = fs₂.map checksumKey := by
  intro fs₁
  induction fs₁ with
  | nil =>
    intro fs₂ _ _ h
    cases fs₂ with
    | nil => rfl
    | cons g gs => exact absurd h.symm (checksumLine_ne_nil g _)
  | cons f fs ih =>
    intro fs₂ h1 h2 h
    cases fs₂ with
    | nil => exact absurd h (checksumLine_ne_nil f _)
    | cons g gs =>
      obtain ⟨hk, hr⟩ := checksumLine_inj (h1 f (List.mem_cons_self _ _))
        (h2 g (List.mem_cons_self _ _)) h
      have := ih gs (fun x hx => h1 x (List.mem_cons_of_mem _ hx))
        (fun x hx => h2 x (List.mem_cons_of_mem _ hx)) hr
      simp [hk, this]

/-- C8, counterexample. Two entry lists with different `(relPath, checksum)` sequences
for which `ManifestChecksum` hashes the same bytes, hence returns the same checksum
whatever the hash function is: a checksum text may hold a line break and a colon. -/
theorem ManifestChecksum_collision :
    collisionOne.map checksumKey ≠ collisionTwo.map checksumKey ∧
      checksumInput collisionOne = checksumInput collisionTwo ∧
      ∀ env : Env, ManifestChecksum env collisionOne = ManifestChecksum env collisionTwo := by
  refine ⟨by decide, by decide, fun env => ?_⟩
  have h : checksumInput collisionOne = checksumInput collisionTwo := by decide
  simp only [ManifestChecksum, h]

/-- C8, amended. When no path text holds a line break and no checksum text holds a
line break or a colon, two entry lists whose ordered `(relPath, checksum)` sequences
differ make `ManifestChecksum` hash different bytes, and the checksums differ for every
hash function without collisions. -/
theorem ManifestChecksum_sensitive (fs₁ fs₂ : List FileEntry)
    (h1 : ∀ f ∈ fs₁, lineSafe f) (h2 : ∀ f ∈ fs₂, lineSafe f)
    (hne : fs₁.map checksumKey ≠ fs₂.map checksumKey) :
    checksumInput fs₁ ≠ checksumInput fs₂ ∧
      ∀ env : Env, Function.Injective env.sha256hex →
        ManifestChecksum env fs₁ ≠ ManifestChecksum env fs₂ := by
  have hin : checksumInput fs₁ ≠ checksumInput fs₂ :=
    fun h => hne (checksumInput_keys fs₁ fs₂ h1 h2 h)
  refine ⟨hin, fun env hinj h => hin ?_⟩
  have := hinj h
  exact congrArg String.data this

/-- C8, witness: the two lists of `TestManifestChecksum`. -/
theorem ManifestChecksum_sensitive_witness :
    checksumInput testFilesOne ≠ checksumInput testFilesTwo ∧
      ∀ env : Env, Function.Injective env.sha256hex →
        ManifestChecksum env testFilesOne ≠ ManifestChecksum env testFilesTwo :=
  ManifestChecksum_sensitive testFilesOne testFilesTwo (by decide) (by decide) (by decide)

/-! ### File system primitives -/

theorem stat_mem {fs : FS} {p : Path} {n : Node} (h : stat fs p = some n) : (p, n) ∈ fs := by
  induction fs with
  | nil => simp [stat] at h
  | cons e rest ih =>
    obtain ⟨q, k⟩ := e
    by_cases hq : q = p
    · simp only [stat, hq, if_true, Option.some.injEq] at h
      simp [hq, h]
    · simp only [stat, hq, if_false] at h
      exact List.mem_cons_of_mem _ (ih h)

theorem mem_stat {fs : FS} {p : Path} {n : Node} (h : (p, n) ∈ fs) : ∃ k, stat fs p = some k := by
  induction fs with
  | nil => simp at h
  | cons e rest ih =>
    obtain ⟨q, k⟩ := e
    by_cases hq : q = p
    · exact ⟨k, by simp [stat, hq]⟩
    · have : (p, n) ∈ rest := by
        rcases List.mem_cons.mp h with h | h
        · exact absurd (congrArg Prod.fst h).symm hq
        · exact h
      obtain ⟨k', hk⟩ := ih this
      exact ⟨k', by simp [stat, hq, hk]⟩

theorem stat_filter (fs : FS) (f : Path → Bool) (p : Path) :
    stat (fs.filter (fun e => f e.1)) p = if f p then stat fs p else none := by
  induction fs with
  | nil => simp [stat]
  | cons e rest ih =>
    obtain ⟨q, k⟩ := e
    by_cases hf : f q = true
    · simp only [List.filter_cons, hf, if_true, stat]
      by_cases hq : q = p
      · subst hq; simp [hf]
      · simp [hq, ih]
    · simp only [Bool.not_eq_true] at hf
      simp only [List.filter_cons, hf, stat]
      by_cases hq : q = p
      · subst hq; simp [hf, ih]
      · simp [hq, ih]

theorem stat_erase (fs : FS) (p q : Path) :
    stat (erase fs p) q = if q = p then none else stat fs q := by
  have := stat_filter fs (fun x => decide (x ≠ p)) q
  simp only [erase, this]
  by_cases h : q = p <;> simp [h]

theorem stat_put (fs : FS) (p q : Path) (n : Node) :
    stat (put fs p n) q = if q = p then some n else stat fs q := by
  by_cases h : q = p
  · simp [put, stat, h]
  · have h' : ¬ p = q := fun e => h e.symm
    simp [put, stat, h, h', stat_erase]

theorem stat_RemoveAll (fs : FS) (p q : Path) :
    stat (RemoveAll fs p) q = if p <+: q then none else stat fs q := by
  have := stat_filter fs (fun x => !(p.isPrefixOf x)) q
  simp only [RemoveAll, this]
  by_cases h : p <+: q
  · simp [h, List.isPrefixOf_iff_prefix]
  · simp [h, List.isPrefixOf_iff_prefix]

theorem fileAt_eq_of_stat {fs fs' : FS} {p : Path} (h : stat fs' p = stat fs p) :
    fileAt fs' p = fileAt fs p := by
  simp [fileAt, h]

theorem fileAt_put (fs : FS) (p q : Path) (c : Content) (m : Nat) :
    fileAt (put fs p (.file c m)) q = if q = p then some (c, m) else fileAt fs q := by
  by_cases h : q = p <;> simp [fileAt, stat_put, h]

theorem fileAt_RemoveAll (fs : FS) (p q : Path) :
    fileAt (RemoveAll fs p) q = if p <+: q then none else fileAt fs q := by
  by_cases h : p <+: q <;> simp [fileAt, stat_RemoveAll, h]

/-- What `mkdirFrom` changes: only missing paths that are prefixes of the target become
directories. -/
theorem stat_mkdirFrom :
    ∀ (rest pre : Path) (fs fs' : FS), mkdirFrom fs pre rest = some fs' →
      ∀ q, stat fs' q = stat fs q ∨
        (stat fs q = none ∧ stat fs' q = some .dir ∧ q <+: pre ++ rest ∧ pre.length < q.length) := by
  intro rest
  induction rest with
  | nil =>
    intro pre fs fs' h q
    simp only [mkdirFrom, Option.some.injEq] at h
    subst h
    exact Or.inl rfl
  | cons s rest ih =>
    intro pre fs fs' h q
    have hpre : (pre ++ [s]) ++ rest = pre ++ s :: rest := by simp
    simp only [mkdirFrom] at h
    split at h
    · exact absurd h (by simp)
    · rcases ih _ _ _ h q with h1 | ⟨h1, h2, h3, h4⟩
      · exact Or.inl h1
      · refine Or.inr ⟨h1, h2, hpre ▸ h3, ?_⟩
        simp at h4; omega
    · rename_i hnone
      rcases ih _ _ _ h q with h1 | ⟨h1, h2, h3, h4⟩
      · by_cases hq : pre ++ [s] = q
        · subst hq
          refine Or.inr ⟨hnone, ?_, ?_, by simp⟩
          · rw [h1]; simp [stat]
          · rw [← hpre]; exact List.prefix_append _ _
        · left; rw [h1]; simp [stat, hq]
      · by_cases hq : pre ++ [s] = q
        · subst hq
          simp [stat] at h1
        · refine Or.inr ⟨?_, h2, hpre ▸ h3, ?_⟩
          · simpa [stat, hq] using h1
          · simp at h4; omega

theorem stat_mkdirAll {fs fs' : FS} {p : Path} (h : mkdirAll fs p = some fs') (q : Path) :
    stat fs' q = stat fs q ∨ (stat fs q = none ∧ stat fs' q = some .dir ∧ q <+: p) := by
  rcases stat_mkdirFrom p [] fs fs' h q with h1 | ⟨h1, h2, h3, _⟩
  · exact Or.inl h1
  · exact Or.inr ⟨h1, h2, by simpa using h3⟩

theorem fileAt_mkdirAll {fs fs' : FS} {p : Path} (h : mkdirAll fs p = some fs') (q : Path) :
    fileAt fs' q = fileAt fs q := by
  rcases stat_mkdirAll h q with h1 | ⟨h1, h2, _⟩
  · exact fileAt_eq_of_stat h1
  · simp [fileAt, h1, h2]

theorem CopyFile_fileAt (fs : FS) (src dst q : Path) :
    fileAt (CopyFile fs src dst).1 q =
      if (CopyFile fs src dst).2 = true ∧ q = dst then fileAt fs src else fileAt fs q := by
  cases hs : stat fs src with
  | none => simp [CopyFile, hs]
  | some n =>
    cases n with
    | dir =>
      cases hm : mkdirAll fs dst.dropLast with
      | none => simp [CopyFile, hs, hm]
      | some fs1 => simpa [CopyFile, hs, hm] using fileAt_mkdirAll hm q
    | file c m =>
      cases hm : mkdirAll fs dst.dropLast with
      | none => simp [CopyFile, hs, hm]
      | some fs1 =>
        have hf := fileAt_mkdirAll hm q
        cases hd : stat fs1 dst with
        | none =>
          by_cases hq : q = dst
          · simp [CopyFile, hs, hm, hd, stat_put, hq, fileAt]
          · simp [CopyFile, hs, hm, hd, fileAt_put, hq, hf]
        | some k =>
          cases k with
          | dir => simpa [CopyFile, hs, hm, hd] using hf
          | file c' m' =>
            by_cases hq : q = dst
            · simp [CopyFile, hs, hm, hd, stat_put, hq, fileAt]
            · simp [CopyFile, hs, hm, hd, fileAt_put, hq, hf]

theorem CopyFile_fileAt_ne (fs : FS) {src dst q : Path} (h : q ≠ dst) :
    fileAt (CopyFile fs src dst).1 q = fileAt fs q := by
  rw [CopyFile_fileAt]; simp [h]

theorem CopyFile_fileAt_dst {fs : FS} {src dst : Path} (h : (CopyFile fs src dst).2 = true) :
    fileAt (CopyFile fs src dst).1 dst = fileAt fs src := by
  rw [CopyFile_fileAt]; simp [h]

theorem CopyFile_ok_src {fs : FS} {src dst : Path} (h : (CopyFile fs src dst).2 = true) :
    ∃ c m, fileAt fs src = some (c, m) := by
  cases hs : stat fs src with
  | none => simp [CopyFile, hs] at h
  | some n =>
    cases n with
    | dir =>
      cases hm : mkdirAll fs dst.dropLast <;> simp [CopyFile, hs, hm] at h
    | file c m => exact ⟨c, m, by simp [fileAt, hs]⟩

/-- A copy changes the node of another path only by making a missing ancestor of the
destination a directory. -/
theorem CopyFile_stat (fs : FS) (src dst q : Path) :
    stat (CopyFile fs src dst).1 q = stat fs q ∨
      (q = dst) ∨ (stat fs q = none ∧ stat (CopyFile fs src dst).1 q = some .dir ∧
        q <+: dst.dropLast) := by
  cases hs : stat fs src with
  | none => simp [CopyFile, hs]
  | some n =>
    cases n with
    | dir =>
      cases hm : mkdirAll fs dst.dropLast with
      | none => simp [CopyFile, hs, hm]
      | some fs1 =>
        rcases stat_mkdirAll hm q with h | h
        · exact Or.inl (by simpa [CopyFile, hs, hm] using h)
        · exact Or.inr (Or.inr (by simpa [CopyFile, hs, hm] using h))
    | file c m =>
      cases hm : mkdirAll fs dst.dropLast with
      | none => simp [CopyFile, hs, hm]
      | some fs1 =>
        by_cases hq : q = dst
        · exact Or.inr (Or.inl hq)
        · have hput : ∀ n, stat (put fs1 dst n) q = stat fs1 q := by
            intro n; simp [stat_put, hq]
          rcases stat_mkdirAll hm q with h | h
          · left
            cases hd : stat fs1 dst with
            | none => simp [CopyFile, hs, hm, hd, hput, h]
            | some k => cases k <;> simp [CopyFile, hs, hm, hd, hput, h]
          · right; right
            cases hd : stat fs1 dst with
            | none => simpa [CopyFile, hs, hm, hd, hput] using h
            | some k => cases k <;> simpa [CopyFile, hs, hm, hd, hput] using h

theorem Remove_stat_ne (fs : FS) {p q : Path} (h : q ≠ p) :
    stat (Remove fs p).1 q = stat fs q := by
  cases hs : stat fs p with
  | none => simp [Remove, hs]
  | some n =>
    cases n with
    | file c m => simp [Remove, hs, stat_erase, h]
    | dir =>
      by_cases ha : fs.any (fun e => p.isPrefixOf e.1 && decide (e.1 ≠ p)) = true
      · simp only [Remove, hs, ha, if_true]
      · simp only [Remove, hs, ha, if_false]
        simp [stat_erase, h]

theorem Remove_fileAt_ne (fs : FS) {p q : Path} (h : q ≠ p) :
    fileAt (Remove fs p).1 q = fileAt fs q :=
  fileAt_eq_of_stat (Remove_stat_ne fs h)

theorem Remove_stat_self {fs : FS} {p : Path} (h : (Remove fs p).2 ≠ .failed) :
    stat (Remove fs p).1 p = none := by
  cases hs : stat fs p with
  | none => simp [Remove, hs]
  | some n =>
    cases n with
    | file c m => simp [Remove, hs, stat_erase]
    | dir =>
      by_cases ha : fs.any (fun e => p.isPrefixOf e.1 && decide (e.1 ≠ p)) = true
      · simp only [Remove, hs, ha, if_true] at h
        exact absurd rfl h
      · simp only [Remove, hs, ha, if_false]
        simp [stat_erase]

/-- Removing a directory, or failing to, leaves every regular file as it was. -/
theorem Remove_fileAt_dir (fs : FS) {p : Path} (hp : fileAt fs p = none) (q : Path) :
    fileAt (Remove fs p).1 q = fileAt fs q := by
  by_cases hq : q = p
  · subst hq
    rw [hp]
    cases hs : stat fs q with
    | none => simp [Remove, fileAt, hs]
    | some n =>
      cases n with
      | file c m => simp [fileAt, hs] at hp
      | dir =>
        by_cases ha : fs.any (fun e => q.isPrefixOf e.1 && decide (e.1 ≠ q)) = true
        · simp only [Remove, hs, ha, if_true]
          simp [fileAt, hs]
        · simp only [Remove, hs, ha, if_false]
          simp [fileAt, stat_erase]
  · exact Remove_fileAt_ne fs hq

theorem WriteManifest_fileAt (fs : FS) (dir q : Path) (m : Manifest) :
    fileAt (WriteManifest fs dir m).1 q =
      if (WriteManifest fs dir m).2 = true ∧ q = manifestPath dir then
        some (.manifest m, 0o600) else fileAt fs q := by
  cases hm : mkdirAll fs dir with
  | none => simp [WriteManifest, hm]
  | some fs1 =>
    have hf := fileAt_mkdirAll hm q
    cases hd : stat fs1 (manifestPath dir) with
    | none =>
      by_cases hq : q = manifestPath dir <;> simp [WriteManifest, hm, hd, fileAt_put, hq, hf]
    | some k =>
      cases k with
      | dir => simpa [WriteManifest, hm, hd] using hf
      | file c' m' =>
        by_cases hq : q = manifestPath dir <;>
          simp [WriteManifest, hm, hd, fileAt_put, hq, hf]

theorem SetCurrent_fileAt_ne (fs : FS) (cfg : Config) (name : String) {q : Path}
    (h : q ≠ cfg.CurrentFile) : fileAt (SetCurrent fs cfg name).1 q = fileAt fs q := by
  cases hm : mkdirAll fs cfg.StorageDir with
  | none => simp [SetCurrent, hm]
  | some fs1 =>
    have hf := fileAt_mkdirAll hm q
    cases hd : stat fs1 cfg.CurrentFile with
    | none => simp [SetCurrent, hm, hd, fileAt_put, h, hf]
    | some k => cases k <;> simp [SetCurrent, hm, hd, fileAt_put, h, hf]

theorem SetCurrent_ok {fs : FS} {cfg : Config} {name : String}
    (h : (SetCurrent fs cfg name).2 = true) :
    ∃ mode, fileAt (SetCurrent fs cfg name).1 cfg.CurrentFile =
      some (.raw (name ++ "\n"), mode) := by
  cases hm : mkdirAll fs cfg.StorageDir with
  | none => simp [SetCurrent, hm] at h
  | some fs1 =>
    cases hd : stat fs1 cfg.CurrentFile with
    | none => exact ⟨0o644, by simp [SetCurrent, hm, hd, fileAt_put]⟩
    | some k =>
      cases k with
      | dir => simp [SetCurrent, hm, hd] at h
      | file c m => exact ⟨m, by simp [SetCurrent, hm, hd, fileAt_put]⟩

theorem GetCurrent_of_fileAt (env : Env) {fs : FS} {cfg : Config} {name : String} {mode : Nat}
    (h : fileAt fs cfg.CurrentFile = some (.raw (name ++ "\n"), mode)) :
    GetCurrent env fs cfg = .name name := by
  unfold fileAt at h
  cases hs : stat fs cfg.CurrentFile with
  | none => simp [hs] at h
  | some k =>
    cases k with
    | dir => simp [hs] at h
    | file c m =>
      simp only [hs, Option.some.injEq, Prod.mk.injEq] at h
      obtain ⟨rfl, rfl⟩ := h
      have hd : (name ++ "\n").data = name.data ++ ['\n'] := by
        simp [String.data_append]
      simp [GetCurrent, hs, Content.text, hd]

/-! ### Preconditions of Restore and Save -/

/-- C4. For every manifest that exists for the slug and every current scope, `Restore`
fails with the scope-mismatch error if and only if the manifest's scope is non-empty
and differs from the scope's type; so a manifest with the same or an empty scope
passes the check, whatever the scope's type is. -/
theorem Restore_scopeMismatch_iff (env : Env) (opts : RestoreOptions) (fs : FS) (m : Manifest)
    (hm : ReadManifest fs (opts.Config.ContextsDir ++ [Slugify opts.Name]) = some m) :
    (Restore env opts fs).2 = .error .scopeMismatch ↔
      (m.Scope ≠ "" ∧ m.Scope ≠ opts.Config.Scope.ScopeType) := by
  by_cases hc : m.Scope ≠ "" ∧ m.Scope ≠ opts.Config.Scope.ScopeType
  · simp only [Restore, hm]
    rw [if_pos hc]
    simp [hc]
  · simp only [Restore, hm]
    rw [if_neg hc]
    simp only [hc, iff_false]
    repeat' split
    all_goals simp

/-- C4, witness: the manifest saved under the project scope, restored under a user scope. -/
theorem Restore_scopeMismatch_iff_witness :
    (Restore demoEnv (restoreOpts demoUserCfg "ctx-a") demoSavedFS).2 = .error .scopeMismatch ↔
      ("project" ≠ "" ∧ "project" ≠ demoUserCfg.Scope.ScopeType) :=
  Restore_scopeMismatch_iff demoEnv (restoreOpts demoUserCfg "ctx-a") demoSavedFS
    { Name := "ctx-a", Description := "", CreatedAt := 7, UpdatedAt := 7,
      Files := [{ RelPath := ["CLAUDE.md"], Size := 6, Mode := 420, Checksum := "# Root",
                  Source := "claudemd" },
                { RelPath := ["dotclaude", "CLAUDE.md"], Size := 7, Mode := 384,
                  Checksum := "# Dot A", Source := "dotclaude" },
                { RelPath := ["dotclaude", "sub", "x"], Size := 1, Mode := 420,
                  Checksum := "x", Source := "dotclaude" }],
      TotalSize := 14,
      Checksum := "CLAUDE.md:# Root\ndotclaude/CLAUDE.md:# Dot A\ndotclaude/sub/x:x\n",
      OAuthEmail := "", Scope := "project" } (by decide)

theorem Save_early_error (env : Env) (opts : SaveOptions) (fs : FS)
    (h : (Save env opts fs).2 = .error .invalidName ∨
      (Save env opts fs).2 = .error .alreadyExists) : (Save env opts fs).1 = fs := by
  unfold Save at h ⊢
  simp only at h ⊢
  by_cases h1 : Slugify opts.Name = ""
  · rw [if_pos h1]
  · rw [if_neg h1] at h ⊢
    by_cases h2 : ContextExists fs opts.Config.ContextsDir (Slugify opts.Name) = true ∧
        opts.Overwrite = false
    · rw [if_pos h2]
    · rw [if_neg h2] at h ⊢
      by_cases h3 : opts.DryRun = true
      · rw [if_pos h3]
      · exfalso
        rw [if_neg h3] at h
        revert h
        repeat' split
        all_goals simp

theorem Restore_early_error (env : Env) (opts : RestoreOptions) (fs : FS)
    (h : (Restore env opts fs).2 = .error .notFound ∨
      (Restore env opts fs).2 = .error .scopeMismatch) : (Restore env opts fs).1 = fs := by
  unfold Restore at h ⊢
  simp only at h ⊢
  cases hm : ReadManifest fs (opts.Config.ContextsDir ++ [Slugify opts.Name]) with
  | none => rfl
  | some m =>
    simp only [hm] at h ⊢
    by_cases h2 : m.Scope ≠ "" ∧ m.Scope ≠ opts.Config.Scope.ScopeType
    · rw [if_pos h2]
    · rw [if_neg h2] at h ⊢
      by_cases h3 : opts.DryRun = true
      · rw [if_pos h3]
      · exfalso
        rw [if_neg h3] at h
        revert h
        repeat' split
        all_goals simp

/-- C6. Whenever `Save` fails with invalid-name or already-exists, and whenever
`Restore` fails with not-found or scope-mismatch, the state of the file system (live
files, snapshots, backups, current pointer) is the one before the call. -/
theorem early_errors_no_side_effects (env : Env) (so : SaveOptions) (ro : RestoreOptions)
    (fs : FS) :
    (((Save env so fs).2 = .error .invalidName ∨ (Save env so fs).2 = .error .alreadyExists) →
        (Save env so fs).1 = fs) ∧
      (((Restore env ro fs).2 = .error .notFound ∨
          (Restore env ro fs).2 = .error .scopeMismatch) → (Restore env ro fs).1 = fs) :=
  ⟨Save_early_error env so fs, Restore_early_error env ro fs⟩

/-- C6, witness: a second `Save("ctx-a")` without overwrite and a `Restore` under the
wrong scope, both on the state after the first save. -/
theorem early_errors_no_side_effects_witness :
    (Save demoEnv (saveOpts demoCfg "ctx-a" false) demoSavedFS).2 = .error .alreadyExists ∧
      (Restore demoEnv (restoreOpts demoUserCfg "ctx-a") demoSavedFS).2 =
        .error .scopeMismatch ∧
      (Save demoEnv (saveOpts demoCfg "ctx-a" false) demoSavedFS).1 = demoSavedFS ∧
      (Restore demoEnv (restoreOpts demoUserCfg "ctx-a") demoSavedFS).1 = demoSavedFS :=
  have h := early_errors_no_side_effects demoEnv (saveOpts demoCfg "ctx-a" false)
    (restoreOpts demoUserCfg "ctx-a") demoSavedFS
  ⟨by decide, by decide, h.1 (Or.inr (by decide)), h.2 (Or.inr (by decide))⟩

/-! ### Replay -/

theorem restoreCopy_cons_none {contextDir : Path} {scope : Scope} {entry : FileEntry}
    (h : restoreDest scope entry = none) (rest : List FileEntry) (fs : FS) (n : Nat) :
    restoreCopy contextDir scope (entry :: rest) fs n = restoreCopy contextDir scope rest fs n := by
  simp [restoreCopy, h]

theorem restoreCopy_cons_some {contextDir : Path} {scope : Scope} {entry : FileEntry}
    {dst : Path} (h : restoreDest scope entry = some dst) (rest : List FileEntry) (fs : FS)
    (n : Nat) :
    restoreCopy contextDir scope (entry :: rest) fs n =
      if (CopyFile fs (contextDir ++ entry.RelPath) dst).2 = false then
        ((CopyFile fs (contextDir ++ entry.RelPath) dst).1,
          .error (relPathString entry.RelPath))
      else
        restoreCopy contextDir scope rest (CopyFile fs (contextDir ++ entry.RelPath) dst).1
          (n + 1) := by
  simp [restoreCopy, h]

/-- What a successful replay does: it counts the entries that have a destination, leaves
the files that are no destination as they were, and puts at each destination the payload
of the entries that name it (when they all hold the same file). -/
theorem restoreCopy_spec (contextDir : Path) (scope : Scope) :
    ∀ (files : List FileEntry) (fs fs' : FS) (n k : Nat),
      restoreCopy contextDir scope files fs n = (fs', .ok k) →
      (∀ e ∈ files, ∀ e' ∈ files, restoreDest scope e' ≠ some (contextDir ++ e.RelPath)) →
      k = n + (files.filter (fun e => (restoreDest scope e).isSome)).length ∧
      (∀ q, (∀ e ∈ files, restoreDest scope e ≠ some q) → fileAt fs' q = fileAt fs q) ∧
      (∀ d x, (∃ e ∈ files, restoreDest scope e = some d) →
        (∀ e ∈ files, restoreDest scope e = some d →
          fileAt fs (contextDir ++ e.RelPath) = some x) → fileAt fs' d = some x) ∧
      (∀ e ∈ files, (restoreDest scope e).isSome = true →
        (fileAt fs (contextDir ++ e.RelPath)).isSome = true) := by
  intro files
  induction files with
  | nil =>
    intro fs fs' n k h _
    simp only [restoreCopy, Prod.mk.injEq, Except.ok.injEq] at h
    obtain ⟨rfl, rfl⟩ := h
    simp
  | cons entry rest ih =>
    intro fs fs' n k h hpay
    have hpay' : ∀ e ∈ rest, ∀ e' ∈ rest,
        restoreDest scope e' ≠ some (contextDir ++ e.RelPath) :=
      fun e he e' he' => hpay e (List.mem_cons_of_mem _ he) e' (List.mem_cons_of_mem _ he')
    cases hd : restoreDest scope entry with
    | none =>
      rw [restoreCopy_cons_none hd] at h
      obtain ⟨h1, h2, h3, h4⟩ := ih fs fs' n k h hpay'
      refine ⟨by simp [List.filter_cons, hd, h1], ?_, ?_, ?_⟩
      · intro q hq
        exact h2 q (fun e he => hq e (List.mem_cons_of_mem _ he))
      · intro d x ⟨e, he, hed⟩ hall
        have he' : e ∈ rest := by
          rcases List.mem_cons.mp he with rfl | he
          · rw [hd] at hed; exact absurd hed (by simp)
          · exact he
        exact h3 d x ⟨e, he', hed⟩ (fun e he => hall e (List.mem_cons_of_mem _ he))
      · intro e he hsome
        rcases List.mem_cons.mp he with rfl | he
        · rw [hd] at hsome; exact absurd hsome (by simp)
        · exact h4 e he hsome
    | some dst =>
      rw [restoreCopy_cons_some hd] at h
      by_cases hok : (CopyFile fs (contextDir ++ entry.RelPath) dst).2 = false
      · rw [if_pos hok] at h
        simp at h
      · rw [if_neg hok] at h
        have hok' : (CopyFile fs (contextDir ++ entry.RelPath) dst).2 = true := by
          simpa using hok
        obtain ⟨h1, h2, h3, h4⟩ := ih _ fs' (n + 1) k h hpay'
        have hpayload : ∀ e ∈ rest,
            fileAt (CopyFile fs (contextDir ++ entry.RelPath) dst).1 (contextDir ++ e.RelPath) =
              fileAt fs (contextDir ++ e.RelPath) := by
          intro e he
          apply CopyFile_fileAt_ne
          intro heq
          exact hpay e (List.mem_cons_of_mem _ he) entry (List.mem_cons_self _ _)
            (by rw [hd, heq])
        refine ⟨by simp [List.filter_cons, hd, h1]; omega, ?_, ?_, ?_⟩
        · intro q hq
          rw [h2 q (fun e he => hq e (List.mem_cons_of_mem _ he))]
          apply CopyFile_fileAt_ne
          intro heq
          exact hq entry (List.mem_cons_self _ _) (by rw [hd, heq])
        · intro d x _ hall
          by_cases hex : ∃ e ∈ rest, restoreDest scope e = some d
          · apply h3 d x hex
            intro e he hed
            rw [hpayload e he]
            exact hall e (List.mem_cons_of_mem _ he) hed
          · have hnone : ∀ e ∈ rest, restoreDest scope e ≠ some d :=
              fun e he hed => hex ⟨e, he, hed⟩
            rw [h2 d hnone]
            rename_i hexd
            obtain ⟨e, he, hed⟩ := hexd
            have hentry : restoreDest scope entry = some d := by
              rcases List.mem_cons.mp he with rfl | he
              · exact hed
              · exact absurd hed (hnone e he)
            have hdd : dst = d := by
              rw [hd] at hentry; exact Option.some.inj hentry
            subst hdd
            rw [CopyFile_fileAt_dst hok']
            exact hall entry (List.mem_cons_self _ _) hentry
        · intro e he hsome
          rcases List.mem_cons.mp he with rfl | he
          · obtain ⟨c, m, hcm⟩ := CopyFile_ok_src hok'
            simp [hcm]
          · rw [← hpayload e he]
            exact h4 e he hsome

/-- C7, counterexample. The scope defines an extra file with the tag `notes` and the
entry carries that tag, yet the replay writes the payload below the managed directory,
not to the extra file's path. -/
theorem restoreCopy_unlisted_tag :
    notesScope.ExtraFileByTag notesEntry.Source =
        some { Path := ["p", "NOTES.md"], Tag := "notes" } ∧
      restoreDest notesScope notesEntry = some ["p", ".claude", "NOTES.md"] ∧
      (restoreCopy ["p", ".claudectx", "contexts", "n"] notesScope [notesEntry] notesFS 0).2 =
        .ok 1 ∧
      fileAt (restoreCopy ["p", ".claudectx", "contexts", "n"] notesScope [notesEntry]
        notesFS 0).1 ["p", "NOTES.md"] = none ∧
      fileAt (restoreCopy ["p", ".claudectx", "contexts", "n"] notesScope [notesEntry]
        notesFS 0).1 ["p", ".claude", "NOTES.md"] = some (.raw "notes", 0o644) := by
  decide

/-- C7, amended. For every entry of the replayed list: when its source tag is one of
`claudejson`, `claudemd`, `mcpjson` and the scope has an extra file with that tag, the
destination is that file's path; when it is one of the three and the scope has no such
extra file, the entry has no destination; for every other tag the destination is the
managed directory joined with relPath minus its leading `dotclaude/`.  A successful
replay counts exactly the entries with a destination and leaves at each destination the
payload of the entry that names it. -/
theorem restoreCopy_destination (contextDir : Path) (scope : Scope) (files : List FileEntry)
    (fs fs' : FS) (k : Nat)
    (h : restoreCopy contextDir scope files fs 0 = (fs', .ok k))
    (hpay : ∀ e ∈ files, ∀ e' ∈ files, restoreDest scope e' ≠ some (contextDir ++ e.RelPath)) :
    (∀ e ∈ files,
      (isExtraFileSource e.Source = true →
        ∀ ef, scope.ExtraFileByTag e.Source = some ef →
          ef ∈ scope.ExtraFiles ∧ ef.Tag = e.Source ∧ restoreDest scope e = some ef.Path) ∧
      (isExtraFileSource e.Source = true →
        (∀ ef ∈ scope.ExtraFiles, ef.Tag ≠ e.Source) → restoreDest scope e = none) ∧
      (isExtraFileSource e.Source = false →
        restoreDest scope e = some (scope.DotClaudeDir ++ trimDotclaude e.RelPath))) ∧
    k = (files.filter (fun e => (restoreDest scope e).isSome)).length ∧
    (∀ e ∈ files, ∀ d, restoreDest scope e = some d →
      (∀ e' ∈ files, restoreDest scope e' = some d → e'.RelPath = e.RelPath) →
      fileAt fs' d = fileAt fs (contextDir ++ e.RelPath) ∧
        (fileAt fs (contextDir ++ e.RelPath)).isSome = true) := by
  obtain ⟨h1, _, h3, h4⟩ := restoreCopy_spec contextDir scope files fs fs' 0 k h hpay
  refine ⟨?_, by simpa using h1, ?_⟩
  · intro e _
    refine ⟨?_, ?_, ?_⟩
    · intro hx ef hef
      have hmem := List.mem_of_find?_eq_some hef
      have htag := List.find?_some hef
      refine ⟨hmem, by simpa using htag, ?_⟩
      simp only [Scope.ExtraFileByTag] at hef
      simp [restoreDest, hx, Scope.ExtraFileByTag, hef]
    · intro hx hall
      have : scope.ExtraFileByTag e.Source = none := by
        simp only [Scope.ExtraFileByTag, List.find?_eq_none]
        intro ef hef
        simpa using hall ef hef
      simp [restoreDest, hx, this]
    · intro hx
      simp [restoreDest, hx]
  · intro e he d hd hall
    have hsome := h4 e he (by simp [hd])
    obtain ⟨x, hx⟩ := Option.isSome_iff_exists.mp hsome
    refine ⟨?_, hsome⟩
    rw [hx]
    apply h3 d x ⟨e, he, hd⟩
    intro e' he' hd'
    rw [hall e' he' hd', hx]

/-- C7, witness: a replay on the state after `Save("ctx-a")`, with one entry of each kind. -/
theorem restoreCopy_destination_witness :
    (restoreCopy ["p", ".claudectx", "contexts", "ctx-a"] demoCfg.Scope replayEntries
        demoSavedFS 0).2 = .ok 2 ∧
      2 = (replayEntries.filter (fun e => (restoreDest demoCfg.Scope e).isSome)).length :=
  ⟨by decide,
    (restoreCopy_destination ["p", ".claudectx", "contexts", "ctx-a"] demoCfg.Scope
      replayEntries demoSavedFS
      (restoreCopy ["p", ".claudectx", "contexts", "ctx-a"] demoCfg.Scope replayEntries
        demoSavedFS 0).1 2 (by decide) (by decide)).2.1⟩

/-! ### Walker -/

theorem insertByPath_perm (e : Path × Node) (l : List (Path × Node)) :
    (insertByPath e l).Perm (e :: l) := by
  induction l with
  | nil => simp [insertByPath]
  | cons x xs ih =>
    by_cases h : pathLe e.1 x.1 = true
    · simp [insertByPath, h]
    · simp only [insertByPath, h, if_false]
      exact (List.Perm.cons x ih).trans (List.Perm.swap e x xs)

theorem sortByPath_perm (l : List (Path × Node)) : (sortByPath l).Perm l := by
  induction l with
  | nil => simp [sortByPath]
  | cons e es ih =>
    simp only [sortByPath]
    exact (insertByPath_perm e _).trans (List.Perm.cons e ih)

theorem mem_walk_dir {fs : FS} {root : Path} (hroot : stat fs root = some .dir)
    (e : Path × Node) :
    e ∈ walk fs root ↔
      e = (root, .dir) ∨ (stat fs e.1 = some e.2 ∧ root <+: e.1 ∧ e.1 ≠ root) := by
  simp only [walk, hroot, List.mem_cons, (sortByPath_perm _).mem_iff, List.mem_filter,
    Bool.and_eq_true, List.isPrefixOf_iff_prefix, decide_eq_true_eq]
  constructor
  · rintro (h | ⟨_, ⟨h1, h2⟩, h3⟩)
    · exact Or.inl h
    · exact Or.inr ⟨h3, h1, h2⟩
  · rintro (h | ⟨h1, h2, h3⟩)
    · exact Or.inl h
    · exact Or.inr ⟨stat_mem h1, ⟨h2, h3⟩, h1⟩

/-- The record `WalkFiltered` returns for the file at `p`. -/
theorem WalkFiltered_mem_dir {fs : FS} {root : Path} (hroot : stat fs root = some .dir)
    (includes excludes : List String) (w : WalkResult) :
    w ∈ WalkFiltered fs root includes excludes ↔
      ∃ c m, stat fs w.AbsPath = some (.file c m) ∧ w.Info = .file c m ∧ root <+: w.AbsPath ∧
        w.AbsPath ≠ root ∧ w.Rel = w.AbsPath.drop root.length ∧ w.RelPath = relString w.Rel ∧
        selected includes excludes w.RelPath = true := by
  simp only [WalkFiltered, List.mem_filterMap]
  constructor
  · rintro ⟨⟨p, n⟩, hmem, hw⟩
    cases n with
    | dir => simp at hw
    | file c m =>
      simp only at hw
      split at hw
      · rename_i hsel
        simp only [Option.some.injEq] at hw
        subst hw
        rcases (mem_walk_dir hroot _).mp hmem with h | ⟨h1, h2, h3⟩
        · simp at h
        · exact ⟨c, m, h1, rfl, h2, h3, rfl, rfl, hsel⟩
      · simp at hw
  · rintro ⟨c, m, hmem, hinfo, hpre, hne, hrel, hrp, hsel⟩
    refine ⟨(w.AbsPath, .file c m), (mem_walk_dir hroot _).mpr (Or.inr ⟨hmem, hpre, hne⟩), ?_⟩
    simp only
    rw [← hrel, ← hrp, if_pos hsel]
    cases w
    simp_all

theorem stat_of_mem_nodup {fs : FS} (hnd : (fs.map Prod.fst).Nodup) {p : Path} {n : Node}
    (h : (p, n) ∈ fs) : stat fs p = some n := by
  induction fs with
  | nil => simp at h
  | cons e rest ih =>
    obtain ⟨q, k⟩ := e
    simp only [List.map_cons, List.nodup_cons] at hnd
    rcases List.mem_cons.mp h with h | h
    · simp only [Prod.mk.injEq] at h
      simp [stat, h.1, h.2]
    · have hq : q ≠ p := by
        intro e
        subst e
        exact hnd.1 (List.mem_map_of_mem Prod.fst h)
      simp [stat, hq, ih hnd.2 h]

theorem map_AbsPath_sublist (root : Path) (includes excludes : List String) :
    ∀ l : List (Path × Node),
      ((l.filterMap (fun e =>
        match e.2 with
        | .dir => none
        | .file c m =>
          if selected includes excludes (relString (e.1.drop root.length)) then
            some ({ Rel := e.1.drop root.length, RelPath := relString (e.1.drop root.length),
                    AbsPath := e.1, Info := .file c m } : WalkResult)
          else none)).map (fun w => w.AbsPath)).Sublist (l.map Prod.fst) := by
  intro l
  induction l with
  | nil => simp
  | cons e es ih =>
    obtain ⟨p, n⟩ := e
    cases n with
    | dir =>
      simp only [List.filterMap_cons, List.map_cons]
      exact List.Sublist.cons _ ih
    | file c m =>
      by_cases hsel : selected includes excludes (relString (p.drop root.length)) = true
      · simp only [List.filterMap_cons, hsel, if_true, List.map_cons]
        exact List.Sublist.cons₂ _ ih
      · simp only [List.filterMap_cons, hsel, if_false, List.map_cons]
        exact List.Sublist.cons _ ih

theorem walk_keys_nodup {fs : FS} (hnd : (fs.map Prod.fst).Nodup) (root : Path) :
    ((walk fs root).map Prod.fst).Nodup := by
  unfold walk
  cases hs : stat fs root with
  | none => simp
  | some n =>
    cases n with
    | file c m => simp
    | dir =>
      simp only [List.map_cons, List.nodup_cons]
      have hperm := (sortByPath_perm
        (fs.filter (fun e => root.isPrefixOf e.1 && decide (e.1 ≠ root) &&
          decide (stat fs e.1 = some e.2)))).map Prod.fst
      constructor
      · intro hmem
        have := hperm.mem_iff.mp hmem
        simp only [List.mem_map, List.mem_filter, Bool.and_eq_true, decide_eq_true_eq] at this
        obtain ⟨e, ⟨_, ⟨_, hne⟩, _⟩, he⟩ := this
        exact hne he
      · refine hperm.nodup_iff.mpr ?_
        exact List.Nodup.sublist (List.Sublist.map _ (List.filter_sublist _)) hnd

/-- C10. For a directory `root` of a file system in which every path names one node,
`WalkFiltered` returns exactly the regular files below `root` whose root-relative path
matches at least one include pattern and no exclude pattern, each of them once, and
never a directory. -/
theorem WalkFiltered_selection (fs : FS) (root : Path) (includes excludes : List String)
    (hroot : stat fs root = some .dir) (hnd : (fs.map Prod.fst).Nodup) :
    (∀ w : WalkResult, w ∈ WalkFiltered fs root includes excludes ↔
      ∃ c m, stat fs w.AbsPath = some (.file c m) ∧ w.Info = .file c m ∧
        root <+: w.AbsPath ∧ w.AbsPath ≠ root ∧ w.Rel = w.AbsPath.drop root.length ∧
        w.RelPath = relString w.Rel ∧
        MatchesAny w.RelPath includes = true ∧ MatchesAny w.RelPath excludes = false) ∧
      ((WalkFiltered fs root includes excludes).map (fun w => w.AbsPath)).Nodup ∧
      ∀ w ∈ WalkFiltered fs root includes excludes, w.Info ≠ .dir := by
  have hiff : ∀ w : WalkResult, w ∈ WalkFiltered fs root includes excludes ↔
      ∃ c m, stat fs w.AbsPath = some (.file c m) ∧ w.Info = .file c m ∧
        root <+: w.AbsPath ∧ w.AbsPath ≠ root ∧ w.Rel = w.AbsPath.drop root.length ∧
        w.RelPath = relString w.Rel ∧
        MatchesAny w.RelPath includes = true ∧ MatchesAny w.RelPath excludes = false := by
    intro w
    rw [WalkFiltered_mem_dir hroot]
    constructor
    · rintro ⟨c, m, h1, h2, h3, h4, h5, h6, h7⟩
      simp only [selected, Bool.and_eq_true, Bool.not_eq_true'] at h7
      exact ⟨c, m, h1, h2, h3, h4, h5, h6, h7.1, h7.2⟩
    · rintro ⟨c, m, h1, h2, h3, h4, h5, h6, h7, h8⟩
      exact ⟨c, m, h1, h2, h3, h4, h5, h6, by simp [selected, h7, h8]⟩
  refine ⟨hiff, ?_, ?_⟩
  · exact List.Nodup.sublist (map_AbsPath_sublist root includes excludes (walk fs root))
      (walk_keys_nodup hnd root)
  · intro w hw
    obtain ⟨c, m, _, hinfo, _⟩ := (hiff w).mp hw
    rw [hinfo]
    simp

/-- C10, witness: the tree and the pattern lists of `TestWalkFiltered`. -/
theorem WalkFiltered_selection_witness :
    (WalkFiltered walkTestFS ["r"] walkTestIncludes walkTestExcludes).map
        (fun w => w.RelPath) =
      ["plugins/blocklist.json", "projects/myproj/memory/MEMORY.md",
       "projects/myproj/memory/patterns.md", "settings.json", "settings.local.json"] ∧
      ((WalkFiltered walkTestFS ["r"] walkTestIncludes walkTestExcludes).map
        (fun w => w.AbsPath)).Nodup :=
  ⟨by decide,
    (WalkFiltered_selection walkTestFS ["r"] walkTestIncludes walkTestExcludes (by decide)
      (by decide)).2.1⟩

/-! ### The copy loops of Save -/

theorem prefix_append_cons (ctx : Path) (s : String) (rest : Path) :
    ctx <+: ctx ++ s :: rest := List.prefix_append _ _

theorem saveExtraFiles_nil (env : Env) (ctx : Path) (fs : FS) (files : List FileEntry)
    (total : Nat) : saveExtraFiles env ctx [] fs files total = (fs, .ok (files, total)) := by
  simp [saveExtraFiles]

theorem saveExtraFiles_cons_none {env : Env} {ctx : Path} {ef : ExtraFile} {fs : FS}
    (h : stat fs ef.Path = none) (rest : List ExtraFile) (files : List FileEntry) (total : Nat) :
    saveExtraFiles env ctx (ef :: rest) fs files total =
      saveExtraFiles env ctx rest fs files total := by
  simp [saveExtraFiles, h]

theorem saveExtraFiles_cons_some {env : Env} {ctx : Path} {ef : ExtraFile} {fs : FS}
    {info : Node} (h : stat fs ef.Path = some info) (rest : List ExtraFile)
    (files : List FileEntry) (total : Nat) :
    saveExtraFiles env ctx (ef :: rest) fs files total =
      if (CopyFile fs ef.Path (ctx ++ [baseName ef.Path])).2 = false then
        ((CopyFile fs ef.Path (ctx ++ [baseName ef.Path])).1, .error (baseName ef.Path))
      else
        saveExtraFiles env ctx rest (CopyFile fs ef.Path (ctx ++ [baseName ef.Path])).1
          (files ++ [{ RelPath := [baseName ef.Path], Size := info.size env, Mode := info.mode,
                       Checksum := FileChecksum env
                         (CopyFile fs ef.Path (ctx ++ [baseName ef.Path])).1 ef.Path,
                       Source := ef.Tag }])
          (total + info.size env) := by
  simp [saveExtraFiles, h]

/-- The extra-file loop of `Save` writes regular files only below the context directory. -/
theorem saveExtraFiles_frame (env : Env) (ctx : Path) :
    ∀ (efs : List ExtraFile) (fs : FS) (files : List FileEntry) (total : Nat) (q : Path),
      ¬ ctx <+: q → fileAt (saveExtraFiles env ctx efs fs files total).1 q = fileAt fs q := by
  intro efs
  induction efs with
  | nil => intro fs files total q _; simp [saveExtraFiles]
  | cons ef rest ih =>
    intro fs files total q hq
    have hne : q ≠ ctx ++ [baseName ef.Path] := fun e => hq (e ▸ List.prefix_append _ _)
    cases hs : stat fs ef.Path with
    | none => rw [saveExtraFiles_cons_none hs]; exact ih fs files total q hq
    | some info =>
      rw [saveExtraFiles_cons_some hs]
      by_cases hok : (CopyFile fs ef.Path (ctx ++ [baseName ef.Path])).2 = false
      · rw [if_pos hok]; exact CopyFile_fileAt_ne fs hne
      · rw [if_neg hok, ih _ _ _ q hq]; exact CopyFile_fileAt_ne fs hne

/-- The extra-file loop of `Save`, when it succeeds: one entry for each extra file that
is a regular file, in order, the payload stored under the base name. -/
theorem saveExtraFiles_spec (env : Env) (ctx : Path) :
    ∀ (efs : List ExtraFile) (fs fs' : FS) (files files' : List FileEntry) (total total' : Nat),
      saveExtraFiles env ctx efs fs files total = (fs', .ok (files', total')) →
      (∀ ef ∈ efs, ¬ ctx <+: ef.Path) →
      (∀ ef ∈ efs, ∀ ef' ∈ efs, baseName ef.Path = baseName ef'.Path → ef.Path = ef'.Path) →
      ∃ new : List FileEntry, files' = files ++ new ∧
        total' = total + (new.map (fun e => e.Size)).sum ∧
        (∀ e ∈ new, ∃ ef ∈ efs, e.RelPath = [baseName ef.Path] ∧ e.Source = ef.Tag ∧
          (fileAt fs ef.Path).isSome = true) ∧
        (∀ ef ∈ efs, (stat fs ef.Path).isSome = true →
          (∃ e ∈ new, e.RelPath = [baseName ef.Path] ∧ e.Source = ef.Tag) ∧
          (fileAt fs ef.Path).isSome = true ∧
          fileAt fs' (ctx ++ [baseName ef.Path]) = fileAt fs ef.Path) ∧
        (∀ q, (∀ e ∈ new, q ≠ ctx ++ e.RelPath) → fileAt fs' q = fileAt fs q) := by
  intro efs
  induction efs with
  | nil =>
    intro fs fs' files files' total total' h _ _
    rw [saveExtraFiles_nil] at h
    simp only [Prod.mk.injEq, Except.ok.injEq] at h
    obtain ⟨rfl, rfl, rfl⟩ := h
    exact ⟨[], by simp⟩
  | cons ef rest ih =>
    intro fs fs' files files' total total' h hsrc hbase
    have hsrc' : ∀ x ∈ rest, ¬ ctx <+: x.Path := fun x hx => hsrc x (List.mem_cons_of_mem _ hx)
    have hbase' : ∀ x ∈ rest, ∀ y ∈ rest, baseName x.Path = baseName y.Path → x.Path = y.Path :=
      fun x hx y hy => hbase x (List.mem_cons_of_mem _ hx) y (List.mem_cons_of_mem _ hy)
    cases hs : stat fs ef.Path with
    | none =>
      rw [saveExtraFiles_cons_none hs] at h
      obtain ⟨new, h1, h2, h3, h4, h5⟩ := ih fs fs' files files' total total' h hsrc' hbase'
      refine ⟨new, h1, h2, ?_, ?_, h5⟩
      · intro e he
        obtain ⟨x, hx, hh⟩ := h3 e he
        exact ⟨x, List.mem_cons_of_mem _ hx, hh⟩
      · intro x hx hsome
        rcases List.mem_cons.mp hx with rfl | hx
        · rw [hs] at hsome; exact absurd hsome (by simp)
        · exact h4 x hx hsome
    | some info =>
      rw [saveExtraFiles_cons_some hs] at h
      by_cases hok : (CopyFile fs ef.Path (ctx ++ [baseName ef.Path])).2 = false
      · rw [if_pos hok] at h; simp at h
      · rw [if_neg hok] at h
        have hok' : (CopyFile fs ef.Path (ctx ++ [baseName ef.Path])).2 = true := by
          simpa using hok
        obtain ⟨c, m, hcm⟩ := CopyFile_ok_src hok'
        have hlive : ∀ x ∈ ef :: rest,
            fileAt (CopyFile fs ef.Path (ctx ++ [baseName ef.Path])).1 x.Path =
              fileAt fs x.Path := by
          intro x hx
          apply CopyFile_fileAt_ne
          intro e
          exact hsrc x hx (e ▸ List.prefix_append _ _)
        obtain ⟨new, h1, h2, h3, h4, h5⟩ := ih _ fs' _ files' _ total' h hsrc' hbase'
        refine ⟨{ RelPath := [baseName ef.Path], Size := info.size env, Mode := info.mode,
                  Checksum := FileChecksum env
                    (CopyFile fs ef.Path (ctx ++ [baseName ef.Path])).1 ef.Path,
                  Source := ef.Tag } :: new, by simp [h1], ?_, ?_, ?_, ?_⟩
        · simp only [List.map_cons, List.sum_cons, h2]; omega
        · intro e he
          rcases List.mem_cons.mp he with rfl | he
          · exact ⟨ef, List.mem_cons_self _ _, rfl, rfl, by simp [hcm]⟩
          · obtain ⟨x, hx, hh1, hh2, hh3⟩ := h3 e he
            refine ⟨x, List.mem_cons_of_mem _ hx, hh1, hh2, ?_⟩
            rw [← hlive x (List.mem_cons_of_mem _ hx)]; exact hh3
        · have hrest : ∀ x ∈ rest, (fileAt fs x.Path).isSome = true →
              (∃ e ∈ new, e.RelPath = [baseName x.Path] ∧ e.Source = x.Tag) ∧
              fileAt fs' (ctx ++ [baseName x.Path]) = fileAt fs x.Path := by
            intro x hx hsome
            have hl := hlive x (List.mem_cons_of_mem _ hx)
            have hst : (stat (CopyFile fs ef.Path (ctx ++ [baseName ef.Path])).1 x.Path).isSome
                = true := by
              rw [← hl] at hsome
              unfold fileAt at hsome
              split at hsome
              · rename_i hh; simp [hh]
              · simp at hsome
            obtain ⟨g1, _, g3⟩ := h4 x hx hst
            exact ⟨g1, by rw [g3, hl]⟩
          have hself : fileAt fs' (ctx ++ [baseName ef.Path]) = fileAt fs ef.Path := by
            by_cases hex : ∃ e ∈ new, e.RelPath = [baseName ef.Path]
            · obtain ⟨e, he, hrel⟩ := hex
              obtain ⟨x, hx, hh1, _, hh3⟩ := h3 e he
              have hb : baseName x.Path = baseName ef.Path := by
                rw [hrel] at hh1; simpa using hh1.symm
              have hp := hbase x (List.mem_cons_of_mem _ hx) ef (List.mem_cons_self _ _) hb
              have hl := hlive x (List.mem_cons_of_mem _ hx)
              have := (hrest x hx (by rw [← hl]; exact hh3)).2
              rw [hb, hp] at this
              exact this
            · have hq : ∀ e ∈ new, ctx ++ [baseName ef.Path] ≠ ctx ++ e.RelPath := by
                intro e he heq
                exact hex ⟨e, he, (List.append_cancel_left heq).symm⟩
              rw [h5 _ hq]
              exact CopyFile_fileAt_dst hok'
          intro x hx hsome
          rcases List.mem_cons.mp hx with rfl | hx
          · exact ⟨⟨_, List.mem_cons_self _ _, rfl, rfl⟩, by simp [hcm], hself⟩
          · by_cases hf : (fileAt fs x.Path).isSome = true
            · obtain ⟨⟨e, he, hh⟩, g2⟩ := hrest x hx hf
              exact ⟨⟨e, List.mem_cons_of_mem _ he, hh⟩, hf, g2⟩
            · exfalso
              -- the node is a directory: its copy fails, so the loop cannot have succeeded
              cases hsx : stat fs x.Path with
              | none => rw [hsx] at hsome; simp at hsome
              | some k =>
                cases k with
                | file c' m' => exact hf (by simp [fileAt, hsx])
                | dir =>
                  have hst : stat (CopyFile fs ef.Path (ctx ++ [baseName ef.Path])).1 x.Path
                      = some .dir := by
                    rcases CopyFile_stat fs ef.Path (ctx ++ [baseName ef.Path]) x.Path with
                      h' | h' | h'
                    · rw [h', hsx]
                    · exact absurd (h' ▸ List.prefix_append _ _)
                        (hsrc x (List.mem_cons_of_mem _ hx))
                    · rw [hsx] at h'; exact absurd h'.1 (by simp)
                  obtain ⟨_, g2, _⟩ := h4 x hx (by simp [hst])
                  simp [fileAt, hst] at g2
        · intro q hq
          rw [h5 q (fun e he => hq e (List.mem_cons_of_mem _ he))]
          apply CopyFile_fileAt_ne
          exact hq _ (List.mem_cons_self _ _)

theorem saveWalked_cons (env : Env) (ctx : Path) (w : WalkResult) (rest : List WalkResult)
    (fs : FS) (files : List FileEntry) (total : Nat) :
    saveWalked env ctx (w :: rest) fs files total =
      if (CopyFile fs w.AbsPath (ctx ++ "dotclaude" :: w.Rel)).2 = false then
        ((CopyFile fs w.AbsPath (ctx ++ "dotclaude" :: w.Rel)).1, .error w.RelPath)
      else
        saveWalked env ctx rest (CopyFile fs w.AbsPath (ctx ++ "dotclaude" :: w.Rel)).1
          (files ++ [{ RelPath := "dotclaude" :: w.Rel, Size := w.Info.size env,
                       Mode := w.Info.mode,
                       Checksum := FileChecksum env
                         (CopyFile fs w.AbsPath (ctx ++ "dotclaude" :: w.Rel)).1 w.AbsPath,
                       Source := "dotclaude" }])
          (total + w.Info.size env) := by
  simp [saveWalked]

/-- The walked-file loop of `Save` writes regular files only below the context directory. -/
theorem saveWalked_frame (env : Env) (ctx : Path) :
    ∀ (ws : List WalkResult) (fs : FS) (files : List FileEntry) (total : Nat) (q : Path),
      ¬ ctx <+: q → fileAt (saveWalked env ctx ws fs files total).1 q = fileAt fs q := by
  intro ws
  induction ws with
  | nil => intro fs files total q _; simp [saveWalked]
  | cons w rest ih =>
    intro fs files total q hq
    have hne : q ≠ ctx ++ "dotclaude" :: w.Rel := fun e => hq (e ▸ List.prefix_append _ _)
    rw [saveWalked_cons]
    by_cases hok : (CopyFile fs w.AbsPath (ctx ++ "dotclaude" :: w.Rel)).2 = false
    · rw [if_pos hok]; exact CopyFile_fileAt_ne fs hne
    · rw [if_neg hok, ih _ _ _ q hq]; exact CopyFile_fileAt_ne fs hne

/-- The walked-file loop of `Save`, when it succeeds: one entry for each walked file, in
order, the payload stored below `dotclaude` under the relative path. -/
theorem saveWalked_spec (env : Env) (ctx : Path) :
    ∀ (ws : List WalkResult) (fs fs' : FS) (files files' : List FileEntry)
      (total total' : Nat),
      saveWalked env ctx ws fs files total = (fs', .ok (files', total')) →
      (∀ w ∈ ws, ¬ ctx <+: w.AbsPath) →
      (∀ w ∈ ws, ∀ w' ∈ ws, w.Rel = w'.Rel → w.AbsPath = w'.AbsPath) →
      ∃ new : List FileEntry, files' = files ++ new ∧
        total' = total + (new.map (fun e => e.Size)).sum ∧
        (∀ e ∈ new, ∃ w ∈ ws, e.RelPath = "dotclaude" :: w.Rel ∧ e.Source = "dotclaude") ∧
        (∀ w ∈ ws,
          (∃ e ∈ new, e.RelPath = "dotclaude" :: w.Rel ∧ e.Source = "dotclaude") ∧
          (fileAt fs w.AbsPath).isSome = true ∧
          fileAt fs' (ctx ++ "dotclaude" :: w.Rel) = fileAt fs w.AbsPath) ∧
        (∀ q, (∀ e ∈ new, q ≠ ctx ++ e.RelPath) → fileAt fs' q = fileAt fs q) := by
  intro ws
  induction ws with
  | nil =>
    intro fs fs' files files' total total' h _ _
    simp only [saveWalked, Prod.mk.injEq, Except.ok.injEq] at h
    obtain ⟨rfl, rfl, rfl⟩ := h
    exact ⟨[], by simp⟩
  | cons w rest ih =>
    intro fs fs' files files' total total' h hsrc hrel
    have hsrc' : ∀ x ∈ rest, ¬ ctx <+: x.AbsPath :=
      fun x hx => hsrc x (List.mem_cons_of_mem _ hx)
    have hrel' : ∀ x ∈ rest, ∀ y ∈ rest, x.Rel = y.Rel → x.AbsPath = y.AbsPath :=
      fun x hx y hy => hrel x (List.mem_cons_of_mem _ hx) y (List.mem_cons_of_mem _ hy)
    rw [saveWalked_cons] at h
    by_cases hok : (CopyFile fs w.AbsPath (ctx ++ "dotclaude" :: w.Rel)).2 = false
    · rw [if_pos hok] at h; simp at h
    · rw [if_neg hok] at h
      have hok' : (CopyFile fs w.AbsPath (ctx ++ "dotclaude" :: w.Rel)).2 = true := by
        simpa using hok
      obtain ⟨c, m, hcm⟩ := CopyFile_ok_src hok'
      have hlive : ∀ x ∈ w :: rest,
          fileAt (CopyFile fs w.AbsPath (ctx ++ "dotclaude" :: w.Rel)).1 x.AbsPath =
            fileAt fs x.AbsPath := by
        intro x hx
        apply CopyFile_fileAt_ne
        intro e
        exact hsrc x hx (e ▸ List.prefix_append _ _)
      obtain ⟨new, h1, h2, h3, h4, h5⟩ := ih _ fs' _ files' _ total' h hsrc' hrel'
      refine ⟨{ RelPath := "dotclaude" :: w.Rel, Size := w.Info.size env, Mode := w.Info.mode,
                Checksum := FileChecksum env
                  (CopyFile fs w.AbsPath (ctx ++ "dotclaude" :: w.Rel)).1 w.AbsPath,
                Source := "dotclaude" } :: new, by simp [h1], ?_, ?_, ?_, ?_⟩
      · simp only [List.map_cons, List.sum_cons, h2]; omega
      · intro e he
        rcases List.mem_cons.mp he with rfl | he
        · exact ⟨w, List.mem_cons_self _ _, rfl, rfl⟩
        · obtain ⟨x, hx, hh⟩ := h3 e he
          exact ⟨x, List.mem_cons_of_mem _ hx, hh⟩
      · have hself : fileAt fs' (ctx ++ "dotclaude" :: w.Rel) = fileAt fs w.AbsPath := by
          by_cases hex : ∃ e ∈ new, e.RelPath = "dotclaude" :: w.Rel
          · obtain ⟨e, he, hrp⟩ := hex
            obtain ⟨x, hx, hh1, _⟩ := h3 e he
            have hb : x.Rel = w.Rel := by
              rw [hrp] at hh1; simpa using hh1.symm
            have hp := hrel x (List.mem_cons_of_mem _ hx) w (List.mem_cons_self _ _) hb
            have hl := hlive x (List.mem_cons_of_mem _ hx)
            have := (h4 x hx).2.2
            rw [hl, hb, hp] at this
            exact this
          · have hq : ∀ e ∈ new, ctx ++ "dotclaude" :: w.Rel ≠ ctx ++ e.RelPath := by
              intro e he heq
              exact hex ⟨e, he, (List.append_cancel_left heq).symm⟩
            rw [h5 _ hq]
            exact CopyFile_fileAt_dst hok'
        intro x hx
        rcases List.mem_cons.mp hx with rfl | hx
        · exact ⟨⟨_, List.mem_cons_self _ _, rfl, rfl⟩, by simp [hcm], hself⟩
        · obtain ⟨⟨e, he, hh⟩, g2, g3⟩ := h4 x hx
          have hl := hlive x (List.mem_cons_of_mem _ hx)
          exact ⟨⟨e, List.mem_cons_of_mem _ he, hh⟩, by rw [← hl]; exact g2,
            by rw [g3, hl]⟩
      · intro q hq
        rw [h5 q (fun e he => hq e (List.mem_cons_of_mem _ he))]
        apply CopyFile_fileAt_ne
        exact hq _ (List.mem_cons_self _ _)

/-! ### Save -/

/-- The steps of a successful `Save` that is not a dry run. -/
theorem Save_ok_inv {env : Env} {opts : SaveOptions} {fs fs' : FS} {sr : SaveResult}
    (hdry : opts.DryRun = false) (h : Save env opts fs = (fs', .ok sr)) :
    Slugify opts.Name ≠ "" ∧
    ¬ (ContextExists fs opts.Config.ContextsDir (Slugify opts.Name) = true ∧
        opts.Overwrite = false) ∧
    ∃ (fs2 fs3 fs4 fs5 : FS) (files1 files : List FileEntry) (total1 total : Nat),
      mkdirAll (if opts.Overwrite = true then
          RemoveAll fs (opts.Config.ContextsDir ++ [Slugify opts.Name]) else fs)
        (opts.Config.ContextsDir ++ [Slugify opts.Name]) = some fs2 ∧
      saveExtraFiles env (opts.Config.ContextsDir ++ [Slugify opts.Name])
        opts.Config.Scope.ExtraFiles fs2 [] 0 = (fs3, .ok (files1, total1)) ∧
      saveWalked env (opts.Config.ContextsDir ++ [Slugify opts.Name])
        (if (stat fs3 opts.Config.Scope.DotClaudeDir).isSome = true then
          WalkFiltered fs3 opts.Config.Scope.DotClaudeDir opts.Config.IncludePatterns
            opts.Config.ExcludePatterns
         else []) fs3 files1 total1 = (fs4, .ok (files, total)) ∧
      WriteManifest fs4 (opts.Config.ContextsDir ++ [Slugify opts.Name])
        (saveManifest env opts fs4 files total) = (fs5, true) ∧
      SetCurrent fs5 opts.Config (Slugify opts.Name) = (fs', true) ∧
      sr = { Name := Slugify opts.Name,
             Dir := opts.Config.ContextsDir ++ [Slugify opts.Name],
             Files := files.length, TotalSize := total } := by
  unfold Save at h
  simp only at h
  by_cases h1 : Slugify opts.Name = ""
  · rw [if_pos h1] at h; simp at h
  rw [if_neg h1] at h
  by_cases h2 : ContextExists fs opts.Config.ContextsDir (Slugify opts.Name) = true ∧
      opts.Overwrite = false
  · rw [if_pos h2] at h; simp at h
  rw [if_neg h2] at h
  rw [if_neg (by simp [hdry])] at h
  refine ⟨h1, h2, ?_⟩
  cases hm : mkdirAll (if opts.Overwrite = true then
      RemoveAll fs (opts.Config.ContextsDir ++ [Slugify opts.Name]) else fs)
      (opts.Config.ContextsDir ++ [Slugify opts.Name]) with
  | none => simp [hm] at h
  | some fs2 =>
    simp only [hm] at h
    cases hx : saveExtraFiles env (opts.Config.ContextsDir ++ [Slugify opts.Name])
        opts.Config.Scope.ExtraFiles fs2 [] 0 with
    | mk fs3 r =>
      cases r with
      | error e => simp [hx] at h
      | ok v =>
        obtain ⟨files1, total1⟩ := v
        simp only [hx] at h
        cases hw : saveWalked env (opts.Config.ContextsDir ++ [Slugify opts.Name])
            (if (stat fs3 opts.Config.Scope.DotClaudeDir).isSome = true then
              WalkFiltered fs3 opts.Config.Scope.DotClaudeDir opts.Config.IncludePatterns
                opts.Config.ExcludePatterns
             else []) fs3 files1 total1 with
        | mk fs4 r =>
          cases r with
          | error e => simp [hw] at h
          | ok v =>
            obtain ⟨files, total⟩ := v
            simp only [hw] at h
            cases hwm : WriteManifest fs4 (opts.Config.ContextsDir ++ [Slugify opts.Name])
                (saveManifest env opts fs4 files total) with
            | mk fs5 b =>
              cases b with
              | false => simp [hwm] at h
              | true =>
                simp only [hwm] at h
                cases hsc : SetCurrent fs5 opts.Config (Slugify opts.Name) with
                | mk fs6 b =>
                  cases b with
                  | false => simp [hsc] at h
                  | true =>
                    simp only [hsc, Prod.mk.injEq, Except.ok.injEq] at h
                    obtain ⟨rfl, rfl⟩ := h
                    exact ⟨fs2, fs3, fs4, fs5, files1, files, total1, total, rfl, hx, hw,
                      hwm, hsc, rfl⟩

theorem CopyFile_isSome_mono (fs : FS) (src dst : Path) {q : Path}
    (h : (fileAt fs q).isSome = true) : (fileAt (CopyFile fs src dst).1 q).isSome = true := by
  rw [CopyFile_fileAt]
  by_cases hc : (CopyFile fs src dst).2 = true ∧ q = dst
  · rw [if_pos hc]
    obtain ⟨c, m, hcm⟩ := CopyFile_ok_src hc.1
    simp [hcm]
  · rw [if_neg hc]; exact h

/-- The extra-file loop of `Save`, when it succeeds, without any assumption on the
paths: it changes regular files only at the payload paths of the entries it adds, and
each of these holds a regular file afterwards. -/
theorem saveExtraFiles_entries (env : Env) (ctx : Path) :
    ∀ (efs : List ExtraFile) (fs fs' : FS) (files files' : List FileEntry) (total total' : Nat),
      saveExtraFiles env ctx efs fs files total = (fs', .ok (files', total')) →
      ∃ new : List FileEntry, files' = files ++ new ∧
        (∀ q, (∀ e ∈ new, q ≠ ctx ++ e.RelPath) → fileAt fs' q = fileAt fs q) ∧
        (∀ q, (fileAt fs q).isSome = true → (fileAt fs' q).isSome = true) ∧
        (∀ e ∈ new, (fileAt fs' (ctx ++ e.RelPath)).isSome = true) := by
  intro efs
  induction efs with
  | nil =>
    intro fs fs' files files' total total' h
    rw [saveExtraFiles_nil] at h
    simp only [Prod.mk.injEq, Except.ok.injEq] at h
    obtain ⟨rfl, rfl, rfl⟩ := h
    exact ⟨[], by simp⟩
  | cons ef rest ih =>
    intro fs fs' files files' total total' h
    cases hs : stat fs ef.Path with
    | none =>
      rw [saveExtraFiles_cons_none hs] at h
      exact ih fs fs' files files' total total' h
    | some info =>
      rw [saveExtraFiles_cons_some hs] at h
      by_cases hok : (CopyFile fs ef.Path (ctx ++ [baseName ef.Path])).2 = false
      · rw [if_pos hok] at h; simp at h
      · rw [if_neg hok] at h
        have hok' : (CopyFile fs ef.Path (ctx ++ [baseName ef.Path])).2 = true := by
          simpa using hok
        obtain ⟨c, m, hcm⟩ := CopyFile_ok_src hok'
        obtain ⟨new, h1, h2, h3, h4⟩ := ih _ fs' _ files' _ total' h
        refine ⟨{ RelPath := [baseName ef.Path], Size := info.size env, Mode := info.mode,
                  Checksum := FileChecksum env
                    (CopyFile fs ef.Path (ctx ++ [baseName ef.Path])).1 ef.Path,
                  Source := ef.Tag } :: new, by simp [h1], ?_, ?_, ?_⟩
        · intro q hq
          rw [h2 q (fun e he => hq e (List.mem_cons_of_mem _ he))]
          exact CopyFile_fileAt_ne fs (hq _ (List.mem_cons_self _ _))
        · intro q hq
          exact h3 q (CopyFile_isSome_mono fs _ _ hq)
        · intro e he
          rcases List.mem_cons.mp he with rfl | he
          · apply h3
            rw [CopyFile_fileAt_dst hok']
            simp [hcm]
          · exact h4 e he

/-- The walked-file loop of `Save`, when it succeeds, without any assumption on the
paths. -/
theorem saveWalked_entries (env : Env) (ctx : Path) :
    ∀ (ws : List WalkResult) (fs fs' : FS) (files files' : List FileEntry)
      (total total' : Nat),
      saveWalked env ctx ws fs files total = (fs', .ok (files', total')) →
      ∃ new : List FileEntry, files' = files ++ new ∧
        (∀ q, (∀ e ∈ new, q ≠ ctx ++ e.RelPath) → fileAt fs' q = fileAt fs q) ∧
        (∀ q, (fileAt fs q).isSome = true → (fileAt fs' q).isSome = true) ∧
        (∀ e ∈ new, (fileAt fs' (ctx ++ e.RelPath)).isSome = true) := by
  intro ws
  induction ws with
  | nil =>
    intro fs fs' files files' total total' h
    simp only [saveWalked, Prod.mk.injEq, Except.ok.injEq] at h
    obtain ⟨rfl, rfl, rfl⟩ := h
    exact ⟨[], by simp⟩
  | cons w rest ih =>
    intro fs fs' files files' total total' h
    rw [saveWalked_cons] at h
    by_cases hok : (CopyFile fs w.AbsPath (ctx ++ "dotclaude" :: w.Rel)).2 = false
    · rw [if_pos hok] at h; simp at h
    · rw [if_neg hok] at h
      have hok' : (CopyFile fs w.AbsPath (ctx ++ "dotclaude" :: w.Rel)).2 = true := by
        simpa using hok
      obtain ⟨c, m, hcm⟩ := CopyFile_ok_src hok'
      obtain ⟨new, h1, h2, h3, h4⟩ := ih _ fs' _ files' _ total' h
      refine ⟨{ RelPath := "dotclaude" :: w.Rel, Size := w.Info.size env, Mode := w.Info.mode,
                Checksum := FileChecksum env
                  (CopyFile fs w.AbsPath (ctx ++ "dotclaude" :: w.Rel)).1 w.AbsPath,
                Source := "dotclaude" } :: new, by simp [h1], ?_, ?_, ?_⟩
      · intro q hq
        rw [h2 q (fun e he => hq e (List.mem_cons_of_mem _ he))]
        exact CopyFile_fileAt_ne fs (hq _ (List.mem_cons_self _ _))
      · intro q hq
        exact h3 q (CopyFile_isSome_mono fs _ _ hq)
      · intro e he
        rcases List.mem_cons.mp he with rfl | he
        · apply h3
          rw [CopyFile_fileAt_dst hok']
          simp [hcm]
        · exact h4 e he

/-! ### Paths below the storage root -/

theorem not_prefix_sibling (s : Path) {a b : String} (hab : a ≠ b) (r : Path) :
    ¬ (s ++ [a]) <+: (s ++ b :: r) := by
  intro h
  rw [List.prefix_append_right_inj] at h
  exact hab (List.cons_prefix_cons.mp h).1

theorem storage_prefix_context (cfg : Config) (slug : String) :
    cfg.StorageDir <+: cfg.ContextsDir ++ [slug] := by
  simp only [Config.ContextsDir, List.append_assoc]
  exact List.prefix_append _ _

theorem current_not_under_context (cfg : Config) (slug : String) :
    ¬ (cfg.ContextsDir ++ [slug]) <+: cfg.CurrentFile := by
  intro h
  have hlen := h.length_le
  simp [Config.ContextsDir, Config.CurrentFile] at hlen

theorem current_ne_under_context (cfg : Config) (slug : String) {q : Path}
    (hq : (cfg.ContextsDir ++ [slug]) <+: q) : q ≠ cfg.CurrentFile :=
  fun e => current_not_under_context cfg slug (e ▸ hq)

theorem manifestPath_under (ctx : Path) : ctx <+: manifestPath ctx :=
  List.prefix_append _ _

theorem fileAt_none_under_RemoveAll (fs : FS) (ctx : Path) (b : Bool) {q : Path}
    (hb : b = true) (hq : ctx <+: q) :
    fileAt (if b = true then RemoveAll fs ctx else fs) q = none := by
  subst hb
  simp [fileAt_RemoveAll, hq]

/-- A successful overwriting `Save` leaves in the snapshot directory the new manifest
and the payload of its entries, and no other regular file. -/
theorem Save_overwrite_contents {env : Env} {opts : SaveOptions} {fs fs' : FS}
    {sr : SaveResult} (hdry : opts.DryRun = false) (how : opts.Overwrite = true)
    (h : Save env opts fs = (fs', .ok sr)) :
    ∃ man : Manifest,
      ReadManifest fs' (opts.Config.ContextsDir ++ [Slugify opts.Name]) = some man ∧
      man.Name = Slugify opts.Name ∧ sr.Files = man.Files.length ∧
      (∀ e ∈ man.Files,
        (fileAt fs' (opts.Config.ContextsDir ++ [Slugify opts.Name] ++ e.RelPath)).isSome
          = true) ∧
      (∀ q, (opts.Config.ContextsDir ++ [Slugify opts.Name]) <+: q →
        (fileAt fs' q).isSome = true →
        q = manifestPath (opts.Config.ContextsDir ++ [Slugify opts.Name]) ∨
          ∃ e ∈ man.Files, q = opts.Config.ContextsDir ++ [Slugify opts.Name] ++ e.RelPath) := by
  obtain ⟨_, _, fs2, fs3, fs4, fs5, files1, files, total1, total, hmk, hx, hw, hwm, hsc, hsr⟩ :=
    Save_ok_inv hdry h
  obtain ⟨new1, e1, f1, m1, p1⟩ := saveExtraFiles_entries env _ _ _ _ _ _ _ _ hx
  obtain ⟨new2, e2, f2, m2, p2⟩ := saveWalked_entries env _ _ _ _ _ _ _ _ hw
  simp only [List.nil_append] at e1
  subst e1
  have hfs5 : fs5 = (WriteManifest fs4 (opts.Config.ContextsDir ++ [Slugify opts.Name])
      (saveManifest env opts fs4 files total)).1 := by rw [hwm]
  have hwok : (WriteManifest fs4 (opts.Config.ContextsDir ++ [Slugify opts.Name])
      (saveManifest env opts fs4 files total)).2 = true := by rw [hwm]
  have hfs' : fs' = (SetCurrent fs5 opts.Config (Slugify opts.Name)).1 := by rw [hsc]
  have hcur : ∀ q, (opts.Config.ContextsDir ++ [Slugify opts.Name]) <+: q →
      fileAt fs' q = fileAt fs5 q := by
    intro q hq
    rw [hfs']
    exact SetCurrent_fileAt_ne _ _ _ (current_ne_under_context _ _ hq)
  have h5 : ∀ q, fileAt fs5 q =
      if q = manifestPath (opts.Config.ContextsDir ++ [Slugify opts.Name]) then
        some (.manifest (saveManifest env opts fs4 files total), 0o600) else fileAt fs4 q := by
    intro q
    rw [hfs5, WriteManifest_fileAt]
    simp [hwok]
  refine ⟨saveManifest env opts fs4 files total, ?_, rfl, ?_, ?_, ?_⟩
  · have := hcur _ (manifestPath_under (opts.Config.ContextsDir ++ [Slugify opts.Name]))
    rw [h5, if_pos rfl] at this
    unfold fileAt at this
    unfold ReadManifest
    split at this
    · rename_i c m hst
      simp only [Option.some.injEq, Prod.mk.injEq] at this
      rw [hst, this.1]
    · simp at this
  · simp [hsr, saveManifest]
  · intro e he
    have hq : (opts.Config.ContextsDir ++ [Slugify opts.Name]) <+:
        (opts.Config.ContextsDir ++ [Slugify opts.Name] ++ e.RelPath) := List.prefix_append _ _
    rw [hcur _ hq, h5]
    split
    · simp
    · simp only [saveManifest] at he
      rw [e2] at he
      rcases List.mem_append.mp he with he | he
      · exact m2 _ (p1 e he)
      · exact p2 e he
  · intro q hq hsome
    rw [hcur q hq, h5] at hsome
    by_cases hqm : q = manifestPath (opts.Config.ContextsDir ++ [Slugify opts.Name])
    · exact Or.inl hqm
    · right
      rw [if_neg hqm] at hsome
      by_contra hno
      have hno' : ∀ e ∈ files,
          q ≠ opts.Config.ContextsDir ++ [Slugify opts.Name] ++ e.RelPath :=
        fun e he heq => hno ⟨e, by simpa [saveManifest] using he, heq⟩
      rw [e2] at hno'
      rw [f2 q (fun e he => hno' e (List.mem_append_right _ he)),
        f1 q (fun e he => hno' e (List.mem_append_left _ he)),
        fileAt_mkdirAll hmk q, fileAt_none_under_RemoveAll fs _ _ how hq] at hsome
      simp at hsome

theorem Save_alreadyExists {env : Env} {opts : SaveOptions} {fs : FS}
    (hslug : Slugify opts.Name ≠ "")
    (hex : ContextExists fs opts.Config.ContextsDir (Slugify opts.Name) = true)
    (how : opts.Overwrite = false) : Save env opts fs = (fs, .error .alreadyExists) := by
  unfold Save
  simp only
  rw [if_neg hslug, if_pos ⟨hex, how⟩]

theorem Save_overwrite_not_alreadyExists {env : Env} {opts : SaveOptions} {fs : FS}
    (how : opts.Overwrite = true) : (Save env opts fs).2 ≠ .error .alreadyExists := by
  unfold Save
  simp only
  by_cases h1 : Slugify opts.Name = ""
  · rw [if_pos h1]; simp
  · rw [if_neg h1, if_neg (by simp [how])]
    repeat' split
    all_goals simp

/-- C5, counterexample. With overwrite set, `Save("dup")` as a dry run succeeds and
leaves the previous snapshot in place, payload of a deleted live file included; and as a
real run it fails, after it removed the previous snapshot, when a live extra path is a
directory. -/
theorem Save_overwrite_not_replacing :
    Save demoEnv dupDryRunOpts dupEditedFS =
        (dupEditedFS, .ok { Name := "dup", Dir := [], Files := 2, TotalSize := 13 }) ∧
      fileAt dupEditedFS ["p", ".claude", "sub", "x"] = none ∧
      fileAt dupEditedFS ["p", ".claudectx", "contexts", "dup", "dotclaude", "sub", "x"] =
        some (.raw "x", 0o644) ∧
      (Save demoEnv (saveOpts demoCfg "dup" true) dupBlockedFS).2 =
        .error (.copy "CLAUDE.md") ∧
      ReadManifest (Save demoEnv (saveOpts demoCfg "dup" true) dupBlockedFS).1
        ["p", ".claudectx", "contexts", "dup"] = none := by
  decide

/-- C5, amended. `Save` with overwrite unset fails with already-exists, and changes
nothing, whenever the slug is non-empty and a manifest exists for it; with overwrite set
it never fails with already-exists, and whenever it succeeds and is not a dry run the
snapshot directory holds the new manifest, the payload of each of its entries, and no
other regular file (so nothing of the previous snapshot remains). -/
theorem Save_duplicate_name (env : Env) (opts : SaveOptions) (fs : FS) :
    (Slugify opts.Name ≠ "" →
      ContextExists fs opts.Config.ContextsDir (Slugify opts.Name) = true →
      opts.Overwrite = false → Save env opts fs = (fs, .error .alreadyExists)) ∧
    (opts.Overwrite = true → (Save env opts fs).2 ≠ .error .alreadyExists) ∧
    (opts.Overwrite = true → opts.DryRun = false → ∀ fs' sr,
      Save env opts fs = (fs', .ok sr) →
      ∃ man : Manifest,
        ReadManifest fs' (opts.Config.ContextsDir ++ [Slugify opts.Name]) = some man ∧
        man.Name = Slugify opts.Name ∧ sr.Files = man.Files.length ∧
        (∀ e ∈ man.Files,
          (fileAt fs' (opts.Config.ContextsDir ++ [Slugify opts.Name] ++ e.RelPath)).isSome
            = true) ∧
        (∀ q, (opts.Config.ContextsDir ++ [Slugify opts.Name]) <+: q →
          (fileAt fs' q).isSome = true →
          q = manifestPath (opts.Config.ContextsDir ++ [Slugify opts.Name]) ∨
            ∃ e ∈ man.Files,
              q = opts.Config.ContextsDir ++ [Slugify opts.Name] ++ e.RelPath)) :=
  ⟨fun h1 h2 h3 => Save_alreadyExists h1 h2 h3,
    fun h => Save_overwrite_not_alreadyExists h,
    fun how hdry _ _ h => Save_overwrite_contents hdry how h⟩

/-- C5, witness: `Save("dup")` on the state after a first `Save("dup")`, without and
with overwrite. -/
theorem Save_duplicate_name_witness :
    Save demoEnv (saveOpts demoCfg "dup" false) dupEditedFS =
        (dupEditedFS, .error .alreadyExists) ∧
      fileAt (Save demoEnv (saveOpts demoCfg "dup" true) dupEditedFS).1
        ["p", ".claudectx", "contexts", "dup", "dotclaude", "sub", "x"] = none ∧
      (ReadManifest (Save demoEnv (saveOpts demoCfg "dup" true) dupEditedFS).1
        (demoCfg.ContextsDir ++ [Slugify "dup"])).isSome = true :=
  ⟨(Save_duplicate_name demoEnv (saveOpts demoCfg "dup" false) dupEditedFS).1
      (by decide) (by decide) rfl,
    by decide,
    by
      obtain ⟨man, h1, _⟩ :=
        (Save_duplicate_name demoEnv (saveOpts demoCfg "dup" true) dupEditedFS).2.2 rfl rfl
          (Save demoEnv (saveOpts demoCfg "dup" true) dupEditedFS).1
          { Name := "dup", Dir := ["p", ".claudectx", "contexts", "dup"], Files := 2,
            TotalSize := 13 } (by decide)
      exact (congrArg Option.isSome h1).trans rfl⟩

/-! ### Where the entries of a saved manifest are replayed -/

theorem find_tag_of_nodup :
    ∀ (l : List ExtraFile), (l.map (fun ef => ef.Tag)).Nodup → ∀ ef ∈ l,
      l.find? (fun x => x.Tag == ef.Tag) = some ef := by
  intro l
  induction l with
  | nil => intro _ ef h; simp at h
  | cons x xs ih =>
    intro hnd ef hef
    simp only [List.map_cons, List.nodup_cons] at hnd
    rcases List.mem_cons.mp hef with rfl | hef
    · simp
    · have hne : x.Tag ≠ ef.Tag := by
        intro e
        exact hnd.1 (e ▸ List.mem_map_of_mem (fun ef => ef.Tag) hef)
      simp [List.find?_cons, hne, ih hnd.2 ef hef]

theorem drop_ne_nil_of_under {a l : Path} (h : a <+: l) (hne : l ≠ a) :
    l.drop a.length ≠ [] := by
  intro hd
  have := List.prefix_iff_eq_append.mp h
  rw [hd, List.append_nil] at this
  exact hne this.symm

theorem append_drop_of_under {a l : Path} (h : a <+: l) : a ++ l.drop a.length = l :=
  List.prefix_iff_eq_append.mp h

theorem trimDotclaude_cons {rel : Path} (h : rel ≠ []) :
    trimDotclaude ("dotclaude" :: rel) = rel := by
  cases rel with
  | nil => exact absurd rfl h
  | cons s t => simp [trimDotclaude]

/-- An entry that `Save` wrote for the live path `l` is replayed to `l`. -/
theorem restoreDest_of_EntryOf {scope : Scope} (hok : ExtraFilesOK scope) {e : FileEntry}
    {l : Path} (h : EntryOf scope e l) : restoreDest scope e = some l := by
  rcases h with ⟨ef, hef, hp, _, hsrc⟩ | ⟨hpre, hne, hrel, hsrc⟩
  · have hx := hok.1 ef hef
    have hfind := find_tag_of_nodup _ hok.2.1 ef hef
    simp [restoreDest, hsrc, hx, Scope.ExtraFileByTag, hfind, hp]
  · have hx : isExtraFileSource "dotclaude" = false := by decide
    simp only [restoreDest, hsrc, hx, hrel, trimDotclaude_cons (drop_ne_nil_of_under hpre hne),
      append_drop_of_under hpre]
    simp

/-! ### Live paths and the storage root -/

theorem prefix_comparable {a b c : Path} (ha : a <+: c) (hb : b <+: c) : a <+: b ∨ b <+: a := by
  rcases Nat.le_total a.length b.length with h | h
  · exact Or.inl (List.prefix_of_prefix_length_le ha hb h)
  · exact Or.inr (List.prefix_of_prefix_length_le hb ha h)

/-- A path at or below the managed directory is neither below the storage root nor
above a path below it. -/
theorem managed_apart {cfg : Config} (hsep : Separated cfg) {l : Path}
    (hl : cfg.Scope.DotClaudeDir <+: l) {t : Path} (ht : cfg.StorageDir <+: t) :
    ¬ cfg.StorageDir <+: l ∧ ¬ l <+: t := by
  constructor
  · intro h
    rcases prefix_comparable hl h with h' | h'
    · exact hsep.2.1 h'
    · exact hsep.1 h'
  · intro h
    rcases prefix_comparable (hl.trans h) ht with h' | h'
    · exact hsep.2.1 h'
    · exact hsep.1 h'

/-- The live paths an entry can come from are not below the storage root. -/
theorem EntryOf_apart {cfg : Config} (hsep : Separated cfg) {e : FileEntry} {l : Path}
    (h : EntryOf cfg.Scope e l) : ¬ cfg.StorageDir <+: l := by
  rcases h with ⟨ef, hef, hp, _, _⟩ | ⟨hpre, _, _, _⟩
  · exact hp ▸ hsep.2.2 ef hef
  · exact (managed_apart hsep hpre (List.prefix_refl _)).1

theorem Captured_apart {cfg : Config} (hsep : Separated cfg) {fs : FS} {l : Path}
    (h : Captured cfg fs l) : ¬ cfg.StorageDir <+: l := by
  rcases h with ⟨ef, hef, hp⟩ | ⟨_, hpre, _, _⟩
  · exact hp ▸ hsep.2.2 ef hef
  · exact (managed_apart hsep hpre (List.prefix_refl _)).1

/-- The extra-file loop of `Save` changes the node of a path only at or below the
context directory, or above it. -/
theorem saveExtraFiles_stat (env : Env) (ctx : Path) :
    ∀ (efs : List ExtraFile) (fs : FS) (files : List FileEntry) (total : Nat) (q : Path),
      ¬ ctx <+: q → ¬ q <+: ctx →
      stat (saveExtraFiles env ctx efs fs files total).1 q = stat fs q := by
  intro efs
  induction efs with
  | nil => intro fs files total q _ _; simp [saveExtraFiles]
  | cons ef rest ih =>
    intro fs files total q hq hq'
    have hcopy : stat (CopyFile fs ef.Path (ctx ++ [baseName ef.Path])).1 q = stat fs q := by
      rcases CopyFile_stat fs ef.Path (ctx ++ [baseName ef.Path]) q with h | h | h
      · exact h
      · exact absurd (h ▸ List.prefix_append _ _) hq
      · exact absurd (by simpa using h.2.2) hq'
    cases hs : stat fs ef.Path with
    | none => rw [saveExtraFiles_cons_none hs]; exact ih fs files total q hq hq'
    | some info =>
      rw [saveExtraFiles_cons_some hs]
      by_cases hok : (CopyFile fs ef.Path (ctx ++ [baseName ef.Path])).2 = false
      · rw [if_pos hok]; exact hcopy
      · rw [if_neg hok, ih _ _ _ q hq hq']; exact hcopy

theorem ReadManifest_of_fileAt {fs : FS} {ctx : Path} {m : Manifest} {mode : Nat}
    (h : fileAt fs (manifestPath ctx) = some (.manifest m, mode)) :
    ReadManifest fs ctx = some m := by
  unfold fileAt at h
  unfold ReadManifest
  split at h
  · rename_i c k hst
    simp only [Option.some.injEq, Prod.mk.injEq] at h
    rw [hst, h.1]
  · simp at h

theorem stat_isSome_of_fileAt {fs : FS} {p : Path} (h : (fileAt fs p).isSome = true) :
    (stat fs p).isSome = true := by
  unfold fileAt at h
  split at h
  · rename_i hh; simp [hh]
  · simp at h

theorem stat_of_fileAt {fs : FS} {p : Path} {c : Content} {m : Nat}
    (h : fileAt fs p = some (c, m)) : stat fs p = some (.file c m) := by
  unfold fileAt at h
  split at h
  · rename_i c' m' hh
    simp only [Option.some.injEq, Prod.mk.injEq] at h
    rw [hh, h.1, h.2]
  · simp at h

theorem not_under_of_not_storage {s t l : Path} (hst : s <+: t) (h : ¬ s <+: l) : ¬ t <+: l :=
  fun h' => h (hst.trans h')

/-- What a successful `Save` (not a dry run) leaves behind, for a configuration whose
storage root lies apart from the live files: a manifest whose entries are exactly the
captured live files, each with its live content and mode as payload, and the current
pointer naming the slug. -/
theorem Save_spec {env : Env} {opts : SaveOptions} {fs fs' : FS} {sr : SaveResult}
    (hdry : opts.DryRun = false) (h : Save env opts fs = (fs', .ok sr))
    (hsep : Separated opts.Config) (hok : ExtraFilesOK opts.Config.Scope)
    (hdir : fileAt fs opts.Config.Scope.DotClaudeDir = none) :
    ∃ man : Manifest,
      ReadManifest fs' (opts.Config.ContextsDir ++ [Slugify opts.Name]) = some man ∧
      (∀ e ∈ man.Files, ∃ l, EntryOf opts.Config.Scope e l ∧
        fileAt fs' (opts.Config.ContextsDir ++ [Slugify opts.Name] ++ e.RelPath) = fileAt fs l ∧
        (fileAt fs l).isSome = true) ∧
      (∀ l, (fileAt fs l).isSome = true → Captured opts.Config fs l →
        ∃ e ∈ man.Files, EntryOf opts.Config.Scope e l) ∧
      (∃ mode, fileAt fs' opts.Config.CurrentFile =
        some (.raw (Slugify opts.Name ++ "\n"), mode)) := by
  obtain ⟨_, _, fs2, fs3, fs4, fs5, files1, files, total1, total, hmk, hx, hw, hwm, hsc, _⟩ :=
    Save_ok_inv hdry h
  -- abbreviations
  generalize hctx : opts.Config.ContextsDir ++ [Slugify opts.Name] = ctx at *
  have hS : opts.Config.StorageDir <+: ctx := hctx ▸ storage_prefix_context _ _
  have hfs5 : fs5 = (WriteManifest fs4 ctx (saveManifest env opts fs4 files total)).1 := by
    rw [hwm]
  have hwok : (WriteManifest fs4 ctx (saveManifest env opts fs4 files total)).2 = true := by
    rw [hwm]
  have hfs' : fs' = (SetCurrent fs5 opts.Config (Slugify opts.Name)).1 := by rw [hsc]
  have hscok : (SetCurrent fs5 opts.Config (Slugify opts.Name)).2 = true := by rw [hsc]
  -- frames of the first steps
  have hf2 : ∀ q, ¬ ctx <+: q → fileAt fs2 q = fileAt fs q := by
    intro q hq
    rw [fileAt_mkdirAll hmk q]
    split
    · simp [fileAt_RemoveAll, hq]
    · rfl
  have hs2 : ∀ q, ¬ ctx <+: q → ¬ q <+: ctx → stat fs2 q = stat fs q := by
    intro q hq hq'
    rcases stat_mkdirAll hmk q with h' | h'
    · rw [h']
      split
      · simp [stat_RemoveAll, hq]
      · rfl
    · exact absurd h'.2.2 hq'
  have hf3 : ∀ q, ¬ ctx <+: q → fileAt fs3 q = fileAt fs q := by
    intro q hq
    have := saveExtraFiles_frame env ctx opts.Config.Scope.ExtraFiles fs2 [] 0 q hq
    rw [hx] at this
    rw [this, hf2 q hq]
  have hs3 : ∀ q, ¬ ctx <+: q → ¬ q <+: ctx → stat fs3 q = stat fs q := by
    intro q hq hq'
    have := saveExtraFiles_stat env ctx opts.Config.Scope.ExtraFiles fs2 [] 0 q hq hq'
    rw [hx] at this
    rw [this, hs2 q hq hq']
  have hcur : ∀ q, ctx <+: q → fileAt fs' q = fileAt fs5 q := by
    intro q hq
    rw [hfs']
    exact SetCurrent_fileAt_ne _ _ _ (current_ne_under_context _ _ (hctx ▸ hq))
  have h5 : ∀ q, fileAt fs5 q =
      if q = manifestPath ctx then
        some (.manifest (saveManifest env opts fs4 files total), 0o600) else fileAt fs4 q := by
    intro q
    rw [hfs5, WriteManifest_fileAt]
    simp [hwok]
  -- the managed directory
  have hDot : ¬ ctx <+: opts.Config.Scope.DotClaudeDir ∧
      ¬ opts.Config.Scope.DotClaudeDir <+: ctx := by
    have := managed_apart hsep (List.prefix_refl opts.Config.Scope.DotClaudeDir) hS
    exact ⟨not_under_of_not_storage hS this.1, this.2⟩
  have hunder : ∀ l, opts.Config.Scope.DotClaudeDir <+: l → ¬ ctx <+: l ∧ ¬ l <+: ctx := by
    intro l hl
    have := managed_apart hsep hl hS
    exact ⟨not_under_of_not_storage hS this.1, this.2⟩
  have hstatDot : stat fs3 opts.Config.Scope.DotClaudeDir =
      stat fs opts.Config.Scope.DotClaudeDir := hs3 _ hDot.1 hDot.2
  -- the extra-file loop
  have hsrc1 : ∀ ef ∈ opts.Config.Scope.ExtraFiles, ¬ ctx <+: ef.Path :=
    fun ef hef => not_under_of_not_storage hS (hsep.2.2 ef hef)
  obtain ⟨new1, e1, _, g3, g4, _⟩ :=
    saveExtraFiles_spec env ctx _ _ _ _ _ _ _ hx hsrc1 hok.2.2.1
  simp only [List.nil_append] at e1
  subst e1
  -- the walked files
  have hW : ∀ w ∈ (if (stat fs3 opts.Config.Scope.DotClaudeDir).isSome = true then
        WalkFiltered fs3 opts.Config.Scope.DotClaudeDir opts.Config.IncludePatterns
          opts.Config.ExcludePatterns else []),
      stat fs opts.Config.Scope.DotClaudeDir = some .dir ∧
      opts.Config.Scope.DotClaudeDir <+: w.AbsPath ∧
      w.AbsPath ≠ opts.Config.Scope.DotClaudeDir ∧
      w.Rel = w.AbsPath.drop opts.Config.Scope.DotClaudeDir.length := by
    intro w hw
    split at hw
    · rename_i hsome
      have hd : stat fs3 opts.Config.Scope.DotClaudeDir = some .dir := by
        cases hst : stat fs3 opts.Config.Scope.DotClaudeDir with
        | none => rw [hst] at hsome; simp at hsome
        | some n =>
          cases n with
          | dir => rfl
          | file c m =>
            rw [hstatDot] at hst
            simp [fileAt, hst] at hdir
      obtain ⟨c, m, _, _, k3, k4, k5, _⟩ := (WalkFiltered_mem_dir hd _ _ w).mp hw
      exact ⟨hstatDot ▸ hd, k3, k4, k5⟩
    · simp at hw
  have hsrc2 : ∀ w ∈ (if (stat fs3 opts.Config.Scope.DotClaudeDir).isSome = true then
        WalkFiltered fs3 opts.Config.Scope.DotClaudeDir opts.Config.IncludePatterns
          opts.Config.ExcludePatterns else []), ¬ ctx <+: w.AbsPath :=
    fun w hw => (hunder _ (hW w hw).2.1).1
  have hrel2 : ∀ w ∈ (if (stat fs3 opts.Config.Scope.DotClaudeDir).isSome = true then
        WalkFiltered fs3 opts.Config.Scope.DotClaudeDir opts.Config.IncludePatterns
          opts.Config.ExcludePatterns else []),
      ∀ w' ∈ (if (stat fs3 opts.Config.Scope.DotClaudeDir).isSome = true then
        WalkFiltered fs3 opts.Config.Scope.DotClaudeDir opts.Config.IncludePatterns
          opts.Config.ExcludePatterns else []), w.Rel = w'.Rel → w.AbsPath = w'.AbsPath := by
    intro w hw w' hw' hrel
    rw [← append_drop_of_under (hW w hw).2.1, ← append_drop_of_under (hW w' hw').2.1,
      ← (hW w hw).2.2.2, ← (hW w' hw').2.2.2, hrel]
  obtain ⟨new2, e2, _, k3, k4, k5⟩ := saveWalked_spec env ctx _ _ _ _ _ _ _ hw hsrc2 hrel2
  have hrelne : ∀ e ∈ new2, ∃ s t r, e.RelPath = s :: t :: r ∧ s = "dotclaude" := by
    intro e he
    obtain ⟨w, hw, hrp, _⟩ := k3 e he
    have hne := drop_ne_nil_of_under (hW w hw).2.1 (hW w hw).2.2.1
    rw [← (hW w hw).2.2.2] at hne
    cases hr : w.Rel with
    | nil => exact absurd hr hne
    | cons t r => exact ⟨"dotclaude", t, r, by rw [hrp, hr], rfl⟩
  refine ⟨saveManifest env opts fs4 files total, ?_, ?_, ?_, ?_⟩
  · apply ReadManifest_of_fileAt
    rw [hcur _ (manifestPath_under ctx), h5, if_pos rfl]
  · intro e he
    simp only [saveManifest] at he
    rw [e2] at he
    rcases List.mem_append.mp he with he | he
    · obtain ⟨ef, hef, hrp, hsrc, hsome⟩ := g3 e he
      refine ⟨ef.Path, Or.inl ⟨ef, hef, rfl, hrp, hsrc⟩, ?_, ?_⟩
      · rw [hcur _ (List.prefix_append _ _), h5, if_neg, k5, hrp,
          (g4 ef hef (stat_isSome_of_fileAt hsome)).2.2, hf2 _ (hsrc1 ef hef)]
        · intro e2' he2' heq
          obtain ⟨s, t, r, hr, _⟩ := hrelne e2' he2'
          have := List.append_cancel_left heq
          rw [hrp, hr] at this
          simp at this
        · intro heq
          have := List.append_cancel_left heq
          rw [hrp] at this
          simp only [List.cons.injEq, and_true] at this
          exact hok.2.2.2 ef hef this
      · rw [← hf2 _ (hsrc1 ef hef)]; exact hsome
    · obtain ⟨w, hw, hrp, hsrc⟩ := k3 e he
      obtain ⟨hd, hpre, hne, hrel⟩ := hW w hw
      refine ⟨w.AbsPath, Or.inr ⟨hpre, hne, by rw [hrp, hrel], hsrc⟩, ?_, ?_⟩
      · rw [hcur _ (List.prefix_append _ _), h5, if_neg, hrp, (k4 w hw).2.2,
          hf3 _ (hsrc2 w hw)]
        intro heq
        have := List.append_cancel_left heq
        rw [hrp] at this
        simp [manifestPath] at this
      · rw [← hf3 _ (hsrc2 w hw)]; exact (k4 w hw).2.1
  · intro l hsome hcap
    simp only [saveManifest]
    rw [e2]
    rcases hcap with ⟨ef, hef, hp⟩ | ⟨hd, hpre, hne, hsel⟩
    · subst hp
      have hst : (stat fs2 ef.Path).isSome = true := by
        apply stat_isSome_of_fileAt
        rw [hf2 _ (hsrc1 ef hef)]; exact hsome
      obtain ⟨⟨e, he, hrp, hsrc⟩, _⟩ := g4 ef hef hst
      exact ⟨e, List.mem_append_left _ he, Or.inl ⟨ef, hef, rfl, hrp, hsrc⟩⟩
    · obtain ⟨x, hx⟩ := Option.isSome_iff_exists.mp hsome
      obtain ⟨c, m⟩ := x
      have hst3 : stat fs3 l = some (.file c m) := by
        rw [hs3 l (hunder l hpre).1 (hunder l hpre).2]
        exact stat_of_fileAt hx
      have hd3 : stat fs3 opts.Config.Scope.DotClaudeDir = some .dir := by rw [hstatDot, hd]
      have hmem : ({ Rel := l.drop opts.Config.Scope.DotClaudeDir.length,
                     RelPath := relString (l.drop opts.Config.Scope.DotClaudeDir.length),
                     AbsPath := l, Info := .file c m } : WalkResult) ∈
          (if (stat fs3 opts.Config.Scope.DotClaudeDir).isSome = true then
            WalkFiltered fs3 opts.Config.Scope.DotClaudeDir opts.Config.IncludePatterns
              opts.Config.ExcludePatterns else []) := by
        rw [if_pos (by simp [hd3])]
        exact (WalkFiltered_mem_dir hd3 _ _ _).mpr ⟨c, m, hst3, rfl, hpre, hne, rfl, rfl, hsel⟩
      obtain ⟨⟨e, he, hrp, hsrc⟩, _⟩ := k4 _ hmem
      exact ⟨e, List.mem_append_right _ he, Or.inr ⟨hpre, hne, hrp, hsrc⟩⟩
  · rw [hfs']
    exact SetCurrent_ok hscok

/-! ### Restore -/

/-- The steps of a successful `Restore` that is not a dry run. -/
theorem Restore_ok_inv {env : Env} {opts : RestoreOptions} {fs fs' : FS} {rr : RestoreResult}
    (hdry : opts.DryRun = false) (h : Restore env opts fs = (fs', .ok rr)) :
    ∃ (man : Manifest) (fsA fsC fsD : FS),
      ReadManifest fs (opts.Config.ContextsDir ++ [Slugify opts.Name]) = some man ∧
      AutoSaveCurrent env fs opts.Config (Slugify opts.Name) = (fsA, false) ∧
      ClearManagedFiles (createBackup env fsA opts.Config opts.Config.Scope).1 opts.Config =
        (fsC, true) ∧
      restoreCopy (opts.Config.ContextsDir ++ [Slugify opts.Name]) opts.Config.Scope
        man.Files fsC 0 = (fsD, .ok rr.FilesRestored) ∧
      SetCurrent fsD opts.Config (Slugify opts.Name) = (fs', true) := by
  unfold Restore at h
  simp only at h
  cases hm : ReadManifest fs (opts.Config.ContextsDir ++ [Slugify opts.Name]) with
  | none => simp [hm] at h
  | some man =>
    simp only [hm] at h
    by_cases h2 : man.Scope ≠ "" ∧ man.Scope ≠ opts.Config.Scope.ScopeType
    · rw [if_pos h2] at h; simp at h
    rw [if_neg h2, if_neg (by simp [hdry])] at h
    cases ha : AutoSaveCurrent env fs opts.Config (Slugify opts.Name) with
    | mk fsA b =>
      cases b with
      | true => simp [ha] at h
      | false =>
        simp only [ha] at h
        by_cases hb : (createBackup env fsA opts.Config opts.Config.Scope).2.2 = false ∧
            opts.Force = false
        · rw [if_pos hb] at h; simp at h
        rw [if_neg hb] at h
        cases hc : ClearManagedFiles (createBackup env fsA opts.Config opts.Config.Scope).1
            opts.Config with
        | mk fsC b =>
          cases b with
          | false => simp [hc] at h
          | true =>
            simp only [hc] at h
            cases hr : restoreCopy (opts.Config.ContextsDir ++ [Slugify opts.Name])
                opts.Config.Scope man.Files fsC 0 with
            | mk fsD r =>
              cases r with
              | error e => simp [hr] at h
              | ok n =>
                simp only [hr] at h
                cases hsc : SetCurrent fsD opts.Config (Slugify opts.Name) with
                | mk fsE b =>
                  cases b with
                  | false => simp [hsc] at h
                  | true =>
                    simp only [hsc, Prod.mk.injEq, Except.ok.injEq] at h
                    obtain ⟨rfl, rfl⟩ := h
                    exact ⟨man, fsA, fsC, fsD, rfl, rfl, hc, hr, hsc⟩

theorem AutoSaveCurrent_same {env : Env} {fs : FS} {cfg : Config} {slug : String}
    (h : GetCurrent env fs cfg = .name slug) : AutoSaveCurrent env fs cfg slug = (fs, false) := by
  simp [AutoSaveCurrent, h]

/-! ### Frames of the backup and of the clearing -/

theorem backupExtraFiles_frame (dir : Path) :
    ∀ (efs : List ExtraFile) (fs : FS) (q : Path), ¬ dir <+: q →
      fileAt (backupExtraFiles dir efs fs).1 q = fileAt fs q := by
  intro efs
  induction efs with
  | nil => intro fs q _; simp [backupExtraFiles]
  | cons ef rest ih =>
    intro fs q hq
    have hne : q ≠ dir ++ [baseName ef.Path] := fun e => hq (e ▸ List.prefix_append _ _)
    simp only [backupExtraFiles]
    split
    · split
      · exact CopyFile_fileAt_ne fs hne
      · rw [ih _ q hq]; exact CopyFile_fileAt_ne fs hne
    · exact ih fs q hq

theorem backupWalked_frame (dir : Path) :
    ∀ (ws : List WalkResult) (fs : FS) (q : Path), ¬ dir <+: q →
      fileAt (backupWalked dir ws fs).1 q = fileAt fs q := by
  intro ws
  induction ws with
  | nil => intro fs q _; simp [backupWalked]
  | cons w rest ih =>
    intro fs q hq
    have hne : q ≠ dir ++ "dotclaude" :: w.Rel := fun e => hq (e ▸ List.prefix_append _ _)
    simp only [backupWalked]
    split
    · exact CopyFile_fileAt_ne fs hne
    · rw [ih _ q hq]; exact CopyFile_fileAt_ne fs hne

/-- Whatever its outcome, `createBackup` leaves every regular file outside the backups
directory as it was. -/
theorem createBackup_frame (env : Env) (fs : FS) (cfg : Config) (scope : Scope) (q : Path)
    (hq : ¬ cfg.BackupsDir <+: q) : fileAt (createBackup env fs cfg scope).1 q = fileAt fs q := by
  have hq' : ¬ (cfg.BackupsDir ++ [backupName env.now]) <+: q :=
    fun h => hq ((List.prefix_append _ _).trans h)
  unfold createBackup
  simp only
  cases hm : mkdirAll fs (cfg.BackupsDir ++ [backupName env.now]) with
  | none => rfl
  | some fs1 =>
    simp only
    have h1 := fileAt_mkdirAll hm q
    have h2 := backupExtraFiles_frame (cfg.BackupsDir ++ [backupName env.now])
      scope.ExtraFiles fs1 q hq'
    cases hb : backupExtraFiles (cfg.BackupsDir ++ [backupName env.now]) scope.ExtraFiles fs1 with
    | mk fs2 b =>
      rw [hb] at h2
      cases b with
      | false => simp only; rw [h2, h1]
      | true =>
        simp only
        split
        · simp only
          rw [backupWalked_frame _ _ _ q hq', h2, h1]
        · simp only; rw [h2, h1]

theorem clearExtraFiles_frame :
    ∀ (efs : List ExtraFile) (fs : FS) (q : Path), (∀ ef ∈ efs, q ≠ ef.Path) →
      fileAt (clearExtraFiles efs fs).1 q = fileAt fs q := by
  intro efs
  induction efs with
  | nil => intro fs q _; simp [clearExtraFiles]
  | cons ef rest ih =>
    intro fs q hq
    have h1 := Remove_fileAt_ne fs (hq ef (List.mem_cons_self _ _))
    have hq' : ∀ x ∈ rest, q ≠ x.Path := fun x hx => hq x (List.mem_cons_of_mem _ hx)
    simp only [clearExtraFiles]
    cases hr : Remove fs ef.Path with
    | mk fs1 r =>
      rw [hr] at h1
      cases r <;> simp only
      · rw [ih _ q hq', h1]
      · rw [ih _ q hq', h1]
      · exact h1

theorem clearWalked_frame :
    ∀ (ws : List WalkResult) (fs : FS) (q : Path), (∀ w ∈ ws, q ≠ w.AbsPath) →
      fileAt (clearWalked ws fs).1 q = fileAt fs q := by
  intro ws
  induction ws with
  | nil => intro fs q _; simp [clearWalked]
  | cons w rest ih =>
    intro fs q hq
    have h1 := Remove_fileAt_ne fs (hq w (List.mem_cons_self _ _))
    have hq' : ∀ x ∈ rest, q ≠ x.AbsPath := fun x hx => hq x (List.mem_cons_of_mem _ hx)
    simp only [clearWalked]
    cases hr : Remove fs w.AbsPath with
    | mk fs1 r =>
      rw [hr] at h1
      cases r <;> simp only
      · rw [ih _ q hq', h1]
      · rw [ih _ q hq', h1]
      · exact h1

theorem removeDirs_frame :
    ∀ (dirs : List Path) (fs : FS) (q : Path), (∀ d ∈ dirs, q ≠ d) →
      fileAt (removeDirs dirs fs) q = fileAt fs q := by
  intro dirs
  induction dirs with
  | nil => intro fs q _; simp [removeDirs]
  | cons d rest ih =>
    intro fs q hq
    simp only [removeDirs]
    rw [ih _ q (fun x hx => hq x (List.mem_cons_of_mem _ hx))]
    exact Remove_fileAt_ne fs (hq d (List.mem_cons_self _ _))

theorem walk_under_root {fs : FS} {root : Path} {e : Path × Node} (h : e ∈ walk fs root) :
    root <+: e.1 := by
  unfold walk at h
  cases hs : stat fs root with
  | none => simp [hs] at h
  | some n =>
    cases n with
    | file c m =>
      simp only [hs, List.mem_singleton] at h
      rw [h]
    | dir =>
      rcases (mem_walk_dir hs e).mp h with h' | h'
      · rw [h']
      · exact h'.2.1

theorem WalkFiltered_under_root {fs : FS} {root : Path} {includes excludes : List String}
    {w : WalkResult} (h : w ∈ WalkFiltered fs root includes excludes) : root <+: w.AbsPath := by
  simp only [WalkFiltered, List.mem_filterMap] at h
  obtain ⟨e, he, hw⟩ := h
  have hp := walk_under_root he
  cases hn : e.2 with
  | dir => simp [hn] at hw
  | file c m =>
    simp only [hn] at hw
    split at hw
    · simp only [Option.some.injEq] at hw
      rw [← hw]; exact hp
    · simp at hw

theorem removeEmptyDirs_frame (fs : FS) (root q : Path) (hq : ¬ root <+: q) :
    fileAt (removeEmptyDirs fs root) q = fileAt fs q := by
  unfold removeEmptyDirs
  apply removeDirs_frame
  intro d hd heq
  simp only [List.mem_reverse, List.mem_filterMap] at hd
  obtain ⟨e, he, hed⟩ := hd
  have hp := walk_under_root he
  cases hn : e.2 with
  | file c m => simp [hn] at hed
  | dir =>
    simp only [hn] at hed
    split at hed
    · simp at hed
    · simp only [Option.some.injEq] at hed
      exact hq (heq ▸ hed ▸ hp)

/-- Whatever its outcome, `ClearManagedFiles` leaves every regular file that is neither
an extra file nor below the managed directory as it was. -/
theorem ClearManagedFiles_frame (fs : FS) (cfg : Config) (q : Path)
    (hx : ∀ ef ∈ cfg.Scope.ExtraFiles, q ≠ ef.Path) (hq : ¬ cfg.Scope.DotClaudeDir <+: q) :
    fileAt (ClearManagedFiles fs cfg).1 q = fileAt fs q := by
  unfold ClearManagedFiles
  simp only
  have h1 := clearExtraFiles_frame cfg.Scope.ExtraFiles fs q hx
  cases hc : clearExtraFiles cfg.Scope.ExtraFiles fs with
  | mk fs1 b =>
    rw [hc] at h1
    cases b with
    | false => exact h1
    | true =>
      simp only
      split
      · have h2 := clearWalked_frame (WalkFiltered fs1 cfg.Scope.DotClaudeDir
          cfg.Scope.IncludePatterns cfg.Scope.ExcludePatterns) fs1 q
          (fun w hw heq => hq (heq ▸ WalkFiltered_under_root hw))
        cases hw : clearWalked (WalkFiltered fs1 cfg.Scope.DotClaudeDir
            cfg.Scope.IncludePatterns cfg.Scope.ExcludePatterns) fs1 with
        | mk fs2 b =>
          rw [hw] at h2
          cases b with
          | false => simp only; rw [h2, h1]
          | true => simp only; rw [removeEmptyDirs_frame _ _ _ hq, h2, h1]
      · exact h1

theorem restoreDest_apart {cfg : Config} (hsep : Separated cfg) {e : FileEntry} {d : Path}
    (h : restoreDest cfg.Scope e = some d) : ¬ cfg.StorageDir <+: d := by
  unfold restoreDest at h
  split at h
  · cases hf : cfg.Scope.ExtraFileByTag e.Source with
    | none => simp [hf] at h
    | some ef =>
      simp only [hf, Option.some.injEq] at h
      have hmem : ef ∈ cfg.Scope.ExtraFiles := List.mem_of_find?_eq_some hf
      exact h ▸ hsep.2.2 ef hmem
  · simp only [Option.some.injEq] at h
    exact (managed_apart hsep (h ▸ List.prefix_append _ _) (List.prefix_refl _)).1

theorem contexts_under_storage (cfg : Config) {q : Path} (h : cfg.ContextsDir <+: q) :
    cfg.StorageDir <+: q :=
  (List.prefix_append _ _).trans h

theorem backups_not_contexts (cfg : Config) {q : Path} (h : cfg.ContextsDir <+: q) :
    ¬ cfg.BackupsDir <+: q := by
  intro hb
  obtain ⟨r, rfl⟩ := h
  simp only [Config.ContextsDir, Config.BackupsDir, List.append_assoc,
    List.singleton_append] at hb
  exact not_prefix_sibling cfg.StorageDir (by decide) r hb

theorem current_not_contexts (cfg : Config) {q : Path} (h : cfg.ContextsDir <+: q) :
    q ≠ cfg.CurrentFile := by
  intro e
  subst e
  obtain ⟨r, hr⟩ := h
  simp only [Config.ContextsDir, Config.CurrentFile, List.append_assoc,
    List.singleton_append] at hr
  have := List.append_cancel_left hr
  simp at this

theorem current_under_storage (cfg : Config) : cfg.StorageDir <+: cfg.CurrentFile :=
  List.prefix_append _ _

/-- The steps of `Restore` after the auto-save, when they succeed: the snapshots are
left as they were, and every destination of the replayed entries holds the payload of the
entries that name it. -/
theorem Restore_replay {env : Env} {cfg : Config} (hsep : Separated cfg) {slug : String}
    {files : List FileEntry} {fsA fsC fsD fs' : FS} {n : Nat}
    (hclear : ClearManagedFiles (createBackup env fsA cfg cfg.Scope).1 cfg = (fsC, true))
    (hreplay : restoreCopy (cfg.ContextsDir ++ [slug]) cfg.Scope files fsC 0 = (fsD, .ok n))
    (hset : SetCurrent fsD cfg slug = (fs', true)) :
    (∀ q, cfg.ContextsDir <+: q → fileAt fs' q = fileAt fsA q) ∧
    (∀ l x, (∃ e ∈ files, restoreDest cfg.Scope e = some l) →
      (∀ e ∈ files, restoreDest cfg.Scope e = some l →
        fileAt fsA (cfg.ContextsDir ++ [slug] ++ e.RelPath) = some x) →
      fileAt fs' l = some x) ∧
    (∀ e ∈ files, (restoreDest cfg.Scope e).isSome = true →
      (fileAt fsA (cfg.ContextsDir ++ [slug] ++ e.RelPath)).isSome = true) := by
  have hfs' : fs' = (SetCurrent fsD cfg slug).1 := by rw [hset]
  have hfsC : fsC = (ClearManagedFiles (createBackup env fsA cfg cfg.Scope).1 cfg).1 := by
    rw [hclear]
  have hsnapC : ∀ q, cfg.ContextsDir <+: q → fileAt fsC q = fileAt fsA q := by
    intro q hq
    have hS := contexts_under_storage cfg hq
    rw [hfsC, ClearManagedFiles_frame, createBackup_frame _ _ _ _ _ (backups_not_contexts cfg hq)]
    · intro ef hef heq
      exact hsep.2.2 ef hef (heq ▸ hS)
    · exact (managed_apart hsep (List.prefix_refl _) hS).2
  have hpay : ∀ e ∈ files, ∀ e' ∈ files,
      restoreDest cfg.Scope e' ≠ some (cfg.ContextsDir ++ [slug] ++ e.RelPath) := by
    intro e _ e' _ heq
    apply restoreDest_apart hsep heq
    rw [List.append_assoc]
    exact contexts_under_storage cfg (List.prefix_append _ _)
  obtain ⟨_, r2, r3, r4⟩ := restoreCopy_spec _ _ files fsC fsD 0 n hreplay hpay
  refine ⟨?_, ?_, ?_⟩
  · intro q hq
    rw [hfs', SetCurrent_fileAt_ne _ _ _ (current_not_contexts cfg hq), r2, hsnapC q hq]
    intro e _ heq
    exact restoreDest_apart hsep heq (contexts_under_storage cfg hq)
  · intro l x hex hall
    obtain ⟨e0, he0, hd0⟩ := hex
    have hl : ¬ cfg.StorageDir <+: l := restoreDest_apart hsep hd0
    have hlc : l ≠ cfg.CurrentFile := fun e => hl (e ▸ current_under_storage cfg)
    rw [hfs', SetCurrent_fileAt_ne _ _ _ hlc]
    apply r3 l x ⟨e0, he0, hd0⟩
    intro e he hd
    rw [hsnapC _ (by rw [List.append_assoc]; exact List.prefix_append _ _)]
    exact hall e he hd
  · intro e he hsome
    rw [← hsnapC _ (by rw [List.append_assoc]; exact List.prefix_append _ _)]
    exact r4 e he hsome

/-- C1, amended. Let the storage root lie apart from the live locations, let the extra
files carry known tags (no tag twice, distinct files under distinct base names, none named
`manifest.json`), and let the managed directory not be a regular file.  Then a successful
`Save(n)` followed at once by a successful `Restore(n)` (neither a dry run) leaves every
captured file, extra file or walker-selected managed file, at its live path with the
content and the permission bits it had when it was saved. -/
theorem Save_Restore_roundtrip (env env' : Env) (cfg : Config) (name desc : String)
    (overwrite force : Bool) (fs fs1 fs2 : FS) (sr : SaveResult) (rr : RestoreResult)
    (hsep : Separated cfg) (hok : ExtraFilesOK cfg.Scope)
    (hdir : fileAt fs cfg.Scope.DotClaudeDir = none)
    (hsave : Save env { Name := name, Description := desc, Overwrite := overwrite,
                        DryRun := false, Config := cfg } fs = (fs1, .ok sr))
    (hrestore : Restore env' { Name := name, DryRun := false, Force := force, Config := cfg }
                  fs1 = (fs2, .ok rr)) :
    ∀ l c m, fileAt fs l = some (c, m) → Captured cfg fs l → fileAt fs2 l = some (c, m) := by
  intro l c m hl hcap
  obtain ⟨man, hread, hE, hC, mode, hP⟩ := Save_spec rfl hsave hsep hok hdir
  obtain ⟨man', fsA, fsC, fsD, hread', hauto, hclear, hreplay, hset⟩ :=
    Restore_ok_inv rfl hrestore
  simp only at hread hE hC hP hread' hauto hclear hreplay hset
  rw [hread, Option.some.injEq] at hread'
  subst hread'
  rw [AutoSaveCurrent_same (GetCurrent_of_fileAt env' hP), Prod.mk.injEq] at hauto
  obtain ⟨rfl, _⟩ := hauto
  obtain ⟨e, he, heo⟩ := hC l (by simp [hl]) hcap
  apply (Restore_replay hsep hclear hreplay hset).2.1 l (c, m)
    ⟨e, he, restoreDest_of_EntryOf hok heo⟩
  intro e' he' hd'
  obtain ⟨l', hl', hpay, _⟩ := hE e' he'
  have : l' = l := by
    have := restoreDest_of_EntryOf hok hl'
    rw [hd'] at this
    exact (Option.some.inj this).symm
  subst this
  rw [hpay, hl]

/-- C1, counterexample. Under a scope whose extra file carries the tag `notes`, and
under a scope with two extra files of the same base name, `Save(n)` and `Restore(n)` both
succeed, yet the extra file `NOTES.md` is gone from its live path afterwards, and the
extra file `a/CLAUDE.md` holds the content of `b/CLAUDE.md`. -/
theorem Save_Restore_roundtrip_fails :
    (Save demoEnv (saveOpts notesCfg "n" false) notesLiveFS).2 =
        .ok { Name := "n", Dir := ["p", ".claudectx", "contexts", "n"], Files := 1,
              TotalSize := 5 } ∧
      (Restore demoEnv (restoreOpts notesCfg "n")
          (Save demoEnv (saveOpts notesCfg "n" false) notesLiveFS).1).2 =
        .ok { Name := "n", FilesRestored := 1,
              BackupDir := ["p", ".claudectx", "backups", "pre-switch-7"] } ∧
      fileAt notesLiveFS ["p", "NOTES.md"] = some (.raw "notes", 0o644) ∧
      fileAt (saveThenRestore notesCfg "n" notesLiveFS) ["p", "NOTES.md"] = none ∧
      (Save demoEnv (saveOpts twinCfg "n" false) twinLiveFS).2 =
        .ok { Name := "n", Dir := ["p", ".claudectx", "contexts", "n"], Files := 2,
              TotalSize := 2 } ∧
      (Restore demoEnv (restoreOpts twinCfg "n")
          (Save demoEnv (saveOpts twinCfg "n" false) twinLiveFS).1).2 =
        .ok { Name := "n", FilesRestored := 2,
              BackupDir := ["p", ".claudectx", "backups", "pre-switch-7"] } ∧
      fileAt twinLiveFS ["p", "a", "CLAUDE.md"] = some (.raw "A", 0o644) ∧
      fileAt (saveThenRestore twinCfg "n" twinLiveFS) ["p", "a", "CLAUDE.md"] =
        some (.raw "B", 0o644) := by
  decide

/-- C1, witness: `Save("ctx-a")` then `Restore("ctx-a")` on the project tree `demoFS`. -/
theorem Save_Restore_roundtrip_witness :
    Captured demoCfg demoFS ["p", ".claude", "sub", "x"] ∧
      fileAt demoFS ["p", ".claude", "sub", "x"] = some (.raw "x", 0o644) ∧
      fileAt (saveThenRestore demoCfg "ctx-a" demoFS) ["p", ".claude", "sub", "x"] =
        some (.raw "x", 0o644) :=
  ⟨by decide, by decide,
    Save_Restore_roundtrip demoEnv demoEnv demoCfg "ctx-a" "" false false demoFS
      (Save demoEnv (saveOpts demoCfg "ctx-a" false) demoFS).1
      (saveThenRestore demoCfg "ctx-a" demoFS)
      { Name := "ctx-a", Dir := ["p", ".claudectx", "contexts", "ctx-a"], Files := 3,
        TotalSize := 14 }
      { Name := "ctx-a", FilesRestored := 3,
        BackupDir := ["p", ".claudectx", "backups", "pre-switch-7"] }
      (by decide) (by decide) (by decide) (by decide) (by decide)
      ["p", ".claude", "sub", "x"] (.raw "x") 0o644 (by decide) (by decide)⟩

/-! ### Auto-save -/

/-- Whatever its outcome, `Save` leaves every regular file outside the snapshot
directory of its slug as it was, the current pointer apart. -/
theorem Save_frame (env : Env) (opts : SaveOptions) (fs : FS) (q : Path)
    (hq : ¬ (opts.Config.ContextsDir ++ [Slugify opts.Name]) <+: q)
    (hcur : q ≠ opts.Config.CurrentFile) : fileAt (Save env opts fs).1 q = fileAt fs q := by
  unfold Save
  simp only
  by_cases h1 : Slugify opts.Name = ""
  · rw [if_pos h1]
  rw [if_neg h1]
  by_cases h2 : ContextExists fs opts.Config.ContextsDir (Slugify opts.Name) = true ∧
      opts.Overwrite = false
  · rw [if_pos h2]
  rw [if_neg h2]
  by_cases h3 : opts.DryRun = true
  · rw [if_pos h3]
  rw [if_neg h3]
  have hf1 : fileAt (if opts.Overwrite = true then
      RemoveAll fs (opts.Config.ContextsDir ++ [Slugify opts.Name]) else fs) q = fileAt fs q := by
    split
    · simp [fileAt_RemoveAll, hq]
    · rfl
  cases hm : mkdirAll (if opts.Overwrite = true then
      RemoveAll fs (opts.Config.ContextsDir ++ [Slugify opts.Name]) else fs)
      (opts.Config.ContextsDir ++ [Slugify opts.Name]) with
  | none => exact hf1
  | some fs2 =>
    simp only
    have hf2 : fileAt fs2 q = fileAt fs q := by rw [fileAt_mkdirAll hm q, hf1]
    have hf3 := saveExtraFiles_frame env (opts.Config.ContextsDir ++ [Slugify opts.Name])
      opts.Config.Scope.ExtraFiles fs2 [] 0 q hq
    cases hx : saveExtraFiles env (opts.Config.ContextsDir ++ [Slugify opts.Name])
        opts.Config.Scope.ExtraFiles fs2 [] 0 with
    | mk fs3 r =>
      rw [hx] at hf3
      cases r with
      | error e => simp only; rw [hf3, hf2]
      | ok v =>
        obtain ⟨files1, total1⟩ := v
        simp only
        have hf4 := saveWalked_frame env (opts.Config.ContextsDir ++ [Slugify opts.Name])
          (if (stat fs3 opts.Config.Scope.DotClaudeDir).isSome = true then
            WalkFiltered fs3 opts.Config.Scope.DotClaudeDir opts.Config.IncludePatterns
              opts.Config.ExcludePatterns
           else []) fs3 files1 total1 q hq
        cases hw : saveWalked env (opts.Config.ContextsDir ++ [Slugify opts.Name])
            (if (stat fs3 opts.Config.Scope.DotClaudeDir).isSome = true then
              WalkFiltered fs3 opts.Config.Scope.DotClaudeDir opts.Config.IncludePatterns
                opts.Config.ExcludePatterns
             else []) fs3 files1 total1 with
        | mk fs4 r =>
          rw [hw] at hf4
          cases r with
          | error e => simp only; rw [hf4, hf3, hf2]
          | ok v =>
            obtain ⟨files, total⟩ := v
            simp only
            have hqm : q ≠ manifestPath (opts.Config.ContextsDir ++ [Slugify opts.Name]) :=
              fun e => hq (e ▸ manifestPath_under _)
            have hf5 : fileAt (WriteManifest fs4 (opts.Config.ContextsDir ++ [Slugify opts.Name])
                (saveManifest env opts fs4 files total)).1 q = fileAt fs4 q := by
              rw [WriteManifest_fileAt]; simp [hqm]
            cases hwm : WriteManifest fs4 (opts.Config.ContextsDir ++ [Slugify opts.Name])
                (saveManifest env opts fs4 files total) with
            | mk fs5 b =>
              rw [hwm] at hf5
              cases b with
              | false => simp only; rw [hf5, hf4, hf3, hf2]
              | true =>
                simp only
                have hf6 := SetCurrent_fileAt_ne fs5 opts.Config (Slugify opts.Name) hcur
                cases hsc : SetCurrent fs5 opts.Config (Slugify opts.Name) with
                | mk fs6 b =>
                  rw [hsc] at hf6
                  cases b <;> simp only <;> rw [hf6, hf5, hf4, hf3, hf2]

theorem fileAt_of_ReadManifest {fs : FS} {ctx : Path} {m : Manifest}
    (h : ReadManifest fs ctx = some m) :
    ∃ mode, fileAt fs (manifestPath ctx) = some (.manifest m, mode) := by
  unfold ReadManifest at h
  split at h
  · rename_i m' mode hst
    simp only [Option.some.injEq] at h
    exact ⟨mode, by simp [fileAt, hst, h]⟩
  · simp at h

theorem AutoSaveCurrent_other {env : Env} {fs : FS} {cfg : Config} {a slug : String}
    (hcur : GetCurrent env fs cfg = .name a) (ha : a ≠ "") (hne : a ≠ slug)
    (hex : ContextExists fs cfg.ContextsDir a = true) :
    AutoSaveCurrent env fs cfg slug =
      ((Save env { Name := a, Description := "", Overwrite := true, DryRun := false,
                   Config := cfg } fs).1, false) := by
  simp [AutoSaveCurrent, hcur, ha, hne, hex]

theorem Slugify_empty : Slugify "" = "" := by decide

/-- C3, counterexample. With `ctx-a` active and a live file edited, `Restore("ctx-b")`
succeeds with `--force` although the auto-save of `ctx-a` failed on a directory in the
place of `CLAUDE.md`: afterwards `ctx-a` has no manifest and no payload for the edited
file.  And under a scope whose extra file carries the tag `notes`, `Restore("b")`
succeeds while the live `NOTES.md` is gone and does not hold the content stored in `b`. -/
theorem Restore_autosave_fails :
    GetCurrent demoEnv switchBlockedFS demoCfg = .name "ctx-a" ∧
      fileAt switchBlockedFS ["p", ".claude", "sub", "x"] = some (.raw "x2", 0o644) ∧
      (Restore demoEnv (restoreForceOpts demoCfg "ctx-b") switchBlockedFS).2 =
        .ok { Name := "ctx-b", FilesRestored := 3,
              BackupDir := ["p", ".claudectx", "backups", "pre-switch-7"] } ∧
      ReadManifest (Restore demoEnv (restoreForceOpts demoCfg "ctx-b") switchBlockedFS).1
        ["p", ".claudectx", "contexts", "ctx-a"] = none ∧
      fileAt (Restore demoEnv (restoreForceOpts demoCfg "ctx-b") switchBlockedFS).1
        ["p", ".claudectx", "contexts", "ctx-a", "dotclaude", "sub", "x"] = none ∧
      GetCurrent demoEnv notesEditedFS notesCfg = .name "a" ∧
      (Restore demoEnv (restoreOpts notesCfg "b") notesEditedFS).2 =
        .ok { Name := "b", FilesRestored := 1,
              BackupDir := ["p", ".claudectx", "backups", "pre-switch-7"] } ∧
      fileAt (Restore demoEnv (restoreOpts notesCfg "b") notesEditedFS).1
        ["p", ".claudectx", "contexts", "b", "NOTES.md"] = some (.raw "notes", 0o644) ∧
      fileAt (Restore demoEnv (restoreOpts notesCfg "b") notesEditedFS).1
        ["p", "NOTES.md"] = none := by
  decide

/-- C3, amended. Let the storage root lie apart from the live locations, the extra
files carry known tags, and the managed directory not be a regular file.  If the current
pointer holds the slug of an existing snapshot A, the auto-save of A succeeds on the
present live state, and `Restore(B)` succeeds for a B different from A, then afterwards
A's manifest has, for every captured live file, an entry whose payload is the present
(edited) content and mode, and every destination that exactly one relPath of B's manifest
names holds B's stored payload for it. -/
theorem Restore_autosaves (env : Env) (cfg : Config) (a nameB : String) (force : Bool)
    (fs fsS fs' : FS) (srA : SaveResult) (rr : RestoreResult)
    (hsep : Separated cfg) (hok : ExtraFilesOK cfg.Scope)
    (hdir : fileAt fs cfg.Scope.DotClaudeDir = none)
    (hcur : GetCurrent env fs cfg = .name a) (hslug : Slugify a = a)
    (hex : ContextExists fs cfg.ContextsDir a = true) (hne : a ≠ Slugify nameB)
    (hauto : Save env { Name := a, Description := "", Overwrite := true, DryRun := false,
                        Config := cfg } fs = (fsS, .ok srA))
    (hrestore : Restore env { Name := nameB, DryRun := false, Force := force, Config := cfg }
                  fs = (fs', .ok rr)) :
    (∃ manA : Manifest, ReadManifest fs' (cfg.ContextsDir ++ [a]) = some manA ∧
      ∀ l c m, fileAt fs l = some (c, m) → Captured cfg fs l →
        ∃ e ∈ manA.Files, restoreDest cfg.Scope e = some l ∧
          fileAt fs' (cfg.ContextsDir ++ [a] ++ e.RelPath) = some (c, m)) ∧
    (∃ manB : Manifest, ReadManifest fs (cfg.ContextsDir ++ [Slugify nameB]) = some manB ∧
      ∀ e ∈ manB.Files, ∀ l, restoreDest cfg.Scope e = some l →
        (∀ e' ∈ manB.Files, restoreDest cfg.Scope e' = some l → e'.RelPath = e.RelPath) →
        (fileAt fs (cfg.ContextsDir ++ [Slugify nameB] ++ e.RelPath)).isSome = true ∧
          fileAt fs' l = fileAt fs (cfg.ContextsDir ++ [Slugify nameB] ++ e.RelPath)) := by
  obtain ⟨manB, fsA, fsC, fsD, hreadB, hautoEq, hclear, hreplay, hset⟩ :=
    Restore_ok_inv rfl hrestore
  simp only at hreadB hautoEq hclear hreplay hset
  have ha : a ≠ "" := by
    intro e
    have := (Save_ok_inv rfl hauto).1
    simp only [e] at this
    exact this Slugify_empty
  rw [AutoSaveCurrent_other hcur ha hne hex, hauto] at hautoEq
  have hA : fsS = fsA := (Prod.mk.inj hautoEq).1
  subst hA
  obtain ⟨manA, hreadA, hE, hC, _⟩ := Save_spec rfl hauto hsep hok hdir
  simp only [hslug] at hreadA hE hC
  obtain ⟨hsnap, hlive, hpayB⟩ := Restore_replay hsep hclear hreplay hset
  have hB : ∀ q, (cfg.ContextsDir ++ [Slugify nameB]) <+: q → fileAt fsS q = fileAt fs q := by
    intro q hq
    have hf := Save_frame env { Name := a, Description := "", Overwrite := true,
                                DryRun := false, Config := cfg } fs q
    rw [hauto] at hf
    apply hf
    · simp only [hslug]
      obtain ⟨r, rfl⟩ := hq
      rw [List.append_assoc]
      exact not_prefix_sibling cfg.ContextsDir hne _
    · exact current_not_contexts cfg ((List.prefix_append _ _).trans hq)
  constructor
  · refine ⟨manA, ?_, ?_⟩
    · obtain ⟨mode, hm⟩ := fileAt_of_ReadManifest hreadA
      have hm' : fileAt fs' (manifestPath (cfg.ContextsDir ++ [a])) =
          some (.manifest manA, mode) := by
        rw [hsnap _ ((List.prefix_append _ _).trans (manifestPath_under _)), hm]
      exact ReadManifest_of_fileAt hm'
    · intro l c m hl hcap
      obtain ⟨e, he, heo⟩ := hC l (by simp [hl]) hcap
      refine ⟨e, he, restoreDest_of_EntryOf hok heo, ?_⟩
      obtain ⟨l', hl', hpay, _⟩ := hE e he
      have : l' = l := by
        have h1 := restoreDest_of_EntryOf hok hl'
        rw [restoreDest_of_EntryOf hok heo] at h1
        exact (Option.some.inj h1).symm
      subst this
      rw [hsnap _ (by rw [List.append_assoc]; exact List.prefix_append _ _), hpay, hl]
  · refine ⟨manB, hreadB, ?_⟩
    intro e he l hd hall
    have hsome := hpayB e he (by simp [hd])
    rw [hB _ (List.prefix_append _ _)] at hsome
    refine ⟨hsome, ?_⟩
    obtain ⟨x, hx⟩ := Option.isSome_iff_exists.mp hsome
    rw [hx]
    apply hlive l x ⟨e, he, hd⟩
    intro e' he' hd'
    rw [hall e' he' hd', hB _ (List.prefix_append _ _), hx]

/-- C3, witness: `ctx-a` active, `.claude/sub/x` edited, then `Restore("ctx-b")`. -/
theorem Restore_autosaves_witness :
    fileAt (Restore demoEnv (restoreOpts demoCfg "ctx-b") switchEditedFS).1
        ["p", ".claudectx", "contexts", "ctx-a", "dotclaude", "sub", "x"] =
        some (.raw "x2", 0o644) ∧
      fileAt (Restore demoEnv (restoreOpts demoCfg "ctx-b") switchEditedFS).1
        ["p", ".claude", "sub", "x"] = some (.raw "x", 0o644) ∧
      (ReadManifest (Restore demoEnv (restoreOpts demoCfg "ctx-b") switchEditedFS).1
        (demoCfg.ContextsDir ++ ["ctx-a"])).isSome = true :=
  ⟨by decide, by decide,
    Exists.elim (Restore_autosaves demoEnv demoCfg "ctx-a" "ctx-b" false switchEditedFS
      (Save demoEnv (saveOpts demoCfg "ctx-a" true) switchEditedFS).1
      (Restore demoEnv (restoreOpts demoCfg "ctx-b") switchEditedFS).1
      { Name := "ctx-a", Dir := ["p", ".claudectx", "contexts", "ctx-a"], Files := 3,
        TotalSize := 15 }
      { Name := "ctx-b", FilesRestored := 3,
        BackupDir := ["p", ".claudectx", "backups", "pre-switch-7"] }
      (by decide) (by decide) (by decide) (by decide) (by decide) (by decide) (by decide)
      (by decide) (by decide)).1 (fun _ h => (congrArg Option.isSome h.1).trans rfl)⟩

/-! ### Stale files -/

/-- C2, the code at the failing input. The configuration takes `notes.md` into its
include patterns from `config.json`, the scope's own patterns do not have it.  The
snapshot `ctx-a` records `notes.md` and `ctx-b` does not; `Restore("ctx-a")` and then
`Restore("ctx-b")` both succeed, and `notes.md` is still in the managed directory:
`ClearManagedFiles` walks with the scope's patterns, `Save` with the configuration's.
With the same patterns in the scope itself the file is gone. -/
theorem stale_file_survives :
    notesIncludedCfg.IncludePatterns = ["settings.json", "notes.md"] ∧
      notesIncludedCfg.Scope.IncludePatterns = ["settings.json"] ∧
      (staleScenario notesIncludedCfg).2.1 =
        .ok { Name := "ctx-a", FilesRestored := 2,
              BackupDir := ["p", ".claudectx", "backups", "pre-switch-7"] } ∧
      (staleScenario notesIncludedCfg).2.2 =
        .ok { Name := "ctx-b", FilesRestored := 1,
              BackupDir := ["p", ".claudectx", "backups", "pre-switch-7"] } ∧
      ["dotclaude", "notes.md"] ∈
        recordedPaths (staleScenario notesIncludedCfg).1 notesIncludedCfg "ctx-a" ∧
      recordedPaths (staleScenario notesIncludedCfg).1 notesIncludedCfg "ctx-b" =
        [["dotclaude", "settings.json"]] ∧
      fileAt (staleScenario notesIncludedCfg).1 ["p", ".claude", "notes.md"] =
        some (.raw "n", 0o644) ∧
      fileAt (staleScenario notesIncludedCfg).1 ["p", ".claude", "settings.json"] =
        some (.raw "b", 0o644) ∧
      (staleScenario notesInScopeCfg).2.2 =
        .ok { Name := "ctx-b", FilesRestored := 1,
              BackupDir := ["p", ".claudectx", "backups", "pre-switch-7"] } ∧
      stat (staleScenario notesInScopeCfg).1 ["p", ".claude", "notes.md"] = none := by
  decide

/-! ### Nodes apart from the storage root

The steps that write below the storage root change the node of no path that is neither
below the storage root nor above it. -/

theorem mkdirAll_stat_apart {fs fs' : FS} {s t : Path} (h : mkdirAll fs t = some fs')
    (hst : s <+: t) {q : Path} (hq : ¬ s <+: q) (hq' : ¬ q <+: s) : stat fs' q = stat fs q := by
  rcases stat_mkdirAll h q with h1 | ⟨_, _, h3⟩
  · exact h1
  · rcases prefix_comparable h3 hst with h4 | h4
    · exact absurd h4 hq'
    · exact absurd h4 hq

theorem CopyFile_stat_apart (fs : FS) (src : Path) {s dst : Path} (hst : s <+: dst) {q : Path}
    (hq : ¬ s <+: q) (hq' : ¬ q <+: s) : stat (CopyFile fs src dst).1 q = stat fs q := by
  rcases CopyFile_stat fs src dst q with h | h | h
  · exact h
  · exact absurd (h ▸ hst) hq
  · rcases prefix_comparable (h.2.2.trans (List.dropLast_prefix dst)) hst with h4 | h4
    · exact absurd h4 hq'
    · exact absurd h4 hq

theorem saveExtraFiles_stat_apart (env : Env) {s ctx : Path} (hst : s <+: ctx) {q : Path}
    (hq : ¬ s <+: q) (hq' : ¬ q <+: s) :
    ∀ (efs : List ExtraFile) (fs : FS) (files : List FileEntry) (total : Nat),
      stat (saveExtraFiles env ctx efs fs files total).1 q = stat fs q := by
  intro efs
  induction efs with
  | nil => intro fs files total; simp [saveExtraFiles]
  | cons ef rest ih =>
    intro fs files total
    have hcopy := CopyFile_stat_apart fs ef.Path
      (hst.trans (List.prefix_append ctx [baseName ef.Path])) hq hq'
    cases hs : stat fs ef.Path with
    | none => rw [saveExtraFiles_cons_none hs]; exact ih fs files total
    | some info =>
      rw [saveExtraFiles_cons_some hs]
      by_cases hok : (CopyFile fs ef.Path (ctx ++ [baseName ef.Path])).2 = false
      · rw [if_pos hok]; exact hcopy
      · rw [if_neg hok, ih]; exact hcopy

theorem saveWalked_stat_apart (env : Env) {s ctx : Path} (hst : s <+: ctx) {q : Path}
    (hq : ¬ s <+: q) (hq' : ¬ q <+: s) :
    ∀ (ws : List WalkResult) (fs : FS) (files : List FileEntry) (total : Nat),
      stat (saveWalked env ctx ws fs files total).1 q = stat fs q := by
  intro ws
  induction ws with
  | nil => intro fs files total; simp [saveWalked]
  | cons w rest ih =>
    intro fs files total
    have hcopy := CopyFile_stat_apart fs w.AbsPath
      (hst.trans (List.prefix_append ctx ("dotclaude" :: w.Rel))) hq hq'
    rw [saveWalked_cons]
    by_cases hok : (CopyFile fs w.AbsPath (ctx ++ "dotclaude" :: w.Rel)).2 = false
    · rw [if_pos hok]; exact hcopy
    · rw [if_neg hok, ih]; exact hcopy

theorem WriteManifest_stat_apart (fs : FS) (m : Manifest) {s ctx : Path} (hst : s <+: ctx)
    {q : Path} (hq : ¬ s <+: q) (hq' : ¬ q <+: s) :
    stat (WriteManifest fs ctx m).1 q = stat fs q := by
  have hne : q ≠ manifestPath ctx := fun e => hq (e ▸ hst.trans (manifestPath_under ctx))
  cases hm : mkdirAll fs ctx with
  | none => simp [WriteManifest, hm]
  | some fs1 =>
    have h1 := mkdirAll_stat_apart hm hst hq hq'
    cases hd : stat fs1 (manifestPath ctx) with
    | none => simp [WriteManifest, hm, hd, stat_put, hne, h1]
    | some k => cases k <;> simp [WriteManifest, hm, hd, stat_put, hne, h1]

theorem SetCurrent_stat_apart (fs : FS) (cfg : Config) (name : String) {q : Path}
    (hq : ¬ cfg.StorageDir <+: q) (hq' : ¬ q <+: cfg.StorageDir) :
    stat (SetCurrent fs cfg name).1 q = stat fs q := by
  have hne : q ≠ cfg.CurrentFile := fun e => hq (e ▸ current_under_storage cfg)
  cases hm : mkdirAll fs cfg.StorageDir with
  | none => simp [SetCurrent, hm]
  | some fs1 =>
    have h1 := mkdirAll_stat_apart hm (List.prefix_refl _) hq hq'
    cases hd : stat fs1 cfg.CurrentFile with
    | none => simp [SetCurrent, hm, hd, stat_put, hne, h1]
    | some k => cases k <;> simp [SetCurrent, hm, hd, stat_put, hne, h1]

/-- Whatever its outcome, `Save` changes no node apart from the storage root. -/
theorem Save_stat_apart (env : Env) (opts : SaveOptions) (fs : FS) {q : Path}
    (hq : ¬ opts.Config.StorageDir <+: q) (hq' : ¬ q <+: opts.Config.StorageDir) :
    stat (Save env opts fs).1 q = stat fs q := by
  have hst := storage_prefix_context opts.Config (Slugify opts.Name)
  have hctx : ¬ (opts.Config.ContextsDir ++ [Slugify opts.Name]) <+: q :=
    not_under_of_not_storage hst hq
  unfold Save
  simp only
  by_cases h1 : Slugify opts.Name = ""
  · rw [if_pos h1]
  rw [if_neg h1]
  by_cases h2 : ContextExists fs opts.Config.ContextsDir (Slugify opts.Name) = true ∧
      opts.Overwrite = false
  · rw [if_pos h2]
  rw [if_neg h2]
  by_cases h3 : opts.DryRun = true
  · rw [if_pos h3]
  rw [if_neg h3]
  have hf1 : stat (if opts.Overwrite = true then
      RemoveAll fs (opts.Config.ContextsDir ++ [Slugify opts.Name]) else fs) q = stat fs q := by
    split
    · simp [stat_RemoveAll, hctx]
    · rfl
  cases hm : mkdirAll (if opts.Overwrite = true then
      RemoveAll fs (opts.Config.ContextsDir ++ [Slugify opts.Name]) else fs)
      (opts.Config.ContextsDir ++ [Slugify opts.Name]) with
  | none => exact hf1
  | some fs2 =>
    simp only
    have hf2 : stat fs2 q = stat fs q := by rw [mkdirAll_stat_apart hm hst hq hq', hf1]
    have hf3 := saveExtraFiles_stat_apart env hst hq hq' opts.Config.Scope.ExtraFiles fs2 [] 0
    cases hx : saveExtraFiles env (opts.Config.ContextsDir ++ [Slugify opts.Name])
        opts.Config.Scope.ExtraFiles fs2 [] 0 with
    | mk fs3 r =>
      rw [hx] at hf3
      cases r with
      | error e => simp only; rw [hf3, hf2]
      | ok v =>
        obtain ⟨files1, total1⟩ := v
        simp only
        have hf4 := saveWalked_stat_apart env hst hq hq'
          (if (stat fs3 opts.Config.Scope.DotClaudeDir).isSome = true then
            WalkFiltered fs3 opts.Config.Scope.DotClaudeDir opts.Config.IncludePatterns
              opts.Config.ExcludePatterns
           else []) fs3 files1 total1
        cases hw : saveWalked env (opts.Config.ContextsDir ++ [Slugify opts.Name])
            (if (stat fs3 opts.Config.Scope.DotClaudeDir).isSome = true then
              WalkFiltered fs3 opts.Config.Scope.DotClaudeDir opts.Config.IncludePatterns
                opts.Config.ExcludePatterns
             else []) fs3 files1 total1 with
        | mk fs4 r =>
          rw [hw] at hf4
          cases r with
          | error e => simp only; rw [hf4, hf3, hf2]
          | ok v =>
            obtain ⟨files, total⟩ := v
            simp only
            have hf5 := WriteManifest_stat_apart fs4 (saveManifest env opts fs4 files total)
              hst hq hq'
            cases hwm : WriteManifest fs4 (opts.Config.ContextsDir ++ [Slugify opts.Name])
                (saveManifest env opts fs4 files total) with
            | mk fs5 b =>
              rw [hwm] at hf5
              cases b with
              | false => simp only; rw [hf5, hf4, hf3, hf2]
              | true =>
                simp only
                have hf6 := SetCurrent_stat_apart fs5 opts.Config (Slugify opts.Name) hq hq'
                cases hsc : SetCurrent fs5 opts.Config (Slugify opts.Name) with
                | mk fs6 b =>
                  rw [hsc] at hf6
                  cases b <;> simp only <;> rw [hf6, hf5, hf4, hf3, hf2]

theorem AutoSaveCurrent_stat_apart (env : Env) (fs : FS) (cfg : Config) (slug : String)
    {q : Path} (hq : ¬ cfg.StorageDir <+: q) (hq' : ¬ q <+: cfg.StorageDir) :
    stat (AutoSaveCurrent env fs cfg slug).1 q = stat fs q := by
  unfold AutoSaveCurrent
  split
  · rfl
  · rfl
  · split
    · rfl
    · split
      · rfl
      · exact Save_stat_apart env _ fs hq hq'

theorem backupExtraFiles_stat_apart {s dir : Path} (hst : s <+: dir) {q : Path}
    (hq : ¬ s <+: q) (hq' : ¬ q <+: s) :
    ∀ (efs : List ExtraFile) (fs : FS), stat (backupExtraFiles dir efs fs).1 q = stat fs q := by
  intro efs
  induction efs with
  | nil => intro fs; simp [backupExtraFiles]
  | cons ef rest ih =>
    intro fs
    have hcopy := CopyFile_stat_apart fs ef.Path
      (hst.trans (List.prefix_append dir [baseName ef.Path])) hq hq'
    simp only [backupExtraFiles]
    split
    · split
      · exact hcopy
      · rw [ih]; exact hcopy
    · exact ih fs

theorem backupWalked_stat_apart {s dir : Path} (hst : s <+: dir) {q : Path}
    (hq : ¬ s <+: q) (hq' : ¬ q <+: s) :
    ∀ (ws : List WalkResult) (fs : FS), stat (backupWalked dir ws fs).1 q = stat fs q := by
  intro ws
  induction ws with
  | nil => intro fs; simp [backupWalked]
  | cons w rest ih =>
    intro fs
    have hcopy := CopyFile_stat_apart fs w.AbsPath
      (hst.trans (List.prefix_append dir ("dotclaude" :: w.Rel))) hq hq'
    simp only [backupWalked]
    split
    · exact hcopy
    · rw [ih]; exact hcopy

/-- Whatever its outcome, `createBackup` changes no node apart from the storage root. -/
theorem createBackup_stat_apart (env : Env) (fs : FS) (cfg : Config) (scope : Scope) {q : Path}
    (hq : ¬ cfg.StorageDir <+: q) (hq' : ¬ q <+: cfg.StorageDir) :
    stat (createBackup env fs cfg scope).1 q = stat fs q := by
  have hst : cfg.StorageDir <+: cfg.BackupsDir ++ [backupName env.now] := by
    simp only [Config.BackupsDir, List.append_assoc]
    exact List.prefix_append _ _
  unfold createBackup
  simp only
  cases hm : mkdirAll fs (cfg.BackupsDir ++ [backupName env.now]) with
  | none => rfl
  | some fs1 =>
    simp only
    have h1 := mkdirAll_stat_apart hm hst hq hq'
    have h2 := backupExtraFiles_stat_apart hst hq hq' scope.ExtraFiles fs1
    cases hb : backupExtraFiles (cfg.BackupsDir ++ [backupName env.now]) scope.ExtraFiles fs1 with
    | mk fs2 b =>
      rw [hb] at h2
      cases b with
      | false => simp only; rw [h2, h1]
      | true =>
        simp only
        split
        · simp only
          rw [backupWalked_stat_apart hst hq hq', h2, h1]
        · simp only; rw [h2, h1]

/-! ### What the clearing removes -/

theorem Remove_fileAt_none (fs : FS) (q : Path) {p : Path} (h : fileAt fs p = none) :
    fileAt (Remove fs q).1 p = none := by
  by_cases hpq : p = q
  · subst hpq
    rw [Remove_fileAt_dir fs h]; exact h
  · rw [Remove_fileAt_ne fs hpq]; exact h

theorem clearWalked_cons (w : WalkResult) (rest : List WalkResult) (fs : FS) :
    clearWalked (w :: rest) fs =
      if (Remove fs w.AbsPath).2 = .failed then ((Remove fs w.AbsPath).1, false)
      else clearWalked rest (Remove fs w.AbsPath).1 := by
  simp only [clearWalked]
  cases hr : Remove fs w.AbsPath with
  | mk fs1 r => cases r <;> simp

theorem clearExtraFiles_cons (ef : ExtraFile) (rest : List ExtraFile) (fs : FS) :
    clearExtraFiles (ef :: rest) fs =
      if (Remove fs ef.Path).2 = .failed then ((Remove fs ef.Path).1, false)
      else clearExtraFiles rest (Remove fs ef.Path).1 := by
  simp only [clearExtraFiles]
  cases hr : Remove fs ef.Path with
  | mk fs1 r => cases r <;> simp

theorem clearWalked_none {p : Path} :
    ∀ (ws : List WalkResult) (fs : FS), fileAt fs p = none →
      fileAt (clearWalked ws fs).1 p = none := by
  intro ws
  induction ws with
  | nil => intro fs h; simpa [clearWalked] using h
  | cons w rest ih =>
    intro fs h
    rw [clearWalked_cons]
    split
    · exact Remove_fileAt_none fs _ h
    · exact ih _ (Remove_fileAt_none fs _ h)

theorem clearExtraFiles_none {p : Path} :
    ∀ (efs : List ExtraFile) (fs : FS), fileAt fs p = none →
      fileAt (clearExtraFiles efs fs).1 p = none := by
  intro efs
  induction efs with
  | nil => intro fs h; simpa [clearExtraFiles] using h
  | cons ef rest ih =>
    intro fs h
    rw [clearExtraFiles_cons]
    split
    · exact Remove_fileAt_none fs _ h
    · exact ih _ (Remove_fileAt_none fs _ h)

theorem removeDirs_none {p : Path} :
    ∀ (dirs : List Path) (fs : FS), fileAt fs p = none → fileAt (removeDirs dirs fs) p = none := by
  intro dirs
  induction dirs with
  | nil => intro fs h; simpa [removeDirs] using h
  | cons d rest ih =>
    intro fs h
    simp only [removeDirs]
    exact ih _ (Remove_fileAt_none fs _ h)

/-- After a successful removal loop none of the walked paths holds a regular file. -/
theorem clearWalked_removes :
    ∀ (ws : List WalkResult) (fs fs' : FS), clearWalked ws fs = (fs', true) →
      ∀ w ∈ ws, fileAt fs' w.AbsPath = none := by
  intro ws
  induction ws with
  | nil => intro fs fs' _ w hw; simp at hw
  | cons x rest ih =>
    intro fs fs' h w hw
    rw [clearWalked_cons] at h
    by_cases hf : (Remove fs x.AbsPath).2 = .failed
    · rw [if_pos hf] at h; simp at h
    · rw [if_neg hf] at h
      rcases List.mem_cons.mp hw with rfl | hw
      · have hnone : fileAt (Remove fs w.AbsPath).1 w.AbsPath = none := by
          simp [fileAt, Remove_stat_self hf]
        have := clearWalked_none rest _ hnone
        rw [h] at this
        exact this
      · exact ih _ fs' h w hw

/-- The extra-file loop of the clearing, when it succeeds, either removes the managed
file `f` or leaves it, and then the managed directory is still a directory. -/
theorem clearExtraFiles_managed {dot f : Path} (hpre : dot <+: f) (hne : f ≠ dot) :
    ∀ (efs : List ExtraFile) (fs fs' : FS), clearExtraFiles efs fs = (fs', true) →
      stat fs dot = some .dir →
      fileAt fs' f = none ∨ ((fileAt fs' f).isSome = true ∧ stat fs' dot = some .dir) := by
  intro efs
  induction efs with
  | nil =>
    intro fs fs' h hdot
    simp only [clearExtraFiles, Prod.mk.injEq, and_true] at h
    subst h
    cases hf : fileAt fs f with
    | none => exact Or.inl rfl
    | some x => exact Or.inr ⟨rfl, hdot⟩
  | cons ef rest ih =>
    intro fs fs' h hdot
    rw [clearExtraFiles_cons] at h
    by_cases hfail : (Remove fs ef.Path).2 = .failed
    · rw [if_pos hfail] at h; simp at h
    · rw [if_neg hfail] at h
      cases hf : fileAt fs f with
      | none =>
        left
        have := clearExtraFiles_none rest _ (Remove_fileAt_none fs ef.Path hf)
        rw [h] at this
        exact this
      | some x =>
        by_cases hd : ef.Path = dot
        · exfalso
          obtain ⟨c, m⟩ := x
          have hmem := stat_mem (stat_of_fileAt hf)
          have hany : fs.any (fun e => dot.isPrefixOf e.1 && decide (e.1 ≠ dot)) = true := by
            rw [List.any_eq_true]
            exact ⟨_, hmem, by simp [List.isPrefixOf_iff_prefix, hpre, hne]⟩
          apply hfail
          rw [hd]
          unfold Remove
          rw [hdot]
          simp only
          rw [if_pos hany]
        · apply ih _ fs' h
          rw [Remove_stat_ne fs (fun e => hd e.symm)]
          exact hdot

/-- After a successful `ClearManagedFiles` no path below the managed directory that the
scope's patterns select holds a regular file. -/
theorem ClearManagedFiles_removes {fs fs' : FS} {cfg : Config}
    (h : ClearManagedFiles fs cfg = (fs', true))
    (hdot : stat fs cfg.Scope.DotClaudeDir = some .dir) {f : Path}
    (hpre : cfg.Scope.DotClaudeDir <+: f) (hne : f ≠ cfg.Scope.DotClaudeDir)
    (hsel : selected cfg.Scope.IncludePatterns cfg.Scope.ExcludePatterns
      (relString (f.drop cfg.Scope.DotClaudeDir.length)) = true) :
    fileAt fs' f = none := by
  unfold ClearManagedFiles at h
  simp only at h
  cases hc : clearExtraFiles cfg.Scope.ExtraFiles fs with
  | mk fs1 b =>
    cases b with
    | false => simp [hc] at h
    | true =>
      simp only [hc] at h
      have hinv := clearExtraFiles_managed hpre hne _ _ _ hc hdot
      by_cases hsome : (stat fs1 cfg.Scope.DotClaudeDir).isSome = true
      · rw [if_pos hsome] at h
        cases hw : clearWalked (WalkFiltered fs1 cfg.Scope.DotClaudeDir
            cfg.Scope.IncludePatterns cfg.Scope.ExcludePatterns) fs1 with
        | mk fs2 b =>
          cases b with
          | false => simp [hw] at h
          | true =>
            simp only [hw, Prod.mk.injEq, and_true] at h
            subst h
            have h2 : fileAt fs2 f = none := by
              rcases hinv with h1 | ⟨h1, hd1⟩
              · have := clearWalked_none (WalkFiltered fs1 cfg.Scope.DotClaudeDir
                  cfg.Scope.IncludePatterns cfg.Scope.ExcludePatterns) _ h1
                rw [hw] at this
                exact this
              · obtain ⟨x, hx⟩ := Option.isSome_iff_exists.mp h1
                obtain ⟨c, m⟩ := x
                have hmem : ({ Rel := f.drop cfg.Scope.DotClaudeDir.length,
                               RelPath := relString (f.drop cfg.Scope.DotClaudeDir.length),
                               AbsPath := f, Info := .file c m } : WalkResult) ∈
                    WalkFiltered fs1 cfg.Scope.DotClaudeDir cfg.Scope.IncludePatterns
                      cfg.Scope.ExcludePatterns :=
                  (WalkFiltered_mem_dir hd1 _ _ _).mpr
                    ⟨c, m, stat_of_fileAt hx, rfl, hpre, hne, rfl, rfl, hsel⟩
                exact clearWalked_removes _ _ _ hw _ hmem
            exact removeDirs_none _ _ h2
      · rw [if_neg hsome] at h
        simp only [Prod.mk.injEq, and_true] at h
        subst h
        rcases hinv with h1 | ⟨_, hd1⟩
        · exact h1
        · exact absurd (by simp [hd1]) hsome

/-- Stale-file clearing, for the patterns of the scope. After a successful `Restore`,
under a storage root apart from the live locations and with the managed directory a
directory, a path below the managed directory that the scope's patterns select and that
no entry of the restored manifest names as its destination holds no regular file. -/
theorem Restore_clears_unlisted (env : Env) (cfg : Config) (name : String) (force : Bool)
    (fs fs' : FS) (rr : RestoreResult) (man : Manifest) (hsep : Separated cfg)
    (hdot : stat fs cfg.Scope.DotClaudeDir = some .dir)
    (hread : ReadManifest fs (cfg.ContextsDir ++ [Slugify name]) = some man)
    (hrestore : Restore env { Name := name, DryRun := false, Force := force, Config := cfg }
                  fs = (fs', .ok rr))
    (f : Path) (hpre : cfg.Scope.DotClaudeDir <+: f) (hne : f ≠ cfg.Scope.DotClaudeDir)
    (hsel : selected cfg.Scope.IncludePatterns cfg.Scope.ExcludePatterns
      (relString (f.drop cfg.Scope.DotClaudeDir.length)) = true)
    (hnot : ∀ e ∈ man.Files, restoreDest cfg.Scope e ≠ some f) : fileAt fs' f = none := by
  obtain ⟨man', fsA, fsC, fsD, hread', hauto, hclear, hreplay, hset⟩ :=
    Restore_ok_inv rfl hrestore
  simp only at hread' hauto hclear hreplay hset
  rw [hread, Option.some.injEq] at hread'
  subst hread'
  have hD := managed_apart hsep (List.prefix_refl cfg.Scope.DotClaudeDir)
    (List.prefix_refl cfg.StorageDir)
  have hdotB : stat (createBackup env fsA cfg cfg.Scope).1 cfg.Scope.DotClaudeDir =
      some .dir := by
    rw [createBackup_stat_apart env fsA cfg cfg.Scope hD.1 hD.2]
    have := AutoSaveCurrent_stat_apart env fs cfg (Slugify name) hD.1 hD.2
    rw [hauto] at this
    rw [this, hdot]
  have hC := ClearManagedFiles_removes hclear hdotB hpre hne hsel
  have hpay : ∀ e ∈ man.Files, ∀ e' ∈ man.Files,
      restoreDest cfg.Scope e' ≠ some (cfg.ContextsDir ++ [Slugify name] ++ e.RelPath) := by
    intro e _ e' _ heq
    apply restoreDest_apart hsep heq
    rw [List.append_assoc]
    exact contexts_under_storage cfg (List.prefix_append _ _)
  obtain ⟨_, r2, _, _⟩ := restoreCopy_spec _ _ man.Files fsC fsD 0 _ hreplay hpay
  have hf : ¬ cfg.StorageDir <+: f := (managed_apart hsep hpre (List.prefix_refl _)).1
  have hfc : f ≠ cfg.CurrentFile := fun e => hf (e ▸ current_under_storage cfg)
  have hfs' : fs' = (SetCurrent fsD cfg (Slugify name)).1 := by rw [hset]
  rw [hfs', SetCurrent_fileAt_ne _ _ _ hfc, r2 f hnot, hC]

/-! ### The current pointer (C17, C18) -/

/-- C17 (failing case). `GetCurrent` cuts the last byte off the text of the marker file
without looking at its length: on a marker file of zero bytes the slice expression
`name[:len(name)-1]` is out of range and the call panics, where the specification
promises the empty string and no error.  An absent marker file gives the empty name. -/
theorem GetCurrent_empty_file_panics (env : Env) (fs : FS) (cfg : Config) (c : Content)
    (mode : Nat) (hfile : stat fs cfg.CurrentFile = some (.file c mode))
    (hempty : c.text env = "") : GetCurrent env fs cfg = .panic := by
  simp [GetCurrent, hfile, hempty]

theorem GetCurrent_empty_file_panics_witness :
    GetCurrent demoEnv [(demoCfg.CurrentFile, .file (.raw "") 0o644)] demoCfg = .panic :=
  GetCurrent_empty_file_panics demoEnv [(demoCfg.CurrentFile, .file (.raw "") 0o644)] demoCfg
    (.raw "") 0o644 (by decide) (by decide)

/-- C18. Current pointer round trip: after a successful `SetCurrent s` (for every string
`s`, the empty one included) `GetCurrent` returns exactly `s` without an error, and a
successful `SetCurrent t` in any later state `fs2` makes `GetCurrent` return `t`. -/
theorem SetCurrent_GetCurrent (env : Env) (cfg : Config) (fs fs2 : FS) (s t : String)
    (hs : (SetCurrent fs cfg s).2 = true) (ht : (SetCurrent fs2 cfg t).2 = true) :
    GetCurrent env (SetCurrent fs cfg s).1 cfg = .name s ∧
    GetCurrent env (SetCurrent fs2 cfg t).1 cfg = .name t := by
  obtain ⟨m1, h1⟩ := SetCurrent_ok hs
  obtain ⟨m2, h2⟩ := SetCurrent_ok ht
  exact ⟨GetCurrent_of_fileAt env h1, GetCurrent_of_fileAt env h2⟩

theorem SetCurrent_GetCurrent_witness :
    GetCurrent demoEnv (SetCurrent demoFS demoCfg "").1 demoCfg = .name "" ∧
    GetCurrent demoEnv
      (SetCurrent (SetCurrent demoFS demoCfg "").1 demoCfg "ctx-b").1 demoCfg =
      .name "ctx-b" :=
  SetCurrent_GetCurrent demoEnv demoCfg demoFS (SetCurrent demoFS demoCfg "").1 "" "ctx-b"
    (by decide) (by decide)

/-! ### The recursive glob (C11) -/

theorem splitDoubleStar_first :
    ∀ (a b : List Char), ¬ ['*', '*'] <:+: a ++ ['*'] →
      splitDoubleStar (a ++ '*' :: '*' :: b) = some (a, b) := by
  intro a
  induction a with
  | nil => intro b _; simp [splitDoubleStar]
  | cons c a ih =>
    intro b h
    have hrec : splitDoubleStar (a ++ '*' :: '*' :: b) = some (a, b) := by
      apply ih
      intro hin
      exact h (hin.trans (List.suffix_cons c (a ++ ['*'])).isInfix)
    cases a with
    | nil =>
      have hc : c ≠ '*' := by
        rintro rfl
        exact h (by simp)
      simp only [List.nil_append] at hrec
      simp [splitDoubleStar, hc, hrec]
    | cons d a =>
      have hcd : ¬ (c = '*' ∧ d = '*') := by
        rintro ⟨rfl, rfl⟩
        exact h ⟨[], a ++ ['*'], by simp⟩
      simp only [List.cons_append] at hrec ⊢
      simp only [splitDoubleStar, hcd, if_false, hrec]

theorem splitDoubleStar_none_of_absent :
    ∀ (p : List Char), ¬ ['*', '*'] <:+: p → splitDoubleStar p = none := by
  intro p
  induction p with
  | nil => intro _; rfl
  | cons c p ih =>
    intro h
    have hrec : splitDoubleStar p = none :=
      ih (fun hin => h (hin.trans (List.suffix_cons c p).isInfix))
    cases p with
    | nil => rfl
    | cons d p =>
      have hcd : ¬ (c = '*' ∧ d = '*') := by
        rintro ⟨rfl, rfl⟩
        exact h ⟨[], p, by simp⟩
      simp only [splitDoubleStar, hcd, if_false, hrec]

theorem matchAnyTail_iff (suffix : List Char) :
    ∀ (segs : List (List Char)), matchAnyTail suffix segs = true ↔
      ∃ k, k < segs.length ∧ filepathMatch suffix (joinSlash (segs.drop k)) = true := by
  intro segs
  induction segs with
  | nil => simp [matchAnyTail]
  | cons s segs ih =>
    simp only [matchAnyTail, Bool.or_eq_true, ih, List.length_cons]
    constructor
    · rintro (h | ⟨k, hk, h⟩)
      · exact ⟨0, by omega, by simpa using h⟩
      · exact ⟨k + 1, by omega, by simpa using h⟩
    · rintro ⟨k, hk, h⟩
      cases k with
      | zero => left; simpa using h
      | succ k => right; exact ⟨k, by omega, by simpa using h⟩

theorem matchSegments_iff :
    ∀ (ps qs : List (List Char)), matchSegments ps qs = true ↔
      ps.length = qs.length ∧ ∀ pq ∈ List.zip qs ps, filepathMatch pq.1 pq.2 = true := by
  intro ps
  induction ps with
  | nil => intro qs; cases qs <;> simp [matchSegments]
  | cons p ps ih =>
    intro qs
    cases qs with
    | nil => simp [matchSegments]
    | cons q qs =>
      simp only [matchSegments, Bool.and_eq_true, ih, List.length_cons, List.zip_cons_cons,
        List.mem_cons, forall_eq_or_imp, add_left_inj]
      tauto

theorem zip_take_length {α β : Type} :
    ∀ (qs : List α) (ps : List β), List.zip qs (ps.take qs.length) = List.zip qs ps := by
  intro qs
  induction qs with
  | nil => intro ps; simp
  | cons q qs ih =>
    intro ps
    cases ps with
    | nil => simp
    | cons p ps => simp [ih]

/-- C11. Recursive glob: for a pattern whose first `**` stands between `before` and
`after`, with `pre` the text `before` without one trailing `/` and `suffix` the text
`after` without one leading `/`, `MatchesAny` on that single pattern is true iff either
`pre` is empty and (`suffix` is empty or `suffix` glob-matches the `/`-join of some
trailing run `parts[k:]`, `k < len(parts)`, of the path's segments), or `pre` is not
empty, the path has at least as many segments as `pre`, every segment of `pre`
glob-matches the corresponding leading path segment, and (`suffix` is empty or `suffix`
glob-matches the join of some trailing run `remaining[k:]`, `k < len(remaining)`, of the
segments that remain after those of `pre`). -/
theorem MatchesAny_double_star (pattern path : String) (before after : List Char)
    (hsplit : pattern.data = before ++ '*' :: '*' :: after)
    (hfirst : ¬ ['*', '*'] <:+: before ++ ['*'])
    (pre suffix : List Char) (parts remaining : List (List Char))
    (hpre : pre = trimSlashSuffix before) (hsuffix : suffix = trimSlashPrefix after)
    (hparts : parts = splitSlash path.data)
    (hremaining : remaining = parts.drop (splitSlash pre).length) :
    MatchesAny path [pattern] = true ↔
      (pre = [] ∧
        (suffix = [] ∨
          ∃ k, k < parts.length ∧ filepathMatch suffix (joinSlash (parts.drop k)) = true)) ∨
      (pre ≠ [] ∧ (splitSlash pre).length ≤ parts.length ∧
        (∀ pq ∈ List.zip (splitSlash pre) parts, filepathMatch pq.1 pq.2 = true) ∧
        (suffix = [] ∨
          ∃ k, k < remaining.length ∧
            filepathMatch suffix (joinSlash (remaining.drop k)) = true)) := by
  have hs : splitDoubleStar pattern.data = some (before, after) := by
    rw [hsplit]; exact splitDoubleStar_first before after hfirst
  subst hpre hsuffix hparts hremaining
  simp only [MatchesAny, List.any_cons, List.any_nil, Bool.or_false, matchGlob, hs,
    Option.isSome_some, if_true, matchDoubleGlob]
  by_cases hp : trimSlashSuffix before = []
  · simp only [hp, if_true, true_and, ne_eq, not_true_eq_false, false_and, or_false]
    by_cases hx : trimSlashPrefix after = []
    · simp [hx]
    · simp only [hx, if_false, false_or]
      exact matchAnyTail_iff _ _
  · simp only [hp, if_false, false_and, false_or, ne_eq, not_false_eq_true, true_and]
    by_cases hlen : (splitSlash (trimSlashSuffix before)).length > (splitSlash path.data).length
    · simp only [hlen, if_true]
      constructor
      · intro h; cases h
      · rintro ⟨h, _⟩; omega
    · simp only [hlen, if_false]
      have hle : (splitSlash (trimSlashSuffix before)).length ≤ (splitSlash path.data).length := by
        omega
      have hseg := matchSegments_iff
        ((splitSlash path.data).take (splitSlash (trimSlashSuffix before)).length)
        (splitSlash (trimSlashSuffix before))
      rw [zip_take_length, List.length_take, Nat.min_eq_left hle] at hseg
      simp only [true_and] at hseg
      by_cases hm : matchSegments
          ((splitSlash path.data).take (splitSlash (trimSlashSuffix before)).length)
          (splitSlash (trimSlashSuffix before)) = true
      · have hz := hseg.mp hm
        simp only [hm, Bool.not_true, Bool.false_eq_true, if_false]
        by_cases hx : trimSlashPrefix after = []
        · simp only [hx, if_true, true_or, and_true, decide_eq_true_eq]
          constructor
          · intro _; exact ⟨hle, hz⟩
          · intro _
            rcases Nat.eq_or_lt_of_le hle with h | h
            · right; exact h.symm
            · left; simp only [List.length_drop]; exact Nat.sub_pos_of_lt h
        · simp only [hx, if_false, false_or]
          rw [matchAnyTail_iff]
          constructor
          · intro h; exact ⟨hle, hz, h⟩
          · rintro ⟨_, _, h⟩; exact h
      · have hz : ¬ ∀ pq ∈ List.zip (splitSlash (trimSlashSuffix before)) (splitSlash path.data),
            filepathMatch pq.1 pq.2 = true := fun h => hm (hseg.mpr h)
        simp only [Bool.not_eq_true] at hm
        simp only [hm, Bool.not_false, if_true]
        constructor
        · intro h; cases h
        · rintro ⟨_, h, _⟩; exact absurd h hz

theorem MatchesAny_double_star_witness :
    MatchesAny "projects/p/memory/a/b.md" ["projects/*/memory/**/*.md"] = true ∧
    MatchesAny "projects/p/memory" ["projects/*/memory/**/*.md"] = false :=
  ⟨(MatchesAny_double_star "projects/*/memory/**/*.md" "projects/p/memory/a/b.md"
      "projects/*/memory/".data "/*.md".data (by decide) (by decide)
      "projects/*/memory".data "*.md".data (splitSlash "projects/p/memory/a/b.md".data)
      [['a'], ['b', '.', 'm', 'd']] (by decide) (by decide) rfl (by decide)).mpr (by decide),
   by decide⟩

/-! ### The single star (C12) -/

theorem matchChunkAux_failed :
    ∀ (fuel : Nat) (chunk s t : List Char), matchChunkAux fuel chunk s true ≠ .rest t := by
  intro fuel
  induction fuel with
  | zero => intro chunk s t; simp [matchChunkAux]
  | succ n ih =>
    intro chunk s t
    cases chunk with
    | nil => simp [matchChunkAux]
    | cons c k =>
      simp only [matchChunkAux, Bool.true_or, if_true]
      split
      · split
        · simp
        · exact ih _ _ _
      · split
        · exact ih _ _ _
        · split
          · split
            · simp
            · exact ih _ _ _
          · exact ih _ _ _

/-- A chunk without classes and escapes uses up as many `/` of the name as it holds. -/
theorem matchChunkAux_count :
    ∀ (fuel : Nat) (chunk s t : List Char), (∀ c ∈ chunk, c ≠ '[' ∧ c ≠ '\\') →
      matchChunkAux fuel chunk s false = .rest t →
      ∃ u, s = u ++ t ∧ u.count '/' = chunk.count '/' := by
  intro fuel
  induction fuel with
  | zero => intro chunk s t _ h; simp [matchChunkAux] at h
  | succ n ih =>
    intro chunk s t hplain h
    cases chunk with
    | nil =>
      simp only [matchChunkAux, Bool.false_eq_true, if_false, ChunkResult.rest.injEq] at h
      exact ⟨[], by simp [h], rfl⟩
    | cons c k =>
      have hc := hplain c (List.mem_cons_self _ _)
      have hk : ∀ d ∈ k, d ≠ '[' ∧ d ≠ '\\' := fun d hd => hplain d (List.mem_cons_of_mem _ hd)
      cases s with
      | nil =>
        exfalso
        simp only [matchChunkAux, hc.1, hc.2, if_false, Bool.false_or, List.isEmpty_nil,
          if_true] at h
        split at h <;> exact matchChunkAux_failed _ _ _ _ h
      | cons a s =>
        simp only [matchChunkAux, hc.1, hc.2, if_false, Bool.false_or, List.isEmpty_cons,
          Bool.false_eq_true, List.tail_cons, List.head?_cons, Option.some.injEq] at h
        split at h
        · rename_i hq
          by_cases ha : a = '/'
          · rw [ha] at h
            simp only [decide_True] at h
            exact absurd h (matchChunkAux_failed _ _ _ _)
          · simp only [ha, decide_False] at h
            obtain ⟨u, hu, hcount⟩ := ih k s t hk h
            refine ⟨a :: u, by simp [hu], ?_⟩
            rw [hq, List.count_cons_of_ne (Ne.symm ha), List.count_cons_of_ne (by decide), hcount]
        · by_cases ha : a = c
          · simp only [ha, ne_eq, not_true_eq_false, decide_False] at h
            obtain ⟨u, hu, hcount⟩ := ih k s t hk h
            refine ⟨a :: u, by simp [hu], ?_⟩
            rw [ha, List.count_cons, List.count_cons, hcount]
          · simp only [ne_eq, Option.some.injEq, ha, not_false_eq_true, decide_True] at h
            exact absurd h (matchChunkAux_failed _ _ _ _)

theorem starLoop_count (chunk : List Char) (lastChunk : Bool)
    (hplain : ∀ c ∈ chunk, c ≠ '[' ∧ c ≠ '\\') :
    ∀ (name t : List Char), starLoop chunk lastChunk name = some t →
      ∃ u, name = u ++ t ∧ u.count '/' = chunk.count '/' := by
  intro name
  induction name with
  | nil => intro t h; simp [starLoop] at h
  | cons c name ih =>
    intro t h
    have hcons : ∀ u, name = u ++ t → u.count '/' = chunk.count '/' → c ≠ '/' →
        ∃ u, c :: name = u ++ t ∧ u.count '/' = chunk.count '/' := by
      intro u hu hcount hc
      exact ⟨c :: u, by simp [hu], by rw [List.count_cons_of_ne (Ne.symm hc), hcount]⟩
    simp only [starLoop] at h
    by_cases hc : c = '/'
    · simp [hc] at h
    · simp only [hc, if_false] at h
      cases hm : matchChunk chunk name with
      | bad => simp [hm] at h
      | noMatch =>
        simp only [hm] at h
        obtain ⟨u, hu, hcount⟩ := ih t h
        exact hcons u hu hcount hc
      | rest t1 =>
        simp only [hm] at h
        split at h
        · obtain ⟨u, hu, hcount⟩ := ih t h
          exact hcons u hu hcount hc
        · simp only [Option.some.injEq] at h
          subst h
          obtain ⟨u, hu, hcount⟩ := matchChunkAux_count _ _ _ _ hplain hm
          exact hcons u hu hcount hc

theorem scanStars_snd :
    ∀ (p : List Char), ((scanStars p).2.count '/' = p.count '/' ∧
      (∀ c ∈ (scanStars p).2, c ∈ p)) ∧ (scanStars p).2.head? ≠ some '*' := by
  intro p
  induction p with
  | nil => simp [scanStars]
  | cons c p ih =>
    by_cases hc : c = '*'
    · subst hc
      simp only [scanStars, if_true]
      refine ⟨⟨?_, ?_⟩, ih.2⟩
      · rw [ih.1.1, List.count_cons_of_ne (by decide)]
      · intro d hd; exact List.mem_cons_of_mem _ (ih.1.2 d hd)
    · simp [scanStars, hc, Ne.symm hc]

theorem scanBody_append :
    ∀ (n : Nat) (b : Bool) (q : List Char), q.length ≤ n →
      (scanBody b q).1 ++ (scanBody b q).2 = q := by
  intro n
  induction n using Nat.strong_induction_on with
  | _ n ih =>
    intro b q hlen
    match q, hlen with
    | [], _ => simp [scanBody]
    | [c], _ => simp only [scanBody]; split <;> simp
    | c :: d :: p, hlen =>
      simp only [List.length_cons] at hlen
      simp only [scanBody]
      split
      · simpa using ih p.length (by omega) b p (le_refl _)
      · split
        · simpa using ih (p.length + 1) (by omega) true (d :: p) (by simp)
        · split
          · simpa using ih (p.length + 1) (by omega) false (d :: p) (by simp)
          · split
            · simp
            · simpa using ih (p.length + 1) (by omega) b (d :: p) (by simp)

theorem scanBody_fst_nil (q : List Char) (h : (scanBody false q).1 = []) :
    q = [] ∨ q.head? = some '*' := by
  match q with
  | [] => exact Or.inl rfl
  | [c] =>
    simp only [scanBody] at h
    split at h
    · rename_i hc; right; simp [hc.1]
    · simp at h
  | c :: d :: p =>
    simp only [scanBody] at h
    split at h
    · simp at h
    · split at h
      · simp at h
      · split at h
        · simp at h
        · split at h
          · rename_i hc; right; simp [hc.1]
          · simp at h

/-- A successful match against a pattern without classes and escapes pairs the `/` of
the pattern with those of the name. -/
theorem matchLoop_count :
    ∀ (fuel : Nat) (pattern name : List Char), (∀ c ∈ pattern, c ≠ '[' ∧ c ≠ '\\') →
      matchLoop fuel pattern name = true → name.count '/' = pattern.count '/' := by
  intro fuel
  induction fuel with
  | zero => intro pattern name _ h; simp [matchLoop] at h
  | succ n ih =>
    intro pattern name hplain h
    simp only [matchLoop] at h
    by_cases hp : pattern = []
    · simp only [hp, if_true, decide_eq_true_eq] at h
      simp [hp, h]
    · simp only [hp, if_false] at h
      obtain ⟨⟨hcount, hmem⟩, hhead⟩ := scanStars_snd pattern
      have happ := scanBody_append _ false (scanStars pattern).2 (le_refl _)
      have hsplit : pattern.count '/' =
          (scanBody false (scanStars pattern).2).1.count '/' +
            (scanBody false (scanStars pattern).2).2.count '/' := by
        rw [← hcount, ← List.count_append, happ]
      have hplain1 : ∀ c ∈ (scanBody false (scanStars pattern).2).1, c ≠ '[' ∧ c ≠ '\\' := by
        intro c hc
        apply hplain c (hmem c _)
        rw [← happ]; exact List.mem_append_left _ hc
      have hplain2 : ∀ c ∈ (scanBody false (scanStars pattern).2).2, c ≠ '[' ∧ c ≠ '\\' := by
        intro c hc
        apply hplain c (hmem c _)
        rw [← happ]; exact List.mem_append_right _ hc
      have hfin : ∀ t u, name = u ++ t →
          u.count '/' = (scanBody false (scanStars pattern).2).1.count '/' →
          matchLoop n (scanBody false (scanStars pattern).2).2 t = true →
          name.count '/' = pattern.count '/' := by
        intro t u hu hc hm
        rw [hsplit, hu, List.count_append, hc, ih _ _ hplain2 hm]
      split at h
      · rename_i hstar
        have hnil : (scanStars pattern).2 = [] := by
          rcases scanBody_fst_nil _ hstar.2 with h1 | h1
          · exact h1
          · exact absurd h1 hhead
        have hno : ¬ '/' ∈ name := by simpa using h
        rw [List.count_eq_zero_of_not_mem hno, ← hcount, hnil]
        rfl
      · cases hm : matchChunk (scanBody false (scanStars pattern).2).1 name with
        | bad => simp [hm] at h
        | noMatch =>
          simp only [hm] at h
          split at h
          · cases hs : starLoop (scanBody false (scanStars pattern).2).1
                (decide ((scanBody false (scanStars pattern).2).2 = [])) name with
            | none => simp [hs] at h
            | some t =>
              simp only [hs] at h
              obtain ⟨u, hu, hc⟩ := starLoop_count _ _ hplain1 _ _ hs
              exact hfin t u hu hc h
          · simp at h
        | rest t =>
          simp only [hm] at h
          split at h
          · obtain ⟨u, hu, hc⟩ := matchChunkAux_count _ _ _ _ hplain1 hm
            exact hfin t u hu hc h
          · split at h
            · cases hs : starLoop (scanBody false (scanStars pattern).2).1
                  (decide ((scanBody false (scanStars pattern).2).2 = [])) name with
              | none => simp [hs] at h
              | some t1 =>
                simp only [hs] at h
                obtain ⟨u, hu, hc⟩ := starLoop_count _ _ hplain1 _ _ hs
                exact hfin t1 u hu hc h
            · simp at h

theorem splitSlash_length : ∀ (s : List Char), (splitSlash s).length = s.count '/' + 1 := by
  intro s
  induction s with
  | nil => rfl
  | cons c s ih =>
    by_cases hc : c = '/'
    · simp [splitSlash, hc, ih]
    · simp only [splitSlash, hc, if_false]
      rw [List.count_cons_of_ne (Ne.symm hc), ← ih]
      cases hs : splitSlash s with
      | nil => simp [hs] at ih
      | cons h t => simp

/-- C12. Single `*` never crosses a `/`: for every pattern without `**` built only from
literal characters, `?` and `*` (no `[` and no backslash) and every path, if `MatchesAny`
on that single pattern is true then the pattern and the path have the same number of
`/`-separated segments; in particular `projects/*/*.jsonl` matches
`projects/myproj/session.jsonl` and does not match `projects/p/sub/deep.jsonl`. -/
theorem MatchesAny_star_segments :
    (∀ (pattern path : String), ¬ ['*', '*'] <:+: pattern.data →
      (∀ c ∈ pattern.data, c ≠ '[' ∧ c ≠ '\\') → MatchesAny path [pattern] = true →
      (splitSlash path.data).length = (splitSlash pattern.data).length) ∧
    MatchesAny "projects/myproj/session.jsonl" ["projects/*/*.jsonl"] = true ∧
    MatchesAny "projects/p/sub/deep.jsonl" ["projects/*/*.jsonl"] = false := by
  refine ⟨?_, by decide, by decide⟩
  intro pattern path hno hplain h
  have hs := splitDoubleStar_none_of_absent _ hno
  simp only [MatchesAny, List.any_cons, List.any_nil, Bool.or_false, matchGlob, hs,
    Option.isSome_none, Bool.false_eq_true, if_false, filepathMatch] at h
  rw [splitSlash_length, splitSlash_length, matchLoop_count _ _ _ hplain h]

theorem MatchesAny_star_segments_witness :
    (splitSlash "projects/myproj/session.jsonl".data).length =
      (splitSlash "projects/*/*.jsonl".data).length :=
  MatchesAny_star_segments.1 "projects/*/*.jsonl" "projects/myproj/session.jsonl"
    (by decide) (by decide) (by decide)

/-! ### Malformed patterns (C13) -/

theorem classLoop_snd :
    ∀ (fuel : Nat) (chunk : List Char) (r r' : Char) (st m m' : Bool),
      (classLoop fuel chunk r st m).map Prod.snd =
        (classLoop fuel chunk r' st m').map Prod.snd := by
  intro fuel
  induction fuel with
  | zero => intro chunk r r' st m m'; simp [classLoop]
  | succ n ih =>
    intro chunk r r' st m m'
    simp only [classLoop]
    split
    · simp
    · cases hg : getEsc chunk with
      | none => simp
      | some x =>
        obtain ⟨lo, chunk1⟩ := x
        simp only
        split
        · cases hg2 : getEsc chunk1.tail with
          | none => simp
          | some y =>
            obtain ⟨hi, chunk2⟩ := y
            exact ih _ _ _ _ _ _
        · exact ih _ _ _ _ _ _

theorem classLoop_none_iff (fuel : Nat) (chunk : List Char) (r r' : Char) (st m m' : Bool) :
    classLoop fuel chunk r st m = none ↔ classLoop fuel chunk r' st m' = none := by
  have h := classLoop_snd fuel chunk r r' st m m'
  cases h1 : classLoop fuel chunk r st m <;> cases h2 : classLoop fuel chunk r' st m' <;>
    simp [h1, h2] at h ⊢

theorem classLoop_some_snd {fuel : Nat} {chunk : List Char} {r r' : Char} {st m m' b b' : Bool}
    {c3 c3' : List Char} (h1 : classLoop fuel chunk r st m = some (b, c3))
    (h2 : classLoop fuel chunk r' st m' = some (b', c3')) : c3 = c3' := by
  have h := classLoop_snd fuel chunk r r' st m m'
  simpa [h1, h2] using h

/-- Whether a chunk is rejected does not depend on the name nor on the state of the
match. -/
theorem matchChunkAux_bad :
    ∀ (fuel : Nat) (chunk s s' : List Char) (f f' : Bool),
      matchChunkAux fuel chunk s f = .bad → matchChunkAux fuel chunk s' f' = .bad := by
  intro fuel
  induction fuel with
  | zero => intro chunk s s' f f' _; simp [matchChunkAux]
  | succ n ih =>
    intro chunk s s' f f' h
    cases chunk with
    | nil =>
      simp only [matchChunkAux] at h
      split at h <;> simp at h
    | cons c k =>
      simp only [matchChunkAux] at h ⊢
      by_cases h1 : c = '['
      · simp only [h1, if_true] at h ⊢
        generalize hr : (if (f || s.isEmpty) = true then Char.ofNat 0
          else s.headD (Char.ofNat 0)) = r at h
        generalize hr' : (if (f' || s'.isEmpty) = true then Char.ofNat 0
          else s'.headD (Char.ofNat 0)) = r'
        generalize hc2 : (if decide (k.head? = some '^') = true then k.tail else k) = chunk2 at h ⊢
        cases hcl : classLoop (chunk2.length + 1) chunk2 r false false with
        | none =>
          rw [(classLoop_none_iff _ _ r r' _ _ _).mp hcl]
        | some x =>
          obtain ⟨m, c3⟩ := x
          cases hcl' : classLoop (chunk2.length + 1) chunk2 r' false false with
          | none => rfl
          | some x' =>
            obtain ⟨m', c3'⟩ := x'
            have := classLoop_some_snd hcl hcl'
            subst this
            simp only [hcl] at h
            exact ih _ _ _ _ _ h
      · simp only [h1, if_false] at h ⊢
        by_cases h2 : c = '?'
        · simp only [h2, if_true] at h ⊢
          split at h <;> split <;> exact ih _ _ _ _ _ h
        · simp only [h2, if_false] at h ⊢
          by_cases h3 : c = '\\'
          · simp only [h3, if_true] at h ⊢
            cases k with
            | nil => rfl
            | cons d k2 =>
              simp only at h ⊢
              split at h <;> split <;> exact ih _ _ _ _ _ h
          · simp only [h3, if_false] at h ⊢
            split at h <;> split <;> exact ih _ _ _ _ _ h

theorem badPatternLoop_nil (fuel : Nat) : badPatternLoop fuel [] = false := by
  cases fuel <;> simp [badPatternLoop]

/-- A pattern that matches some name is well-formed. -/
theorem matchLoop_not_bad :
    ∀ (fuel : Nat) (pattern name : List Char), matchLoop fuel pattern name = true →
      badPatternLoop fuel pattern = false := by
  intro fuel
  induction fuel with
  | zero => intro pattern name _; rfl
  | succ n ih =>
    intro pattern name h
    simp only [matchLoop] at h
    simp only [badPatternLoop]
    by_cases hp : pattern = []
    · simp [hp]
    · simp only [hp, if_false] at h ⊢
      obtain ⟨_, hhead⟩ := scanStars_snd pattern
      have happ := scanBody_append _ false (scanStars pattern).2 (le_refl _)
      have hok : ∀ r, matchChunk (scanBody false (scanStars pattern).2).1 name = r →
          r ≠ .bad → decide (matchChunk (scanBody false (scanStars pattern).2).1 [] = .bad)
            = false := by
        intro r hr hne
        rw [decide_eq_false_iff_not]
        intro hb
        apply hne
        rw [← hr]
        exact matchChunkAux_bad _ _ _ _ _ _ hb
      split at h
      · rename_i hstar
        have hnil : (scanStars pattern).2 = [] := by
          rcases scanBody_fst_nil _ hstar.2 with h1 | h1
          · exact h1
          · exact absurd h1 hhead
        rw [hnil]
        simp [scanBody, matchChunk, matchChunkAux, badPatternLoop_nil]
      · cases hm : matchChunk (scanBody false (scanStars pattern).2).1 name with
        | bad => simp [hm] at h
        | noMatch =>
          simp only [hm] at h
          rw [hok _ hm (by simp), Bool.false_or]
          split at h
          · cases hs : starLoop (scanBody false (scanStars pattern).2).1
                (decide ((scanBody false (scanStars pattern).2).2 = [])) name with
            | none => simp [hs] at h
            | some t => simp only [hs] at h; exact ih _ _ h
          · simp at h
        | rest t =>
          simp only [hm] at h
          rw [hok _ hm (by simp), Bool.false_or]
          split at h
          · exact ih _ _ h
          · split at h
            · cases hs : starLoop (scanBody false (scanStars pattern).2).1
                  (decide ((scanBody false (scanStars pattern).2).2 = [])) name with
              | none => simp [hs] at h
              | some t1 => simp only [hs] at h; exact ih _ _ h
            · simp at h

theorem filepathMatch_not_bad {pattern name : List Char}
    (h : filepathMatch pattern name = true) : badPattern pattern = false :=
  matchLoop_not_bad _ _ _ h

/-! #### Chunks of a concatenation -/

theorem scanBody_nil (b : Bool) : scanBody b [] = ([], []) := by
  simp [scanBody]

theorem scanBody_cons (b : Bool) (c : Char) (q : List Char) (hc : c ≠ '\\') :
    scanBody b (c :: q) =
      if c = '*' ∧ b = false then ([], c :: q)
      else (c :: (scanBody (if c = '[' then true else if c = ']' then false else b) q).1,
            (scanBody (if c = '[' then true else if c = ']' then false else b) q).2) := by
  cases q with
  | nil =>
    simp only [scanBody, scanBody_nil]
  | cons d p =>
    simp only [scanBody, hc, if_false]
    by_cases h1 : c = '['
    · simp [h1]
    · simp only [h1, if_false]
      by_cases h2 : c = ']'
      · simp [h2]
      · simp only [h2, if_false]

theorem scanBody_esc (b : Bool) (d : Char) (q : List Char) :
    scanBody b ('\\' :: d :: q) = ('\\' :: d :: (scanBody b q).1, (scanBody b q).2) := by
  simp [scanBody]

theorem getEsc_item {chunk rest : List Char} {x : Char} (h : getEsc chunk = some (x, rest)) :
    rest ≠ [] ∧ ∃ item, chunk = item ++ rest ∧ item ≠ [] ∧
      (∀ w, scanBody true (item ++ w) = (item ++ (scanBody true w).1, (scanBody true w).2)) ∧
      (∀ b, getEsc (chunk ++ b) = some (x, rest ++ b)) := by
  unfold getEsc at h
  cases chunk with
  | nil => simp at h
  | cons c rest0 =>
    simp only at h
    by_cases h1 : c = '-' ∨ c = ']'
    · simp [h1] at h
    · simp only [h1, if_false] at h
      by_cases h2 : c = '\\'
      · simp only [h2, if_true] at h
        cases rest0 with
        | nil => simp at h
        | cons d rest2 =>
          simp only at h
          by_cases h3 : rest2 = []
          · simp [h3] at h
          · simp only [h3, if_false, Option.some.injEq, Prod.mk.injEq] at h
            obtain ⟨rfl, rfl⟩ := h
            refine ⟨h3, ['\\', d], by simp [h2], by simp, ?_, ?_⟩
            · intro w
              simp [scanBody_esc]
            · intro b
              simp [getEsc, h2, h3]
      · simp only [h2, if_false] at h
        by_cases h3 : rest0 = []
        · simp [h3] at h
        · simp only [h3, if_false, Option.some.injEq, Prod.mk.injEq] at h
          obtain ⟨rfl, rfl⟩ := h
          refine ⟨h3, [c], by simp, by simp, ?_, ?_⟩
          · intro w
            have hx : c ≠ ']' := fun e => h1 (Or.inr e)
            simp only [List.singleton_append, scanBody_cons true c _ h2, Bool.true_eq_false,
              and_false, if_false, hx]
            split <;> rfl
          · intro b
            simp [getEsc, h1, h2, h3]

theorem classLoop_body :
    ∀ (fuel : Nat) (chunk : List Char) (r : Char) (st m m' : Bool) (c3 : List Char),
      classLoop fuel chunk r st m = some (m', c3) →
      ∃ body, chunk = body ++ c3 ∧ body ≠ [] ∧
        (∀ z, scanBody true (body ++ z) =
          (body ++ (scanBody false z).1, (scanBody false z).2)) ∧
        (∀ (b : List Char) (k : Nat) (r' : Char) (m0 : Bool),
          ∃ m'', classLoop (fuel + k) (chunk ++ b) r' st m0 = some (m'', c3 ++ b)) := by
  intro fuel
  induction fuel with
  | zero => intro chunk r st m m' c3 h; simp [classLoop] at h
  | succ n ih =>
    intro chunk r st m m' c3 h
    simp only [classLoop] at h
    by_cases hc : chunk.head? = some ']' ∧ st = true
    · simp only [hc, and_self, if_true, Option.some.injEq, Prod.mk.injEq] at h
      obtain ⟨_, rfl⟩ := h
      cases chunk with
      | nil => simp at hc
      | cons c t =>
        simp only [List.head?_cons, Option.some.injEq] at hc
        obtain ⟨rfl, rfl⟩ := hc
        refine ⟨[']'], by simp, by simp, ?_, ?_⟩
        · intro z
          simp [scanBody_cons]
        · intro b k r' m0
          refine ⟨m0, ?_⟩
          rw [Nat.succ_add]
          simp [classLoop]
    · simp only [hc, if_false] at h
      have hne : chunk ≠ [] := by
        rintro rfl
        simp [getEsc] at h
      have hhead : ∀ b : List Char, (chunk ++ b).head? = chunk.head? := by
        intro b
        cases chunk with
        | nil => exact absurd rfl hne
        | cons c t => rfl
      cases hg : getEsc chunk with
      | none => simp [hg] at h
      | some x =>
        obtain ⟨lo, chunk1⟩ := x
        simp only [hg] at h
        obtain ⟨hne1, item1, hitem1, _, hscan1, hext1⟩ := getEsc_item hg
        by_cases hd : chunk1.head? = some '-'
        · simp only [hd, if_true] at h
          cases chunk1 with
          | nil => simp at hd
          | cons dash t =>
            simp only [List.head?_cons, Option.some.injEq] at hd
            subst hd
            simp only [List.tail_cons] at h
            cases hg2 : getEsc t with
            | none => simp [hg2] at h
            | some y =>
              obtain ⟨hi, chunk2⟩ := y
              simp only [hg2] at h
              obtain ⟨_, item2, hitem2, _, hscan2, hext2⟩ := getEsc_item hg2
              obtain ⟨body, hbody, _, hscan, hext⟩ := ih _ _ _ _ _ _ h
              refine ⟨item1 ++ '-' :: (item2 ++ body), ?_, by simp, ?_, ?_⟩
              · rw [hitem1, hitem2, hbody]; simp
              · intro z
                have h3 := hscan z
                have h2 := hscan2 (body ++ z)
                have h1 := hscan1 ('-' :: (item2 ++ (body ++ z)))
                rw [scanBody_cons true '-' _ (by decide)] at h1
                simp only [Bool.true_eq_false, and_false, if_false,
                  show ('-' = '[') = False from by decide, show ('-' = ']') = False from by decide]
                  at h1
                rw [h2, h3] at h1
                simpa [List.append_assoc] using h1
              · intro b k r' m0
                obtain ⟨m'', hm''⟩ := hext b k r' (m0 || (decide (lo ≤ r') && decide (r' ≤ hi)))
                refine ⟨m'', ?_⟩
                rw [Nat.succ_add]
                simp only [classLoop, hhead, hc, if_false, hext1 b, List.cons_append,
                  List.head?_cons, if_true, List.tail_cons, hext2 b]
                exact hm''
        · simp only [hd, if_false] at h
          obtain ⟨body, hbody, _, hscan, hext⟩ := ih _ _ _ _ _ _ h
          refine ⟨item1 ++ body, ?_, by simp [*], ?_, ?_⟩
          · rw [hitem1, hbody]; simp
          · intro z
            have h3 := hscan z
            have h1 := hscan1 (body ++ z)
            rw [h3] at h1
            simpa [List.append_assoc] using h1
          · intro b k r' m0
            obtain ⟨m'', hm''⟩ := hext b k r' (m0 || (decide (lo ≤ r') && decide (r' ≤ lo)))
            refine ⟨m'', ?_⟩
            have hd' : ¬ (chunk1 ++ b).head? = some '-' := by
              cases chunk1 with
              | nil => exact absurd rfl hne1
              | cons c t => simpa using hd
            rw [Nat.succ_add]
            simp only [classLoop, hhead, hc, if_false, hext1 b, hd']
            exact hm''

/-- The first element of a well-formed chunk: a character, an escaped character or a
class.  The check of the chunk goes on behind it, also when more text follows the chunk,
and `scanChunk` passes over it unless it is a `*`. -/
theorem matchChunkAux_elem (n : Nat) (c : Char) (k : List Char)
    (h : matchChunkAux (n + 1) (c :: k) [] true ≠ .bad) :
    ∃ el rest, c :: k = el ++ rest ∧ el ≠ [] ∧
      (el.head? ≠ some '*' → ∀ z, scanBody false (el ++ z) =
        (el ++ (scanBody false z).1, (scanBody false z).2)) ∧
      (∀ (b : List Char) (N : Nat), matchChunkAux (N + 1) (el ++ rest ++ b) [] true =
        matchChunkAux N (rest ++ b) [] true) := by
  by_cases h1 : c = '['
  · subst h1
    simp only [matchChunkAux, Bool.true_or, if_true] at h
    have hk : k ≠ [] := by
      rintro rfl
      simp [classLoop, getEsc] at h
    cases k with
    | nil => exact absurd rfl hk
    | cons d t =>
      by_cases hd : d = '^'
      · subst hd
        simp only [List.head?_cons, decide_True, if_true, List.tail_cons] at h
        cases hcl : classLoop (t.length + 1) t (Char.ofNat 0) false false with
        | none => simp [hcl] at h
        | some x =>
          obtain ⟨m, c3⟩ := x
          obtain ⟨body, hbody, _, hscan, hext⟩ := classLoop_body _ _ _ _ _ _ _ hcl
          refine ⟨'[' :: '^' :: body, c3, by simp [hbody], by simp, ?_, ?_⟩
          · intro _ z
            simp only [List.cons_append]
            rw [scanBody_cons false '[' _ (by decide)]
            simp only [show ('[' = '*') = False from by decide, false_and, if_false, if_true]
            rw [scanBody_cons true '^' _ (by decide)]
            simp only [Bool.true_eq_false, and_false, if_false,
              show ('^' = '[') = False from by decide, show ('^' = ']') = False from by decide]
            rw [hscan z]
          · intro b N
            obtain ⟨m'', hm''⟩ := hext b b.length (Char.ofNat 0) false
            simp only [List.cons_append, List.append_assoc, matchChunkAux, Bool.true_or,
              if_true, List.head?_cons, decide_True, List.tail_cons]
            rw [← List.append_assoc, ← hbody, List.length_append, Nat.add_right_comm, hm'']
      · have hneg : decide ((d :: t).head? = some '^') = false := by simp [hd]
        simp only [hneg, Bool.false_eq_true, if_false] at h
        cases hcl : classLoop ((d :: t).length + 1) (d :: t) (Char.ofNat 0) false false with
        | none => exact absurd (by rw [hcl]) h
        | some x =>
          obtain ⟨m, c3⟩ := x
          obtain ⟨body, hbody, _, hscan, hext⟩ := classLoop_body _ _ _ _ _ _ _ hcl
          refine ⟨'[' :: body, c3, by simp [hbody], by simp, ?_, ?_⟩
          · intro _ z
            simp only [List.cons_append]
            rw [scanBody_cons false '[' _ (by decide)]
            simp only [show ('[' = '*') = False from by decide, false_and, if_false, if_true]
            rw [hscan z]
          · intro b N
            obtain ⟨m'', hm''⟩ := hext b b.length (Char.ofNat 0) false
            have hneg' : decide ((body ++ (c3 ++ b)).head? = some '^') = false := by
              rw [← List.append_assoc, ← hbody]
              simp [hd]
            simp only [List.cons_append, List.append_assoc, matchChunkAux, Bool.true_or,
              if_true, hneg', Bool.false_eq_true, if_false]
            rw [← List.append_assoc, ← hbody, List.length_append, Nat.add_right_comm, hm'']
  · by_cases h3 : c = '\\'
    · subst h3
      cases k with
      | nil => simp [matchChunkAux] at h
      | cons d k2 =>
        refine ⟨['\\', d], k2, by simp, by simp, ?_, ?_⟩
        · intro _ z
          simp [scanBody_esc]
        · intro b N
          simp [matchChunkAux]
    · refine ⟨[c], k, by simp, by simp, ?_, ?_⟩
      · intro hstar z
        have hs : c ≠ '*' := by simpa using hstar
        simp only [List.singleton_append, scanBody_cons false c _ h3, hs, false_and, if_false,
          h1]
        split <;> rfl
      · intro b N
        by_cases h2 : c = '?'
        · simp [matchChunkAux, h2]
        · simp [matchChunkAux, h1, h2, h3]

theorem matchChunkAux_elem_rest {n : Nat} {c : Char} {k el rest : List Char}
    (hsplit : c :: k = el ++ rest) (hel : el ≠ [])
    (hstep : ∀ (b : List Char) (N : Nat), matchChunkAux (N + 1) (el ++ rest ++ b) [] true =
        matchChunkAux N (rest ++ b) [] true) :
    matchChunkAux (n + 1) (c :: k) [] true = matchChunkAux n rest [] true ∧
      rest.length < (c :: k).length := by
  constructor
  · have := hstep [] n
    simpa [← hsplit] using this
  · rw [hsplit, List.length_append]
    have : 0 < el.length := List.length_pos.mpr hel
    omega

/-- The check of a chunk does not depend on the fuel, once there is enough of it. -/
theorem matchChunkAux_fuel :
    ∀ (n : Nat) (c : List Char), c.length < n → matchChunkAux n c [] true ≠ .bad →
      ∀ m, c.length < m → matchChunkAux m c [] true ≠ .bad := by
  intro n
  induction n with
  | zero => intro c hlen; omega
  | succ n ih =>
    intro c hlen h m hm
    cases m with
    | zero => omega
    | succ m =>
      cases c with
      | nil => simp [matchChunkAux]
      | cons c0 k =>
        obtain ⟨el, rest, hsplit, hel, _, hstep⟩ := matchChunkAux_elem n c0 k h
        obtain ⟨h1, hlt⟩ := matchChunkAux_elem_rest (n := n) hsplit hel hstep
        obtain ⟨h2, _⟩ := matchChunkAux_elem_rest (n := m) hsplit hel hstep
        rw [h2]
        rw [h1] at h
        exact ih rest (by omega) h m (by omega)

/-- The text after a well-formed chunk that `scanChunk` takes whole is scanned as if it
stood alone. -/
theorem scanBody_chunk_append :
    ∀ (n : Nat) (c : List Char), c.length < n → matchChunkAux n c [] true ≠ .bad →
      scanBody false c = (c, []) →
      ∀ y, scanBody false (c ++ y) = (c ++ (scanBody false y).1, (scanBody false y).2) := by
  intro n
  induction n with
  | zero => intro c hlen; omega
  | succ n ih =>
    intro c hlen h hscan y
    cases c with
    | nil => simp
    | cons c0 k =>
      obtain ⟨el, rest, hsplit, hel, hsc, hstep⟩ := matchChunkAux_elem n c0 k h
      obtain ⟨h1, hlt⟩ := matchChunkAux_elem_rest (n := n) hsplit hel hstep
      rw [h1] at h
      have hstar : el.head? ≠ some '*' := by
        intro hs
        cases el with
        | nil => exact hel rfl
        | cons e el' =>
          simp only [List.head?_cons, Option.some.injEq] at hs
          subst hs
          simp only [List.cons_append, List.cons.injEq] at hsplit
          obtain ⟨rfl, _⟩ := hsplit
          rw [scanBody_cons false '*' _ (by decide)] at hscan
          simp at hscan
      rw [hsplit] at hscan ⊢
      rw [hsc hstar rest] at hscan
      have hrest : scanBody false rest = (rest, []) := by
        have e1 := congrArg Prod.fst hscan
        have e2 := congrArg Prod.snd hscan
        simp only [List.append_cancel_left_eq] at e1 e2
        exact Prod.ext e1 e2
      rw [List.append_assoc, hsc hstar (rest ++ y), ih rest (by omega) h hrest y,
        List.append_assoc]

/-- A well-formed chunk followed by more text is rejected exactly when that text is. -/
theorem matchChunkAux_append :
    ∀ (n : Nat) (a : List Char), a.length < n → matchChunkAux n a [] true ≠ .bad →
      ∀ (b : List Char) (N : Nat), (a ++ b).length < N →
        (matchChunkAux N (a ++ b) [] true = .bad ↔
          matchChunkAux (b.length + 1) b [] true = .bad) := by
  intro n
  induction n with
  | zero => intro a hlen; omega
  | succ n ih =>
    intro a hlen h b N hN
    cases a with
    | nil =>
      simp only [List.nil_append] at hN ⊢
      constructor
      · intro hb
        by_contra hc
        exact matchChunkAux_fuel _ b (Nat.lt_succ_self _) hc N hN hb
      · intro hb
        by_contra hc
        exact matchChunkAux_fuel _ b hN hc _ (Nat.lt_succ_self _) hb
    | cons c0 k =>
      obtain ⟨el, rest, hsplit, hel, _, hstep⟩ := matchChunkAux_elem n c0 k h
      obtain ⟨h1, hlt⟩ := matchChunkAux_elem_rest (n := n) hsplit hel hstep
      rw [h1] at h
      cases N with
      | zero => omega
      | succ N =>
        rw [hsplit, hstep b N]
        apply ih rest (by omega) h b N
        simp only [List.length_append, List.length_cons] at hN hlt ⊢
        omega

/-! #### Patterns of a concatenation -/

theorem matchChunk_bad_iff (c : List Char) :
    matchChunk c [] = .bad ↔ matchChunkAux (c.length + 1) c [] true = .bad :=
  ⟨fun h => matchChunkAux_bad _ _ _ _ _ _ h, fun h => matchChunkAux_bad _ _ _ _ _ _ h⟩

theorem scanStars_cons_star (p : List Char) :
    scanStars ('*' :: p) = (true, (scanStars p).2) := by
  simp [scanStars]

theorem scanStars_cons_ne {c : Char} (p : List Char) (hc : c ≠ '*') :
    scanStars (c :: p) = (false, c :: p) := by
  simp [scanStars, hc]

theorem scanStars_length : ∀ (p : List Char), (scanStars p).2.length ≤ p.length := by
  intro p
  induction p with
  | nil => simp [scanStars]
  | cons c p ih =>
    by_cases hc : c = '*'
    · subst hc
      rw [scanStars_cons_star]
      simp only [List.length_cons]
      omega
    · rw [scanStars_cons_ne p hc]

theorem scanBody_rest_length (p : List Char) (hp : p ≠ []) :
    (scanBody false (scanStars p).2).2.length < p.length := by
  have happ := scanBody_append _ false (scanStars p).2 (le_refl _)
  have hlen : (scanBody false (scanStars p).2).1.length +
      (scanBody false (scanStars p).2).2.length = (scanStars p).2.length := by
    rw [← List.length_append, happ]
  cases p with
  | nil => exact absurd rfl hp
  | cons c p =>
    by_cases hc : c = '*'
    · subst hc
      simp only [scanStars_cons_star] at hlen ⊢
      have := scanStars_length p
      simp only [List.length_cons]
      omega
    · simp only [scanStars_cons_ne p hc] at hlen ⊢
      have hne : (scanBody false (c :: p)).1 ≠ [] := by
        intro h
        rcases scanBody_fst_nil _ h with h1 | h1
        · simp at h1
        · simp at h1; exact hc h1
      have : 0 < (scanBody false (c :: p)).1.length := List.length_pos.mpr hne
      omega

theorem badPatternLoop_succ (n : Nat) (p : List Char) (hp : p ≠ []) :
    badPatternLoop (n + 1) p =
      (decide (matchChunk (scanBody false (scanStars p).2).1 [] = .bad) ||
        badPatternLoop n (scanBody false (scanStars p).2).2) := by
  simp only [badPatternLoop, hp, if_false]

theorem badPatternLoop_fuel :
    ∀ (n : Nat) (p : List Char), p.length < n → ∀ m, p.length < m →
      badPatternLoop n p = badPatternLoop m p := by
  intro n
  induction n with
  | zero => intro p hlen; omega
  | succ n ih =>
    intro p hlen m hm
    cases m with
    | zero => omega
    | succ m =>
      by_cases hp : p = []
      · simp [hp, badPatternLoop_nil]
      · have := scanBody_rest_length p hp
        rw [badPatternLoop_succ n p hp, badPatternLoop_succ m p hp,
          ih _ (by omega) m (by omega)]

theorem badPattern_unfold (p : List Char) (hp : p ≠ []) :
    badPattern p = (decide (matchChunk (scanBody false (scanStars p).2).1 [] = .bad) ||
      badPattern (scanBody false (scanStars p).2).2) := by
  have := scanBody_rest_length p hp
  unfold badPattern
  rw [badPatternLoop_succ _ p hp, badPatternLoop_fuel _ _ (by omega) _ (Nat.lt_succ_self _)]

theorem badPattern_cons_star (p : List Char) : badPattern ('*' :: p) = badPattern p := by
  cases p with
  | nil => decide
  | cons c p =>
    rw [badPattern_unfold _ (by simp), badPattern_unfold (c :: p) (by simp),
      scanStars_cons_star]

theorem scanBody_stop :
    ∀ (n : Nat) (b : Bool) (q : List Char), q.length ≤ n → (scanBody b q).2 ≠ [] →
      ∀ y, scanBody b (q ++ y) = ((scanBody b q).1, (scanBody b q).2 ++ y) := by
  intro n
  induction n using Nat.strong_induction_on with
  | _ n ih =>
    intro b q hlen h y
    cases q with
    | nil => simp [scanBody_nil] at h
    | cons c q =>
      simp only [List.length_cons] at hlen
      by_cases hc : c = '\\'
      · subst hc
        cases q with
        | nil => simp [scanBody] at h
        | cons d q =>
          simp only [List.length_cons] at hlen
          rw [scanBody_esc] at h ⊢
          simp only [List.cons_append]
          rw [scanBody_esc, ih q.length (by omega) b q (le_refl _) h y]
      · rw [scanBody_cons b c q hc] at h ⊢
        simp only [List.cons_append]
        rw [scanBody_cons b c (q ++ y) hc]
        by_cases hs : c = '*' ∧ b = false
        · simp [hs]
        · simp only [hs, if_false] at h ⊢
          rw [ih q.length (by omega) _ q (le_refl _) h y]

/-- A well-formed pattern: what `scanChunk` takes first is a well-formed chunk, and
what it leaves is a well-formed pattern. -/
theorem badPattern_scanBody {y : List Char} (h : badPattern y = false) :
    matchChunkAux ((scanBody false y).1.length + 1) (scanBody false y).1 [] true ≠ .bad ∧
      badPattern (scanBody false y).2 = false := by
  cases y with
  | nil => simp [scanBody_nil, matchChunkAux]; decide
  | cons c y =>
    by_cases hc : c = '*'
    · subst hc
      rw [scanBody_cons false '*' y (by decide)]
      simp only [and_self, if_true]
      exact ⟨by simp [matchChunkAux], h⟩
    · rw [badPattern_unfold _ (by simp), scanStars_cons_ne y hc, Bool.or_eq_false_iff,
        decide_eq_false_iff_not, matchChunk_bad_iff] at h
      exact h

/-- The concatenation of two well-formed patterns is well-formed. -/
theorem badPattern_append :
    ∀ (n : Nat) (x y : List Char), x.length ≤ n → badPattern x = false →
      badPattern y = false → badPattern (x ++ y) = false := by
  intro n
  induction n using Nat.strong_induction_on with
  | _ n ih =>
    intro x y hlen hx hy
    cases x with
    | nil => simpa using hy
    | cons c x =>
      simp only [List.length_cons] at hlen
      by_cases hc : c = '*'
      · subst hc
        rw [badPattern_cons_star] at hx
        rw [List.cons_append, badPattern_cons_star]
        exact ih x.length (by omega) x y (le_refl _) hx hy
      · have hrl := scanBody_rest_length (c :: x) (by simp)
        rw [badPattern_unfold _ (by simp), scanStars_cons_ne x hc, Bool.or_eq_false_iff,
          decide_eq_false_iff_not, matchChunk_bad_iff] at hx
        rw [scanStars_cons_ne x hc] at hrl
        obtain ⟨hchunk, hrest⟩ := hx
        rw [List.cons_append, badPattern_unfold _ (by simp), scanStars_cons_ne _ hc,
          Bool.or_eq_false_iff, decide_eq_false_iff_not, matchChunk_bad_iff,
          ← List.cons_append]
        by_cases h2 : (scanBody false (c :: x)).2 = []
        · have happ := scanBody_append _ false (c :: x) (le_refl _)
          rw [h2, List.append_nil] at happ
          have hwhole : scanBody false (c :: x) = (c :: x, []) := Prod.ext happ h2
          rw [happ] at hchunk
          rw [scanBody_chunk_append _ _ (Nat.lt_succ_self _) hchunk hwhole y]
          obtain ⟨hy1, hy2⟩ := badPattern_scanBody hy
          refine ⟨?_, hy2⟩
          simp only
          rw [matchChunkAux_append _ _ (Nat.lt_succ_self _) hchunk _ _ (Nat.lt_succ_self _)]
          exact hy1
        · rw [scanBody_stop _ false (c :: x) (le_refl _) h2 y]
          simp only [List.length_cons] at hrl
          exact ⟨hchunk, ih _ (by omega) _ y (le_refl _) hrest hy⟩

theorem badPattern_append_ok {x y : List Char} (hx : badPattern x = false)
    (hy : badPattern y = false) : badPattern (x ++ y) = false :=
  badPattern_append _ x y (le_refl _) hx hy

theorem splitDoubleStar_eq :
    ∀ (p a b : List Char), splitDoubleStar p = some (a, b) → p = a ++ '*' :: '*' :: b := by
  intro p
  induction p with
  | nil => intro a b h; simp [splitDoubleStar] at h
  | cons c p ih =>
    intro a b h
    cases p with
    | nil => simp [splitDoubleStar] at h
    | cons d p =>
      simp only [splitDoubleStar] at h
      by_cases hcd : c = '*' ∧ d = '*'
      · simp only [hcd, and_self, if_true, Option.some.injEq, Prod.mk.injEq] at h
        obtain ⟨rfl, rfl⟩ := h
        simp [hcd.1, hcd.2]
      · simp only [hcd, if_false] at h
        cases hs : splitDoubleStar (d :: p) with
        | none => simp [hs] at h
        | some x =>
          obtain ⟨a', b'⟩ := x
          simp only [hs, Option.some.injEq, Prod.mk.injEq] at h
          obtain ⟨rfl, rfl⟩ := h
          rw [ih a' b' hs]
          rfl

theorem joinSlash_singleton (a : List Char) : joinSlash [a] = a := by
  simp [joinSlash, List.intercalate, List.intersperse]

theorem joinSlash_cons_cons (a b : List Char) (r : List (List Char)) :
    joinSlash (a :: b :: r) = a ++ '/' :: joinSlash (b :: r) := by
  simp [joinSlash, List.intercalate, List.intersperse]

theorem joinSlash_splitSlash : ∀ (s : List Char), joinSlash (splitSlash s) = s := by
  intro s
  induction s with
  | nil => rfl
  | cons c s ih =>
    cases hs : splitSlash s with
    | nil =>
      have := splitSlash_length s
      simp [hs] at this
    | cons h t =>
      rw [hs] at ih
      by_cases hc : c = '/'
      · subst hc
        simp only [splitSlash, if_true, hs]
        rw [joinSlash_cons_cons, ih]
        rfl
      · simp only [splitSlash, hc, if_false, hs]
        cases t with
        | nil =>
          rw [joinSlash_singleton] at ih ⊢
          rw [ih]
        | cons h2 t2 =>
          rw [joinSlash_cons_cons] at ih ⊢
          rw [List.cons_append, ih]

theorem badPattern_joinSlash :
    ∀ (segs : List (List Char)), (∀ seg ∈ segs, badPattern seg = false) →
      badPattern (joinSlash segs) = false := by
  intro segs
  induction segs with
  | nil => intro _; decide
  | cons s segs ih =>
    intro h
    cases segs with
    | nil =>
      have := h s (List.mem_cons_self _ _)
      rw [joinSlash_singleton]; exact this
    | cons t r =>
      have h1 := h s (List.mem_cons_self _ _)
      have h2 := ih (fun seg hseg => h seg (List.mem_cons_of_mem _ hseg))
      have h3 : joinSlash (s :: t :: r) = s ++ (['/'] ++ joinSlash (t :: r)) := by
        rw [joinSlash_cons_cons]; rfl
      rw [h3]
      exact badPattern_append_ok h1 (badPattern_append_ok (by decide) h2)

theorem matchSegments_not_bad :
    ∀ (ps qs : List (List Char)), matchSegments ps qs = true →
      ∀ q ∈ qs, badPattern q = false := by
  intro ps
  induction ps with
  | nil => intro qs h q hq; cases qs <;> simp [matchSegments] at h hq
  | cons p ps ih =>
    intro qs h q hq
    cases qs with
    | nil => simp at hq
    | cons q0 qs =>
      simp only [matchSegments, Bool.and_eq_true] at h
      rcases List.mem_cons.mp hq with rfl | hq
      · exact filepathMatch_not_bad h.1
      · exact ih qs h.2 q hq

theorem matchAnyTail_not_bad (suffix : List Char) :
    ∀ (segs : List (List Char)), matchAnyTail suffix segs = true →
      badPattern suffix = false := by
  intro segs
  induction segs with
  | nil => intro h; simp [matchAnyTail] at h
  | cons s segs ih =>
    intro h
    simp only [matchAnyTail, Bool.or_eq_true] at h
    rcases h with h | h
    · exact filepathMatch_not_bad h
    · exact ih h

theorem trimSlashSuffix_cases (s : List Char) :
    s = trimSlashSuffix s ∨ s = trimSlashSuffix s ++ ['/'] := by
  unfold trimSlashSuffix
  by_cases h : s.getLast? = some '/'
  · right
    simp only [h, if_true]
    have hne : s ≠ [] := by rintro rfl; simp at h
    have hl : s.getLast hne = '/' := by
      rw [List.getLast?_eq_getLast _ hne, Option.some.injEq] at h
      exact h
    conv_lhs => rw [← List.dropLast_append_getLast hne, hl]
  · left; simp [h]

theorem trimSlashPrefix_cases (s : List Char) :
    s = trimSlashPrefix s ∨ s = '/' :: trimSlashPrefix s := by
  unfold trimSlashPrefix
  cases s with
  | nil => left; simp
  | cons c s =>
    by_cases h : c = '/'
    · right; simp [h]
    · left; simp [h]

/-- A pattern that `matchGlob` matches against some path is well-formed. -/
theorem matchGlob_not_bad {path pattern : List Char} (h : matchGlob path pattern = true) :
    badPattern pattern = false := by
  unfold matchGlob at h
  cases hs : splitDoubleStar pattern with
  | none =>
    simp only [hs, Option.isSome_none, Bool.false_eq_true, if_false] at h
    exact filepathMatch_not_bad h
  | some x =>
    obtain ⟨before, after⟩ := x
    simp only [hs, Option.isSome_some, if_true, matchDoubleGlob] at h
    have hpat := splitDoubleStar_eq _ _ _ hs
    have hbefore : badPattern (trimSlashSuffix before) = false → badPattern before = false := by
      intro hb
      rcases trimSlashSuffix_cases before with e | e
      · rw [e]; exact hb
      · rw [e]; exact badPattern_append_ok hb (by decide)
    have hafter : badPattern (trimSlashPrefix after) = false → badPattern after = false := by
      intro hb
      rcases trimSlashPrefix_cases after with e | e
      · rw [e]; exact hb
      · rw [e]; exact badPattern_append_ok (x := ['/']) (by decide) hb
    have hfin : badPattern (trimSlashSuffix before) = false →
        badPattern (trimSlashPrefix after) = false → badPattern pattern = false := by
      intro h1 h2
      rw [hpat]
      apply badPattern_append_ok (hbefore h1)
      rw [badPattern_cons_star, badPattern_cons_star]
      exact hafter h2
    by_cases hp : trimSlashSuffix before = []
    · simp only [hp, if_true] at h
      apply hfin (by rw [hp]; decide)
      by_cases hx : trimSlashPrefix after = []
      · rw [hx]; decide
      · simp only [hx, if_false] at h
        exact matchAnyTail_not_bad _ _ h
    · simp only [hp, if_false] at h
      split at h
      · simp at h
      · split at h
        · simp at h
        · rename_i _ hm
          simp only [Bool.not_eq_true', Bool.not_eq_false] at hm
          have hsegs := matchSegments_not_bad _ _ hm
          have hpre := badPattern_joinSlash _ hsegs
          rw [joinSlash_splitSlash] at hpre
          apply hfin hpre
          by_cases hx : trimSlashPrefix after = []
          · rw [hx]; decide
          · simp only [hx, if_false] at h
            exact matchAnyTail_not_bad _ _ h

/-- C13. Malformed patterns match nothing: for every pattern that `filepath.Match`
rejects as malformed (`ErrBadPattern`: an unterminated `[` class, a class that starts
with `]`, a trailing backslash, ...), with or without `**`, and for every path,
`MatchesAny` on that pattern is false; `MatchesAny` is a total function, it returns a
boolean on every input. -/
theorem MatchesAny_malformed (pattern path : String)
    (hbad : badPattern pattern.data = true) : MatchesAny path [pattern] = false := by
  cases hm : MatchesAny path [pattern] with
  | false => rfl
  | true =>
    simp only [MatchesAny, List.any_cons, List.any_nil, Bool.or_false] at hm
    rw [matchGlob_not_bad hm] at hbad
    cases hbad

theorem MatchesAny_malformed_witness :
    MatchesAny "a/b" ["a/**/[b"] = false ∧ MatchesAny "abc\\" ["abc\\"] = false :=
  ⟨MatchesAny_malformed "a/**/[b" "a/b" (by decide),
   MatchesAny_malformed "abc\\" "abc\\" (by decide)⟩

/-! ### Listing and deleting snapshots (C15, C16) -/

theorem baseName_append (dir : Path) (n : String) : baseName (dir ++ [n]) = n := by
  simp [baseName]

theorem child_eq {dir p : Path} (hpre : dir <+: p) (hlen : p.length = dir.length + 1) :
    p = dir ++ [baseName p] := by
  obtain ⟨t, rfl⟩ := hpre
  simp only [List.length_append] at hlen
  have ht : t.length = 1 := by omega
  obtain ⟨x, rfl⟩ := List.length_eq_one.mp ht
  rw [baseName_append]

theorem mem_readDir (fs : FS) (dir : Path) (e : Path × Node) :
    e ∈ readDir fs dir ↔ (∃ n, e.1 = dir ++ [n]) ∧ stat fs e.1 = some e.2 := by
  unfold readDir
  rw [(sortByPath_perm _).mem_iff]
  simp only [List.mem_filter, Bool.and_eq_true, decide_eq_true_eq, List.isPrefixOf_iff_prefix]
  constructor
  · rintro ⟨_, ⟨hpre, hlen⟩, hs⟩
    exact ⟨⟨_, child_eq hpre hlen⟩, hs⟩
  · rintro ⟨⟨n, hn⟩, hs⟩
    refine ⟨stat_mem hs, ⟨?_, ?_⟩, hs⟩
    · rw [hn]; exact List.prefix_append _ _
    · rw [hn]; simp

theorem readDir_nodup {fs : FS} (hnd : (fs.map Prod.fst).Nodup) (dir : Path) :
    ((readDir fs dir).map Prod.fst).Nodup := by
  unfold readDir
  refine ((sortByPath_perm _).map Prod.fst).nodup_iff.mpr ?_
  exact List.Nodup.sublist (List.Sublist.map _ (List.filter_sublist _)) hnd

/-- The names `ListContexts` returns for a directory: the subdirectories in which a
`manifest.json` exists. -/
theorem ListContexts_dir {fs : FS} {contextsDir : Path}
    (hdir : stat fs contextsDir = some .dir) :
    ∃ names, ListContexts fs contextsDir = some names ∧
      (∀ n, n ∈ names ↔
        stat fs (contextsDir ++ [n]) = some .dir ∧ ContextExists fs contextsDir n = true) ∧
      ((fs.map Prod.fst).Nodup → names.Nodup) := by
  refine ⟨(readDir fs contextsDir).filterMap (fun e =>
      match e.2 with
      | .dir =>
        if (stat fs (manifestPath (contextsDir ++ [baseName e.1]))).isSome then
          some (baseName e.1)
        else none
      | .file _ _ => none), by unfold ListContexts; rw [hdir], ?_, ?_⟩
  · intro n
    simp only [List.mem_filterMap, ContextExists]
    constructor
    · rintro ⟨e, he, hf⟩
      obtain ⟨⟨k, hk⟩, hs⟩ := (mem_readDir fs contextsDir e).mp he
      obtain ⟨p, node⟩ := e
      simp only at hk hs hf
      subst hk
      rw [baseName_append] at hf
      cases node with
      | file c m => simp at hf
      | dir =>
        simp only at hf
        split at hf
        · rename_i hm
          simp only [Option.some.injEq] at hf
          subst hf
          exact ⟨hs, hm⟩
        · simp at hf
    · rintro ⟨hs, hm⟩
      refine ⟨(contextsDir ++ [n], .dir), (mem_readDir _ _ _).mpr ⟨⟨n, rfl⟩, hs⟩, ?_⟩
      simp only [baseName_append, hm, if_true]
  · intro hnd
    have hkeys := readDir_nodup hnd contextsDir
    have hsub : ∀ l : List (Path × Node),
        (∀ e ∈ l, ∃ n, e.1 = contextsDir ++ [n]) → (l.map Prod.fst).Nodup →
        (l.filterMap (fun e =>
          match e.2 with
          | .dir =>
            if (stat fs (manifestPath (contextsDir ++ [baseName e.1]))).isSome then
              some (baseName e.1)
            else none
          | .file _ _ => none)).Nodup := by
      intro l
      induction l with
      | nil => intro _ _; simp
      | cons e es ih =>
        intro hall hn
        simp only [List.map_cons, List.nodup_cons] at hn
        have hrest := ih (fun x hx => hall x (List.mem_cons_of_mem _ hx)) hn.2
        simp only [List.filterMap_cons]
        split
        · exact hrest
        · rename_i b hb
          refine List.nodup_cons.mpr ⟨?_, hrest⟩
          intro hmem
          apply hn.1
          simp only [List.mem_filterMap] at hmem
          obtain ⟨e', he', hf'⟩ := hmem
          obtain ⟨k, hk⟩ := hall e (List.mem_cons_self _ _)
          obtain ⟨k', hk'⟩ := hall e' (List.mem_cons_of_mem _ he')
          have hb1 : b = k := by
            cases h2 : e.2 with
            | file c m => simp [h2] at hb
            | dir =>
              simp only [h2] at hb
              split at hb
              · simp only [Option.some.injEq] at hb
                rw [← hb, hk, baseName_append]
              · simp at hb
          have hb2 : b = k' := by
            cases h2 : e'.2 with
            | file c m => simp [h2] at hf'
            | dir =>
              simp only [h2] at hf'
              split at hf'
              · simp only [Option.some.injEq] at hf'
                rw [← hf', hk', baseName_append]
              · simp at hf'
          rw [hk, ← hb1, hb2, ← hk']
          exact List.mem_map_of_mem Prod.fst he'
    exact hsub _ (fun e he => ((mem_readDir fs contextsDir e).mp he).1) hkeys

/-- C15 (counterexample). `ListContexts` looks for `manifest.json` with `os.Stat` and
never reads it: the directory `broken`, whose manifest is not a JSON document, is
returned although `ReadManifest` fails on it; the directory without a manifest is not
returned. -/
theorem ListContexts_lists_unreadable :
    ListContexts listFS ["s", "contexts"] = some ["broken", "work"] ∧
    ReadManifest listFS ["s", "contexts", "broken"] = none := by
  decide

/-- C15 (amended). Listing hygiene: a missing collection directory yields the empty
list without error; for a collection directory, `ListContexts` returns exactly the names
of its subdirectories in which a `manifest.json` exists (`ContextExists`), each once
when every path names one node; so a subdirectory without a manifest is not returned,
and every subdirectory on which `ReadManifest` succeeds is returned. -/
theorem ListContexts_spec (fs : FS) (contextsDir : Path) :
    (stat fs contextsDir = none → underFile fs [] contextsDir = false →
      ListContexts fs contextsDir = some []) ∧
    (stat fs contextsDir = some .dir →
      ∃ names, ListContexts fs contextsDir = some names ∧
        (∀ n, n ∈ names ↔
          stat fs (contextsDir ++ [n]) = some .dir ∧ ContextExists fs contextsDir n = true) ∧
        (∀ n, stat fs (contextsDir ++ [n]) = some .dir →
          ContextExists fs contextsDir n = false → n ∉ names) ∧
        (∀ n m, stat fs (contextsDir ++ [n]) = some .dir →
          ReadManifest fs (contextsDir ++ [n]) = some m → n ∈ names) ∧
        ((fs.map Prod.fst).Nodup → names.Nodup)) := by
  constructor
  · intro hs hu
    simp [ListContexts, hs, hu]
  · intro hdir
    obtain ⟨names, hl, hmem, hnd⟩ := ListContexts_dir hdir
    refine ⟨names, hl, hmem, ?_, ?_, hnd⟩
    · intro n _ hc hn
      rw [((hmem n).mp hn).2] at hc
      cases hc
    · intro n m hs hr
      refine (hmem n).mpr ⟨hs, ?_⟩
      unfold ReadManifest at hr
      unfold ContextExists
      cases hst : stat fs (manifestPath (contextsDir ++ [n])) with
      | none => simp [hst] at hr
      | some k => rfl

theorem ListContexts_spec_witness :
    ListContexts demoFS ["s", "contexts"] = some [] ∧
    ∃ names, ListContexts listFS ["s", "contexts"] = some names ∧
      (∀ n, n ∈ names ↔
        stat listFS (["s", "contexts"] ++ [n]) = some .dir ∧
          ContextExists listFS ["s", "contexts"] n = true) ∧
      (∀ n, stat listFS (["s", "contexts"] ++ [n]) = some .dir →
        ContextExists listFS ["s", "contexts"] n = false → n ∉ names) ∧
      (∀ n m, stat listFS (["s", "contexts"] ++ [n]) = some .dir →
        ReadManifest listFS (["s", "contexts"] ++ [n]) = some m → n ∈ names) ∧
      ((listFS.map Prod.fst).Nodup → names.Nodup) :=
  ⟨(ListContexts_spec demoFS ["s", "contexts"]).1 (by decide) (by decide),
   (ListContexts_spec listFS ["s", "contexts"]).2 (by decide)⟩

theorem ListContexts_mem_dir {fs : FS} {contextsDir : Path} {names : List String} {n : String}
    (h : ListContexts fs contextsDir = some names) (hn : n ∈ names) :
    stat fs (contextsDir ++ [n]) = some .dir := by
  cases hs : stat fs contextsDir with
  | none =>
    simp only [ListContexts, hs] at h
    split at h
    · cases h
    · simp only [Option.some.injEq] at h
      subst h
      cases hn
  | some k =>
    cases k with
    | file c m => simp [ListContexts, hs] at h
    | dir =>
      obtain ⟨names', hl, hmem, _⟩ := ListContexts_dir hs
      rw [h, Option.some.injEq] at hl
      subst hl
      exact ((hmem n).mp hn).1

/-! ### The state after the clearing (C14) -/

theorem Remove_stat_none (fs : FS) (q : Path) {p : Path} (h : stat fs p = none) :
    stat (Remove fs q).1 p = none := by
  by_cases hpq : p = q
  · subst hpq
    simp [Remove, h]
  · rw [Remove_stat_ne fs hpq]; exact h

theorem clearExtraFiles_stat_none {p : Path} :
    ∀ (efs : List ExtraFile) (fs : FS), stat fs p = none →
      stat (clearExtraFiles efs fs).1 p = none := by
  intro efs
  induction efs with
  | nil => intro fs h; simpa [clearExtraFiles] using h
  | cons ef rest ih =>
    intro fs h
    rw [clearExtraFiles_cons]
    split
    · exact Remove_stat_none fs _ h
    · exact ih _ (Remove_stat_none fs _ h)

theorem clearWalked_stat_none {p : Path} :
    ∀ (ws : List WalkResult) (fs : FS), stat fs p = none →
      stat (clearWalked ws fs).1 p = none := by
  intro ws
  induction ws with
  | nil => intro fs h; simpa [clearWalked] using h
  | cons w rest ih =>
    intro fs h
    rw [clearWalked_cons]
    split
    · exact Remove_stat_none fs _ h
    · exact ih _ (Remove_stat_none fs _ h)

theorem removeDirs_stat_none {p : Path} :
    ∀ (dirs : List Path) (fs : FS), stat fs p = none → stat (removeDirs dirs fs) p = none := by
  intro dirs
  induction dirs with
  | nil => intro fs h; simpa [removeDirs] using h
  | cons d rest ih =>
    intro fs h
    simp only [removeDirs]
    exact ih _ (Remove_stat_none fs _ h)

/-- After a successful removal loop nothing exists at the path of any extra file. -/
theorem clearExtraFiles_removes :
    ∀ (efs : List ExtraFile) (fs fs' : FS), clearExtraFiles efs fs = (fs', true) →
      ∀ ef ∈ efs, stat fs' ef.Path = none := by
  intro efs
  induction efs with
  | nil => intro fs fs' _ ef hef; simp at hef
  | cons x rest ih =>
    intro fs fs' h ef hef
    rw [clearExtraFiles_cons] at h
    by_cases hf : (Remove fs x.Path).2 = .failed
    · rw [if_pos hf] at h; simp at h
    · rw [if_neg hf] at h
      rcases List.mem_cons.mp hef with rfl | hef
      · have := clearExtraFiles_stat_none rest _ (Remove_stat_self hf)
        rw [h] at this
        exact this
      · exact ih _ fs' h ef hef

theorem clearExtraFiles_stat_ne :
    ∀ (efs : List ExtraFile) (fs : FS) (q : Path), (∀ ef ∈ efs, q ≠ ef.Path) →
      stat (clearExtraFiles efs fs).1 q = stat fs q := by
  intro efs
  induction efs with
  | nil => intro fs q _; simp [clearExtraFiles]
  | cons ef rest ih =>
    intro fs q hq
    have h1 := Remove_stat_ne fs (hq ef (List.mem_cons_self _ _))
    have hq' : ∀ x ∈ rest, q ≠ x.Path := fun x hx => hq x (List.mem_cons_of_mem _ hx)
    rw [clearExtraFiles_cons]
    split
    · exact h1
    · rw [ih _ q hq', h1]

theorem clearWalked_stat_ne :
    ∀ (ws : List WalkResult) (fs : FS) (q : Path), (∀ w ∈ ws, q ≠ w.AbsPath) →
      stat (clearWalked ws fs).1 q = stat fs q := by
  intro ws
  induction ws with
  | nil => intro fs q _; simp [clearWalked]
  | cons w rest ih =>
    intro fs q hq
    have h1 := Remove_stat_ne fs (hq w (List.mem_cons_self _ _))
    have hq' : ∀ x ∈ rest, q ≠ x.AbsPath := fun x hx => hq x (List.mem_cons_of_mem _ hx)
    rw [clearWalked_cons]
    split
    · exact h1
    · rw [ih _ q hq', h1]

theorem removeDirs_stat_ne :
    ∀ (dirs : List Path) (fs : FS) (q : Path), (∀ d ∈ dirs, q ≠ d) →
      stat (removeDirs dirs fs) q = stat fs q := by
  intro dirs
  induction dirs with
  | nil => intro fs q _; simp [removeDirs]
  | cons d rest ih =>
    intro fs q hq
    simp only [removeDirs]
    rw [ih _ q (fun x hx => hq x (List.mem_cons_of_mem _ hx))]
    exact Remove_stat_ne fs (hq d (List.mem_cons_self _ _))

/-- Removing directories leaves every regular file as it is. -/
theorem removeDirs_fileAt :
    ∀ (dirs : List Path) (fs : FS), (∀ d ∈ dirs, fileAt fs d = none) →
      ∀ q, fileAt (removeDirs dirs fs) q = fileAt fs q := by
  intro dirs
  induction dirs with
  | nil => intro fs _ q; simp [removeDirs]
  | cons d rest ih =>
    intro fs h q
    simp only [removeDirs]
    have hd := h d (List.mem_cons_self _ _)
    rw [ih _ (fun x hx => Remove_fileAt_none fs d (h x (List.mem_cons_of_mem _ hx))) q]
    exact Remove_fileAt_dir fs hd q

theorem removeEmptyDirs_fileAt (fs : FS) (root q : Path) :
    fileAt (removeEmptyDirs fs root) q = fileAt fs q := by
  unfold removeEmptyDirs
  apply removeDirs_fileAt
  intro d hd
  simp only [List.mem_reverse, List.mem_filterMap] at hd
  obtain ⟨e, he, hed⟩ := hd
  cases hn : e.2 with
  | file c m => simp [hn] at hed
  | dir =>
    simp only [hn] at hed
    split at hed
    · simp at hed
    · simp only [Option.some.injEq] at hed
      subst hed
      have hs : stat fs e.1 = some .dir := by
        unfold walk at he
        cases hr : stat fs root with
        | none => simp [hr] at he
        | some k =>
          cases k with
          | file c m =>
            simp only [hr, List.mem_singleton] at he
            rw [he] at hn
            simp at hn
          | dir =>
            rcases (mem_walk_dir hr e).mp he with h' | h'
            · rw [h']; exact hr
            · rw [h'.1, hn]
      simp [fileAt, hs]

theorem removeEmptyDirs_stat_root (fs : FS) (root : Path) :
    stat (removeEmptyDirs fs root) root = stat fs root := by
  unfold removeEmptyDirs
  apply removeDirs_stat_ne
  intro d hd
  simp only [List.mem_reverse, List.mem_filterMap] at hd
  obtain ⟨e, _, hed⟩ := hd
  cases hn : e.2 with
  | file c m => simp [hn] at hed
  | dir =>
    simp only [hn] at hed
    split at hed
    · simp at hed
    · rename_i hne
      simp only [Option.some.injEq] at hed
      rw [← hed]
      exact fun h => hne h.symm

theorem removeEmptyDirs_stat_none (fs : FS) (root : Path) {p : Path} (h : stat fs p = none) :
    stat (removeEmptyDirs fs root) p = none :=
  removeDirs_stat_none _ _ h

/-- C14 (counterexample). In a project without a `.claude` directory
`ClearManagedFiles` returns successfully: it removes `CLAUDE.md`, finds nothing at the
managed directory and skips the walk.  The managed directory does not exist
afterwards. -/
theorem ClearManagedFiles_without_dir :
    (ClearManagedFiles [(["p"], .dir), (["p", "CLAUDE.md"], .file (.raw "# Root") 0o644)]
      demoCfg).2 = true ∧
    demoCfg.Scope.DotClaudeDir = ["p", ".claude"] ∧
    stat (ClearManagedFiles [(["p"], .dir), (["p", "CLAUDE.md"], .file (.raw "# Root") 0o644)]
      demoCfg).1 ["p", "CLAUDE.md"] = none ∧
    stat (ClearManagedFiles [(["p"], .dir), (["p", "CLAUDE.md"], .file (.raw "# Root") 0o644)]
      demoCfg).1 ["p", ".claude"] = none := by
  decide

/-- C14 (amended). Clear managed state: if the managed directory is a directory
before the call and the extra files of the Scope lie outside the managed directory,
then after `ClearManagedFiles` returns successfully nothing exists at the path of any
extra file, no path below the managed directory that the walker selects holds a file,
every file below the managed directory that the walker does not select (an excluded
cache file) is still there with the same content and mode, and the managed directory
is still a directory. -/
theorem ClearManagedFiles_spec (fs fs' : FS) (cfg : Config)
    (hclear : ClearManagedFiles fs cfg = (fs', true))
    (hdot : stat fs cfg.Scope.DotClaudeDir = some .dir)
    (hextra : ∀ ef ∈ cfg.Scope.ExtraFiles, ¬ cfg.Scope.DotClaudeDir <+: ef.Path) :
    (∀ ef ∈ cfg.Scope.ExtraFiles, stat fs' ef.Path = none) ∧
    (∀ f, cfg.Scope.DotClaudeDir <+: f → f ≠ cfg.Scope.DotClaudeDir →
      selected cfg.Scope.IncludePatterns cfg.Scope.ExcludePatterns
        (relString (f.drop cfg.Scope.DotClaudeDir.length)) = true → fileAt fs' f = none) ∧
    (∀ f, cfg.Scope.DotClaudeDir <+: f →
      selected cfg.Scope.IncludePatterns cfg.Scope.ExcludePatterns
        (relString (f.drop cfg.Scope.DotClaudeDir.length)) = false →
      fileAt fs' f = fileAt fs f) ∧
    stat fs' cfg.Scope.DotClaudeDir = some .dir := by
  refine ⟨?_, fun f hpre hne hsel => ClearManagedFiles_removes hclear hdot hpre hne hsel, ?_⟩
  · -- the extra files
    intro ef hef
    unfold ClearManagedFiles at hclear
    simp only at hclear
    cases hc : clearExtraFiles cfg.Scope.ExtraFiles fs with
    | mk fs1 b =>
      cases b with
      | false => simp [hc] at hclear
      | true =>
        simp only [hc] at hclear
        have h1 := clearExtraFiles_removes _ _ _ hc ef hef
        split at hclear
        · cases hw : clearWalked (WalkFiltered fs1 cfg.Scope.DotClaudeDir
              cfg.Scope.IncludePatterns cfg.Scope.ExcludePatterns) fs1 with
          | mk fs2 b =>
            cases b with
            | false => simp [hw] at hclear
            | true =>
              simp only [hw, Prod.mk.injEq, and_true] at hclear
              subst hclear
              apply removeEmptyDirs_stat_none
              have := clearWalked_stat_none (WalkFiltered fs1 cfg.Scope.DotClaudeDir
                cfg.Scope.IncludePatterns cfg.Scope.ExcludePatterns) fs1 h1
              rw [hw] at this
              exact this
        · simp only [Prod.mk.injEq, and_true] at hclear
          subst hclear
          exact h1
  · -- the managed directory and the files the walker does not select
    have hne : ∀ q, cfg.Scope.DotClaudeDir <+: q → ∀ ef ∈ cfg.Scope.ExtraFiles, q ≠ ef.Path :=
      fun q hq ef hef e => hextra ef hef (e ▸ hq)
    unfold ClearManagedFiles at hclear
    simp only at hclear
    cases hc : clearExtraFiles cfg.Scope.ExtraFiles fs with
    | mk fs1 b =>
      cases b with
      | false => simp [hc] at hclear
      | true =>
        simp only [hc] at hclear
        have hdot1 : stat fs1 cfg.Scope.DotClaudeDir = some .dir := by
          have := clearExtraFiles_stat_ne cfg.Scope.ExtraFiles fs cfg.Scope.DotClaudeDir
            (hne _ (List.prefix_refl _))
          rw [hc] at this
          rw [this, hdot]
        simp only [hdot1, Option.isSome_some, if_true] at hclear
        cases hw : clearWalked (WalkFiltered fs1 cfg.Scope.DotClaudeDir
            cfg.Scope.IncludePatterns cfg.Scope.ExcludePatterns) fs1 with
        | mk fs2 b =>
          cases b with
          | false => simp [hw] at hclear
          | true =>
            simp only [hw, Prod.mk.injEq, and_true] at hclear
            subst hclear
            constructor
            · intro f hpre hsel
              rw [removeEmptyDirs_fileAt]
              have h2 := clearWalked_frame (WalkFiltered fs1 cfg.Scope.DotClaudeDir
                cfg.Scope.IncludePatterns cfg.Scope.ExcludePatterns) fs1 f (by
                  intro w hw' e
                  obtain ⟨c, m, _, _, _, _, hrel, hrp, hs⟩ :=
                    (WalkFiltered_mem_dir hdot1 _ _ w).mp hw'
                  rw [hrp, hrel, ← e, hsel] at hs
                  cases hs)
              rw [hw] at h2
              have h1 := clearExtraFiles_frame cfg.Scope.ExtraFiles fs f (hne f hpre)
              rw [hc] at h1
              rw [h2, h1]
            · rw [removeEmptyDirs_stat_root]
              have h2 := clearWalked_stat_ne (WalkFiltered fs1 cfg.Scope.DotClaudeDir
                cfg.Scope.IncludePatterns cfg.Scope.ExcludePatterns) fs1 cfg.Scope.DotClaudeDir
                (by
                  intro w hw' e
                  obtain ⟨c, m, _, _, _, hne', _⟩ := (WalkFiltered_mem_dir hdot1 _ _ w).mp hw'
                  exact hne' e.symm)
              rw [hw] at h2
              rw [h2, hdot1]

/-- C14, witness: the tree `clearFS` under the default project scope. -/
theorem ClearManagedFiles_spec_witness :
    stat (ClearManagedFiles clearFS demoCfg).1 ["p", "CLAUDE.md"] = none ∧
    fileAt (ClearManagedFiles clearFS demoCfg).1 ["p", ".claude", "sub", "x"] = none ∧
    fileAt (ClearManagedFiles clearFS demoCfg).1 ["p", ".claude", "cache", ".DS_Store"] =
      fileAt clearFS ["p", ".claude", "cache", ".DS_Store"] ∧
    stat (ClearManagedFiles clearFS demoCfg).1 ["p", ".claude"] = some .dir :=
  have h := ClearManagedFiles_spec clearFS (ClearManagedFiles clearFS demoCfg).1 demoCfg
    (by decide) (by decide) (by decide)
  ⟨h.1 ⟨["p", "CLAUDE.md"], "claudemd"⟩ (by decide),
   h.2.1 ["p", ".claude", "sub", "x"] (by decide) (by decide) (by decide),
   h.2.2.1 ["p", ".claude", "cache", ".DS_Store"] (by decide) (by decide), h.2.2.2⟩

/-! ### Dry runs (C19, C20) -/

/-- A successful replay counts the entries that have a destination. -/
theorem restoreCopy_count (contextDir : Path) (scope : Scope) :
    ∀ (files : List FileEntry) (fs fs' : FS) (n k : Nat),
      restoreCopy contextDir scope files fs n = (fs', .ok k) →
      k = n + (files.filter (fun e => (restoreDest scope e).isSome)).length := by
  intro files
  induction files with
  | nil =>
    intro fs fs' n k h
    simp only [restoreCopy, Prod.mk.injEq, Except.ok.injEq] at h
    simp [h.2]
  | cons entry rest ih =>
    intro fs fs' n k h
    cases hd : restoreDest scope entry with
    | none =>
      rw [restoreCopy_cons_none hd] at h
      simp [hd, ih _ _ _ _ h]
    | some dst =>
      rw [restoreCopy_cons_some hd] at h
      split at h
      · simp at h
      · have := ih _ _ _ _ h
        simp [hd, this]
        omega

/-- C19 (counterexample). The snapshot `legacy` passes the precondition checks under
the project scope; its manifest lists three entries, one of them with the extra-file tag
`claudejson`, which the project scope does not define.  The dry run reports 3 files,
the real run of the same snapshot from the same state succeeds and reports 2. -/
theorem Restore_dryRun_overcounts :
    Restore demoEnv (restoreDryOpts demoCfg "legacy") legacyFS =
      (legacyFS, .ok { Name := "legacy", FilesRestored := 3, BackupDir := [] }) ∧
    (Restore demoEnv (restoreOpts demoCfg "legacy") legacyFS).2 =
      .ok { Name := "legacy", FilesRestored := 2,
            BackupDir := ["p", ".claudectx", "backups", "pre-switch-7"] } := by
  decide

/-- C19 (amended). Dry-run Restore: for every target manifest and Scope that pass the
precondition checks, `Restore` with `DryRun` leaves the file system unchanged and
reports as `FilesRestored` the number of entries of the manifest; a successful
non-dry-run `Restore` of the same snapshot from the same state reports the number of
entries that have a destination under the Scope, which is never more, and is the same
number exactly when every entry has a destination (its source tag is not an extra-file
tag that the Scope lacks). -/
theorem Restore_dryRun_count (env : Env) (cfg : Config) (name : String) (force : Bool)
    (fs : FS) (man : Manifest)
    (hread : ReadManifest fs (cfg.ContextsDir ++ [Slugify name]) = some man)
    (hscope : man.Scope = "" ∨ man.Scope = cfg.Scope.ScopeType) :
    Restore env { Name := name, DryRun := true, Force := force, Config := cfg } fs =
      (fs, .ok { Name := Slugify name, FilesRestored := man.Files.length, BackupDir := [] }) ∧
    ∀ fs' rr,
      Restore env { Name := name, DryRun := false, Force := force, Config := cfg } fs =
        (fs', .ok rr) →
      rr.FilesRestored =
        (man.Files.filter (fun e => (restoreDest cfg.Scope e).isSome)).length ∧
      rr.FilesRestored ≤ man.Files.length ∧
      (rr.FilesRestored = man.Files.length ↔
        ∀ e ∈ man.Files, (restoreDest cfg.Scope e).isSome = true) := by
  have hsc : ¬ (man.Scope ≠ "" ∧ man.Scope ≠ cfg.Scope.ScopeType) := by
    rintro ⟨h1, h2⟩
    rcases hscope with h | h
    · exact h1 h
    · exact h2 h
  constructor
  · unfold Restore
    simp only [hread]
    rw [if_neg hsc]
    simp
  · intro fs' rr h
    obtain ⟨man', fsA, fsC, fsD, hread', _, _, hreplay, _⟩ := Restore_ok_inv rfl h
    simp only at hread' hreplay
    rw [hread, Option.some.injEq] at hread'
    subst hread'
    have hcount := restoreCopy_count _ _ _ _ _ _ _ hreplay
    rw [Nat.zero_add] at hcount
    refine ⟨hcount, ?_, ?_⟩
    · rw [hcount]; exact List.length_filter_le _ _
    · rw [hcount, List.filter_length_eq_length]

theorem Restore_dryRun_count_witness :
    Restore demoEnv { Name := "legacy", DryRun := true, Force := false, Config := demoCfg }
        legacyFS =
      (legacyFS, .ok { Name := Slugify "legacy", FilesRestored := legacyManifest.Files.length,
                       BackupDir := [] }) ∧
    ((Restore demoEnv (restoreOpts demoCfg "legacy") legacyFS).2.toOption.map
      (fun rr => rr.FilesRestored)) = some 2 :=
  ⟨(Restore_dryRun_count demoEnv demoCfg "legacy" false legacyFS legacyManifest
      (by decide) (by decide)).1, by decide⟩

/-! #### What the walker sees after writes outside the walked directory -/

theorem isPrefixOf_false {a b : Path} (h : ¬ a <+: b) : a.isPrefixOf b = false :=
  Bool.eq_false_iff.mpr (fun e => h (List.isPrefixOf_iff_prefix.mp e))

theorem under_filter_congr {root : Path} {fs : FS} (f : Path → Bool)
    (h : ∀ q, root <+: q → f q = true) :
    (fs.filter (fun e => f e.1)).filter (fun e => root.isPrefixOf e.1) =
      fs.filter (fun e => root.isPrefixOf e.1) := by
  rw [List.filter_filter]
  apply List.filter_congr
  intro e _
  by_cases hp : root.isPrefixOf e.1 = true
  · simp [hp, h e.1 (List.isPrefixOf_iff_prefix.mp hp)]
  · simp [hp]

theorem under_RemoveAll {root p : Path} (fs : FS) (h : ∀ q, root <+: q → ¬ p <+: q) :
    (RemoveAll fs p).filter (fun e => root.isPrefixOf e.1) =
      fs.filter (fun e => root.isPrefixOf e.1) := by
  unfold RemoveAll
  apply under_filter_congr (fun x => !(p.isPrefixOf x))
  intro q hq
  simp [isPrefixOf_false (h q hq)]

theorem under_erase {root p : Path} (fs : FS) (h : ¬ root <+: p) :
    (erase fs p).filter (fun e => root.isPrefixOf e.1) =
      fs.filter (fun e => root.isPrefixOf e.1) := by
  unfold erase
  apply under_filter_congr (fun x => decide (x ≠ p))
  intro q hq
  have : q ≠ p := fun e => h (e ▸ hq)
  simp [this]

theorem under_put {root p : Path} (fs : FS) (n : Node) (h : ¬ root <+: p) :
    (put fs p n).filter (fun e => root.isPrefixOf e.1) =
      fs.filter (fun e => root.isPrefixOf e.1) := by
  unfold put
  have hp : root.isPrefixOf p = false := isPrefixOf_false h
  rw [List.filter_cons]
  simp only [hp, Bool.false_eq_true, if_false]
  exact under_erase fs h

theorem under_mkdirFrom {root : Path} :
    ∀ (rest pre : Path) (fs fs' : FS), (∀ q, q <+: pre ++ rest → ¬ root <+: q) →
      mkdirFrom fs pre rest = some fs' →
      fs'.filter (fun e => root.isPrefixOf e.1) = fs.filter (fun e => root.isPrefixOf e.1) := by
  intro rest
  induction rest with
  | nil =>
    intro pre fs fs' _ h
    simp only [mkdirFrom, Option.some.injEq] at h
    rw [h]
  | cons s rest ih =>
    intro pre fs fs' hq h
    have hpre : (pre ++ [s]) ++ rest = pre ++ s :: rest := by simp
    have hq' : ∀ q, q <+: (pre ++ [s]) ++ rest → ¬ root <+: q := by
      intro q hqq; rw [hpre] at hqq; exact hq q hqq
    simp only [mkdirFrom] at h
    cases hs : stat fs (pre ++ [s]) with
    | none =>
      simp only [hs] at h
      rw [ih _ _ _ hq' h, List.filter_cons]
      have hp : root.isPrefixOf (pre ++ [s]) = false :=
        isPrefixOf_false (hq (pre ++ [s]) (by rw [← hpre]; exact List.prefix_append _ _))
      simp [hp]
    | some k =>
      cases k with
      | file c m => simp [hs] at h
      | dir =>
        simp only [hs] at h
        exact ih _ _ _ hq' h

theorem under_mkdirAll {root p : Path} {fs fs' : FS} (hq : ∀ q, q <+: p → ¬ root <+: q)
    (h : mkdirAll fs p = some fs') :
    fs'.filter (fun e => root.isPrefixOf e.1) = fs.filter (fun e => root.isPrefixOf e.1) :=
  under_mkdirFrom p [] fs fs' (by simpa using hq) h

theorem under_CopyFile {root : Path} (fs : FS) (src dst : Path)
    (hq : ∀ q, q <+: dst → ¬ root <+: q) :
    (CopyFile fs src dst).1.filter (fun e => root.isPrefixOf e.1) =
      fs.filter (fun e => root.isPrefixOf e.1) := by
  have hq1 : ∀ q, q <+: dst.dropLast → ¬ root <+: q :=
    fun q h => hq q (h.trans (List.dropLast_prefix dst))
  have hdst : ¬ root <+: dst := hq dst (List.prefix_refl _)
  cases hs : stat fs src with
  | none => simp [CopyFile, hs]
  | some n =>
    cases n with
    | dir =>
      cases hm : mkdirAll fs dst.dropLast with
      | none => simp [CopyFile, hs, hm]
      | some fs1 =>
        simp only [CopyFile, hs, hm]
        exact under_mkdirAll hq1 hm
    | file c m =>
      cases hm : mkdirAll fs dst.dropLast with
      | none => simp [CopyFile, hs, hm]
      | some fs1 =>
        have h1 := under_mkdirAll hq1 hm
        cases hd : stat fs1 dst with
        | none =>
          simp only [CopyFile, hs, hm, hd]
          rw [under_put fs1 _ hdst, h1]
        | some k =>
          cases k with
          | dir => simp only [CopyFile, hs, hm, hd]; exact h1
          | file c' m' =>
            simp only [CopyFile, hs, hm, hd]
            rw [under_put fs1 _ hdst, h1]

theorem under_saveExtraFiles {root : Path} (env : Env) (ctx : Path)
    (hq : ∀ q t, ctx <+: t → q <+: t → ¬ root <+: q) :
    ∀ (efs : List ExtraFile) (fs : FS) (files : List FileEntry) (total : Nat),
      (saveExtraFiles env ctx efs fs files total).1.filter (fun e => root.isPrefixOf e.1) =
        fs.filter (fun e => root.isPrefixOf e.1) := by
  intro efs
  induction efs with
  | nil => intro fs files total; simp [saveExtraFiles]
  | cons ef rest ih =>
    intro fs files total
    have hcopy := under_CopyFile fs ef.Path (ctx ++ [baseName ef.Path])
      (fun q h => hq q _ (List.prefix_append _ _) h)
    cases hs : stat fs ef.Path with
    | none => rw [saveExtraFiles_cons_none hs]; exact ih fs files total
    | some info =>
      rw [saveExtraFiles_cons_some hs]
      split
      · exact hcopy
      · rw [ih, hcopy]

/-- The walk of a directory depends only on the entries at or below it. -/
theorem walk_congr {root : Path} {fs fs' : FS}
    (h : fs'.filter (fun e => root.isPrefixOf e.1) = fs.filter (fun e => root.isPrefixOf e.1)) :
    (∀ q, root <+: q → stat fs' q = stat fs q) ∧ walk fs' root = walk fs root := by
  have hstat : ∀ q, root <+: q → stat fs' q = stat fs q := by
    intro q hq
    have h1 := stat_filter fs (fun x => root.isPrefixOf x) q
    have h2 := stat_filter fs' (fun x => root.isPrefixOf x) q
    have hp : root.isPrefixOf q = true := List.isPrefixOf_iff_prefix.mpr hq
    simp only [hp, if_true] at h1 h2
    rw [← h1, ← h2, h]
  refine ⟨hstat, ?_⟩
  have hfilter : ∀ (l : FS),
      l.filter (fun e => root.isPrefixOf e.1 && decide (e.1 ≠ root) &&
        decide (stat l e.1 = some e.2)) =
      (l.filter (fun e => root.isPrefixOf e.1)).filter (fun e =>
        decide (e.1 ≠ root) && decide (stat l e.1 = some e.2)) := by
    intro l
    rw [List.filter_filter]
    apply List.filter_congr
    intro e _
    cases root.isPrefixOf e.1 <;> simp
  unfold walk
  rw [hstat root (List.prefix_refl _), hfilter fs', hfilter fs, h]
  have hcongr : (fs.filter (fun e => root.isPrefixOf e.1)).filter (fun e =>
        decide (e.1 ≠ root) && decide (stat fs' e.1 = some e.2)) =
      (fs.filter (fun e => root.isPrefixOf e.1)).filter (fun e =>
        decide (e.1 ≠ root) && decide (stat fs e.1 = some e.2)) := by
    apply List.filter_congr
    intro e he
    have hp := (List.mem_filter.mp he).2
    rw [hstat e.1 (List.isPrefixOf_iff_prefix.mp hp)]
  rw [hcongr]

theorem WalkFiltered_congr {root : Path} {fs fs' : FS} (includes excludes : List String)
    (h : fs'.filter (fun e => root.isPrefixOf e.1) = fs.filter (fun e => root.isPrefixOf e.1)) :
    WalkFiltered fs' root includes excludes = WalkFiltered fs root includes excludes := by
  unfold WalkFiltered
  rw [(walk_congr h).2]

/-! #### Counting what `Save` records -/

theorem saveExtraFiles_count (env : Env) {s ctx : Path} (hst : s <+: ctx) :
    ∀ (efs : List ExtraFile) (fs fs' : FS) (files files' : List FileEntry) (total total' : Nat),
      (∀ ef ∈ efs, ¬ s <+: ef.Path ∧ ¬ ef.Path <+: s) →
      saveExtraFiles env ctx efs fs files total = (fs', .ok (files', total')) →
      files'.length = files.length + (efs.filterMap (fun ef => stat fs ef.Path)).length ∧
      total' = total + ((efs.filterMap (fun ef => stat fs ef.Path)).map (Node.size env)).sum := by
  intro efs
  induction efs with
  | nil =>
    intro fs fs' files files' total total' _ h
    simp only [saveExtraFiles, Prod.mk.injEq, Except.ok.injEq] at h
    obtain ⟨_, rfl, rfl⟩ := h
    simp
  | cons ef rest ih =>
    intro fs fs' files files' total total' hap h
    have hap' : ∀ x ∈ rest, ¬ s <+: x.Path ∧ ¬ x.Path <+: s :=
      fun x hx => hap x (List.mem_cons_of_mem _ hx)
    cases hs : stat fs ef.Path with
    | none =>
      rw [saveExtraFiles_cons_none hs] at h
      simpa [hs] using ih _ _ _ _ _ _ hap' h
    | some info =>
      rw [saveExtraFiles_cons_some hs] at h
      split at h
      · simp at h
      · have hrest : rest.filterMap (fun x =>
            stat (CopyFile fs ef.Path (ctx ++ [baseName ef.Path])).1 x.Path) =
            rest.filterMap (fun x => stat fs x.Path) := by
          apply List.filterMap_congr
          intro x hx
          exact CopyFile_stat_apart fs ef.Path
            (hst.trans (List.prefix_append ctx [baseName ef.Path])) (hap' x hx).1 (hap' x hx).2
        obtain ⟨h1, h2⟩ := ih _ _ _ _ _ _ hap' h
        rw [hrest] at h1 h2
        simp only [List.filterMap_cons, hs, List.length_cons, List.map_cons, List.sum_cons]
        simp only [List.length_append, List.length_singleton] at h1
        constructor
        · omega
        · omega

theorem saveWalked_count (env : Env) (ctx : Path) :
    ∀ (ws : List WalkResult) (fs fs' : FS) (files files' : List FileEntry) (total total' : Nat),
      saveWalked env ctx ws fs files total = (fs', .ok (files', total')) →
      files'.length = files.length + ws.length ∧
      total' = total + (ws.map (fun w => w.Info.size env)).sum := by
  intro ws
  induction ws with
  | nil =>
    intro fs fs' files files' total total' h
    simp only [saveWalked, Prod.mk.injEq, Except.ok.injEq] at h
    obtain ⟨_, rfl, rfl⟩ := h
    simp
  | cons w rest ih =>
    intro fs fs' files files' total total' h
    rw [saveWalked_cons] at h
    split at h
    · simp at h
    · obtain ⟨h1, h2⟩ := ih _ _ _ _ _ _ h
      simp only [List.length_append, List.length_singleton] at h1
      simp only [List.length_cons, List.map_cons, List.sum_cons]
      constructor
      · omega
      · omega

/-- C20 (counterexample). With the storage root inside the managed directory the real
run walks the managed directory after it has copied the extra file into the snapshot
directory, and records that copy as well: the dry run reports 3 files and 14 bytes, the
successful real run from the same state reports 4 files and 20 bytes. -/
theorem Save_dryRun_undercounts :
    Save demoEnv (saveDryOpts nestedCfg "ctx-a") demoFS =
      (demoFS, .ok { Name := "ctx-a", Dir := [], Files := 3, TotalSize := 14 }) ∧
    (Save demoEnv (saveOpts nestedCfg "ctx-a" false) demoFS).2 =
      .ok { Name := "ctx-a", Dir := ["p", ".claude", "store", "contexts", "ctx-a"],
            Files := 4, TotalSize := 20 } := by
  decide

/-- C20 (amended). Dry-run Save: for every Scope whose storage root lies apart from
the managed directory and from the extra files (none at or below another), and every
file system state in which validation passes (the slug is not empty, and no manifest
exists for it or `Overwrite` is set), `Save` with `DryRun` returns the state unchanged -
no directory created, no file copied, manifests and current pointer as before - and
reports the same slug, file count and total size that a successful non-dry-run `Save`
from the same state reports. -/
theorem Save_dryRun_agrees (env : Env) (cfg : Config) (name description : String)
    (overwrite : Bool) (fs : FS) (hsep : Separated cfg)
    (hextra : ∀ ef ∈ cfg.Scope.ExtraFiles, ¬ ef.Path <+: cfg.StorageDir)
    (hslug : Slugify name ≠ "")
    (hnew : ContextExists fs cfg.ContextsDir (Slugify name) = false ∨ overwrite = true) :
    Save env { Name := name, Description := description, Overwrite := overwrite,
               DryRun := true, Config := cfg } fs =
      (fs, .ok (dryRunSave env fs (Slugify name) cfg)) ∧
    ∀ fs' sr,
      Save env { Name := name, Description := description, Overwrite := overwrite,
                 DryRun := false, Config := cfg } fs = (fs', .ok sr) →
      sr.Name = (dryRunSave env fs (Slugify name) cfg).Name ∧
      sr.Files = (dryRunSave env fs (Slugify name) cfg).Files ∧
      sr.TotalSize = (dryRunSave env fs (Slugify name) cfg).TotalSize := by
  have hval : ¬ (ContextExists fs cfg.ContextsDir (Slugify name) = true ∧ overwrite = false) := by
    rintro ⟨h1, h2⟩
    rcases hnew with h | h
    · rw [h] at h1; cases h1
    · rw [h] at h2; cases h2
  constructor
  · unfold Save
    simp only
    rw [if_neg hslug, if_neg hval]
    simp
  · intro fs' sr h
    obtain ⟨_, _, fs2, fs3, fs4, fs5, files1, files, total1, total, hmk, hx, hw, _, _, hsr⟩ :=
      Save_ok_inv rfl h
    simp only at hmk hx hw hsr
    have hst := storage_prefix_context cfg (Slugify name)
    -- what lies at or below the managed directory is as in the first state
    have hroot : ∀ q t, cfg.ContextsDir ++ [Slugify name] <+: t → q <+: t →
        ¬ cfg.Scope.DotClaudeDir <+: q := by
      intro q t ht hq hd
      exact (managed_apart hsep (List.prefix_refl _) (hst.trans ht)).2 (hd.trans hq)
    have hu1 : (if overwrite = true then RemoveAll fs (cfg.ContextsDir ++ [Slugify name])
        else fs).filter (fun e => cfg.Scope.DotClaudeDir.isPrefixOf e.1) =
        fs.filter (fun e => cfg.Scope.DotClaudeDir.isPrefixOf e.1) := by
      split
      · apply under_RemoveAll
        intro q hq hc
        exact (managed_apart hsep hq hst).1 (hst.trans hc)
      · rfl
    have hu2 := @under_mkdirAll cfg.Scope.DotClaudeDir _ _ _
      (fun q hq => hroot q _ (List.prefix_refl _) hq) hmk
    have hu3 := @under_saveExtraFiles cfg.Scope.DotClaudeDir env
      (cfg.ContextsDir ++ [Slugify name]) hroot cfg.Scope.ExtraFiles fs2 [] 0
    rw [hx] at hu3
    simp only at hu3
    have hu : fs3.filter (fun e => cfg.Scope.DotClaudeDir.isPrefixOf e.1) =
        fs.filter (fun e => cfg.Scope.DotClaudeDir.isPrefixOf e.1) := by
      rw [hu3, hu2, hu1]
    have hwalk := WalkFiltered_congr cfg.IncludePatterns cfg.ExcludePatterns hu
    have hdot := (walk_congr hu).1 cfg.Scope.DotClaudeDir (List.prefix_refl _)
    rw [hwalk, hdot] at hw
    -- the extra files are as in the first state
    have hap : ∀ ef ∈ cfg.Scope.ExtraFiles,
        ¬ cfg.StorageDir <+: ef.Path ∧ ¬ ef.Path <+: cfg.StorageDir :=
      fun ef hef => ⟨hsep.2.2 ef hef, hextra ef hef⟩
    have hstat2 : ∀ ef ∈ cfg.Scope.ExtraFiles, stat fs2 ef.Path = stat fs ef.Path := by
      intro ef hef
      rw [mkdirAll_stat_apart hmk hst (hap ef hef).1 (hap ef hef).2]
      split
      · rw [stat_RemoveAll, if_neg (not_under_of_not_storage hst (hap ef hef).1)]
      · rfl
    obtain ⟨hc1, hc2⟩ := saveExtraFiles_count env hst _ _ _ _ _ _ _ hap hx
    have hmap : cfg.Scope.ExtraFiles.filterMap (fun ef => stat fs2 ef.Path) =
        cfg.Scope.ExtraFiles.filterMap (fun ef => stat fs ef.Path) :=
      List.filterMap_congr (fun ef hef => hstat2 ef hef)
    rw [hmap] at hc1 hc2
    obtain ⟨hc3, hc4⟩ := saveWalked_count env _ _ _ _ _ _ _ _ hw
    rw [hsr]
    simp only [dryRunSave, List.length_nil, Nat.zero_add] at hc1 hc2 ⊢
    refine ⟨trivial, ?_, ?_⟩
    · rw [hc3, hc1]
    · rw [hc4, hc2]

theorem Save_dryRun_agrees_witness :
    Save demoEnv (saveDryOpts demoCfg "ctx-a") demoFS =
      (demoFS, .ok (dryRunSave demoEnv demoFS (Slugify "ctx-a") demoCfg)) ∧
    (dryRunSave demoEnv demoFS (Slugify "ctx-a") demoCfg).Files = 3 ∧
    ((Save demoEnv (saveOpts demoCfg "ctx-a" false) demoFS).2.toOption.map
      (fun sr => (sr.Files, sr.TotalSize))) = some (3, 14) :=
  ⟨(Save_dryRun_agrees demoEnv demoCfg "ctx-a" "" false demoFS (by decide) (by decide)
      (by decide) (Or.inl (by decide))).1, by decide, by decide⟩

/-! ### Slugs (C28) -/

theorem replaceRunsAux_slugChar :
    ∀ (l : List Char) (b : Bool), ∀ c ∈ replaceRunsAux b l, slugChar c = true := by
  intro l
  induction l with
  | nil => intro b c hc; simp [replaceRunsAux] at hc
  | cons a l ih =>
    intro b c hc
    simp only [replaceRunsAux] at hc
    split at hc
    · rcases List.mem_cons.mp hc with rfl | h
      · assumption
      · exact ih _ c h
    · split at hc
      · exact ih _ c hc
      · rcases List.mem_cons.mp hc with rfl | h
        · decide
        · exact ih _ c h

theorem trimBoth_sublist (p : Char → Bool) (l : List Char) : (trimBoth p l).Sublist l := by
  unfold trimBoth
  have h1 := List.dropWhile_sublist p (l := (l.dropWhile p).reverse)
  have h2 := List.dropWhile_sublist p (l := l)
  have h3 := h1.reverse
  rw [List.reverse_reverse] at h3
  exact h3.trans h2

theorem dropWhile_head_not (p : Char → Bool) (l : List Char) (c : Char)
    (h : (l.dropWhile p).head? = some c) : p c = false := by
  induction l with
  | nil => simp at h
  | cons a l ih =>
    by_cases ha : p a = true
    · simp only [List.dropWhile_cons_of_pos ha] at h
      exact ih h
    · simp only [Bool.not_eq_true] at ha
      rw [List.dropWhile_cons_of_neg (by simp [ha])] at h
      simp only [List.head?_cons, Option.some.injEq] at h
      rw [← h]; exact ha

theorem dropWhile_getLast (p : Char → Bool) (l : List Char) (c : Char)
    (h : (l.dropWhile p).getLast? = some c) : l.getLast? = some c := by
  induction l with
  | nil => simp at h
  | cons a l ih =>
    by_cases ha : p a = true
    · simp only [List.dropWhile_cons_of_pos ha] at h
      have := ih h
      cases l with
      | nil => simp at this
      | cons b l => simpa [List.getLast?_cons_cons] using this
    · simp only [Bool.not_eq_true] at ha
      rw [List.dropWhile_cons_of_neg (by simp [ha])] at h
      exact h

/-- What `strings.Trim` leaves neither begins nor ends with a trimmed character. -/
theorem trimBoth_ends (p : Char → Bool) (l : List Char) (c : Char) :
    ((trimBoth p l).head? = some c → p c = false) ∧
    ((trimBoth p l).getLast? = some c → p c = false) := by
  unfold trimBoth
  constructor
  · intro h
    rw [List.head?_reverse] at h
    have h1 := dropWhile_getLast p _ c h
    rw [List.getLast?_reverse] at h1
    exact dropWhile_head_not p l c h1
  · intro h
    rw [List.getLast?_reverse] at h
    exact dropWhile_head_not p _ c h

theorem dropWhile_eq_self_of_head (p : Char → Bool) (l : List Char)
    (h : ∀ c, l.head? = some c → p c = false) : l.dropWhile p = l := by
  cases l with
  | nil => rfl
  | cons a l =>
    have := h a rfl
    rw [List.dropWhile_cons_of_neg (by simp [this])]

theorem trimBoth_eq_self (p : Char → Bool) (l : List Char)
    (h1 : ∀ c, l.head? = some c → p c = false) (h2 : ∀ c, l.getLast? = some c → p c = false) :
    trimBoth p l = l := by
  unfold trimBoth
  rw [dropWhile_eq_self_of_head p l h1, dropWhile_eq_self_of_head p l.reverse, List.reverse_reverse]
  intro c hc
  rw [List.head?_reverse] at hc
  exact h2 c hc

theorem replaceRunsAux_eq_self :
    ∀ (l : List Char), (∀ c ∈ l, slugChar c = true) → replaceRunsAux false l = l := by
  intro l
  induction l with
  | nil => intro _; rfl
  | cons a l ih =>
    intro h
    simp only [replaceRunsAux, h a (List.mem_cons_self _ _), if_true]
    rw [ih (fun c hc => h c (List.mem_cons_of_mem _ hc))]

theorem slugChar_facts (c : Char) (h : slugChar c = true) :
    toLowerRune c = c ∧ isSpace c = false ∧ c ≠ '/' ∧ c ≠ '\\' ∧ c ≠ '.' := by
  have hn : (0x61 ≤ c.toNat ∧ c.toNat ≤ 0x7A) ∨ (0x30 ≤ c.toNat ∧ c.toNat ≤ 0x39) ∨
      c.toNat = 0x2D := by
    unfold slugChar at h
    simp only [Bool.or_eq_true, Bool.and_eq_true, decide_eq_true_eq] at h
    tauto
  refine ⟨?_, ?_, ?_, ?_, ?_⟩
  · unfold toLowerRune
    simp only
    rw [if_neg (by omega), if_neg (by omega), if_neg (by omega)]
  · unfold isSpace
    simp only [Bool.or_eq_false_iff, Bool.and_eq_false_iff, decide_eq_false_iff_not]
    omega
  · rintro rfl; revert hn; decide
  · rintro rfl; revert hn; decide
  · rintro rfl; revert hn; decide

/-- A string of slug characters with no leading or trailing `-` is its own slug. -/
theorem Slugify_fixed (s : String) (h1 : ∀ c ∈ s.data, slugChar c = true)
    (h2 : ∀ c, s.data.head? = some c → c ≠ '-')
    (h3 : ∀ c, s.data.getLast? = some c → c ≠ '-') : Slugify s = s := by
  have hsp : trimBoth isSpace s.data = s.data := by
    apply trimBoth_eq_self
    · intro c hc
      exact (slugChar_facts c (h1 c (List.mem_of_mem_head? hc))).2.1
    · intro c hc
      exact (slugChar_facts c (h1 c (List.mem_of_mem_getLast? hc))).2.1
  have hlow : s.data.map toLowerRune = s.data := by
    conv_rhs => rw [← List.map_id s.data]
    apply List.map_congr_left
    intro c hc
    exact (slugChar_facts c (h1 c hc)).1
  have hdash : trimBoth (fun c => c == '-') s.data = s.data := by
    apply trimBoth_eq_self
    · intro c hc; simpa using h2 c hc
    · intro c hc; simpa using h3 c hc
  unfold Slugify
  simp only [hsp, hlow, replaceRunsAux_eq_self _ h1, hdash]

theorem Slugify_chars (name : String) :
    (∀ c ∈ (Slugify name).data, slugChar c = true) ∧
    (∀ c, (Slugify name).data.head? = some c → c ≠ '-') ∧
    (∀ c, (Slugify name).data.getLast? = some c → c ≠ '-') := by
  simp only [Slugify]
  refine ⟨?_, ?_, ?_⟩
  · intro c hc
    exact replaceRunsAux_slugChar _ _ c ((trimBoth_sublist _ _).subset hc)
  · intro c hc
    have := (trimBoth_ends (fun c => c == '-') _ c).1 hc
    simpa using this
  · intro c hc
    have := (trimBoth_ends (fun c => c == '-') _ c).2 hc
    simpa using this

theorem splitSlash_of_no_slash :
    ∀ (s : List Char), (∀ c ∈ s, c ≠ '/') → splitSlash s = [s] := by
  intro s
  induction s with
  | nil => intro _; rfl
  | cons a s ih =>
    intro h
    have ha := h a (List.mem_cons_self _ _)
    simp only [splitSlash, ha, if_false, ih (fun c hc => h c (List.mem_cons_of_mem _ hc))]

/-- C28. Slugs are filesystem-safe: for every input string the output of `Slugify`
consists only of the characters `a`-`z`, `0`-`9` and `-`, and neither begins nor ends
with `-`; hence it holds no `/`, no backslash and no `.`, `Slugify` is idempotent, and
`filepath.Join` of a directory and a non-empty slug is a direct child of that
directory, named by the slug. -/
theorem Slugify_safe (name : String) :
    (∀ c ∈ (Slugify name).data, slugChar c = true) ∧
    (∀ c, (Slugify name).data.head? = some c → c ≠ '-') ∧
    (∀ c, (Slugify name).data.getLast? = some c → c ≠ '-') ∧
    (∀ c ∈ (Slugify name).data, c ≠ '/' ∧ c ≠ '\\' ∧ c ≠ '.') ∧
    Slugify (Slugify name) = Slugify name ∧
    (∀ dir : Path, Slugify name ≠ "" →
      filepathJoin dir (Slugify name) = dir ++ [Slugify name] ∧
      (filepathJoin dir (Slugify name)).dropLast = dir) := by
  obtain ⟨h1, h2, h3⟩ := Slugify_chars name
  have h4 : ∀ c ∈ (Slugify name).data, c ≠ '/' ∧ c ≠ '\\' ∧ c ≠ '.' :=
    fun c hc => (slugChar_facts c (h1 c hc)).2.2
  refine ⟨h1, h2, h3, h4, ?_, ?_⟩
  · exact Slugify_fixed _ h1 h2 h3
  · intro dir hne
    have hdata : (Slugify name).data ≠ [] := by
      intro h
      apply hne
      exact String.ext h
    have hsplit := splitSlash_of_no_slash _ (fun c hc => (h4 c hc).1)
    have hdot : (Slugify name).data ≠ ['.'] := by
      intro h
      have := (h4 '.' (by rw [h]; simp)).2.2
      exact this rfl
    have hdd : (Slugify name).data ≠ ['.', '.'] := by
      intro h
      have := (h4 '.' (by rw [h]; simp)).2.2
      exact this rfl
    have hj : filepathJoin dir (Slugify name) = dir ++ [Slugify name] := by
      simp [filepathJoin, hsplit, joinClean, hdata, hdot, hdd]
    exact ⟨hj, by rw [hj]; simp⟩

theorem Slugify_safe_witness :
    filepathJoin ["p", ".claudectx", "contexts"] (Slugify "  ../Etc/Passwd ") =
      ["p", ".claudectx", "contexts"] ++ [Slugify "  ../Etc/Passwd "] ∧
    Slugify "  ../Etc/Passwd " = "etc-passwd" :=
  ⟨((Slugify_safe "  ../Etc/Passwd ").2.2.2.2.2 ["p", ".claudectx", "contexts"]
      (by decide)).1, by decide⟩

/-! ### Project-scope defaults (C30) -/

theorem scanBody_literal :
    ∀ (p : List Char), (∀ c ∈ p, literalChar c) → scanBody false p = (p, []) := by
  intro p
  induction p with
  | nil => intro _; exact scanBody_nil false
  | cons c p ih =>
    intro h
    obtain ⟨h1, h2, h3, h4⟩ := h c (List.mem_cons_self _ _)
    rw [scanBody_cons false c p h4]
    have hflag : (if c = '[' then true else if c = ']' then false else false) = false := by
      split
      · contradiction
      · split <;> rfl
    rw [if_neg (fun hh => h1 hh.1), hflag, ih (fun d hd => h d (List.mem_cons_of_mem _ hd))]

theorem matchChunkAux_literal_failed :
    ∀ (p : List Char), (∀ c ∈ p, literalChar c) → ∀ (fuel : Nat) (s : List Char),
      p.length < fuel → matchChunkAux fuel p s true = .noMatch := by
  intro p
  induction p with
  | nil =>
    intro _ fuel s hf
    cases fuel with
    | zero => omega
    | succ n => simp [matchChunkAux]
  | cons c p ih =>
    intro h fuel s hf
    obtain ⟨h1, h2, h3, h4⟩ := h c (List.mem_cons_self _ _)
    cases fuel with
    | zero => omega
    | succ n =>
      simp only [List.length_cons] at hf
      simp only [matchChunkAux, Bool.true_or, if_true, h2, h3, h4, if_false]
      exact ih (fun d hd => h d (List.mem_cons_of_mem _ hd)) n s (by omega)

theorem matchChunkAux_literal :
    ∀ (p : List Char), (∀ c ∈ p, literalChar c) → ∀ (fuel : Nat) (s : List Char),
      p.length < fuel →
      matchChunkAux fuel p s false =
        if p <+: s then .rest (s.drop p.length) else .noMatch := by
  intro p
  induction p with
  | nil =>
    intro _ fuel s hf
    cases fuel with
    | zero => omega
    | succ n => simp [matchChunkAux]
  | cons c p ih =>
    intro h fuel s hf
    obtain ⟨h1, h2, h3, h4⟩ := h c (List.mem_cons_self _ _)
    have hp : ∀ d ∈ p, literalChar d := fun d hd => h d (List.mem_cons_of_mem _ hd)
    cases fuel with
    | zero => omega
    | succ n =>
      simp only [List.length_cons] at hf
      cases s with
      | nil =>
        simp only [matchChunkAux, Bool.false_or, List.isEmpty_nil, if_true, h2, h3, h4,
          if_false]
        rw [matchChunkAux_literal_failed p hp n [] (by omega)]
        simp
      | cons a s =>
        simp only [matchChunkAux, Bool.false_or, List.isEmpty_cons, h2, h3, h4, if_false,
          List.tail_cons, List.head?_cons, Bool.false_eq_true]
        by_cases hac : a = c
        · subst hac
          simp only [ne_eq, not_true_eq_false, decide_False]
          rw [ih hp n s (by omega)]
          simp [List.cons_prefix_cons]
        · have : decide (some a ≠ some c) = true := by simp [hac]
          rw [this, matchChunkAux_literal_failed p hp n s (by omega)]
          have : ¬ (c :: p <+: a :: s) := by
            rw [List.cons_prefix_cons]
            intro hh; exact hac hh.1.symm
          rw [if_neg this]

/-- A pattern without metacharacters matches exactly itself. -/
theorem filepathMatch_literal (p s : List Char) (h : ∀ c ∈ p, literalChar c) :
    filepathMatch p s = decide (s = p) := by
  cases p with
  | nil => simp [filepathMatch, matchLoop]
  | cons c q =>
    obtain ⟨h1, h2, h3, h4⟩ := h c (List.mem_cons_self _ _)
    have hm : matchChunk (c :: q) s =
        if c :: q <+: s then .rest (s.drop (c :: q).length) else .noMatch :=
      matchChunkAux_literal _ h _ s (Nat.lt_succ_self _)
    have hsc : scanStars (c :: q) = (false, c :: q) := scanStars_cons_ne q h1
    have hsb : scanBody false (c :: q) = (c :: q, []) := scanBody_literal _ h
    unfold filepathMatch
    rw [List.length_cons]
    unfold matchLoop
    simp only [hsc, hsb, hm]
    by_cases hpre : c :: q <+: s
    · obtain ⟨t, rfl⟩ := hpre
      simp only [List.prefix_append, if_true, List.drop_left]
      cases t with
      | nil => simp [matchLoop]
      | cons a t => simp
    · simp only [hpre, if_false]
      have : s ≠ c :: q := by
        rintro rfl
        exact hpre (List.prefix_refl _)
      simp [this]

theorem joinSlash_has_slash (a b : List Char) (l : List (List Char)) :
    '/' ∈ joinSlash (a :: b :: l) := by
  rw [joinSlash_cons_cons]
  simp

theorem matchAnyTail_literal (p : List Char) (h : ∀ c ∈ p, literalChar c)
    (hs : '/' ∉ p) :
    ∀ (segs : List (List Char)), matchAnyTail p segs = decide (segs.getLast? = some p) := by
  intro segs
  induction segs with
  | nil => simp [matchAnyTail]
  | cons a l ih =>
    cases l with
    | nil =>
      simp [matchAnyTail, joinSlash_singleton, filepathMatch_literal p a h]
    | cons b l =>
      unfold matchAnyTail
      rw [ih, filepathMatch_literal p _ h]
      have : joinSlash (a :: b :: l) ≠ p := by
        intro heq
        apply hs
        rw [← heq]
        exact joinSlash_has_slash a b l
      simp [this, List.getLast?_cons_cons]

/-- C30. Project-scope defaults: with the default project patterns (include `**`,
exclude `**/.DS_Store`) the selection predicate of the walker (some include pattern
matches, no exclude pattern does) is true for a relative path exactly when the final
segment of the path is not `.DS_Store`. -/
theorem selected_project_defaults (relPath : String) :
    selected DefaultProjectIncludePatterns DefaultProjectExcludePatterns relPath = true ↔
      (splitSlash relPath.data).getLast? ≠ some ".DS_Store".data := by
  have hlit : ∀ c ∈ ".DS_Store".data, literalChar c := by
    unfold literalChar
    decide
  have hs : '/' ∉ ".DS_Store".data := by decide
  have hinc : MatchesAny relPath DefaultProjectIncludePatterns = true := by
    simp [MatchesAny, DefaultProjectIncludePatterns, matchGlob, matchDoubleGlob,
      splitDoubleStar, trimSlashSuffix, trimSlashPrefix]
  have hsplit : splitDoubleStar "**/.DS_Store".data = some ([], "/.DS_Store".data) := by
    decide
  have hexc : MatchesAny relPath DefaultProjectExcludePatterns =
      matchAnyTail ".DS_Store".data (splitSlash relPath.data) := by
    simp only [MatchesAny, DefaultProjectExcludePatterns, List.any_cons, List.any_nil,
      Bool.or_false, matchGlob, hsplit, Option.isSome_some, if_true, matchDoubleGlob]
    have h1 : trimSlashSuffix [] = [] := by decide
    have h2 : trimSlashPrefix "/.DS_Store".data = ".DS_Store".data := by decide
    have h3 : ".DS_Store".data ≠ [] := by decide
    simp only [h1, h2, if_true, if_neg h3]
  unfold selected
  rw [hinc, hexc, matchAnyTail_literal _ hlit hs]
  simp

/-! ### Manifest well-formedness (C23) -/

theorem saveExtraFiles_total (env : Env) (ctx : Path) :
    ∀ (efs : List ExtraFile) (fs fs' : FS) (files files' : List FileEntry) (total total' : Nat),
      saveExtraFiles env ctx efs fs files total = (fs', .ok (files', total')) →
      total = (files.map (fun e => e.Size)).sum →
      total' = (files'.map (fun e => e.Size)).sum := by
  intro efs
  induction efs with
  | nil =>
    intro fs fs' files files' total total' h ht
    rw [saveExtraFiles_nil] at h
    simp only [Prod.mk.injEq, Except.ok.injEq] at h
    obtain ⟨_, rfl, rfl⟩ := h
    exact ht
  | cons ef rest ih =>
    intro fs fs' files files' total total' h ht
    cases hs : stat fs ef.Path with
    | none =>
      rw [saveExtraFiles_cons_none hs] at h
      exact ih fs fs' files files' total total' h ht
    | some info =>
      rw [saveExtraFiles_cons_some hs] at h
      split at h
      · simp at h
      · refine ih _ _ _ _ _ _ h ?_
        simp [ht]

theorem saveWalked_total (env : Env) (ctx : Path) :
    ∀ (ws : List WalkResult) (fs fs' : FS) (files files' : List FileEntry)
      (total total' : Nat),
      saveWalked env ctx ws fs files total = (fs', .ok (files', total')) →
      total = (files.map (fun e => e.Size)).sum →
      total' = (files'.map (fun e => e.Size)).sum := by
  intro ws
  induction ws with
  | nil =>
    intro fs fs' files files' total total' h ht
    simp only [saveWalked, Prod.mk.injEq, Except.ok.injEq] at h
    obtain ⟨_, rfl, rfl⟩ := h
    exact ht
  | cons w rest ih =>
    intro fs fs' files files' total total' h ht
    rw [saveWalked_cons] at h
    split at h
    · simp at h
    · refine ih _ _ _ _ _ _ h ?_
      simp [ht]

/-- The manifest a successful `Save` leaves in the snapshot directory is the one built
in step 4, from the entries and the total of the two copy loops. -/
theorem Save_manifest_read {env : Env} {opts : SaveOptions} {fs fs' : FS} {sr : SaveResult}
    (hdry : opts.DryRun = false) (h : Save env opts fs = (fs', .ok sr)) :
    ∃ (fs4 : FS) (files : List FileEntry) (total : Nat),
      ReadManifest fs' (opts.Config.ContextsDir ++ [Slugify opts.Name]) =
        some (saveManifest env opts fs4 files total) ∧
      total = (files.map (fun e => e.Size)).sum ∧
      sr.Files = files.length ∧ sr.TotalSize = total := by
  obtain ⟨_, _, fs2, fs3, fs4, fs5, files1, files, total1, total, hmk, hx, hw, hwm, hsc, hsr⟩ :=
    Save_ok_inv hdry h
  have ht1 := saveExtraFiles_total env _ _ _ _ _ _ _ _ hx (by simp)
  have ht := saveWalked_total env _ _ _ _ _ _ _ _ hw ht1
  have hfs5 : fs5 = (WriteManifest fs4 (opts.Config.ContextsDir ++ [Slugify opts.Name])
      (saveManifest env opts fs4 files total)).1 := by rw [hwm]
  have hwok : (WriteManifest fs4 (opts.Config.ContextsDir ++ [Slugify opts.Name])
      (saveManifest env opts fs4 files total)).2 = true := by rw [hwm]
  have hfs' : fs' = (SetCurrent fs5 opts.Config (Slugify opts.Name)).1 := by rw [hsc]
  refine ⟨fs4, files, total, ?_, ht, by simp [hsr], by simp [hsr]⟩
  have hm : fileAt fs' (manifestPath (opts.Config.ContextsDir ++ [Slugify opts.Name])) =
      some (.manifest (saveManifest env opts fs4 files total), 0o600) := by
    rw [hfs', SetCurrent_fileAt_ne _ _ _
      (current_ne_under_context _ _ (manifestPath_under _)), hfs5, WriteManifest_fileAt]
    simp [hwok]
  exact ReadManifest_of_fileAt hm

/-- C23. Manifest well-formedness: after a successful `Save` that is not a dry run, the
manifest stored in the snapshot directory has `TotalSize` equal to the sum of the `Size`
fields of its file entries and `Checksum` equal to `ManifestChecksum` of its file
entries, and the returned `SaveResult` reports `Files` equal to the number of entries
and the same `TotalSize`. -/
theorem Save_manifest_wellformed (env : Env) (opts : SaveOptions) (fs fs' : FS)
    (sr : SaveResult) (hdry : opts.DryRun = false)
    (h : Save env opts fs = (fs', .ok sr)) :
    ∃ man : Manifest,
      ReadManifest fs' (opts.Config.ContextsDir ++ [Slugify opts.Name]) = some man ∧
      man.TotalSize = (man.Files.map (fun e => e.Size)).sum ∧
      man.Checksum = ManifestChecksum env man.Files ∧
      sr.Files = man.Files.length ∧ sr.TotalSize = man.TotalSize := by
  obtain ⟨fs4, files, total, hread, ht, hf, hts⟩ := Save_manifest_read hdry h
  exact ⟨_, hread, ht, rfl, hf, hts⟩

/-- C23, witness: the first save of the demo tree as `ctx-a`. -/
theorem Save_manifest_wellformed_witness :
    (Save demoEnv (saveOpts demoCfg "ctx-a" false) demoFS).2 =
      .ok { Name := "ctx-a", Dir := ["p", ".claudectx", "contexts", "ctx-a"], Files := 3,
            TotalSize := 14 } ∧
    ∃ man : Manifest,
      ReadManifest (Save demoEnv (saveOpts demoCfg "ctx-a" false) demoFS).1
        (demoCfg.ContextsDir ++ [Slugify "ctx-a"]) = some man ∧
      man.TotalSize = (man.Files.map (fun e => e.Size)).sum ∧
      man.Checksum = ManifestChecksum demoEnv man.Files ∧
      (3 : Nat) = man.Files.length ∧ (14 : Nat) = man.TotalSize :=
  ⟨by decide,
    Save_manifest_wellformed demoEnv (saveOpts demoCfg "ctx-a" false) demoFS
      (Save demoEnv (saveOpts demoCfg "ctx-a" false) demoFS).1
      { Name := "ctx-a", Dir := ["p", ".claudectx", "contexts", "ctx-a"], Files := 3,
        TotalSize := 14 } rfl (by decide)⟩

/-! ### The command `create` with `--dry-run` (C24) -/

theorem Save_dryRun_state (env : Env) (opts : SaveOptions) (fs : FS)
    (hdry : opts.DryRun = true) : (Save env opts fs).1 = fs := by
  unfold Save
  simp only
  split
  · rfl
  · split
    · rfl
    · rfl

theorem ensureGitignore_dryRun (env : Env) (fs : FS) (scope : Scope) :
    ensureGitignore env fs scope true = fs := by
  unfold ensureGitignore
  simp only
  split
  · rfl
  · split
    · rfl
    · split
      · rfl
      · rfl
    · split
      · rfl
      · rfl

theorem doCreateFromCurrent_dryRun_state (env : Env) (cfg : Config)
    (name description : String) (fs : FS) :
    (doCreateFromCurrent env cfg name description true fs).1 =
      (AutoSaveCurrent env fs cfg (Slugify name)).1 := by
  unfold doCreateFromCurrent
  cases ha : AutoSaveCurrent env fs cfg (Slugify name) with
  | mk fs1 b =>
    cases b with
    | true => rfl
    | false =>
      simp only
      have hs := Save_dryRun_state env
        { Name := name, Description := description, Overwrite := false, DryRun := true,
          Config := cfg } fs1 rfl
      cases hsv : Save env
        { Name := name, Description := description, Overwrite := false, DryRun := true,
          Config := cfg } fs1 with
      | mk fs2 r =>
        rw [hsv] at hs
        simp only at hs
        subst hs
        cases r with
        | error e => rfl
        | ok sr =>
          simp only
          split
          · exact ensureGitignore_dryRun env fs2 cfg.Scope
          · rfl

/-- C24. With `--dry-run`, `create <name>` in its default mode leaves the file system in
the state the auto-save of the active snapshot produced, for every prior state: the dry
run itself adds nothing, but `doCreateFromCurrent` calls `AutoSaveCurrent` before it
looks at the flag.  When the current pointer names another existing snapshot that
snapshot is overwritten with the live state: in the state `switchEditedFS`, where
`ctx-a` is active and `.claude/sub/x` was edited, `create ctx-new --dry-run` succeeds
and replaces the payload `x` stored for that file in `ctx-a` by the edited text. -/
theorem runCreate_dryRun_autosaves :
    (∀ (env : Env) (cfg : Config) (name description : String) (fs : FS),
      (doCreateFromCurrent env cfg name description true fs).1 =
        (AutoSaveCurrent env fs cfg (Slugify name)).1) ∧
    GetCurrent demoEnv switchEditedFS demoCfg = .name "ctx-a" ∧
    (runCreate demoEnv demoCfg "ctx-new" "" true switchEditedFS).2 = .ok () ∧
    fileAt switchEditedFS ["p", ".claudectx", "contexts", "ctx-a", "dotclaude", "sub", "x"] =
      some (.raw "x", 0o644) ∧
    fileAt (runCreate demoEnv demoCfg "ctx-new" "" true switchEditedFS).1
      ["p", ".claudectx", "contexts", "ctx-a", "dotclaude", "sub", "x"] =
      some (.raw "x2", 0o644) ∧
    ReadManifest (runCreate demoEnv demoCfg "ctx-new" "" true switchEditedFS).1
      ["p", ".claudectx", "contexts", "ctx-new"] = none :=
  ⟨doCreateFromCurrent_dryRun_state, by decide, by decide, by decide, by decide, by decide⟩

/-! ### The entry in `.gitignore` (C25) -/

theorem splitNewline_ne_nil : ∀ (s : List Char), splitNewline s ≠ [] := by
  intro s
  cases s with
  | nil => simp [splitNewline]
  | cons c cs =>
    unfold splitNewline
    split
    · simp
    · split <;> simp

theorem splitNewline_append : ∀ (a b : List Char),
    splitNewline (a ++ '\n' :: b) = splitNewline a ++ splitNewline b := by
  intro a b
  induction a with
  | nil => simp [splitNewline]
  | cons c a ih =>
    by_cases hc : c = '\n'
    · subst hc
      simp [splitNewline, ih]
    · have hne := splitNewline_ne_nil a
      cases hs : splitNewline a with
      | nil => exact absurd hs hne
      | cons h t =>
        have e1 : ∀ cs, splitNewline (c :: cs) =
            (c :: (splitNewline cs).headD []) :: (splitNewline cs).tail := by
          intro cs
          have hn := splitNewline_ne_nil cs
          cases hcs : splitNewline cs with
          | nil => exact absurd hcs hn
          | cons h t => simp [splitNewline, hc, hcs]
        rw [List.cons_append, e1, e1, ih, hs]
        rfl

/-- The text `ensureGitignore` writes is the old text, a newline where the old text is
not empty and lacks a final one, and the line `.claudectx/`. -/
theorem gitignoreContent_eq (data : String) :
    gitignoreContent data =
      data ++ (if data.data ≠ [] ∧ data.data.getLast? ≠ some '\n' then "\n" else "") ++
        ".claudectx/\n" := by
  unfold gitignoreContent
  by_cases h1 : data.data = []
  · have : data = "" := String.ext h1
    subst this
    rfl
  · by_cases h2 : data.data.getLast? = some '\n'
    · simp [h1, h2]
    · simp [h1, h2]

theorem gitignoreContent_data (data : String) :
    ∃ pre : List Char, (gitignoreContent data).data = pre ++ ".claudectx/\n".data ∧
      (pre = [] ∨ ∃ pre1, pre = pre1 ++ ['\n']) := by
  unfold gitignoreContent
  by_cases h1 : data.data = []
  · exact ⟨[], by simp [h1], Or.inl rfl⟩
  · by_cases h2 : data.data.getLast? = some '\n'
    · refine ⟨data.data, by simp [h1, h2], Or.inr ⟨data.data.dropLast, ?_⟩⟩
      have := List.dropLast_append_getLast? '\n' (by simpa using h2)
      exact this.symm
    · exact ⟨data.data ++ ['\n'], by simp [h1, h2], Or.inr ⟨data.data, rfl⟩⟩

theorem gitignoreHasEntry_iff (data : String) :
    gitignoreHasEntry data = true ↔
      ∃ line ∈ splitNewline data.data,
        trimBoth isSpace line = ".claudectx".data ∨
        trimBoth isSpace line = ".claudectx/".data ∨
        trimBoth isSpace line = ".claudectx/**".data := by
  simp [gitignoreHasEntry, List.any_eq_true]

/-- What `ensureGitignore` writes holds the entry. -/
theorem gitignoreHasEntry_content (data : String) :
    gitignoreHasEntry (gitignoreContent data) = true := by
  rw [gitignoreHasEntry_iff]
  refine ⟨".claudectx/".data, ?_, Or.inr (Or.inl (by decide))⟩
  obtain ⟨pre, hpre, hcase⟩ := gitignoreContent_data data
  have hline : ".claudectx/\n".data = ".claudectx/".data ++ '\n' :: [] := by decide
  have hsplit : splitNewline ".claudectx/".data = [".claudectx/".data] := by decide
  rw [hpre]
  rcases hcase with rfl | ⟨pre1, rfl⟩
  · rw [List.nil_append, hline, splitNewline_append, hsplit]
    simp
  · rw [List.append_assoc, List.singleton_append, splitNewline_append, hline,
      splitNewline_append, hsplit]
    simp

theorem IsGitRepo_put (fs : FS) (root : Path) (n : Node) :
    IsGitRepo (put fs (root ++ [".gitignore"]) n) root = IsGitRepo fs root := by
  unfold IsGitRepo
  rw [stat_put, if_neg]
  intro h
  have := List.append_cancel_left h
  revert this
  decide

theorem root_ne_gitignore (root : Path) : root ≠ root ++ [".gitignore"] := by
  intro h
  have := congrArg List.length h
  simp at this

/-- Calling `ensureGitignore` twice leaves the state of calling it once. -/
theorem ensureGitignore_twice (env : Env) (fs : FS) (scope : Scope) :
    ensureGitignore env (ensureGitignore env fs scope false) scope false =
      ensureGitignore env fs scope false := by
  have hstep : ∀ (c : Content) (mode : Nat),
      IsGitRepo fs scope.DotClaudeDir.dropLast = true →
      gitignoreHasEntry (c.text env) = true →
      ensureGitignore env
        (put fs (scope.DotClaudeDir.dropLast ++ [".gitignore"]) (.file c mode)) scope false =
        put fs (scope.DotClaudeDir.dropLast ++ [".gitignore"]) (.file c mode) := by
    intro c mode hgit hentry
    unfold ensureGitignore
    simp only [IsGitRepo_put, hgit, Bool.true_eq_false, if_false, stat_put, if_true, hentry]
  by_cases hgit : IsGitRepo fs scope.DotClaudeDir.dropLast = true
  · cases hst : stat fs (scope.DotClaudeDir.dropLast ++ [".gitignore"]) with
    | none =>
      by_cases hu : underFile fs [] (scope.DotClaudeDir.dropLast ++ [".gitignore"]) = true
      · have h1 : ensureGitignore env fs scope false = fs := by
          unfold ensureGitignore
          simp [hgit, hst, hu]
        rw [h1, h1]
      · by_cases hroot : stat fs scope.DotClaudeDir.dropLast = some .dir
        · have h1 : ensureGitignore env fs scope false =
              put fs (scope.DotClaudeDir.dropLast ++ [".gitignore"])
                (.file (.raw (gitignoreContent "")) 0o644) := by
            unfold ensureGitignore
            simp [hgit, hst, hu, hroot]
          rw [h1]
          exact hstep _ _ hgit (gitignoreHasEntry_content "")
        · have h1 : ensureGitignore env fs scope false = fs := by
            unfold ensureGitignore
            simp [hgit, hst, hu, hroot]
          rw [h1, h1]
    | some n =>
      cases n with
      | dir =>
        have h1 : ensureGitignore env fs scope false = fs := by
          unfold ensureGitignore
          simp [hgit, hst]
        rw [h1, h1]
      | file c mode =>
        by_cases hentry : gitignoreHasEntry (c.text env) = true
        · have h1 : ensureGitignore env fs scope false = fs := by
            unfold ensureGitignore
            simp [hgit, hst, hentry]
          rw [h1, h1]
        · have h1 : ensureGitignore env fs scope false =
              put fs (scope.DotClaudeDir.dropLast ++ [".gitignore"])
                (.file (.raw (gitignoreContent (c.text env))) mode) := by
            unfold ensureGitignore
            simp [hgit, hst, hentry]
          rw [h1]
          exact hstep _ _ hgit (gitignoreHasEntry_content _)
  · have h1 : ensureGitignore env fs scope false = fs := by
      unfold ensureGitignore
      simp [hgit]
    rw [h1, h1]

/-- C25. The content rule of `ensureGitignore`: let the project root (the parent of the
managed directory) hold a `.git` directory, and let `.gitignore` be a regular file with
text `c`.  If some line of `c`, trimmed of surrounding white space, is
`.claudectx`, `.claudectx/` or `.claudectx/**`, the call changes nothing, dry run or
not.  Otherwise a dry run changes nothing and a call that is not a dry run leaves at
`.gitignore` the text `c`, a newline if `c` is not empty and does not end in one, and
`.claudectx/` with a newline, under the mode the file had, every other path being as
before.  Calling it twice leaves the state of calling it once. -/
theorem ensureGitignore_content (env : Env) (fs : FS) (scope : Scope) (c : Content)
    (mode : Nat)
    (hgit : IsGitRepo fs scope.DotClaudeDir.dropLast = true)
    (hfile : stat fs (scope.DotClaudeDir.dropLast ++ [".gitignore"]) = some (.file c mode)) :
    ((∃ line ∈ splitNewline (c.text env).data,
        trimBoth isSpace line = ".claudectx".data ∨
        trimBoth isSpace line = ".claudectx/".data ∨
        trimBoth isSpace line = ".claudectx/**".data) →
      ∀ isDryRun, ensureGitignore env fs scope isDryRun = fs) ∧
    ((¬ ∃ line ∈ splitNewline (c.text env).data,
        trimBoth isSpace line = ".claudectx".data ∨
        trimBoth isSpace line = ".claudectx/".data ∨
        trimBoth isSpace line = ".claudectx/**".data) →
      ensureGitignore env fs scope true = fs ∧
      stat (ensureGitignore env fs scope false)
          (scope.DotClaudeDir.dropLast ++ [".gitignore"]) =
        some (.file (.raw (c.text env ++
          (if (c.text env).data ≠ [] ∧ (c.text env).data.getLast? ≠ some '\n' then "\n"
           else "") ++ ".claudectx/\n")) mode) ∧
      ∀ q, q ≠ scope.DotClaudeDir.dropLast ++ [".gitignore"] →
        stat (ensureGitignore env fs scope false) q = stat fs q) ∧
    ensureGitignore env (ensureGitignore env fs scope false) scope false =
      ensureGitignore env fs scope false := by
  refine ⟨?_, ?_, ensureGitignore_twice env fs scope⟩
  · intro h isDryRun
    have hentry := (gitignoreHasEntry_iff _).mpr h
    unfold ensureGitignore
    simp [hgit, hfile, hentry]
  · intro h
    have hentry : gitignoreHasEntry (c.text env) = false := by
      rw [← Bool.not_eq_true, gitignoreHasEntry_iff]
      exact h
    have h1 : ensureGitignore env fs scope false =
        put fs (scope.DotClaudeDir.dropLast ++ [".gitignore"])
          (.file (.raw (gitignoreContent (c.text env))) mode) := by
      unfold ensureGitignore
      simp [hgit, hfile, hentry]
    refine ⟨?_, ?_, ?_⟩
    · unfold ensureGitignore
      simp [hgit, hfile, hentry]
    · rw [h1, stat_put, if_pos rfl, gitignoreContent_eq]
    · intro q hq
      rw [h1, stat_put, if_neg hq]

/-- C25, witness: the `.gitignore` of the test without a final newline, mode `0600`. -/
theorem ensureGitignore_content_witness :
    stat (ensureGitignore demoEnv gitFS demoCfg.Scope false) ["p", ".gitignore"] =
      some (.file (.raw "node_modules/\n.env\n.claudectx/\n") 0o600) ∧
    ensureGitignore demoEnv gitFS demoCfg.Scope true = gitFS ∧
    ensureGitignore demoEnv (ensureGitignore demoEnv gitFS demoCfg.Scope false)
      demoCfg.Scope false = ensureGitignore demoEnv gitFS demoCfg.Scope false :=
  ⟨by decide, by decide,
    (ensureGitignore_content demoEnv gitFS demoCfg.Scope (.raw "node_modules/\n.env") 0o600
      (by decide) (by decide)).2.2⟩

/-! ### The metadata an auto-save writes (C27) -/

theorem ensureGitignore_stat_ne (env : Env) (fs : FS) (scope : Scope) (isDryRun : Bool)
    {q : Path} (hq : q ≠ scope.DotClaudeDir.dropLast ++ [".gitignore"]) :
    stat (ensureGitignore env fs scope isDryRun) q = stat fs q := by
  unfold ensureGitignore
  simp only
  split
  · rfl
  · split
    · rfl
    · split
      · rfl
      · split
        · rfl
        · rw [stat_put, if_neg hq]
    · split
      · rfl
      · split
        · rfl
        · split
          · rw [stat_put, if_neg hq]
          · rfl

theorem manifestPath_ne_gitignore (ctx root : Path) :
    manifestPath ctx ≠ root ++ [".gitignore"] := by
  intro h
  have := congrArg List.getLast? h
  simp [manifestPath] at this

theorem ReadManifest_congr {fs fs' : FS} {ctx : Path}
    (h : stat fs' (manifestPath ctx) = stat fs (manifestPath ctx)) :
    ReadManifest fs' ctx = ReadManifest fs ctx := by
  unfold ReadManifest
  rw [h]

theorem ReadManifest_congr_fileAt {fs fs' : FS} {ctx : Path} {m : Manifest}
    (h : fileAt fs' (manifestPath ctx) = fileAt fs (manifestPath ctx))
    (hr : ReadManifest fs ctx = some m) : ReadManifest fs' ctx = some m := by
  obtain ⟨mode, hm⟩ := fileAt_of_ReadManifest hr
  exact ReadManifest_of_fileAt (h.trans hm)

/-- The state and result of a successful default `create` that is not a dry run. -/
theorem doCreateFromCurrent_ok_inv {env : Env} {cfg : Config} {name description : String}
    {fs fs' : FS} (h : doCreateFromCurrent env cfg name description false fs = (fs', .ok ())) :
    ∃ (fs1 fs2 : FS) (sr : SaveResult),
      AutoSaveCurrent env fs cfg (Slugify name) = (fs1, false) ∧
      Save env { Name := name, Description := description, Overwrite := false,
                 DryRun := false, Config := cfg } fs1 = (fs2, .ok sr) ∧
      ∀ q, q ≠ cfg.Scope.DotClaudeDir.dropLast ++ [".gitignore"] → stat fs' q = stat fs2 q := by
  unfold doCreateFromCurrent at h
  cases ha : AutoSaveCurrent env fs cfg (Slugify name) with
  | mk fs1 b =>
    rw [ha] at h
    cases b with
    | true => simp at h
    | false =>
      simp only at h
      cases hsv : Save env
        { Name := name, Description := description, Overwrite := false, DryRun := false,
          Config := cfg } fs1 with
      | mk fs2 r =>
        rw [hsv] at h
        cases r with
        | error e => simp at h
        | ok sr =>
          simp only at h
          refine ⟨fs1, fs2, sr, rfl, hsv, ?_⟩
          intro q hq
          split at h
          · have := (Prod.mk.inj h).1
            rw [← this]
            exact ensureGitignore_stat_ne env fs2 cfg.Scope false hq
          · rw [(Prod.mk.inj h).1]

/-! ### Destinations of the replay (C29) -/

theorem splitSlash_ne_nil : ∀ (s : List Char), splitSlash s ≠ [] := by
  intro s
  cases s with
  | nil => simp [splitSlash]
  | cons c cs =>
    unfold splitSlash
    split
    · simp
    · split <;> simp

theorem splitSlash_cons_ne {c : Char} (hc : c ≠ '/') (cs : List Char) :
    splitSlash (c :: cs) = (c :: (splitSlash cs).headD []) :: (splitSlash cs).tail := by
  have hn := splitSlash_ne_nil cs
  cases hcs : splitSlash cs with
  | nil => exact absurd hcs hn
  | cons h t => simp [splitSlash, hc, hcs]

theorem splitSlash_append_slash :
    ∀ (a b : List Char), '/' ∉ a → splitSlash (a ++ '/' :: b) = a :: splitSlash b := by
  intro a b
  induction a with
  | nil => intro _; simp [splitSlash]
  | cons c a ih =>
    intro h
    have hc : c ≠ '/' := fun e => h (e ▸ List.mem_cons_self _ _)
    have ha : '/' ∉ a := fun e => h (List.mem_cons_of_mem _ e)
    rw [List.cons_append, splitSlash_cons_ne hc, ih ha]
    rfl

theorem splitSlash_joinSlash :
    ∀ (l : List (List Char)), l ≠ [] → (∀ s ∈ l, '/' ∉ s) → splitSlash (joinSlash l) = l := by
  intro l
  induction l with
  | nil => intro h; exact absurd rfl h
  | cons a l ih =>
    intro _ h
    cases l with
    | nil =>
      rw [joinSlash_singleton]
      exact splitSlash_of_no_slash a (fun c hc e => h a (List.mem_cons_self _ _) (e ▸ hc))
    | cons b l =>
      rw [joinSlash_cons_cons, splitSlash_append_slash _ _ (h a (List.mem_cons_self _ _)),
        ih (by simp) (fun s hs => h s (List.mem_cons_of_mem _ hs))]

theorem append_slash_inj :
    ∀ (a b x y : List Char), '/' ∉ a → '/' ∉ b → a ++ '/' :: x = b ++ '/' :: y → a = b := by
  intro a
  induction a with
  | nil =>
    intro b x y _ hb h
    cases b with
    | nil => rfl
    | cons d b =>
      simp only [List.nil_append, List.cons_append, List.cons.injEq] at h
      exact absurd (h.1 ▸ List.mem_cons_self _ _) hb
  | cons c a ih =>
    intro b x y ha hb h
    cases b with
    | nil =>
      simp only [List.nil_append, List.cons_append, List.cons.injEq] at h
      exact absurd (h.1 ▸ List.mem_cons_self _ _) ha
    | cons d b =>
      simp only [List.cons_append, List.cons.injEq] at h
      rw [h.1, ih b x y (fun e => ha (List.mem_cons_of_mem _ e))
        (fun e => hb (List.mem_cons_of_mem _ e)) h.2]

theorem joinClean_proper (dir : Path) :
    ∀ (segs : Path), (∀ s ∈ segs, properName s) →
      joinClean dir (segs.map String.data) = dir ++ segs := by
  intro segs
  induction segs generalizing dir with
  | nil => intro _; simp [joinClean]
  | cons s segs ih =>
    intro h
    obtain ⟨h1, h2, h3, _⟩ := h s (List.mem_cons_self _ _)
    simp only [List.map_cons, joinClean, h1, h2, h3, false_or, if_false]
    rw [ih _ (fun t ht => h t (List.mem_cons_of_mem _ ht))]
    simp

theorem relPathString_data (p : Path) :
    (relPathString p).data = joinSlash (p.map String.data) := rfl

theorem trimPrefixChars_of_not {pre s : List Char} (h : ¬ pre <+: s) :
    trimPrefixChars pre s = s := by
  unfold trimPrefixChars
  rw [if_neg]
  rw [List.isPrefixOf_iff_prefix]
  exact h

theorem trimPrefixChars_append (pre r : List Char) : trimPrefixChars pre (pre ++ r) = r := by
  unfold trimPrefixChars
  rw [if_pos (List.isPrefixOf_iff_prefix.mpr (List.prefix_append _ _)), List.drop_left]

/-- Trimming the text of a clean relative path is trimming its segments. -/
theorem trimPrefixChars_relPath (p : Path) (hp : ∀ s ∈ p, properName s) :
    trimPrefixChars "dotclaude/".data (joinSlash (p.map String.data)) =
      joinSlash ((trimDotclaude p).map String.data) := by
  have hd : "dotclaude/".data = "dotclaude".data ++ '/' :: [] := by decide
  have hdn : '/' ∉ "dotclaude".data := by decide
  match p with
  | [] =>
    have : ¬ "dotclaude/".data <+: joinSlash ([] : List (List Char)) := by decide
    simp only [List.map_nil, trimDotclaude, trimPrefixChars_of_not this]
  | [s] =>
    have hs := (hp s (List.mem_cons_self _ _)).2.2.2
    have hno : ¬ "dotclaude/".data <+: s.data := by
      intro hpre
      apply hs
      exact hpre.subset (by decide)
    simp only [List.map_cons, List.map_nil, joinSlash_singleton, trimDotclaude,
      trimPrefixChars_of_not hno]
  | s :: t :: rest =>
    have hs := (hp s (List.mem_cons_self _ _)).2.2.2
    simp only [List.map_cons, joinSlash_cons_cons, trimDotclaude]
    by_cases hsd : s = "dotclaude"
    · subst hsd
      rw [if_pos rfl]
      have hpre : "dotclaude".data ++ '/' :: joinSlash (t.data :: rest.map String.data) =
          "dotclaude/".data ++ joinSlash (t.data :: rest.map String.data) := by
        rw [hd, List.append_assoc]
        rfl
      rw [hpre, trimPrefixChars_append]
      rfl
    · rw [if_neg hsd]
      have hno : ¬ "dotclaude/".data <+:
          s.data ++ '/' :: joinSlash (t.data :: rest.map String.data) := by
        rintro ⟨x, hx⟩
        rw [hd, List.append_assoc] at hx
        have := append_slash_inj _ _ _ _ hdn hs hx
        exact hsd (String.ext this.symm)
      rw [trimPrefixChars_of_not hno]
      simp only [List.map_cons, joinSlash_cons_cons]

theorem trimDotclaude_clean (p : Path) (hp : CleanRel p) : CleanRel (trimDotclaude p) := by
  obtain ⟨hne, hall⟩ := hp
  match p with
  | [] => exact absurd rfl hne
  | [s] => exact ⟨by simp [trimDotclaude], by simpa [trimDotclaude] using hall⟩
  | s :: t :: rest =>
    simp only [trimDotclaude]
    split
    · exact ⟨by simp, fun x hx => hall x (List.mem_cons_of_mem _ hx)⟩
    · exact ⟨by simp, hall⟩

/-- For a clean relative path the destination `filepath.Join` computes from the text is
the managed directory extended by the trimmed segments. -/
theorem managedDest_clean (dir p : Path) (hp : CleanRel p) :
    managedDest dir (relPathString p) = dir ++ trimDotclaude p := by
  obtain ⟨hne', hall'⟩ := trimDotclaude_clean p hp
  unfold managedDest filepathJoin
  simp only [relPathString_data, trimPrefixChars_relPath p hp.2]
  rw [splitSlash_joinSlash _ (by simpa using hne')
    (by
      intro s hs
      obtain ⟨x, hx, rfl⟩ := List.mem_map.mp hs
      exact (hall' x hx).2.2.2)]
  exact joinClean_proper dir _ hall'

/-- The text of a clean relative path has the path's segments: none is empty, `.` or
`..`, so the text is not absolute and does not climb. -/
theorem relPathString_segments (p : Path) (hp : CleanRel p) :
    splitSlash (relPathString p).data = p.map String.data ∧
    ∀ seg ∈ splitSlash (relPathString p).data,
      seg ≠ [] ∧ seg ≠ ['.'] ∧ seg ≠ ['.', '.'] := by
  have h1 : splitSlash (relPathString p).data = p.map String.data := by
    rw [relPathString_data]
    apply splitSlash_joinSlash _ (by simpa using hp.1)
    intro s hs
    obtain ⟨x, hx, rfl⟩ := List.mem_map.mp hs
    exact (hp.2 x hx).2.2.2
  refine ⟨h1, ?_⟩
  intro seg hseg
  rw [h1] at hseg
  obtain ⟨x, hx, rfl⟩ := List.mem_map.mp hseg
  exact ⟨(hp.2 x hx).1, (hp.2 x hx).2.1, (hp.2 x hx).2.2.1⟩

theorem saveExtraFiles_clean (env : Env) (ctx : Path) :
    ∀ (efs : List ExtraFile) (fs fs' : FS) (files files' : List FileEntry) (total total' : Nat),
      (∀ ef ∈ efs, properName (baseName ef.Path)) →
      saveExtraFiles env ctx efs fs files total = (fs', .ok (files', total')) →
      (∀ e ∈ files, CleanRel e.RelPath) → ∀ e ∈ files', CleanRel e.RelPath := by
  intro efs
  induction efs with
  | nil =>
    intro fs fs' files files' total total' _ h hc
    rw [saveExtraFiles_nil] at h
    simp only [Prod.mk.injEq, Except.ok.injEq] at h
    obtain ⟨_, rfl, _⟩ := h
    exact hc
  | cons ef rest ih =>
    intro fs fs' files files' total total' hp h hc
    have hrest : ∀ ef ∈ rest, properName (baseName ef.Path) :=
      fun x hx => hp x (List.mem_cons_of_mem _ hx)
    cases hs : stat fs ef.Path with
    | none =>
      rw [saveExtraFiles_cons_none hs] at h
      exact ih fs fs' files files' total total' hrest h hc
    | some info =>
      rw [saveExtraFiles_cons_some hs] at h
      split at h
      · simp at h
      · refine ih _ _ _ _ _ _ hrest h ?_
        intro e he
        rcases List.mem_append.mp he with he | he
        · exact hc e he
        · simp only [List.mem_singleton] at he
          subst he
          exact ⟨by simp, by simpa using hp ef (List.mem_cons_self _ _)⟩

theorem saveWalked_clean (env : Env) (ctx : Path) :
    ∀ (ws : List WalkResult) (fs fs' : FS) (files files' : List FileEntry)
      (total total' : Nat),
      (∀ w ∈ ws, ∀ s ∈ w.Rel, properName s) →
      saveWalked env ctx ws fs files total = (fs', .ok (files', total')) →
      (∀ e ∈ files, CleanRel e.RelPath) → ∀ e ∈ files', CleanRel e.RelPath := by
  intro ws
  induction ws with
  | nil =>
    intro fs fs' files files' total total' _ h hc
    simp only [saveWalked, Prod.mk.injEq, Except.ok.injEq] at h
    obtain ⟨_, rfl, _⟩ := h
    exact hc
  | cons w rest ih =>
    intro fs fs' files files' total total' hp h hc
    rw [saveWalked_cons] at h
    split at h
    · simp at h
    · refine ih _ _ _ _ _ _ (fun x hx => hp x (List.mem_cons_of_mem _ hx)) h ?_
      intro e he
      rcases List.mem_append.mp he with he | he
      · exact hc e he
      · simp only [List.mem_singleton] at he
        subst he
        refine ⟨by simp, ?_⟩
        intro s hs
        rcases List.mem_cons.mp hs with rfl | hs
        · decide
        · exact hp w (List.mem_cons_self _ _) s hs

theorem walk_mem_fs {fs : FS} {root : Path} {e : Path × Node} (h : e ∈ walk fs root) :
    e ∈ fs := by
  unfold walk at h
  cases hs : stat fs root with
  | none => simp [hs] at h
  | some n =>
    cases n with
    | file c m =>
      simp only [hs, List.mem_singleton] at h
      rw [h]; exact stat_mem hs
    | dir =>
      simp only [hs, List.mem_cons] at h
      rcases h with h | h
      · rw [h]; exact stat_mem hs
      · rw [(sortByPath_perm _).mem_iff] at h
        exact (List.mem_filter.mp h).1

theorem WalkFiltered_proper {fs : FS} (hfs : ProperNames fs) (root : Path)
    (includes excludes : List String) :
    ∀ w ∈ WalkFiltered fs root includes excludes, ∀ s ∈ w.Rel, properName s := by
  intro w hw s hs
  simp only [WalkFiltered, List.mem_filterMap] at hw
  obtain ⟨e, he, hw⟩ := hw
  have hmem := walk_mem_fs he
  split at hw
  · simp at hw
  · split at hw
    · simp only [Option.some.injEq] at hw
      rw [← hw] at hs
      exact hfs e hmem s (List.mem_of_mem_drop hs)
    · simp at hw

theorem restoreDest_cases {scope : Scope} {e : FileEntry} {d : Path}
    (h : restoreDest scope e = some d) :
    (∃ ef ∈ scope.ExtraFiles, ef.Path = d) ∨ d = scope.DotClaudeDir ++ trimDotclaude e.RelPath := by
  unfold restoreDest at h
  split at h
  · cases hf : scope.ExtraFileByTag e.Source with
    | none => simp [hf] at h
    | some ef =>
      simp only [hf, Option.some.injEq] at h
      exact Or.inl ⟨ef, List.mem_of_find?_eq_some hf, h⟩
  · simp only [Option.some.injEq] at h
    exact Or.inr h.symm

theorem restoreCopy_frame (contextDir : Path) (scope : Scope) :
    ∀ (files : List FileEntry) (fs : FS) (n : Nat) (q : Path),
      (∀ e ∈ files, restoreDest scope e ≠ some q) →
      fileAt (restoreCopy contextDir scope files fs n).1 q = fileAt fs q := by
  intro files
  induction files with
  | nil => intro fs n q _; simp [restoreCopy]
  | cons entry rest ih =>
    intro fs n q hq
    have hrest : ∀ e ∈ rest, restoreDest scope e ≠ some q :=
      fun e he => hq e (List.mem_cons_of_mem _ he)
    cases hd : restoreDest scope entry with
    | none =>
      rw [restoreCopy_cons_none hd]
      exact ih fs n q hrest
    | some dst =>
      have hne : q ≠ dst := by
        intro e
        exact hq entry (List.mem_cons_self _ _) (by rw [hd, e])
      rw [restoreCopy_cons_some hd]
      split
      · exact CopyFile_fileAt_ne fs hne
      · rw [ih _ _ q hrest]
        exact CopyFile_fileAt_ne fs hne

theorem AutoSaveCurrent_frame (env : Env) (fs : FS) (cfg : Config) (slug : String)
    {q : Path} (hq : ¬ cfg.StorageDir <+: q) :
    fileAt (AutoSaveCurrent env fs cfg slug).1 q = fileAt fs q := by
  unfold AutoSaveCurrent
  split
  · rfl
  · rfl
  · split
    · rfl
    · split
      · rfl
      · apply Save_frame
        · exact fun h => hq ((storage_prefix_context _ _).trans h)
        · exact fun e => hq (e ▸ current_under_storage cfg)

/-- A path that every step of `Restore` leaves alone is left alone by `Restore`,
whatever it returns. -/
theorem Restore_frame_steps (env : Env) (opts : RestoreOptions) (fs : FS) (q : Path)
    (hA : ∀ g, fileAt (AutoSaveCurrent env g opts.Config (Slugify opts.Name)).1 q = fileAt g q)
    (hB : ∀ g, fileAt (createBackup env g opts.Config opts.Config.Scope).1 q = fileAt g q)
    (hC : ∀ g, fileAt (ClearManagedFiles g opts.Config).1 q = fileAt g q)
    (hR : ∀ files g n, fileAt (restoreCopy (opts.Config.ContextsDir ++ [Slugify opts.Name])
      opts.Config.Scope files g n).1 q = fileAt g q)
    (hS : ∀ g, fileAt (SetCurrent g opts.Config (Slugify opts.Name)).1 q = fileAt g q) :
    fileAt (Restore env opts fs).1 q = fileAt fs q := by
  unfold Restore
  simp only
  cases hm : ReadManifest fs (opts.Config.ContextsDir ++ [Slugify opts.Name]) with
  | none => rfl
  | some man =>
    simp only
    split
    · rfl
    split
    · rfl
    have h1 := hA fs
    cases ha : AutoSaveCurrent env fs opts.Config (Slugify opts.Name) with
    | mk fs1 b =>
      rw [ha] at h1
      simp only at h1
      cases b with
      | true => exact h1
      | false =>
        simp only
        have h2 := hB fs1
        cases hb : createBackup env fs1 opts.Config opts.Config.Scope with
        | mk fs2 r =>
          obtain ⟨bd, ok⟩ := r
          rw [hb] at h2
          simp only at h2 ⊢
          split
          · exact h2.trans h1
          have h3 := hC fs2
          cases hc : ClearManagedFiles fs2 opts.Config with
          | mk fs3 b3 =>
            rw [hc] at h3
            simp only at h3
            cases b3 with
            | false => exact h3.trans (h2.trans h1)
            | true =>
              simp only
              have h4 := hR man.Files fs3 0
              cases hr : restoreCopy (opts.Config.ContextsDir ++ [Slugify opts.Name])
                  opts.Config.Scope man.Files fs3 0 with
              | mk fs4 r4 =>
                rw [hr] at h4
                simp only at h4
                cases r4 with
                | error x => exact h4.trans (h3.trans (h2.trans h1))
                | ok k =>
                  simp only
                  have h5 := hS fs4
                  cases hsc : SetCurrent fs4 opts.Config (Slugify opts.Name) with
                  | mk fs5 b5 =>
                    rw [hsc] at h5
                    simp only at h5
                    cases b5 <;> exact h5.trans (h4.trans (h3.trans (h2.trans h1)))

/-- Whatever `Restore` returns, a path that is neither below the storage directory, nor
the path of an extra file of the scope, nor at or below the managed directory holds
after the call what it held before. -/
theorem Restore_frame (env : Env) (opts : RestoreOptions) (fs : FS) (q : Path)
    (hS : ¬ opts.Config.StorageDir <+: q)
    (hx : ∀ ef ∈ opts.Config.Scope.ExtraFiles, q ≠ ef.Path)
    (hd : ¬ opts.Config.Scope.DotClaudeDir <+: q) :
    fileAt (Restore env opts fs).1 q = fileAt fs q := by
  have hB : ¬ opts.Config.BackupsDir <+: q := by
    intro h
    apply hS
    exact (List.prefix_append _ _).trans h
  have hcurr : q ≠ opts.Config.CurrentFile :=
    fun e => hS (e ▸ current_under_storage opts.Config)
  have hdest : ∀ (files : List FileEntry), ∀ e ∈ files,
      restoreDest opts.Config.Scope e ≠ some q := by
    intro files e _ he
    rcases restoreDest_cases he with ⟨ef, hef, h⟩ | h
    · exact hx ef hef h.symm
    · exact hd (h ▸ List.prefix_append _ _)
  exact Restore_frame_steps env opts fs q
    (fun g => AutoSaveCurrent_frame env g opts.Config (Slugify opts.Name) hS)
    (fun g => createBackup_frame env g opts.Config opts.Config.Scope q hB)
    (fun g => ClearManagedFiles_frame g opts.Config q hx hd)
    (fun files g n => restoreCopy_frame _ _ files g n q (hdest files))
    (fun g => SetCurrent_fileAt_ne g opts.Config (Slugify opts.Name) hcurr)

/-- The entries of a manifest written by `Save` have clean relative paths, when the
paths of the file system and the base names of the extra files are proper names and the
storage directory lies apart from the managed directory. -/
theorem Save_entries_clean {env : Env} {opts : SaveOptions} {fs fs' : FS} {sr : SaveResult}
    (hdry : opts.DryRun = false) (hsep : Separated opts.Config) (hfs : ProperNames fs)
    (hext : ∀ ef ∈ opts.Config.Scope.ExtraFiles, properName (baseName ef.Path))
    (h : Save env opts fs = (fs', .ok sr)) :
    ∃ man : Manifest,
      ReadManifest fs' (opts.Config.ContextsDir ++ [Slugify opts.Name]) = some man ∧
      ∀ e ∈ man.Files, CleanRel e.RelPath := by
  obtain ⟨_, _, fs2, fs3, fs4, fs5, files1, files, total1, total, hmk, hx, hw, hwm, hsc, hsr⟩ :=
    Save_ok_inv hdry h
  have hst := storage_prefix_context opts.Config (Slugify opts.Name)
  have hroot : ∀ q t, opts.Config.ContextsDir ++ [Slugify opts.Name] <+: t → q <+: t →
      ¬ opts.Config.Scope.DotClaudeDir <+: q := by
    intro q t ht hq hd
    exact (managed_apart hsep (List.prefix_refl _) (hst.trans ht)).2 (hd.trans hq)
  have hu1 : (if opts.Overwrite = true then
        RemoveAll fs (opts.Config.ContextsDir ++ [Slugify opts.Name])
      else fs).filter (fun e => opts.Config.Scope.DotClaudeDir.isPrefixOf e.1) =
      fs.filter (fun e => opts.Config.Scope.DotClaudeDir.isPrefixOf e.1) := by
    split
    · apply under_RemoveAll
      intro q hq hc
      exact (managed_apart hsep hq hst).1 (hst.trans hc)
    · rfl
  have hu2 := @under_mkdirAll opts.Config.Scope.DotClaudeDir _ _ _
    (fun q hq => hroot q _ (List.prefix_refl _) hq) hmk
  have hu3 := @under_saveExtraFiles opts.Config.Scope.DotClaudeDir env
    (opts.Config.ContextsDir ++ [Slugify opts.Name]) hroot opts.Config.Scope.ExtraFiles fs2 [] 0
  rw [hx] at hu3
  simp only at hu3
  have hu : fs3.filter (fun e => opts.Config.Scope.DotClaudeDir.isPrefixOf e.1) =
      fs.filter (fun e => opts.Config.Scope.DotClaudeDir.isPrefixOf e.1) := by
    rw [hu3, hu2, hu1]
  have hwalk := WalkFiltered_congr opts.Config.IncludePatterns opts.Config.ExcludePatterns hu
  rw [hwalk] at hw
  have hc1 := saveExtraFiles_clean env _ _ _ _ _ _ _ _ hext hx (by simp)
  have hwp : ∀ w ∈ (if (stat fs3 opts.Config.Scope.DotClaudeDir).isSome = true then
        WalkFiltered fs opts.Config.Scope.DotClaudeDir opts.Config.IncludePatterns
          opts.Config.ExcludePatterns
       else []), ∀ s ∈ w.Rel, properName s := by
    split
    · exact WalkFiltered_proper hfs _ _ _
    · simp
  have hc2 := saveWalked_clean env _ _ _ _ _ _ _ _ hwp hw hc1
  refine ⟨saveManifest env opts fs4 files total, ?_, hc2⟩
  have hfs5 : fs5 = (WriteManifest fs4 (opts.Config.ContextsDir ++ [Slugify opts.Name])
      (saveManifest env opts fs4 files total)).1 := by rw [hwm]
  have hwok : (WriteManifest fs4 (opts.Config.ContextsDir ++ [Slugify opts.Name])
      (saveManifest env opts fs4 files total)).2 = true := by rw [hwm]
  have hfs' : fs' = (SetCurrent fs5 opts.Config (Slugify opts.Name)).1 := by rw [hsc]
  have hm : fileAt fs' (manifestPath (opts.Config.ContextsDir ++ [Slugify opts.Name])) =
      some (.manifest (saveManifest env opts fs4 files total), 0o600) := by
    rw [hfs', SetCurrent_fileAt_ne _ _ _
      (current_ne_under_context _ _ (manifestPath_under _)), hfs5, WriteManifest_fileAt]
    simp [hwok]
  exact ReadManifest_of_fileAt hm

/-! ### The pointer and the backups across the first steps of `Restore` (C21, C22) -/

theorem SetCurrent_stat_cases (fs : FS) (cfg : Config) (name : String) {q : Path}
    (hq : ¬ q <+: cfg.StorageDir) :
    stat (SetCurrent fs cfg name).1 q = stat fs q ∨
      (q = cfg.CurrentFile ∧
        ∃ mode, stat (SetCurrent fs cfg name).1 q = some (.file (.raw (name ++ "\n")) mode)) := by
  cases hm : mkdirAll fs cfg.StorageDir with
  | none => left; simp [SetCurrent, hm]
  | some fs1 =>
    have h1 : stat fs1 q = stat fs q := by
      rcases stat_mkdirAll hm q with h | ⟨_, _, h⟩
      · exact h
      · exact absurd h hq
    by_cases hcf : q = cfg.CurrentFile
    · cases hd : stat fs1 cfg.CurrentFile with
      | none =>
        right
        exact ⟨hcf, 0o644, by simp [SetCurrent, hm, hd, stat_put, hcf]⟩
      | some k =>
        cases k with
        | dir => left; simp [SetCurrent, hm, hd, h1]
        | file c m =>
          right
          exact ⟨hcf, m, by simp [SetCurrent, hm, hd, stat_put, hcf]⟩
    · left
      cases hd : stat fs1 cfg.CurrentFile with
      | none => simp [SetCurrent, hm, hd, stat_put, hcf, h1]
      | some k => cases k <;> simp [SetCurrent, hm, hd, stat_put, hcf, h1]

/-- Whatever its outcome, `Save` changes a node that is neither in nor above its
snapshot directory only at the current pointer, which then names the slug. -/
theorem Save_stat_incomparable (env : Env) (opts : SaveOptions) (fs : FS) {q : Path}
    (hq : ¬ (opts.Config.ContextsDir ++ [Slugify opts.Name]) <+: q)
    (hq' : ¬ q <+: (opts.Config.ContextsDir ++ [Slugify opts.Name])) :
    stat (Save env opts fs).1 q = stat fs q ∨
      (q = opts.Config.CurrentFile ∧
        ∃ mode, stat (Save env opts fs).1 q =
          some (.file (.raw (Slugify opts.Name ++ "\n")) mode)) := by
  have hst : (opts.Config.ContextsDir ++ [Slugify opts.Name]) <+:
      (opts.Config.ContextsDir ++ [Slugify opts.Name]) := List.prefix_refl _
  have hqs : ¬ q <+: opts.Config.StorageDir :=
    fun h => hq' (h.trans (storage_prefix_context _ _))
  unfold Save
  simp only
  by_cases h1 : Slugify opts.Name = ""
  · rw [if_pos h1]; exact Or.inl rfl
  rw [if_neg h1]
  by_cases h2 : ContextExists fs opts.Config.ContextsDir (Slugify opts.Name) = true ∧
      opts.Overwrite = false
  · rw [if_pos h2]; exact Or.inl rfl
  rw [if_neg h2]
  by_cases h3 : opts.DryRun = true
  · rw [if_pos h3]; exact Or.inl rfl
  rw [if_neg h3]
  have hf1 : stat (if opts.Overwrite = true then
      RemoveAll fs (opts.Config.ContextsDir ++ [Slugify opts.Name]) else fs) q = stat fs q := by
    split
    · simp [stat_RemoveAll, hq]
    · rfl
  cases hm : mkdirAll (if opts.Overwrite = true then
      RemoveAll fs (opts.Config.ContextsDir ++ [Slugify opts.Name]) else fs)
      (opts.Config.ContextsDir ++ [Slugify opts.Name]) with
  | none => exact Or.inl hf1
  | some fs2 =>
    simp only
    have hf2 : stat fs2 q = stat fs q := by rw [mkdirAll_stat_apart hm hst hq hq', hf1]
    have hf3 := saveExtraFiles_stat_apart env hst hq hq' opts.Config.Scope.ExtraFiles fs2 [] 0
    cases hx : saveExtraFiles env (opts.Config.ContextsDir ++ [Slugify opts.Name])
        opts.Config.Scope.ExtraFiles fs2 [] 0 with
    | mk fs3 r =>
      rw [hx] at hf3
      cases r with
      | error e => simp only; left; rw [hf3, hf2]
      | ok v =>
        obtain ⟨files1, total1⟩ := v
        simp only
        have hf4 := saveWalked_stat_apart env hst hq hq'
          (if (stat fs3 opts.Config.Scope.DotClaudeDir).isSome = true then
            WalkFiltered fs3 opts.Config.Scope.DotClaudeDir opts.Config.IncludePatterns
              opts.Config.ExcludePatterns
           else []) fs3 files1 total1
        cases hw : saveWalked env (opts.Config.ContextsDir ++ [Slugify opts.Name])
            (if (stat fs3 opts.Config.Scope.DotClaudeDir).isSome = true then
              WalkFiltered fs3 opts.Config.Scope.DotClaudeDir opts.Config.IncludePatterns
                opts.Config.ExcludePatterns
             else []) fs3 files1 total1 with
        | mk fs4 r =>
          rw [hw] at hf4
          cases r with
          | error e => simp only; left; rw [hf4, hf3, hf2]
          | ok v =>
            obtain ⟨files, total⟩ := v
            simp only
            have hf5 := WriteManifest_stat_apart fs4 (saveManifest env opts fs4 files total)
              hst hq hq'
            cases hwm : WriteManifest fs4 (opts.Config.ContextsDir ++ [Slugify opts.Name])
                (saveManifest env opts fs4 files total) with
            | mk fs5 b =>
              rw [hwm] at hf5
              cases b with
              | false => simp only; left; rw [hf5, hf4, hf3, hf2]
              | true =>
                simp only
                have hf6 := SetCurrent_stat_cases fs5 opts.Config (Slugify opts.Name) hqs
                cases hsc : SetCurrent fs5 opts.Config (Slugify opts.Name) with
                | mk fs6 b =>
                  rw [hsc] at hf6
                  simp only at hf6
                  have : stat fs6 q = stat fs q ∨ (q = opts.Config.CurrentFile ∧
                      ∃ mode, stat fs6 q =
                        some (.file (.raw (Slugify opts.Name ++ "\n")) mode)) := by
                    rcases hf6 with h | h
                    · left; rw [h, hf5, hf4, hf3, hf2]
                    · exact Or.inr h
                  cases b <;> exact this

/-- Whatever its outcome, `createBackup` changes no node that is neither in nor above
the backup directory of its clock reading. -/
theorem createBackup_stat_dir (env : Env) (fs : FS) (cfg : Config) (scope : Scope) {q : Path}
    (hq : ¬ (cfg.BackupsDir ++ [backupName env.now]) <+: q)
    (hq' : ¬ q <+: (cfg.BackupsDir ++ [backupName env.now])) :
    stat (createBackup env fs cfg scope).1 q = stat fs q := by
  have hst : (cfg.BackupsDir ++ [backupName env.now]) <+:
      (cfg.BackupsDir ++ [backupName env.now]) := List.prefix_refl _
  unfold createBackup
  simp only
  cases hm : mkdirAll fs (cfg.BackupsDir ++ [backupName env.now]) with
  | none => rfl
  | some fs1 =>
    simp only
    have h1 := mkdirAll_stat_apart hm hst hq hq'
    have h2 := backupExtraFiles_stat_apart hst hq hq' scope.ExtraFiles fs1
    cases hb : backupExtraFiles (cfg.BackupsDir ++ [backupName env.now]) scope.ExtraFiles fs1 with
    | mk fs2 b =>
      rw [hb] at h2
      cases b with
      | false => simp only; rw [h2, h1]
      | true =>
        simp only
        split
        · simp only
          rw [backupWalked_stat_apart hst hq hq', h2, h1]
        · simp only; rw [h2, h1]

theorem underFile_step (fs : FS) (pre : Path) (s t : String) (rest : Path) :
    underFile fs pre (s :: t :: rest) =
      ((fileAt fs (pre ++ [s])).isSome || underFile fs (pre ++ [s]) (t :: rest)) := by
  unfold fileAt
  cases h : stat fs (pre ++ [s]) with
  | none => simp [underFile, h]
  | some k => cases k <;> simp [underFile, h]

theorem underFile_congr {fs fs' : FS} :
    ∀ (l pre : Path),
      (∀ p, p <+: pre ++ l → p ≠ pre ++ l → fileAt fs' p = fileAt fs p) →
      underFile fs' pre l = underFile fs pre l := by
  intro l
  induction l with
  | nil => intro pre _; rfl
  | cons s l ih =>
    intro pre h
    cases l with
    | nil => rfl
    | cons t rest =>
      have hp : fileAt fs' (pre ++ [s]) = fileAt fs (pre ++ [s]) := by
        apply h
        · rw [show pre ++ s :: t :: rest = (pre ++ [s]) ++ t :: rest by simp]
          exact List.prefix_append _ _
        · intro e
          have := congrArg List.length e
          simp at this
      have hrec := ih (pre ++ [s]) (by
        intro p hp1 hp2
        apply h p
        · simpa using hp1
        · simpa using hp2)
      rw [underFile_step, underFile_step, hp, hrec]

theorem GetCurrent_congr (env : Env) {fs fs' : FS} {cfg : Config}
    (hstat : stat fs' cfg.CurrentFile = stat fs cfg.CurrentFile)
    (hfile : ∀ p, p <+: cfg.CurrentFile → p ≠ cfg.CurrentFile → fileAt fs' p = fileAt fs p) :
    GetCurrent env fs' cfg = GetCurrent env fs cfg := by
  unfold GetCurrent
  rw [hstat, underFile_congr cfg.CurrentFile [] (by simpa using hfile)]

theorem current_incomparable_backup (cfg : Config) (name : String) :
    ¬ (cfg.BackupsDir ++ [name]) <+: cfg.CurrentFile ∧
      ¬ cfg.CurrentFile <+: (cfg.BackupsDir ++ [name]) := by
  simp only [Config.BackupsDir, Config.CurrentFile, List.append_assoc, List.singleton_append]
  constructor
  · intro h
    rw [List.prefix_append_right_inj] at h
    have := (List.cons_prefix_cons.mp h).1
    revert this; decide
  · intro h
    rw [List.prefix_append_right_inj] at h
    have := (List.cons_prefix_cons.mp h).1
    revert this; decide

theorem current_incomparable_context (cfg : Config) (slug : String) :
    ¬ (cfg.ContextsDir ++ [slug]) <+: cfg.CurrentFile ∧
      ¬ cfg.CurrentFile <+: (cfg.ContextsDir ++ [slug]) := by
  simp only [Config.ContextsDir, Config.CurrentFile, List.append_assoc, List.singleton_append]
  constructor
  · intro h
    rw [List.prefix_append_right_inj] at h
    have := (List.cons_prefix_cons.mp h).1
    revert this; decide
  · intro h
    rw [List.prefix_append_right_inj] at h
    have := (List.cons_prefix_cons.mp h).1
    revert this; decide

/-- The backup step leaves the current pointer as it reads. -/
theorem createBackup_GetCurrent (env : Env) (fs : FS) (cfg : Config) (scope : Scope) :
    GetCurrent env (createBackup env fs cfg scope).1 cfg = GetCurrent env fs cfg := by
  apply GetCurrent_congr
  · exact createBackup_stat_dir env fs cfg scope (current_incomparable_backup cfg _).1
      (current_incomparable_backup cfg _).2
  · intro p hp hne
    apply createBackup_frame
    intro hb
    have := hb.trans hp
    simp only [Config.BackupsDir, Config.CurrentFile] at this
    rw [List.prefix_append_right_inj] at this
    have := (List.cons_prefix_cons.mp this).1
    revert this; decide

/-- The auto-save leaves the current pointer as it reads, when the pointer holds a slug. -/
theorem AutoSaveCurrent_GetCurrent (env : Env) (fs : FS) (cfg : Config) (slug : String)
    (hslug : ∀ c, GetCurrent env fs cfg = .name c → Slugify c = c) :
    GetCurrent env (AutoSaveCurrent env fs cfg slug).1 cfg = GetCurrent env fs cfg := by
  cases hg : GetCurrent env fs cfg with
  | panic => simp only [AutoSaveCurrent, hg]
  | error => simp only [AutoSaveCurrent, hg]
  | name c =>
    by_cases hc : c = "" ∨ c = slug
    · simp only [AutoSaveCurrent, hg, if_pos hc]
    by_cases hex : ContextExists fs cfg.ContextsDir c = false
    · simp only [AutoSaveCurrent, hg, if_neg hc, if_pos hex]
    simp only [AutoSaveCurrent, hg, if_neg hc, if_neg hex]
    have hc0 : c ≠ "" := fun e => hc (Or.inl e)
    have hsl := hslug c hg
    have hinc := current_incomparable_context cfg (Slugify c)
    rcases Save_stat_incomparable env
        { Name := c, Description := "", Overwrite := true, DryRun := false, Config := cfg } fs
        hinc.1 hinc.2 with h | ⟨_, mode, h⟩
    · -- the pointer file is as before, and it is a file
      have hg' := hg
      unfold GetCurrent at hg' ⊢
      rw [h]
      cases hs : stat fs cfg.CurrentFile with
      | none =>
        rw [hs] at hg'
        simp only at hg'
        split at hg'
        · cases hg'
        · simp only [CurrentResult.name.injEq] at hg'
          exact absurd hg'.symm hc0
      | some k =>
        rw [hs] at hg'
        cases k with
        | dir => exact hg'
        | file c' m' => exact hg'
    · have hf : fileAt (Save env
          { Name := c, Description := "", Overwrite := true, DryRun := false, Config := cfg }
          fs).1 cfg.CurrentFile = some (.raw (Slugify c ++ "\n"), mode) := by
        simp only at h
        simp [fileAt, h]
      rw [GetCurrent_of_fileAt env hf, hsl]

/-! ### Backup failure and `--force` (C21) -/

/-- C21, counterexample.  The current pointer was edited to hold `My Ctx`, which is not
a slug, a snapshot directory of that name was made by hand, and a regular file stands
in the place of `backups`.  `Restore("ctx-b")` without `--force` fails in the backup
step, and the pointer, which read `My Ctx` before, reads `my-ctx` afterwards: the
auto-save ran first and wrote the slug. -/
theorem Restore_backup_failure_moves_pointer :
    GetCurrent demoEnv forgedFS demoCfg = .name "My Ctx" ∧
    (Restore demoEnv (restoreOpts demoCfg "ctx-b") forgedFS).2 = .error .backup ∧
    GetCurrent demoEnv (Restore demoEnv (restoreOpts demoCfg "ctx-b") forgedFS).1 demoCfg =
      .name "my-ctx" := by
  decide

/-- C21 (amended).  Let a `Restore` that is not a dry run pass the manifest and scope
checks, let the auto-save return without a panic, and let the backup step fail, under a
configuration whose storage lies apart from the live files and a current pointer that
holds a slug.  Without `--force`, `Restore` returns the backup error in the state the
backup step left, in which every extra file and every path at or below the managed
directory holds what it held before the call, and the current pointer reads as before.
With `--force`, `Restore` goes on with the clear and replay steps: it returns the clear
error, the replay error or the pointer error when one of these steps fails, and
otherwise succeeds with the number of replayed files. -/
theorem Restore_backup_failure (env : Env) (opts : RestoreOptions) (fs fs1 fs2 : FS)
    (man : Manifest) (backupDir : Path)
    (hdry : opts.DryRun = false) (hsep : Separated opts.Config)
    (hslug : ∀ c, GetCurrent env fs opts.Config = .name c → Slugify c = c)
    (hread : ReadManifest fs (opts.Config.ContextsDir ++ [Slugify opts.Name]) = some man)
    (hscope : man.Scope = "" ∨ man.Scope = opts.Config.Scope.ScopeType)
    (hauto : AutoSaveCurrent env fs opts.Config (Slugify opts.Name) = (fs1, false))
    (hbackup : createBackup env fs1 opts.Config opts.Config.Scope = (fs2, backupDir, false)) :
    (opts.Force = false →
      Restore env opts fs = (fs2, .error .backup) ∧
      (∀ q, ((∃ ef ∈ opts.Config.Scope.ExtraFiles, ef.Path = q) ∨
          opts.Config.Scope.DotClaudeDir <+: q) → fileAt fs2 q = fileAt fs q) ∧
      GetCurrent env fs2 opts.Config = GetCurrent env fs opts.Config) ∧
    (opts.Force = true →
      (Restore env opts fs).2 ≠ .error .backup ∧
      (∀ fs3, ClearManagedFiles fs2 opts.Config = (fs3, false) →
        Restore env opts fs = (fs3, .error .clear)) ∧
      (∀ fs3 fs4 relPath, ClearManagedFiles fs2 opts.Config = (fs3, true) →
        restoreCopy (opts.Config.ContextsDir ++ [Slugify opts.Name]) opts.Config.Scope
          man.Files fs3 0 = (fs4, .error relPath) →
        Restore env opts fs = (fs4, .error (.restoreEntry relPath))) ∧
      (∀ fs3 fs4 fs5 restored ok, ClearManagedFiles fs2 opts.Config = (fs3, true) →
        restoreCopy (opts.Config.ContextsDir ++ [Slugify opts.Name]) opts.Config.Scope
          man.Files fs3 0 = (fs4, .ok restored) →
        SetCurrent fs4 opts.Config (Slugify opts.Name) = (fs5, ok) →
        Restore env opts fs =
          (fs5, if ok = true then
            .ok { Name := Slugify opts.Name, FilesRestored := restored,
                  BackupDir := backupDir }
          else .error .setCurrent))) := by
  have hsc : ¬ (man.Scope ≠ "" ∧ man.Scope ≠ opts.Config.Scope.ScopeType) := by
    rintro ⟨h1, h2⟩
    rcases hscope with h | h
    · exact h1 h
    · exact h2 h
  have hnd : ¬ (opts.DryRun = true) := by simp [hdry]
  constructor
  · intro hforce
    refine ⟨?_, ?_, ?_⟩
    · unfold Restore
      simp only [hread, if_neg hsc, if_neg hnd, hauto, hbackup, hforce, and_self, if_true]
    · intro q hq
      have hS : ¬ opts.Config.StorageDir <+: q := by
        rcases hq with ⟨ef, hef, rfl⟩ | hq
        · exact hsep.2.2 ef hef
        · exact (managed_apart hsep hq (List.prefix_refl _)).1
      have hB : ¬ opts.Config.BackupsDir <+: q :=
        fun h => hS ((List.prefix_append _ _).trans h)
      have h1 := AutoSaveCurrent_frame env fs opts.Config (Slugify opts.Name) hS
      have h2 := createBackup_frame env fs1 opts.Config opts.Config.Scope q hB
      rw [hauto] at h1
      rw [hbackup] at h2
      exact h2.trans h1
    · have h1 := AutoSaveCurrent_GetCurrent env fs opts.Config (Slugify opts.Name) hslug
      have h2 := createBackup_GetCurrent env fs1 opts.Config opts.Config.Scope
      rw [hauto] at h1
      rw [hbackup] at h2
      exact h2.trans h1
  · intro hforce
    refine ⟨?_, ?_, ?_, ?_⟩
    · unfold Restore
      simp only [hread, if_neg hsc, if_neg hnd, hauto, hbackup, hforce, Bool.true_eq_false, and_false, if_false]
      cases hc : ClearManagedFiles fs2 opts.Config with
      | mk fs3 b =>
        cases b with
        | false => simp
        | true =>
          simp only
          cases hr : restoreCopy (opts.Config.ContextsDir ++ [Slugify opts.Name])
              opts.Config.Scope man.Files fs3 0 with
          | mk fs4 r =>
            cases r with
            | error x => simp
            | ok n =>
              simp only
              cases hs : SetCurrent fs4 opts.Config (Slugify opts.Name) with
              | mk fs5 b5 => cases b5 <;> simp
    · intro fs3 hc
      unfold Restore
      simp only [hread, if_neg hsc, if_neg hnd, hauto, hbackup, hforce, Bool.true_eq_false, and_false, if_false, hc]
    · intro fs3 fs4 relPath hc hr
      unfold Restore
      simp only [hread, if_neg hsc, if_neg hnd, hauto, hbackup, hforce, Bool.true_eq_false, and_false, if_false, hc, hr]
    · intro fs3 fs4 fs5 restored ok hc hr hs
      unfold Restore
      simp only [hread, if_neg hsc, if_neg hnd, hauto, hbackup, hforce, Bool.true_eq_false, and_false, if_false, hc, hr, hs]
      cases ok <;> simp

/-- C21, witness: `ctx-a` is active, a regular file stands in the place of `backups`,
and `Restore("ctx-b")` runs without `--force`. -/
theorem Restore_backup_failure_witness :
    Restore demoEnv (restoreOpts demoCfg "ctx-b") noBackupFS =
      ((createBackup demoEnv (AutoSaveCurrent demoEnv noBackupFS demoCfg "ctx-b").1 demoCfg
        demoCfg.Scope).1, .error .backup) ∧
    fileAt (createBackup demoEnv (AutoSaveCurrent demoEnv noBackupFS demoCfg "ctx-b").1 demoCfg
        demoCfg.Scope).1 ["p", ".claude", "sub", "x"] = some (.raw "x2", 0o644) ∧
    GetCurrent demoEnv (createBackup demoEnv (AutoSaveCurrent demoEnv noBackupFS demoCfg
        "ctx-b").1 demoCfg demoCfg.Scope).1 demoCfg = .name "ctx-a" ∧
    (Restore demoEnv (restoreForceOpts demoCfg "ctx-b") noBackupFS).2 =
      .ok { Name := "ctx-b", FilesRestored := 3, BackupDir := [] } :=
  ⟨((Restore_backup_failure demoEnv (restoreOpts demoCfg "ctx-b") noBackupFS
      (AutoSaveCurrent demoEnv noBackupFS demoCfg "ctx-b").1
      (createBackup demoEnv (AutoSaveCurrent demoEnv noBackupFS demoCfg "ctx-b").1 demoCfg
        demoCfg.Scope).1
      ((ReadManifest noBackupFS (demoCfg.ContextsDir ++ ["ctx-b"])).getD
        { Name := "", Description := "", CreatedAt := 0, UpdatedAt := 0, Files := [],
          TotalSize := 0, Checksum := "", OAuthEmail := "", Scope := "" })
      [] rfl (by decide)
      (fun c h => by
        have h0 : GetCurrent demoEnv noBackupFS demoCfg = .name "ctx-a" := by decide
        have hc : c = "ctx-a" := (CurrentResult.name.inj (h0.symm.trans h)).symm
        subst hc
        decide)
      (by decide) (by decide) (by decide) (by decide)).1
      rfl).1,
    by decide, by decide, by decide⟩

/-! ### Backup directories (C22) -/

theorem digitChar_toNat : ∀ k, k < 10 → (Nat.digitChar k).toNat - 48 = k := by
  decide

theorem toDigitsCore_decode :
    ∀ (fuel n : Nat) (ds : List Char), n < fuel →
      (Nat.toDigitsCore 10 fuel n ds).foldl (fun acc c => acc * 10 + (c.toNat - 48)) 0 =
        ds.foldl (fun acc c => acc * 10 + (c.toNat - 48)) n := by
  intro fuel
  induction fuel with
  | zero => intro n ds h; omega
  | succ f ih =>
    intro n ds h
    have hd := digitChar_toNat (n % 10) (Nat.mod_lt _ (by decide))
    unfold Nat.toDigitsCore
    simp only
    split
    · rename_i h0
      have hn : n = n % 10 := by omega
      simp only [List.foldl_cons, Nat.zero_mul, Nat.zero_add, hd]
      rw [← hn]
    · rename_i h0
      rw [ih (n / 10) _ (by omega)]
      simp only [List.foldl_cons, hd]
      have : n / 10 * 10 + n % 10 = n := by omega
      rw [this]

theorem toDigits_injective {a b : Nat} (h : Nat.toDigits 10 a = Nat.toDigits 10 b) : a = b := by
  have ha := toDigitsCore_decode (a + 1) a [] (Nat.lt_succ_self _)
  have hb := toDigitsCore_decode (b + 1) b [] (Nat.lt_succ_self _)
  unfold Nat.toDigits at h
  rw [h, hb] at ha
  simpa using ha.symm

/-- Backup directories of different clock readings have different names. -/
theorem backupName_injective {a b : Nat} (h : backupName a = backupName b) : a = b := by
  unfold backupName at h
  have h1 := congrArg String.data h
  simp only [String.data_append] at h1
  exact toDigits_injective (List.append_cancel_left h1)

theorem other_backup_incomparable (cfg : Config) {t now : Nat} (ht : now ≠ t) {q : Path}
    (hq : (cfg.BackupsDir ++ [backupName t]) <+: q) :
    ¬ (cfg.BackupsDir ++ [backupName now]) <+: q ∧
      ¬ q <+: (cfg.BackupsDir ++ [backupName now]) := by
  have hn : backupName now ≠ backupName t := fun e => ht (backupName_injective e)
  obtain ⟨r, rfl⟩ := hq
  constructor
  · rw [List.append_assoc]
    exact not_prefix_sibling cfg.BackupsDir hn _
  · intro h
    rw [List.append_assoc, List.prefix_append_right_inj] at h
    exact hn (List.cons_prefix_cons.mp h).1.symm

/-- Whatever it returns, a `Restore` at a clock reading other than `t` leaves every file
below the backup directory of `t` as it is. -/
theorem Restore_frame_backup (env : Env) (opts : RestoreOptions) (fs : FS)
    (hsep : Separated opts.Config) {t : Nat} (ht : env.now ≠ t) {q : Path}
    (hq : (opts.Config.BackupsDir ++ [backupName t]) <+: q) :
    fileAt (Restore env opts fs).1 q = fileAt fs q := by
  have hB : opts.Config.BackupsDir <+: q := (List.prefix_append _ _).trans hq
  have hS : opts.Config.StorageDir <+: q := (List.prefix_append _ _).trans hB
  have hcur : q ≠ opts.Config.CurrentFile :=
    fun e => (current_incomparable_backup opts.Config (backupName t)).1 (e ▸ hq)
  have hx : ∀ ef ∈ opts.Config.Scope.ExtraFiles, q ≠ ef.Path :=
    fun ef hef e => hsep.2.2 ef hef (e ▸ hS)
  have hd : ¬ opts.Config.Scope.DotClaudeDir <+: q :=
    fun h => (managed_apart hsep h (List.prefix_refl _)).1 hS
  have hinc := other_backup_incomparable opts.Config ht hq
  apply Restore_frame_steps
  · intro g
    unfold AutoSaveCurrent
    split
    · rfl
    · rfl
    · split
      · rfl
      · split
        · rfl
        · apply Save_frame
          · intro h
            exact backups_not_contexts opts.Config ((List.prefix_append _ _).trans h) hB
          · exact hcur
  · intro g
    exact fileAt_eq_of_stat (createBackup_stat_dir env g opts.Config opts.Config.Scope
      hinc.1 hinc.2)
  · intro g
    exact ClearManagedFiles_frame g opts.Config q hx hd
  · intro files g n
    apply restoreCopy_frame
    intro e _ he
    rcases restoreDest_cases he with ⟨ef, hef, h⟩ | h
    · exact hx ef hef h.symm
    · exact hd (h ▸ List.prefix_append _ _)
  · intro g
    exact SetCurrent_fileAt_ne g opts.Config (Slugify opts.Name) hcur

/-- C22, counterexample.  With `ctx-a` active and `.claude/sub/x` edited,
`Restore("ctx-b")` and then `Restore("ctx-a")` run at the same clock reading.  The
backup directory `pre-switch-7` does not exist before the first call and exists before
the second; both calls succeed and report it as their backup directory; and the file the
first backup stored for `sub/x` is overwritten by the second. -/
theorem Restore_backup_overwritten :
    stat switchEditedFS ["p", ".claudectx", "backups", "pre-switch-7"] = none ∧
    (Restore demoEnv (restoreOpts demoCfg "ctx-b") switchEditedFS).2 =
      .ok { Name := "ctx-b", FilesRestored := 3,
            BackupDir := ["p", ".claudectx", "backups", "pre-switch-7"] } ∧
    stat (Restore demoEnv (restoreOpts demoCfg "ctx-b") switchEditedFS).1
      ["p", ".claudectx", "backups", "pre-switch-7"] = some .dir ∧
    fileAt (Restore demoEnv (restoreOpts demoCfg "ctx-b") switchEditedFS).1
      ["p", ".claudectx", "backups", "pre-switch-7", "dotclaude", "sub", "x"] =
      some (.raw "x2", 0o644) ∧
    (Restore demoEnv (restoreOpts demoCfg "ctx-a")
      (Restore demoEnv (restoreOpts demoCfg "ctx-b") switchEditedFS).1).2 =
      .ok { Name := "ctx-a", FilesRestored := 3,
            BackupDir := ["p", ".claudectx", "backups", "pre-switch-7"] } ∧
    fileAt (Restore demoEnv (restoreOpts demoCfg "ctx-a")
      (Restore demoEnv (restoreOpts demoCfg "ctx-b") switchEditedFS).1).1
      ["p", ".claudectx", "backups", "pre-switch-7", "dotclaude", "sub", "x"] =
      some (.raw "x", 0o644) := by
  decide

/-- C22 (amended).  Backups are kept apart by clock reading.  The backup step works in
the directory `pre-switch-<reading>` below the backups directory, or fails before it
made anything; directories of different readings differ.  Under a configuration whose
storage lies apart from the live files, every file below the backup directory of a
reading `t` is left as it is, neither made, overwritten nor removed, by a `Restore` that
runs at another reading, whatever it returns, and so by every run of `Restore` calls at
readings other than `t`. -/
theorem Restore_backups_apart (cfg : Config) (hsep : Separated cfg) (t : Nat) (q : Path)
    (hq : (cfg.BackupsDir ++ [backupName t]) <+: q) :
    (∀ (env : Env) (fs : FS) (scope : Scope),
      (createBackup env fs cfg scope).2.1 = cfg.BackupsDir ++ [backupName env.now] ∨
        createBackup env fs cfg scope = (fs, [], false)) ∧
    (∀ now : Nat, now ≠ t →
      cfg.BackupsDir ++ [backupName now] ≠ cfg.BackupsDir ++ [backupName t]) ∧
    (∀ (env : Env) (opts : RestoreOptions) (fs : FS), opts.Config = cfg → env.now ≠ t →
      fileAt (Restore env opts fs).1 q = fileAt fs q) ∧
    (∀ (calls : List (Env × RestoreOptions)) (fs : FS),
      (∀ call ∈ calls, call.2.Config = cfg ∧ call.1.now ≠ t) →
      fileAt (restoreAll calls fs) q = fileAt fs q) := by
  have hone : ∀ (env : Env) (opts : RestoreOptions) (fs : FS), opts.Config = cfg →
      env.now ≠ t → fileAt (Restore env opts fs).1 q = fileAt fs q := by
    intro env opts fs hc ht
    subst hc
    exact Restore_frame_backup env opts fs hsep ht hq
  refine ⟨?_, ?_, hone, ?_⟩
  · intro env fs scope
    unfold createBackup
    simp only
    cases hm : mkdirAll fs (cfg.BackupsDir ++ [backupName env.now]) with
    | none => right; rfl
    | some fs1 =>
      left
      simp only
      cases hb : backupExtraFiles (cfg.BackupsDir ++ [backupName env.now])
          scope.ExtraFiles fs1 with
      | mk fs2 b =>
        cases b with
        | false => rfl
        | true =>
          simp only
          split <;> rfl
  · intro now hnow e
    have := List.append_cancel_left e
    simp only [List.cons.injEq, and_true] at this
    exact hnow (backupName_injective this)
  · intro calls
    induction calls with
    | nil => intro fs _; rfl
    | cons call rest ih =>
      intro fs h
      have h1 := h call (List.mem_cons_self _ _)
      simp only [restoreAll]
      rw [ih _ (fun c hc => h c (List.mem_cons_of_mem _ hc))]
      exact hone call.1 call.2 fs h1.1 h1.2

/-- C22, witness: the backup of reading 7 across a `Restore("ctx-a")` at reading 8. -/
theorem Restore_backups_apart_witness :
    fileAt (Restore laterEnv (restoreOpts demoCfg "ctx-a")
      (Restore demoEnv (restoreOpts demoCfg "ctx-b") switchEditedFS).1).1
      ["p", ".claudectx", "backups", "pre-switch-7", "dotclaude", "sub", "x"] =
      some (.raw "x2", 0o644) ∧
    (Restore laterEnv (restoreOpts demoCfg "ctx-a")
      (Restore demoEnv (restoreOpts demoCfg "ctx-b") switchEditedFS).1).2 =
      .ok { Name := "ctx-a", FilesRestored := 3,
            BackupDir := ["p", ".claudectx", "backups", "pre-switch-8"] } :=
  ⟨((Restore_backups_apart demoCfg (by decide) 7
      ["p", ".claudectx", "backups", "pre-switch-7", "dotclaude", "sub", "x"]
      (by decide)).2.2.1 laterEnv (restoreOpts demoCfg "ctx-a")
      (Restore demoEnv (restoreOpts demoCfg "ctx-b") switchEditedFS).1 rfl
      (by decide)).trans (by decide),
    by decide⟩

/-! ### The order of the walk (C26) -/

theorem charsLe_total : ∀ (a b : List Char), charsLe a b = true ∨ charsLe b a = true := by
  intro a
  induction a with
  | nil => intro b; left; cases b <;> rfl
  | cons x xs ih =>
    intro b
    cases b with
    | nil => right; rfl
    | cons y ys =>
      simp only [charsLe]
      by_cases h1 : x.toNat < y.toNat
      · left; simp [h1]
      · by_cases h2 : y.toNat < x.toNat
        · right; simp [h2]
        · simp only [h1, h2, if_false]
          exact ih ys

theorem charsLe_trans : ∀ (a b c : List Char),
    charsLe a b = true → charsLe b c = true → charsLe a c = true := by
  intro a
  induction a with
  | nil => intro b c _ _; cases c <;> rfl
  | cons x xs ih =>
    intro b c hab hbc
    cases b with
    | nil => simp [charsLe] at hab
    | cons y ys =>
      cases c with
      | nil => simp [charsLe] at hbc
      | cons z zs =>
        simp only [charsLe] at hab hbc ⊢
        by_cases h1 : x.toNat < y.toNat
        · by_cases h2 : y.toNat < z.toNat
          · rw [if_pos (by omega)]
          · by_cases h3 : z.toNat < y.toNat
            · simp [h2, h3] at hbc
            · rw [if_pos (by omega)]
        · by_cases h1' : y.toNat < x.toNat
          · simp [h1, h1'] at hab
          · simp only [h1, h1', if_false] at hab
            by_cases h2 : y.toNat < z.toNat
            · rw [if_pos (by omega)]
            · by_cases h3 : z.toNat < y.toNat
              · simp [h2, h3] at hbc
              · simp only [h2, h3, if_false] at hbc
                rw [if_neg (by omega), if_neg (by omega)]
                exact ih ys zs hab hbc

theorem charsLe_antisymm : ∀ (a b : List Char),
    charsLe a b = true → charsLe b a = true → a = b := by
  intro a
  induction a with
  | nil =>
    intro b _ hba
    cases b with
    | nil => rfl
    | cons y ys => simp [charsLe] at hba
  | cons x xs ih =>
    intro b hab hba
    cases b with
    | nil => simp [charsLe] at hab
    | cons y ys =>
      simp only [charsLe] at hab hba
      by_cases h1 : x.toNat < y.toNat
      · have : ¬ y.toNat < x.toNat := by omega
        simp [h1, this] at hba
      · by_cases h2 : y.toNat < x.toNat
        · simp [h1, h2] at hab
        · simp only [h1, h2, if_false] at hab hba
          have hxy : x = y := by
            apply Char.ext
            apply UInt32.ext
            have : x.toNat = y.toNat := by omega
            exact this
          rw [hxy, ih ys hab hba]

theorem pathLe_total : ∀ (a b : Path), pathLe a b = true ∨ pathLe b a = true := by
  intro a
  induction a with
  | nil => intro b; left; cases b <;> rfl
  | cons x xs ih =>
    intro b
    cases b with
    | nil => right; rfl
    | cons y ys =>
      simp only [pathLe]
      by_cases h : x = y
      · subst h
        simp only [if_true]
        exact ih ys
      · have h' : ¬ y = x := fun e => h e.symm
        simp only [h, h', if_false]
        exact charsLe_total _ _

theorem pathLe_trans : ∀ (a b c : Path),
    pathLe a b = true → pathLe b c = true → pathLe a c = true := by
  intro a
  induction a with
  | nil => intro b c _ _; cases c <;> rfl
  | cons x xs ih =>
    intro b c hab hbc
    cases b with
    | nil => simp [pathLe] at hab
    | cons y ys =>
      cases c with
      | nil => simp [pathLe] at hbc
      | cons z zs =>
        simp only [pathLe] at hab hbc ⊢
        by_cases hxy : x = y
        · subst hxy
          simp only [if_true] at hab
          by_cases hxz : x = z
          · subst hxz
            simp only [if_true] at hbc ⊢
            exact ih ys zs hab hbc
          · simp only [hxz, if_false] at hbc ⊢
            exact hbc
        · simp only [hxy, if_false] at hab
          by_cases hyz : y = z
          · subst hyz
            simp only [hxy, if_false]
            exact hab
          · simp only [hyz, if_false] at hbc
            by_cases hxz : x = z
            · subst hxz
              exact absurd (String.ext (charsLe_antisymm _ _ hab hbc)) hxy
            · simp only [hxz, if_false]
              exact charsLe_trans _ _ _ hab hbc

/-- In walk order a path never comes after a path strictly below it. -/
theorem pathLe_of_under : ∀ (a b : Path), pathLe a b = true → b <+: a → a = b := by
  intro a
  induction a with
  | nil =>
    intro b _ h
    exact (List.prefix_nil.mp h).symm
  | cons x xs ih =>
    intro b hab h
    cases b with
    | nil => simp [pathLe] at hab
    | cons y ys =>
      have hh := List.cons_prefix_cons.mp h
      have hxy : x = y := hh.1.symm
      subst hxy
      simp only [pathLe, if_true] at hab
      rw [ih ys hab hh.2]

theorem insertByPath_sorted (e : Path × Node) :
    ∀ (l : List (Path × Node)), l.Pairwise (fun a b => pathLe a.1 b.1 = true) →
      (insertByPath e l).Pairwise (fun a b => pathLe a.1 b.1 = true) := by
  intro l
  induction l with
  | nil => intro _; simp [insertByPath]
  | cons x xs ih =>
    intro h
    have hx := List.pairwise_cons.mp h
    by_cases hle : pathLe e.1 x.1 = true
    · simp only [insertByPath, hle, if_true]
      refine List.pairwise_cons.mpr ⟨?_, h⟩
      intro b hb
      rcases List.mem_cons.mp hb with rfl | hb
      · exact hle
      · exact pathLe_trans _ _ _ hle (hx.1 b hb)
    · simp only [insertByPath, hle, if_false]
      refine List.pairwise_cons.mpr ⟨?_, ih hx.2⟩
      intro b hb
      rcases List.mem_cons.mp ((insertByPath_perm e xs).mem_iff.mp hb) with rfl | hb
      · rcases pathLe_total x.1 b.1 with h1 | h1
        · exact h1
        · exact absurd h1 hle
      · exact hx.1 b hb

theorem sortByPath_sorted :
    ∀ (l : List (Path × Node)), (sortByPath l).Pairwise (fun a b => pathLe a.1 b.1 = true) := by
  intro l
  induction l with
  | nil => simp [sortByPath]
  | cons e es ih =>
    simp only [sortByPath]
    exact insertByPath_sorted e _ ih

/-! ### Pruning of empty directories (C26) -/

theorem Remove_sub (fs : FS) (p : Path) : ∀ e ∈ (Remove fs p).1, e ∈ fs := by
  intro e he
  unfold Remove at he
  split at he
  · exact he
  · exact (List.mem_filter.mp he).1
  · split at he
    · exact he
    · exact (List.mem_filter.mp he).1

theorem Remove_stat_or (fs : FS) (p q : Path) :
    stat (Remove fs p).1 q = stat fs q ∨ stat (Remove fs p).1 q = none := by
  by_cases h : q = p
  · subst h
    unfold Remove
    split
    · left; rfl
    · right; simp [stat_erase]
    · split
      · left; rfl
      · right; simp [stat_erase]
  · left; exact Remove_stat_ne fs h

/-- Removing a directory below which the file system has no entry succeeds, and leaves no
entry of it. -/
theorem Remove_empty_dir (fs : FS) (x : Path)
    (hdir : stat fs x = some .dir ∨ stat fs x = none)
    (hsub : ∀ e ∈ fs, x <+: e.1 → e.1 = x) :
    stat (Remove fs x).1 x = none ∧ ∀ e ∈ (Remove fs x).1, e.1 ≠ x := by
  rcases hdir with hd | hn
  · have hany : fs.any (fun e => x.isPrefixOf e.1 && decide (e.1 ≠ x)) = false := by
      rw [List.any_eq_false]
      intro e he
      simp only [Bool.and_eq_true, List.isPrefixOf_iff_prefix, decide_eq_true_eq, not_and,
        not_not]
      exact hsub e he
    have hr : (Remove fs x).1 = erase fs x := by
      unfold Remove
      rw [hd]
      simp only [hany, Bool.false_eq_true, if_false]
    rw [hr]
    refine ⟨by simp [stat_erase], ?_⟩
    intro e he
    have := (List.mem_filter.mp he).2
    simpa using this
  · have hr : (Remove fs x).1 = fs := by
      unfold Remove
      rw [hn]
    rw [hr]
    refine ⟨hn, ?_⟩
    intro e he heq
    obtain ⟨k, hk⟩ := mem_stat (show (x, e.2) ∈ fs from heq ▸ he)
    rw [hn] at hk
    cases hk

/-- The removal loop removes every directory of its list below which there is no file,
when the list holds a directory after everything below it, and holds every path that
has an entry below such a directory. -/
theorem removeDirs_prunes :
    ∀ (L : List Path) (fs : FS),
      L.Pairwise (fun a b => ¬ (a <+: b ∧ a ≠ b)) →
      (∀ d ∈ L, stat fs d = some .dir ∨ stat fs d = none) →
      (∀ d ∈ L, (∀ q, d <+: q → fileAt fs q = none) →
        ∀ e ∈ fs, d <+: e.1 → e.1 ≠ d → e.1 ∈ L) →
      ∀ d ∈ L, (∀ q, d <+: q → fileAt fs q = none) → stat (removeDirs L fs) d = none := by
  intro L
  induction L with
  | nil => intro fs _ _ _ d hd; cases hd
  | cons x L ih =>
    intro fs hP hdir hcl d hd hempty
    have hPx := List.pairwise_cons.mp hP
    have hx := hdir x (List.mem_cons_self _ _)
    have hfx : fileAt fs x = none := by
      rcases hx with h | h <;> simp [fileAt, h]
    have hfile : ∀ q, fileAt (Remove fs x).1 q = fileAt fs q := Remove_fileAt_dir fs hfx
    -- an empty head is removed
    have hxrem : (∀ q, x <+: q → fileAt fs q = none) →
        stat (Remove fs x).1 x = none ∧ ∀ e ∈ (Remove fs x).1, e.1 ≠ x := by
      intro hxe
      apply Remove_empty_dir fs x hx
      intro e he hpre
      by_contra hne
      have hmem := hcl x (List.mem_cons_self _ _) hxe e he hpre hne
      rcases List.mem_cons.mp hmem with h | h
      · exact hne h
      · exact hPx.1 e.1 h ⟨hpre, fun e' => hne e'.symm⟩
    simp only [removeDirs]
    rcases List.mem_cons.mp hd with rfl | hdL
    · exact removeDirs_stat_none L _ (hxrem hempty).1
    · apply ih (Remove fs x).1 hPx.2
      · intro d' hd'
        rcases Remove_stat_or fs x d' with h | h
        · rw [h]; exact hdir d' (List.mem_cons_of_mem _ hd')
        · exact Or.inr h
      · intro d' hd' he' e he hpre hne
        have he'fs : ∀ q, d' <+: q → fileAt fs q = none := fun q hq => by
          rw [← hfile q]; exact he' q hq
        have hmem := hcl d' (List.mem_cons_of_mem _ hd') he'fs e (Remove_sub fs x e he) hpre hne
        rcases List.mem_cons.mp hmem with h | h
        · exfalso
          have hxe : ∀ q, x <+: q → fileAt fs q = none :=
            fun q hq => he'fs q ((h ▸ hpre).trans hq)
          exact (hxrem hxe).2 e he h
        · exact h
      · exact hdL
      · intro q hq
        rw [hfile q]; exact hempty q hq

theorem removeEmptyDirs_eq (fs : FS) (root : Path) :
    removeEmptyDirs fs root = removeDirs (walkDirs fs root).reverse fs := rfl

theorem mem_walkDirs {fs : FS} {root : Path} (hroot : stat fs root = some .dir) (d : Path) :
    d ∈ walkDirs fs root ↔ stat fs d = some .dir ∧ root <+: d ∧ d ≠ root := by
  unfold walkDirs
  simp only [List.mem_filterMap]
  constructor
  · rintro ⟨e, he, hed⟩
    rcases (mem_walk_dir hroot e).mp he with h | ⟨h1, h2, h3⟩
    · rw [h] at hed
      simp at hed
    · cases hn : e.2 with
      | file c m => simp [hn] at hed
      | dir =>
        simp only [hn, h3, if_false, Option.some.injEq] at hed
        subst hed
        rw [hn] at h1
        exact ⟨h1, h2, h3⟩
  · rintro ⟨h1, h2, h3⟩
    refine ⟨(d, .dir), (mem_walk_dir hroot _).mpr (Or.inr ⟨h1, h2, h3⟩), ?_⟩
    simp [h3]

theorem walkDirs_ordered (fs : FS) (root : Path) :
    (walkDirs fs root).Pairwise (fun a b => ¬ (b <+: a ∧ b ≠ a)) := by
  have hrel : ∀ a b : Path, pathLe a b = true → ¬ (b <+: a ∧ b ≠ a) :=
    fun a b h ⟨h1, h2⟩ => h2 (pathLe_of_under a b h h1).symm
  have hkey : ∀ (l : List (Path × Node)), l.Pairwise (fun a b => pathLe a.1 b.1 = true) →
      (l.filterMap (fun e =>
        match e.2 with
        | .dir => if e.1 = root then none else some e.1
        | .file _ _ => none)).Pairwise (fun a b => ¬ (b <+: a ∧ b ≠ a)) := by
    intro l hl
    refine List.Pairwise.filterMap _ ?_ hl
    intro a b hab x hx y hy
    have hxa : x = a.1 := by
      cases hn : a.2 with
      | file c m => simp [hn] at hx
      | dir =>
        simp only [hn, Option.mem_def] at hx
        split at hx
        · cases hx
        · exact (Option.some.inj hx).symm
    have hyb : y = b.1 := by
      cases hn : b.2 with
      | file c m => simp [hn] at hy
      | dir =>
        simp only [hn, Option.mem_def] at hy
        split at hy
        · cases hy
        · exact (Option.some.inj hy).symm
    rw [hxa, hyb]
    exact hrel _ _ hab
  unfold walkDirs walk
  cases hs : stat fs root with
  | none => simp
  | some n =>
    cases n with
    | file c m => simp
    | dir =>
      simp only [List.filterMap_cons, if_true]
      exact hkey _ (sortByPath_sorted _)

/-- C26. Empty-directory pruning: for a root that is a directory, after
`removeEmptyDirs(root)` the root is still a directory; every directory below the root
whose subtree held no file is gone, whether or not it ever held a managed file; every
directory that remains below the root has a file somewhere in its subtree; and no file
was removed. -/
theorem removeEmptyDirs_prunes (fs : FS) (root : Path) (hroot : stat fs root = some .dir) :
    stat (removeEmptyDirs fs root) root = some .dir ∧
    (∀ d, stat fs d = some .dir → root <+: d → d ≠ root →
      (∀ q, d <+: q → fileAt fs q = none) → stat (removeEmptyDirs fs root) d = none) ∧
    (∀ d, stat (removeEmptyDirs fs root) d = some .dir → root <+: d → d ≠ root →
      ∃ q, d <+: q ∧ q ≠ d ∧ (fileAt (removeEmptyDirs fs root) q).isSome = true) ∧
    (∀ q, fileAt (removeEmptyDirs fs root) q = fileAt fs q) := by
  have hprune : ∀ d, stat fs d = some .dir → root <+: d → d ≠ root →
      (∀ q, d <+: q → fileAt fs q = none) → stat (removeEmptyDirs fs root) d = none := by
    intro d hd hrd hne hempty
    rw [removeEmptyDirs_eq]
    apply removeDirs_prunes
    · rw [List.pairwise_reverse]
      exact walkDirs_ordered fs root
    · intro d' hd'
      rw [List.mem_reverse, mem_walkDirs hroot] at hd'
      exact Or.inl hd'.1
    · intro d' hd' he' e he hpre hne'
      rw [List.mem_reverse, mem_walkDirs hroot] at hd' ⊢
      obtain ⟨k, hk⟩ := mem_stat (show (e.1, e.2) ∈ fs from he)
      have hkd : k = .dir := by
        cases k with
        | dir => rfl
        | file c m =>
          have := he' e.1 hpre
          simp [fileAt, hk] at this
      subst hkd
      refine ⟨hk, hd'.2.1.trans hpre, ?_⟩
      intro heq
      have h1 := hd'.2.1.length_le
      have h2 := hpre.length_le
      rw [heq] at h2
      have hlen : d'.length = root.length := by omega
      exact hd'.2.2 (hd'.2.1.eq_of_length hlen.symm).symm
    · rw [List.mem_reverse, mem_walkDirs hroot]
      exact ⟨hd, hrd, hne⟩
    · exact hempty
  refine ⟨by rw [removeEmptyDirs_stat_root, hroot], hprune, ?_, removeEmptyDirs_fileAt fs root⟩
  intro d hd hrd hne
  have hd0 : stat fs d = some .dir := by
    by_contra hcon
    cases hs : stat fs d with
    | none =>
      rw [removeEmptyDirs_stat_none fs root hs] at hd
      cases hd
    | some k =>
      cases k with
      | dir => exact hcon hs
      | file c m =>
        have h1 : fileAt fs d = some (c, m) := by simp [fileAt, hs]
        have h2 := removeEmptyDirs_fileAt fs root d
        rw [h1] at h2
        simp [fileAt, hd] at h2
  by_contra hno
  have hempty : ∀ q, d <+: q → fileAt fs q = none := by
    intro q hq
    by_contra hsome
    apply hno
    have hqd : q ≠ d := by
      intro e
      rw [e] at hsome
      simp [fileAt, hd0] at hsome
    refine ⟨q, hq, hqd, ?_⟩
    rw [removeEmptyDirs_fileAt]
    exact Option.ne_none_iff_isSome.mp hsome
  rw [hprune d hd0 hrd hne hempty] at hd
  cases hd

/-- C26, witness: `empty` and `empty/deep` hold no file and are removed, child first;
`keep` holds a file and stays. -/
theorem removeEmptyDirs_prunes_witness :
    stat (removeEmptyDirs pruneFS ["p", ".claude"]) ["p", ".claude"] = some .dir ∧
    stat (removeEmptyDirs pruneFS ["p", ".claude"]) ["p", ".claude", "empty"] = none ∧
    stat (removeEmptyDirs pruneFS ["p", ".claude"]) ["p", ".claude", "empty", "deep"] = none ∧
    stat (removeEmptyDirs pruneFS ["p", ".claude"]) ["p", ".claude", "keep"] = some .dir ∧
    fileAt (removeEmptyDirs pruneFS ["p", ".claude"]) ["p", ".claude", "keep", "f"] =
      some (.raw "f", 0o644) :=
  ⟨(removeEmptyDirs_prunes pruneFS ["p", ".claude"] (by decide)).1,
    (removeEmptyDirs_prunes pruneFS ["p", ".claude"] (by decide)).2.1
      ["p", ".claude", "empty"] (by decide) (by decide) (by decide)
      (fun q hq => by
        cases hf : fileAt pruneFS q with
        | none => rfl
        | some x =>
          exfalso
          have hm := stat_mem (stat_of_fileAt hf)
          simp only [pruneFS, List.mem_cons, Prod.mk.injEq, List.mem_singleton, reduceCtorEq,
            and_false, false_or, List.not_mem_nil, or_false] at hm
          rw [hm.1] at hq
          revert hq
          decide),
    by decide, by decide, by decide⟩

/-! ### Deleting a snapshot (C16) -/

theorem filepathJoin_empty (dir : Path) : filepathJoin dir "" = dir := by
  simp [filepathJoin, splitSlash, joinClean]

/-- A slug that is not empty is a name a directory entry can have. -/
theorem Slugify_properName (name : String) (h : Slugify name ≠ "") :
    properName (Slugify name) := by
  obtain ⟨h1, _, _⟩ := Slugify_chars name
  have h4 : ∀ c ∈ (Slugify name).data, c ≠ '/' ∧ c ≠ '\\' ∧ c ≠ '.' :=
    fun c hc => (slugChar_facts c (h1 c hc)).2.2
  refine ⟨fun e => h (String.ext e), ?_, ?_, fun hm => (h4 '/' hm).1 rfl⟩
  · intro e
    exact (h4 '.' (by rw [e]; simp)).2.2 rfl
  · intro e
    exact (h4 '.' (by rw [e]; simp)).2.2 rfl

/-- Joining a proper name to a directory appends it. -/
theorem filepathJoin_proper (dir : Path) (name : String) (h : properName name) :
    filepathJoin dir name = dir ++ [name] := by
  obtain ⟨h1, h2, h3, h4⟩ := h
  have hsplit := splitSlash_of_no_slash name.data (fun c hc e => h4 (e ▸ hc))
  simp [filepathJoin, hsplit, joinClean, h1, h2, h3]

/-- C16 (counterexample). `DeleteContext` tests the snapshot directory, not the
manifest: for the directory `orphan`, which holds no manifest (`ContextExists` is
false), it returns no error and removes the directory with the file in it.  And for the
empty slug, which `Slugify` gives for `!!!`, the directory is the contexts directory
itself: no error, and the snapshot `work` is removed with everything else. -/
theorem DeleteContext_without_manifest :
    ContextExists listFS ["s", "contexts"] "orphan" = false ∧
    (DeleteContext listFS ["s", "contexts"] "orphan").2 = .ok ∧
    stat listFS ["s", "contexts", "orphan", "CLAUDE.md"] =
      some (.file (.raw "# stray") 0o644) ∧
    stat (DeleteContext listFS ["s", "contexts"] "orphan").1
      ["s", "contexts", "orphan", "CLAUDE.md"] = none ∧
    stat (DeleteContext listFS ["s", "contexts"] "orphan").1 ["s", "contexts", "orphan"] =
      none ∧
    Slugify "!!!" = "" ∧
    stat listFS ["s", "contexts", "manifest.json"] = none ∧
    (DeleteContext listFS ["s", "contexts"] (Slugify "!!!")).2 = .ok ∧
    stat (DeleteContext listFS ["s", "contexts"] (Slugify "!!!")).1
      ["s", "contexts", "work", "manifest.json"] = none ∧
    stat (DeleteContext listFS ["s", "contexts"] (Slugify "!!!")).1 ["s", "contexts"] =
      none := by
  decide

/-- C16 (amended). Delete: for every name, with `dir` the path
`filepath.Join(contextsDir, name)`, `DeleteContext` returns the not-found error exactly
when nothing exists at `dir` (and no regular file stands above it); whenever it returns
an error it changes nothing; whenever `dir` exists, in particular when its manifest can
be read, it returns no error; and when it returns no error the whole tree at `dir` is
gone and every other path is as before.  For a slug that is not empty `dir` is the
snapshot directory `contextsDir/slug`, and after a deletion without error
`ContextExists` is false and `ListContexts` does not return the slug.  For the empty
slug `dir` is the contexts directory itself. -/
theorem DeleteContext_spec (fs : FS) (contextsDir : Path) (name : String) :
    ((DeleteContext fs contextsDir name).2 = .notFound ↔
      stat fs (filepathJoin contextsDir name) = none ∧
        underFile fs [] (filepathJoin contextsDir name) = false) ∧
    ((DeleteContext fs contextsDir name).2 ≠ .ok → (DeleteContext fs contextsDir name).1 = fs) ∧
    ((stat fs (filepathJoin contextsDir name)).isSome = true →
      (DeleteContext fs contextsDir name).2 = .ok) ∧
    ((DeleteContext fs contextsDir name).2 = .ok →
      (∀ q, filepathJoin contextsDir name <+: q →
        stat (DeleteContext fs contextsDir name).1 q = none) ∧
      (∀ q, ¬ filepathJoin contextsDir name <+: q →
        stat (DeleteContext fs contextsDir name).1 q = stat fs q)) ∧
    ((∃ x, name = Slugify x) → name ≠ "" →
      filepathJoin contextsDir name = contextsDir ++ [name] ∧
      ((DeleteContext fs contextsDir name).2 = .ok →
        ContextExists (DeleteContext fs contextsDir name).1 contextsDir name = false ∧
        ∀ names, ListContexts (DeleteContext fs contextsDir name).1 contextsDir = some names →
          name ∉ names)) ∧
    (name = "" → filepathJoin contextsDir name = contextsDir) := by
  have hbase : ((DeleteContext fs contextsDir name).2 = .notFound ↔
      stat fs (filepathJoin contextsDir name) = none ∧
        underFile fs [] (filepathJoin contextsDir name) = false) ∧
    ((DeleteContext fs contextsDir name).2 ≠ .ok → (DeleteContext fs contextsDir name).1 = fs) ∧
    ((stat fs (filepathJoin contextsDir name)).isSome = true →
      (DeleteContext fs contextsDir name).2 = .ok) ∧
    ((DeleteContext fs contextsDir name).2 = .ok →
      (DeleteContext fs contextsDir name).1 = RemoveAll fs (filepathJoin contextsDir name)) := by
    cases hs : stat fs (filepathJoin contextsDir name) with
    | none =>
      by_cases hu : underFile fs [] (filepathJoin contextsDir name) = true
      · simp [DeleteContext, hs, hu]
      · simp [DeleteContext, hs, hu]
    | some k => simp [DeleteContext, hs]
  obtain ⟨h1, h2, h3, h4⟩ := hbase
  refine ⟨h1, h2, h3, ?_, ?_, ?_⟩
  · intro hok
    rw [h4 hok]
    constructor
    · intro q hq
      simp [stat_RemoveAll, hq]
    · intro q hq
      simp [stat_RemoveAll, hq]
  · rintro ⟨x, rfl⟩ hne
    have hj := filepathJoin_proper contextsDir _ (Slugify_properName x hne)
    refine ⟨hj, ?_⟩
    intro hok
    rw [h4 hok, hj]
    constructor
    · simp only [ContextExists, manifestPath, stat_RemoveAll]
      simp
    · intro names hl hn
      have := ListContexts_mem_dir hl hn
      simp [stat_RemoveAll] at this
  · rintro rfl
    exact filepathJoin_empty contextsDir

/-- C16, witness: the snapshot `work` and the missing name `gone`. -/
theorem DeleteContext_spec_witness :
    (DeleteContext listFS ["s", "contexts"] "work").2 = .ok ∧
    (DeleteContext listFS ["s", "contexts"] "gone").2 = .notFound ∧
    ContextExists (DeleteContext listFS ["s", "contexts"] "work").1 ["s", "contexts"] "work" =
      false :=
  ⟨(DeleteContext_spec listFS ["s", "contexts"] "work").2.2.1 (by decide),
   (DeleteContext_spec listFS ["s", "contexts"] "gone").1.mpr (by decide),
   (((DeleteContext_spec listFS ["s", "contexts"] "work").2.2.2.2.1
      ⟨"work", by decide⟩ (by decide)).2 (by decide)).1⟩

/-! ### The metadata after the switch (C27) -/

/-- Past its checks, a `Restore` that is not a dry run leaves a path as the auto-save
left it, whatever it returns, when every later step leaves the path alone. -/
theorem Restore_after_autosave (env : Env) (opts : RestoreOptions) (fs : FS) (q : Path)
    {man : Manifest} (hdry : opts.DryRun = false)
    (hm : ReadManifest fs (opts.Config.ContextsDir ++ [Slugify opts.Name]) = some man)
    (hscope : ¬ (man.Scope ≠ "" ∧ man.Scope ≠ opts.Config.Scope.ScopeType))
    (hB : ∀ g, fileAt (createBackup env g opts.Config opts.Config.Scope).1 q = fileAt g q)
    (hC : ∀ g, fileAt (ClearManagedFiles g opts.Config).1 q = fileAt g q)
    (hR : ∀ files g n, fileAt (restoreCopy (opts.Config.ContextsDir ++ [Slugify opts.Name])
      opts.Config.Scope files g n).1 q = fileAt g q)
    (hS : ∀ g, fileAt (SetCurrent g opts.Config (Slugify opts.Name)).1 q = fileAt g q) :
    fileAt (Restore env opts fs).1 q =
      fileAt (AutoSaveCurrent env fs opts.Config (Slugify opts.Name)).1 q := by
  unfold Restore
  simp only [hm]
  rw [if_neg hscope]
  simp only [hdry, Bool.false_eq_true, if_false]
  cases ha : AutoSaveCurrent env fs opts.Config (Slugify opts.Name) with
  | mk fs1 b =>
    cases b with
    | true => rfl
    | false =>
      simp only
      have h2 := hB fs1
      cases hb : createBackup env fs1 opts.Config opts.Config.Scope with
      | mk fs2 r =>
        obtain ⟨bd, ok⟩ := r
        rw [hb] at h2
        simp only at h2 ⊢
        split
        · exact h2
        have h3 := hC fs2
        cases hc : ClearManagedFiles fs2 opts.Config with
        | mk fs3 b3 =>
          rw [hc] at h3
          simp only at h3
          cases b3 with
          | false => exact h3.trans h2
          | true =>
            simp only
            have h4 := hR man.Files fs3 0
            cases hr : restoreCopy (opts.Config.ContextsDir ++ [Slugify opts.Name])
                opts.Config.Scope man.Files fs3 0 with
            | mk fs4 r4 =>
              rw [hr] at h4
              simp only at h4
              cases r4 with
              | error x => exact h4.trans (h3.trans h2)
              | ok k =>
                simp only
                have h5 := hS fs4
                cases hsc : SetCurrent fs4 opts.Config (Slugify opts.Name) with
                | mk fs5 b5 =>
                  rw [hsc] at h5
                  simp only at h5
                  cases b5 <;> exact h5.trans (h4.trans (h3.trans h2))

/-- With the storage root apart from the live locations, the steps of `Restore` after
the auto-save leave every path below the contexts directory alone. -/
theorem Restore_keeps_contexts (env : Env) (opts : RestoreOptions) (fs : FS) (q : Path)
    {man : Manifest} (hsep : Separated opts.Config) (hdry : opts.DryRun = false)
    (hm : ReadManifest fs (opts.Config.ContextsDir ++ [Slugify opts.Name]) = some man)
    (hscope : ¬ (man.Scope ≠ "" ∧ man.Scope ≠ opts.Config.Scope.ScopeType))
    (hq : opts.Config.ContextsDir <+: q) :
    fileAt (Restore env opts fs).1 q =
      fileAt (AutoSaveCurrent env fs opts.Config (Slugify opts.Name)).1 q := by
  have hst : opts.Config.StorageDir <+: q := by
    refine List.IsPrefix.trans ?_ hq
    simp only [Config.ContextsDir]
    exact List.prefix_append _ _
  have hback : ¬ opts.Config.BackupsDir <+: q := by
    intro h
    obtain ⟨r, hr⟩ := hq
    rw [← hr] at h
    simp only [Config.BackupsDir, Config.ContextsDir, List.append_assoc,
      List.singleton_append] at h
    exact not_prefix_sibling opts.Config.StorageDir (by decide) _ h
  have hcurr : q ≠ opts.Config.CurrentFile := by
    intro e
    have hlen := hq.length_le
    rw [e] at hq
    obtain ⟨r, hr⟩ := hq
    have := congrArg List.length hr
    simp only [Config.ContextsDir, Config.CurrentFile, List.length_append,
      List.length_singleton] at this
    have hr0 : r = [] := List.length_eq_zero.mp (by omega)
    subst hr0
    simp only [Config.ContextsDir, Config.CurrentFile, List.append_nil] at hr
    have := List.append_inj_right hr rfl
    simp at this
  have hx : ∀ ef ∈ opts.Config.Scope.ExtraFiles, q ≠ ef.Path :=
    fun ef hef e => hsep.2.2 ef hef (e ▸ hst)
  have hd : ¬ opts.Config.Scope.DotClaudeDir <+: q :=
    fun h => (managed_apart hsep h hst).2 (List.prefix_refl _)
  have hdest : ∀ (files : List FileEntry), ∀ e ∈ files,
      restoreDest opts.Config.Scope e ≠ some q := by
    intro files e _ he
    rcases restoreDest_cases he with ⟨ef, hef, h⟩ | h
    · exact hx ef hef h.symm
    · exact hd (h ▸ List.prefix_append _ _)
  exact Restore_after_autosave env opts fs q hdry hm hscope
    (fun g => createBackup_frame env g opts.Config opts.Config.Scope q hback)
    (fun g => ClearManagedFiles_frame g opts.Config q hx hd)
    (fun files g n => restoreCopy_frame _ _ files g n q (hdest files))
    (fun g => SetCurrent_fileAt_ne g opts.Config (Slugify opts.Name) hcurr)

/-- The default `create` leaves the manifest of another snapshot as the auto-save left
it, whatever it returns, dry run or not. -/
theorem doCreateFromCurrent_keeps (env : Env) (cfg : Config) (name description : String)
    (dryRun : Bool) (fs : FS) {a : String} (hne : a ≠ Slugify name) :
    fileAt (doCreateFromCurrent env cfg name description dryRun fs).1
        (manifestPath (cfg.ContextsDir ++ [a])) =
      fileAt (AutoSaveCurrent env fs cfg (Slugify name)).1
        (manifestPath (cfg.ContextsDir ++ [a])) := by
  have hfr := fun g => Save_frame env
    { Name := name, Description := description, Overwrite := false, DryRun := dryRun,
      Config := cfg } g
    (manifestPath (cfg.ContextsDir ++ [a]))
    (by
      simp only [manifestPath, List.append_assoc, List.singleton_append]
      exact not_prefix_sibling cfg.ContextsDir (fun e => hne e.symm) _)
    (current_ne_under_context cfg a (manifestPath_under _))
  unfold doCreateFromCurrent
  cases ha : AutoSaveCurrent env fs cfg (Slugify name) with
  | mk fs1 b =>
    cases b with
    | true => rfl
    | false =>
      simp only
      have h1 := hfr fs1
      cases hsv : Save env
        { Name := name, Description := description, Overwrite := false, DryRun := dryRun,
          Config := cfg } fs1 with
      | mk fs2 r =>
        rw [hsv] at h1
        simp only at h1
        cases r with
        | error e => exact h1
        | ok sr =>
          simp only
          split
          · simp only [fileAt]
            rw [ensureGitignore_stat_ne env fs2 cfg.Scope dryRun
              (manifestPath_ne_gitignore _ _)]
            exact h1
          · exact h1

/-- C27 (counterexample). With the storage root inside the managed directory and the
snapshot `a` active, `Restore("b")` succeeds; the auto-save rewrites the manifest of
`a`, and the clearing of the managed directory then removes it: afterwards `a` has no
manifest at all. -/
theorem autosave_manifest_cleared :
    GetCurrent demoEnv nestedFS nestedCfg = .name "a" ∧
    (ReadManifest nestedFS (nestedCfg.ContextsDir ++ ["a"])).map
        (fun m => (m.Description, m.CreatedAt, m.UpdatedAt)) = some ("work", 3, 3) ∧
    (Restore demoEnv (restoreOpts nestedCfg "b") nestedFS).2 =
      .ok { Name := "b", FilesRestored := 0,
            BackupDir := ["p", ".claude", "store", "backups", "pre-switch-7"] } ∧
    (ReadManifest (AutoSaveCurrent demoEnv nestedFS nestedCfg "b").1
        (nestedCfg.ContextsDir ++ ["a"])).map
        (fun m => (m.Description, m.CreatedAt, m.UpdatedAt)) = some ("", 7, 7) ∧
    ReadManifest (Restore demoEnv (restoreOpts nestedCfg "b") nestedFS).1
      (nestedCfg.ContextsDir ++ ["a"]) = none ∧
    stat (Restore demoEnv (restoreOpts nestedCfg "b") nestedFS).1
      (nestedCfg.ContextsDir ++ ["a"]) = none := by
  decide

/-- C27 (amended). Auto-save resets the metadata of the outgoing snapshot.  Every
manifest a successful `Save` writes, on overwrite too, has `CreatedAt` = `UpdatedAt` =
the time of the save and the description of the options.  When the current pointer
names an existing snapshot A and the auto-save of A succeeds, then A's manifest has an
empty description and `CreatedAt` = `UpdatedAt` = the time of the auto-save, whatever
it held before: after a `Restore` of another snapshot that is not a dry run and has
passed its checks, whatever that `Restore` returns, provided the storage root lies
apart from the managed directory and the extra files; and after the default `create`
of another name, dry run or not, whatever it returns. -/
theorem autosave_resets_metadata :
    (∀ (env : Env) (opts : SaveOptions) (fs fs' : FS) (sr : SaveResult),
      opts.DryRun = false → Save env opts fs = (fs', .ok sr) →
      ∃ man : Manifest,
        ReadManifest fs' (opts.Config.ContextsDir ++ [Slugify opts.Name]) = some man ∧
        man.CreatedAt = man.UpdatedAt ∧ man.UpdatedAt = env.now ∧
        man.Description = opts.Description) ∧
    (∀ (env : Env) (cfg : Config) (a nameB : String) (force : Bool) (fs fsS : FS)
      (srA : SaveResult) (manB : Manifest),
      Separated cfg → GetCurrent env fs cfg = .name a → Slugify a = a →
      ContextExists fs cfg.ContextsDir a = true → a ≠ Slugify nameB →
      ReadManifest fs (cfg.ContextsDir ++ [Slugify nameB]) = some manB →
      ¬ (manB.Scope ≠ "" ∧ manB.Scope ≠ cfg.Scope.ScopeType) →
      Save env { Name := a, Description := "", Overwrite := true, DryRun := false,
                 Config := cfg } fs = (fsS, .ok srA) →
      ∃ manA : Manifest,
        ReadManifest
          (Restore env { Name := nameB, DryRun := false, Force := force, Config := cfg } fs).1
          (cfg.ContextsDir ++ [a]) = some manA ∧
        manA.Description = "" ∧ manA.CreatedAt = manA.UpdatedAt ∧ manA.UpdatedAt = env.now) ∧
    (∀ (env : Env) (cfg : Config) (a name description : String) (dryRun : Bool) (fs fsS : FS)
      (srA : SaveResult),
      GetCurrent env fs cfg = .name a → Slugify a = a →
      ContextExists fs cfg.ContextsDir a = true → a ≠ Slugify name →
      Save env { Name := a, Description := "", Overwrite := true, DryRun := false,
                 Config := cfg } fs = (fsS, .ok srA) →
      ∃ manA : Manifest,
        ReadManifest (doCreateFromCurrent env cfg name description dryRun fs).1
          (cfg.ContextsDir ++ [a]) = some manA ∧
        manA.Description = "" ∧ manA.CreatedAt = manA.UpdatedAt ∧ manA.UpdatedAt = env.now) ∧
    (∀ (env : Env) (cfg : Config) (name description : String) (dryRun : Bool) (fs : FS),
      Slugify name ≠ "" → ContextExists fs cfg.ContextsDir (Slugify name) = false →
      runCreate env cfg name description dryRun fs =
        doCreateFromCurrent env cfg name description dryRun fs) := by
  have hempty : ∀ (env : Env) (cfg : Config) (a : String) (fs fsS : FS) (srA : SaveResult),
      Save env { Name := a, Description := "", Overwrite := true, DryRun := false,
                 Config := cfg } fs = (fsS, .ok srA) → a ≠ "" := by
    intro env cfg a fs fsS srA hauto e
    have := (Save_ok_inv rfl hauto).1
    simp only [e] at this
    exact this Slugify_empty
  refine ⟨?_, ?_, ?_, ?_⟩
  · intro env opts fs fs' sr hdry h
    obtain ⟨fs4, files, total, hread, _, _, _⟩ := Save_manifest_read hdry h
    exact ⟨_, hread, rfl, rfl, rfl⟩
  · intro env cfg a nameB force fs fsS srA manB hsep hcur hslug hex hne hm hscope hauto
    have ha := hempty env cfg a fs fsS srA hauto
    obtain ⟨fs4, files, total, hread, _, _, _⟩ := Save_manifest_read rfl hauto
    simp only [hslug] at hread
    have hkeep := Restore_keeps_contexts env
      { Name := nameB, DryRun := false, Force := force, Config := cfg } fs
      (manifestPath (cfg.ContextsDir ++ [a])) hsep rfl hm hscope
      ((List.prefix_append _ _).trans (manifestPath_under _))
    simp only at hkeep
    rw [AutoSaveCurrent_other hcur ha hne hex, hauto] at hkeep
    exact ⟨_, ReadManifest_congr_fileAt hkeep hread, rfl, rfl, rfl⟩
  · intro env cfg a name description dryRun fs fsS srA hcur hslug hex hne hauto
    have ha := hempty env cfg a fs fsS srA hauto
    obtain ⟨fs4, files, total, hread, _, _, _⟩ := Save_manifest_read rfl hauto
    simp only [hslug] at hread
    have hkeep := doCreateFromCurrent_keeps env cfg name description dryRun fs hne
    rw [AutoSaveCurrent_other hcur ha hne hex, hauto] at hkeep
    exact ⟨_, ReadManifest_congr_fileAt hkeep hread, rfl, rfl, rfl⟩
  · intro env cfg name description dryRun fs hs hex
    simp [runCreate, hs, hex]

/-- C27, witness: `ctx-a`, saved at time 3 with the description `work`, is active; a
`Restore("ctx-b")` and a `create ctx-new` at time 7 both leave it with an empty
description and both times equal to 7. -/
theorem autosave_resets_metadata_witness :
    (ReadManifest describedFS (demoCfg.ContextsDir ++ ["ctx-a"])).map
        (fun m => (m.Description, m.CreatedAt, m.UpdatedAt)) = some ("work", 3, 3) ∧
    (∃ manA : Manifest,
      ReadManifest (Restore demoEnv (restoreOpts demoCfg "ctx-b") describedFS).1
        (demoCfg.ContextsDir ++ ["ctx-a"]) = some manA ∧
      manA.Description = "" ∧ manA.CreatedAt = manA.UpdatedAt ∧ manA.UpdatedAt = 7) ∧
    (∃ manA : Manifest,
      ReadManifest (doCreateFromCurrent demoEnv demoCfg "ctx-new" "" false describedFS).1
        (demoCfg.ContextsDir ++ ["ctx-a"]) = some manA ∧
      manA.Description = "" ∧ manA.CreatedAt = manA.UpdatedAt ∧ manA.UpdatedAt = 7) ∧
    runCreate demoEnv demoCfg "ctx-new" "" false describedFS =
      doCreateFromCurrent demoEnv demoCfg "ctx-new" "" false describedFS :=
  ⟨by decide,
    autosave_resets_metadata.2.1 demoEnv demoCfg "ctx-a" "ctx-b" false describedFS
      (Save demoEnv (saveOpts demoCfg "ctx-a" true) describedFS).1
      { Name := "ctx-a", Dir := ["p", ".claudectx", "contexts", "ctx-a"], Files := 3,
        TotalSize := 14 }
      ((ReadManifest describedFS (demoCfg.ContextsDir ++ ["ctx-b"])).getD
        { Name := "", Description := "", CreatedAt := 0, UpdatedAt := 0, Files := [],
          TotalSize := 0, Checksum := "", OAuthEmail := "", Scope := "" })
      (by decide) (by decide) (by decide) (by decide) (by decide) (by decide) (by decide)
      (by decide),
    autosave_resets_metadata.2.2.1 demoEnv demoCfg "ctx-a" "ctx-new" "" false describedFS
      (Save demoEnv (saveOpts demoCfg "ctx-a" true) describedFS).1
      { Name := "ctx-a", Dir := ["p", ".claudectx", "contexts", "ctx-a"], Files := 3,
        TotalSize := 14 }
      (by decide) (by decide) (by decide) (by decide) (by decide),
    autosave_resets_metadata.2.2.2 demoEnv demoCfg "ctx-new" "" false describedFS
      (by decide) (by decide)⟩

/-! ### Where the replay writes (C29) -/

theorem ProperNames_filter {fs : FS} (h : ProperNames fs) (p : Path × Node → Bool) :
    ProperNames (fs.filter p) :=
  fun e he => h e (List.mem_filter.mp he).1

theorem ProperNames_cons {fs : FS} (h : ProperNames fs) {q : Path} (n : Node)
    (hq : ∀ s ∈ q, properName s) : ProperNames ((q, n) :: fs) := by
  intro e he
  rcases List.mem_cons.mp he with rfl | he
  · exact hq
  · exact h e he

theorem ProperNames_put {fs : FS} (h : ProperNames fs) {q : Path} (n : Node)
    (hq : ∀ s ∈ q, properName s) : ProperNames (put fs q n) :=
  ProperNames_cons (ProperNames_filter h _) n hq

theorem ProperNames_mkdirFrom :
    ∀ (p pre : Path) (fs fs' : FS), ProperNames fs → (∀ s ∈ pre, properName s) →
      (∀ s ∈ p, properName s) → mkdirFrom fs pre p = some fs' → ProperNames fs' := by
  intro p
  induction p with
  | nil =>
    intro pre fs fs' h _ _ hm
    simp only [mkdirFrom, Option.some.injEq] at hm
    exact hm ▸ h
  | cons s rest ih =>
    intro pre fs fs' h hpre hp hm
    have hpre' : ∀ t ∈ pre ++ [s], properName t := by
      intro t ht
      rcases List.mem_append.mp ht with ht | ht
      · exact hpre t ht
      · rw [List.mem_singleton.mp ht]
        exact hp s (List.mem_cons_self _ _)
    have hrest : ∀ t ∈ rest, properName t := fun t ht => hp t (List.mem_cons_of_mem _ ht)
    unfold mkdirFrom at hm
    cases hs : stat fs (pre ++ [s]) with
    | none =>
      rw [hs] at hm
      exact ih _ _ _ (ProperNames_cons h .dir hpre') hpre' hrest hm
    | some n =>
      rw [hs] at hm
      cases n with
      | file c m => simp at hm
      | dir => exact ih _ _ _ h hpre' hrest hm

theorem ProperNames_mkdirAll {fs fs' : FS} {p : Path} (h : ProperNames fs)
    (hp : ∀ s ∈ p, properName s) (hm : mkdirAll fs p = some fs') : ProperNames fs' :=
  ProperNames_mkdirFrom p [] fs fs' h (by simp) hp hm

theorem ProperNames_CopyFile {fs : FS} (h : ProperNames fs) (src : Path) {dst : Path}
    (hd : ∀ s ∈ dst, properName s) : ProperNames (CopyFile fs src dst).1 := by
  have hdl : ∀ s ∈ dst.dropLast, properName s :=
    fun s hs => hd s (List.dropLast_subset _ hs)
  unfold CopyFile
  cases hs : stat fs src with
  | none => exact h
  | some n =>
    cases n with
    | dir =>
      simp only
      cases hm : mkdirAll fs dst.dropLast with
      | none => exact h
      | some fs1 => exact ProperNames_mkdirAll h hdl hm
    | file c m =>
      simp only
      cases hm : mkdirAll fs dst.dropLast with
      | none => exact h
      | some fs1 =>
        have h1 := ProperNames_mkdirAll h hdl hm
        simp only
        split
        · exact h1
        · exact ProperNames_put h1 _ hd

theorem ProperNames_saveExtraFiles (env : Env) {ctx : Path} (hctx : ∀ s ∈ ctx, properName s) :
    ∀ (efs : List ExtraFile) (fs : FS) (files : List FileEntry) (total : Nat),
      (∀ ef ∈ efs, properName (baseName ef.Path)) → ProperNames fs →
      ProperNames (saveExtraFiles env ctx efs fs files total).1 := by
  intro efs
  induction efs with
  | nil =>
    intro fs files total _ h
    rw [saveExtraFiles_nil]
    exact h
  | cons ef rest ih =>
    intro fs files total hp h
    have hrest : ∀ ef' ∈ rest, properName (baseName ef'.Path) :=
      fun ef' he => hp ef' (List.mem_cons_of_mem _ he)
    have hcopy : ProperNames (CopyFile fs ef.Path (ctx ++ [baseName ef.Path])).1 := by
      apply ProperNames_CopyFile h
      intro s hs
      rcases List.mem_append.mp hs with hs | hs
      · exact hctx s hs
      · rw [List.mem_singleton.mp hs]
        exact hp ef (List.mem_cons_self _ _)
    cases hs : stat fs ef.Path with
    | none =>
      rw [saveExtraFiles_cons_none hs]
      exact ih fs files total hrest h
    | some info =>
      rw [saveExtraFiles_cons_some hs]
      split
      · exact hcopy
      · exact ih _ _ _ hrest hcopy

/-- The entries of a manifest written by `Save` have clean relative paths, when the
paths of the file system, the storage root and the base names of the extra files are
made of proper names. -/
theorem Save_entries_proper {env : Env} {opts : SaveOptions} {fs fs' : FS} {sr : SaveResult}
    (hdry : opts.DryRun = false) (hfs : ProperNames fs)
    (hst : ∀ s ∈ opts.Config.StorageDir, properName s)
    (hext : ∀ ef ∈ opts.Config.Scope.ExtraFiles, properName (baseName ef.Path))
    (h : Save env opts fs = (fs', .ok sr)) :
    ∃ man : Manifest,
      ReadManifest fs' (opts.Config.ContextsDir ++ [Slugify opts.Name]) = some man ∧
      ∀ e ∈ man.Files, CleanRel e.RelPath := by
  obtain ⟨hslug, _, fs2, fs3, fs4, fs5, files1, files, total1, total, hmk, hx, hw, hwm, hsc,
    hsr⟩ := Save_ok_inv hdry h
  have hctx : ∀ s ∈ opts.Config.ContextsDir ++ [Slugify opts.Name], properName s := by
    intro s hs
    simp only [Config.ContextsDir, List.append_assoc, List.mem_append, List.mem_singleton,
      List.mem_cons, List.mem_nil_iff, or_false] at hs
    rcases hs with hs | hs | hs
    · exact hst s hs
    · rw [hs]; decide
    · rw [hs]; exact Slugify_properName _ hslug
  have h1 : ProperNames (if opts.Overwrite = true then
      RemoveAll fs (opts.Config.ContextsDir ++ [Slugify opts.Name]) else fs) := by
    split
    · exact ProperNames_filter hfs _
    · exact hfs
  have h2 : ProperNames fs2 := ProperNames_mkdirAll h1 hctx hmk
  have h3 : ProperNames fs3 := by
    have := ProperNames_saveExtraFiles env hctx opts.Config.Scope.ExtraFiles fs2 [] 0 hext h2
    rw [hx] at this
    exact this
  have hc1 := saveExtraFiles_clean env _ _ _ _ _ _ _ _ hext hx (by simp)
  have hwp : ∀ w ∈ (if (stat fs3 opts.Config.Scope.DotClaudeDir).isSome = true then
        WalkFiltered fs3 opts.Config.Scope.DotClaudeDir opts.Config.IncludePatterns
          opts.Config.ExcludePatterns
       else []), ∀ s ∈ w.Rel, properName s := by
    split
    · exact WalkFiltered_proper h3 _ _ _
    · simp
  have hc2 := saveWalked_clean env _ _ _ _ _ _ _ _ hwp hw hc1
  refine ⟨saveManifest env opts fs4 files total, ?_, hc2⟩
  have hfs5 : fs5 = (WriteManifest fs4 (opts.Config.ContextsDir ++ [Slugify opts.Name])
      (saveManifest env opts fs4 files total)).1 := by rw [hwm]
  have hwok : (WriteManifest fs4 (opts.Config.ContextsDir ++ [Slugify opts.Name])
      (saveManifest env opts fs4 files total)).2 = true := by rw [hwm]
  have hfs' : fs' = (SetCurrent fs5 opts.Config (Slugify opts.Name)).1 := by rw [hsc]
  have hm : fileAt fs' (manifestPath (opts.Config.ContextsDir ++ [Slugify opts.Name])) =
      some (.manifest (saveManifest env opts fs4 files total), 0o600) := by
    rw [hfs', SetCurrent_fileAt_ne _ _ _
      (current_ne_under_context _ _ (manifestPath_under _)), hfs5, WriteManifest_fileAt]
    simp [hwok]
  exact ReadManifest_of_fileAt hm

/-- For a clean relative path `filepath.Join` appends the segments. -/
theorem filepathJoin_clean (dir p : Path) (hp : CleanRel p) :
    filepathJoin dir (relPathString p) = dir ++ p := by
  unfold filepathJoin
  rw [(relPathString_segments p hp).1]
  exact joinClean_proper dir p hp.2

theorem restoreTarget_clean (scope : Scope) (e : FileEntry) (hp : CleanRel e.RelPath) :
    restoreTarget scope e = restoreDest scope e := by
  unfold restoreTarget restoreDest
  simp only [managedDest_clean _ _ hp]

/-- On entries with clean relative paths the replay that joins the segments is the
replay that joins the texts as `filepath.Join` does. -/
theorem restoreCopyJoin_clean (contextDir : Path) (scope : Scope) :
    ∀ (files : List FileEntry) (fs : FS) (n : Nat),
      (∀ e ∈ files, CleanRel e.RelPath) →
      restoreCopyJoin contextDir scope files fs n = restoreCopy contextDir scope files fs n := by
  intro files
  induction files with
  | nil => intro fs n _; simp [restoreCopyJoin, restoreCopy]
  | cons e rest ih =>
    intro fs n h
    have he := h e (List.mem_cons_self _ _)
    have hrest : ∀ e' ∈ rest, CleanRel e'.RelPath :=
      fun e' h' => h e' (List.mem_cons_of_mem _ h')
    unfold restoreCopyJoin restoreCopy
    rw [restoreTarget_clean scope e he, filepathJoin_clean contextDir _ he]
    cases hd : restoreDest scope e with
    | none => exact ih fs n hrest
    | some dst =>
      simp only
      split
      · rfl
      · exact ih _ _ hrest

/-- A relPath written by hand that climbs is not confined: the destination of
`dotclaude/../../x` under the managed directory `p/.claude` is `x` beside the project,
and its source is `x` in the contexts directory. -/
theorem restoreTarget_climbing :
    relPathString climbingEntry.RelPath = "dotclaude/../../x" ∧
    restoreTarget demoCfg.Scope climbingEntry = some ["x"] ∧
    filepathJoin (demoCfg.ContextsDir ++ ["ctx-b"]) (relPathString climbingEntry.RelPath) =
      ["p", ".claudectx", "contexts", "x"] ∧
    ¬ CleanRel climbingEntry.RelPath := by
  decide

/-- C29. Restore writes are confined.  (1) A manifest written by a successful `Save`,
in a file system whose paths, storage root and extra-file base names are made of names
a directory entry can have, has only clean relative paths: no segment of their text is
empty, `.` or `..`, so none is absolute or climbs.  (2) For an entry with a clean
relative path the source `filepath.Join(contextDir, relPath)` is the context directory
followed by the segments, and the destination the replay writes is the path of an
extra file of the current scope, or it is
`filepath.Join(DotClaudeDir, TrimPrefix(relPath, "dotclaude/"))`, which lies strictly
inside the managed directory.  (3) On a list of such entries the replay with the
paths joined as the code joins them is the replay of the model, and it leaves every
path alone that is neither an extra file of the scope nor at or below the managed
directory.  (4) Whatever `Restore` returns for a snapshot whose manifest has only
clean relative paths, a path that is neither below the storage directory, nor an extra
file of the scope, nor at or below the managed directory holds what it held before. -/
theorem Restore_confined :
    (∀ (env : Env) (opts : SaveOptions) (fs fs' : FS) (sr : SaveResult),
      opts.DryRun = false → ProperNames fs →
      (∀ s ∈ opts.Config.StorageDir, properName s) →
      (∀ ef ∈ opts.Config.Scope.ExtraFiles, properName (baseName ef.Path)) →
      Save env opts fs = (fs', .ok sr) →
      ∃ man : Manifest,
        ReadManifest fs' (opts.Config.ContextsDir ++ [Slugify opts.Name]) = some man ∧
        ∀ e ∈ man.Files, CleanRel e.RelPath) ∧
    (∀ (scope : Scope) (contextDir : Path) (e : FileEntry) (dst : Path),
      CleanRel e.RelPath → restoreTarget scope e = some dst →
      (∀ seg ∈ splitSlash (relPathString e.RelPath).data,
        seg ≠ [] ∧ seg ≠ ['.'] ∧ seg ≠ ['.', '.']) ∧
      filepathJoin contextDir (relPathString e.RelPath) = contextDir ++ e.RelPath ∧
      restoreDest scope e = some dst ∧
      ((∃ ef ∈ scope.ExtraFiles, ef.Path = dst) ∨
        (dst = managedDest scope.DotClaudeDir (relPathString e.RelPath) ∧
          scope.DotClaudeDir <+: dst ∧ dst ≠ scope.DotClaudeDir))) ∧
    (∀ (contextDir : Path) (scope : Scope) (files : List FileEntry) (fs : FS) (n : Nat),
      (∀ e ∈ files, CleanRel e.RelPath) →
      restoreCopyJoin contextDir scope files fs n = restoreCopy contextDir scope files fs n ∧
      ∀ q, (∀ ef ∈ scope.ExtraFiles, q ≠ ef.Path) → ¬ scope.DotClaudeDir <+: q →
        fileAt (restoreCopyJoin contextDir scope files fs n).1 q = fileAt fs q) ∧
    (∀ (env : Env) (opts : RestoreOptions) (fs : FS) (q : Path),
      (∀ man, ReadManifest fs (opts.Config.ContextsDir ++ [Slugify opts.Name]) = some man →
        ∀ e ∈ man.Files, CleanRel e.RelPath) →
      ¬ opts.Config.StorageDir <+: q →
      (∀ ef ∈ opts.Config.Scope.ExtraFiles, q ≠ ef.Path) →
      ¬ opts.Config.Scope.DotClaudeDir <+: q →
      fileAt (Restore env opts fs).1 q = fileAt fs q) := by
  refine ⟨?_, ?_, ?_, ?_⟩
  · intro env opts fs fs' sr hdry hfs hst hext h
    exact Save_entries_proper hdry hfs hst hext h
  · intro scope contextDir e dst hclean hdst
    rw [restoreTarget_clean scope e hclean] at hdst
    refine ⟨(relPathString_segments _ hclean).2, filepathJoin_clean _ _ hclean, hdst, ?_⟩
    rcases restoreDest_cases hdst with hx | hm
    · exact Or.inl hx
    · right
      rw [managedDest_clean _ _ hclean]
      refine ⟨hm, hm ▸ List.prefix_append _ _, ?_⟩
      intro e'
      have hne := (trimDotclaude_clean _ hclean).1
      rw [hm] at e'
      have := congrArg List.length e'
      simp only [List.length_append] at this
      have hpos : 0 < (trimDotclaude e.RelPath).length := List.length_pos.mpr hne
      omega
  · intro contextDir scope files fs n hclean
    refine ⟨restoreCopyJoin_clean contextDir scope files fs n hclean, ?_⟩
    intro q hx hd
    rw [restoreCopyJoin_clean contextDir scope files fs n hclean]
    apply restoreCopy_frame
    intro e _ he
    rcases restoreDest_cases he with ⟨ef, hef, h⟩ | h
    · exact hx ef hef h.symm
    · exact hd (h ▸ List.prefix_append _ _)
  · intro env opts fs q _ hS hx hd
    exact Restore_frame env opts fs q hS hx hd

/-- C29, witness: the manifest of `ctx-a` after the first save of the demo tree, the
paths of one of its entries, and the file `p/notes.txt` outside the managed files
across a `Restore("ctx-b")`. -/
theorem Restore_confined_witness :
    (∃ man : Manifest,
      ReadManifest (Save demoEnv (saveOpts demoCfg "ctx-a" false) demoFS).1
        (demoCfg.ContextsDir ++ [Slugify "ctx-a"]) = some man ∧
      ∀ e ∈ man.Files, CleanRel e.RelPath) ∧
    (restoreDest demoCfg.Scope
        { RelPath := ["dotclaude", "sub", "x"], Size := 1, Mode := 0o644, Checksum := "x",
          Source := "dotclaude" } = some ["p", ".claude", "sub", "x"] ∧
      managedDest ["p", ".claude"] "dotclaude/sub/x" = ["p", ".claude", "sub", "x"]) ∧
    fileAt (Restore demoEnv (restoreOpts demoCfg "ctx-b")
        (put switchEditedFS ["p", "notes.txt"] (.file (.raw "mine") 0o644))).1
      ["p", "notes.txt"] = some (.raw "mine", 0o644) :=
  ⟨Restore_confined.1 demoEnv (saveOpts demoCfg "ctx-a" false) demoFS
      (Save demoEnv (saveOpts demoCfg "ctx-a" false) demoFS).1
      { Name := "ctx-a", Dir := ["p", ".claudectx", "contexts", "ctx-a"], Files := 3,
        TotalSize := 14 }
      rfl (by decide) (by decide) (by decide) (by decide),
    ⟨((Restore_confined.2.1 demoCfg.Scope (demoCfg.ContextsDir ++ ["ctx-b"])
        { RelPath := ["dotclaude", "sub", "x"], Size := 1, Mode := 0o644, Checksum := "x",
          Source := "dotclaude" } ["p", ".claude", "sub", "x"] (by decide) (by decide)).2.2.1),
      by decide⟩,
    (Restore_confined.2.2.2 demoEnv (restoreOpts demoCfg "ctx-b")
      (put switchEditedFS ["p", "notes.txt"] (.file (.raw "mine") 0o644)) ["p", "notes.txt"]
      (by
        intro man hman
        have hm : man = ((ReadManifest
            (put switchEditedFS ["p", "notes.txt"] (.file (.raw "mine") 0o644))
            ((restoreOpts demoCfg "ctx-b").Config.ContextsDir ++
              [Slugify (restoreOpts demoCfg "ctx-b").Name])).getD
            { Name := "", Description := "", CreatedAt := 0, UpdatedAt := 0, Files := [],
              TotalSize := 0, Checksum := "", OAuthEmail := "", Scope := "" }) := by
          rw [hman]; rfl
        rw [hm]
        decide)
      (by decide) (by decide) (by decide)).trans (by decide)⟩

end Claudectx
